import Mathlib

/-!
# Scheduling policies and thread runtime of the user-level threads

Shallow embedding of `MP3/b12902036/user/threads_sched.c` (namespace
`ThreadsSched`) and of `MP1/b12902036/threads.c` (namespace `Threads`, with
its own conventions at its head).  For the scheduling policies:

* An intrusive circular list is a Lean `List` in queue order, starting at the
  entry after the list head.  A pointer to a list member is the position of
  the entry in that order; the pointer to the list head itself (the idle
  decision) is `none`.
* A C `int` is an `Int`; every `int` addition or subtraction of the source is
  wrapped by `wrap_int` (two's complement, 32 bits).  An `unsigned long` is a
  `Nat` reduced modulo `2 ^ 64`.  Signed overflow is undefined in C: theorems
  that depend on the exact value of an `int` operation say so in a hypothesis.
* `schedule_edf_cbs` writes to the threads of the run queue, so it returns the
  run queue it leaves together with the decision.

The file has two parts: the definitions (the embedding, then the predicates
and the concrete inputs used in statements), and the theorems.
-/

namespace ThreadsSched

/-! ## Machine integers -/

/-- Largest value of a C `int`. -/
def INT_MAX : Int := 2147483647

/-- Smallest value of a C `int`. -/
def INT_MIN : Int := -2147483648

/-- Number of values of an `unsigned long`. -/
def ULONG_MOD : Nat := 18446744073709551616

/-- The value is representable as a C `int`. -/
def is_int (x : Int) : Prop := INT_MIN ≤ x ∧ x ≤ INT_MAX

instance (x : Int) : Decidable (is_int x) := by
  unfold is_int; infer_instance

/-- Result of an `int` operation whose exact value is `x` (wrap-around). -/
def wrap_int (x : Int) : Int := (x + 2147483648) % 4294967296 - 2147483648

/-- Conversion of an `int` to `unsigned long`. -/
def to_ulong (x : Int) : Nat := (x % 18446744073709551616).toNat

/-! ## Data model -/

/-- Modelled from the spec: the declaration of the `cbs` member of `struct thread`
(`user/threads.h`) is not among the sources; these are the fields the
scheduler reads and writes.  They are taken as C `int`, the type of the
locals they are combined with (line 350 casts them to `long`). -/
structure cbs_t where
  budget : Int
  remaining_budget : Int
  is_hard_rt : Int
  is_throttled : Int
  deriving DecidableEq

/-- Modelled from the spec: the declaration of `struct thread` (`user/threads.h`)
is not among the sources; these are the scheduling parameters that
`threads_sched.c` accesses.  They are taken as C `int`, the type of the
locals the source copies them to (`int min_prio`, `int allocated`,
`int dist`, `int current_time`).  The intrusive `thread_list` link is the
position of the thread in its queue. -/
structure thread where
  ID : Int
  remaining_time : Int
  processing_time : Int
  arrival_time : Int
  priority : Int
  period : Int
  deadline : Int
  current_deadline : Int
  cbs : cbs_t
  deriving DecidableEq

/-- Modelled from the spec: `struct release_queue_entry` (`user/threads.h`), a
reference to a thread and its next release time. -/
structure release_queue_entry where
  thrd : thread
  release_time : Int
  deriving DecidableEq

/-- Modelled from the spec: `struct threads_sched_args` (`user/threads_sched.h`). -/
structure threads_sched_args where
  current_time : Int
  time_quantum : Int
  run_queue : List thread
  release_queue : List release_queue_entry
  deriving DecidableEq

/-- Modelled from the spec: `struct threads_sched_result` (`user/threads_sched.h`).
`scheduled_thread_list_member` is `some i` for the link of the `i`-th thread
of the run queue and `none` for the run-queue head (idle). -/
structure threads_sched_result where
  scheduled_thread_list_member : Option Nat
  allocated_time : Int
  deriving DecidableEq

/-- The thread a decision names, looked up in the run queue. -/
def scheduled_thread (rq : List thread) (r : threads_sched_result) : Option thread :=
  match r.scheduled_thread_list_member with
  | none => none
  | some i => rq.get? i

/-! ## Loops shared by the policies -/

/-- One `list_for_each_entry` pass that keeps a candidate pointer: entries
failing `keep` are skipped; an entry replaces the candidate when there is no
candidate yet or when `better th cand` holds.  `i` is the position of the
head of the remaining list. -/
def scan_best (keep : thread → Bool) (better : thread → thread → Bool) :
    List thread → Nat → Option (Nat × thread) → Option (Nat × thread)
  | [], _, cand => cand
  | th :: rest, i, none =>
    if keep th then scan_best keep better rest (i + 1) (some (i, th))
    else scan_best keep better rest (i + 1) none
  | th :: rest, i, some (j, b) =>
    if keep th && better th b then scan_best keep better rest (i + 1) (some (i, th))
    else scan_best keep better rest (i + 1) (some (j, b))

/-- The release-queue pass of lines 69-74, 186-192, 306-310, 370-371:
`if (rq->release_time > current_time && rq->release_time < next_rel)
next_rel = rq->release_time`. -/
def next_release_loop (current_time : Int) : List release_queue_entry → Int → Int
  | [], next_rel => next_rel
  | rq :: rest, next_rel =>
    if rq.release_time > current_time ∧ rq.release_time < next_rel then
      next_release_loop current_time rest rq.release_time
    else next_release_loop current_time rest next_rel

/-! ## schedule_default -/

/-- Lines 10-33. -/
def schedule_default (args : threads_sched_args) : threads_sched_result :=
  match scan_best (fun _ => true) (fun th b => decide (th.ID < b.ID)) args.run_queue 0 none with
  | some (i, thread_with_smallest_id) =>
    { scheduled_thread_list_member := some i
      allocated_time := thread_with_smallest_id.remaining_time }
  | none =>
    { scheduled_thread_list_member := none
      allocated_time := 1 }

/-! ## schedule_hrrn -/

/-- Loop state of `schedule_hrrn`: `best`, `best_num`, `best_den`. -/
structure hrrn_state where
  best : Option (Nat × thread)
  best_num : Nat
  best_den : Nat
  deriving DecidableEq

/-- The `wait` of line 47: `int` subtraction converted to `unsigned long`. -/
def hrrn_wait (current_time : Int) (th : thread) : Nat :=
  to_ulong (wrap_int (current_time - th.arrival_time))

/-- The `num` of line 48. -/
def hrrn_num (current_time : Int) (th : thread) : Nat :=
  (hrrn_wait current_time th + to_ulong th.processing_time) % ULONG_MOD

/-- The `den` of line 49. -/
def hrrn_den (th : thread) : Nat := to_ulong th.processing_time

/-- Lines 45-57. -/
def hrrn_loop (current_time : Int) : List thread → Nat → hrrn_state → hrrn_state
  | [], _, s => s
  | th :: rest, i, s =>
    let num := hrrn_num current_time th
    let den := hrrn_den th
    let take : Bool :=
      match s.best with
      | none => true
      | some (_, best) =>
        decide ((num * s.best_den) % ULONG_MOD > (s.best_num * den) % ULONG_MOD) ||
        (decide ((num * s.best_den) % ULONG_MOD = (s.best_num * den) % ULONG_MOD) &&
          decide (th.ID < best.ID))
    if take then hrrn_loop current_time rest (i + 1) ⟨some (i, th), num, den⟩
    else hrrn_loop current_time rest (i + 1) s

/-- Lines 37-84. -/
def schedule_hrrn (args : threads_sched_args) : threads_sched_result :=
  match (hrrn_loop args.current_time args.run_queue 0 ⟨none, 0, 1⟩).best with
  | some (i, best) =>
    { scheduled_thread_list_member := some i
      allocated_time := best.remaining_time }
  | none =>
    let next_rel := next_release_loop args.current_time args.release_queue INT_MAX
    { scheduled_thread_list_member := none
      allocated_time := if next_rel ≠ INT_MAX then wrap_int (next_rel - args.current_time) else 1 }

/-! ## schedule_priority_rr -/

/-- Lines 95-101. -/
def min_prio_loop : List thread → Int → Int
  | [], min_prio => min_prio
  | th :: rest, min_prio =>
    if th.priority < min_prio then min_prio_loop rest th.priority
    else min_prio_loop rest min_prio

/-- Lines 104-108.  The counter is not wrapped: it is bounded by the number of
threads in the queue. -/
def grp_size_loop (min_prio : Int) : List thread → Int → Int
  | [], grp_size => grp_size
  | th :: rest, grp_size =>
    if th.priority = min_prio then grp_size_loop min_prio rest (grp_size + 1)
    else grp_size_loop min_prio rest grp_size

/-- Lines 110-132: the first thread with the minimum priority is returned from
inside the loop; the statements after the loop are the idle decision. -/
def priority_rr_pick (min_prio grp_size time_quantum : Int) :
    List thread → Nat → threads_sched_result
  | [], _ => { scheduled_thread_list_member := none, allocated_time := 1 }
  | th :: rest, i =>
    if th.priority = min_prio then
      { scheduled_thread_list_member := some i
        allocated_time :=
          if grp_size > 1 then
            (if th.remaining_time < time_quantum then th.remaining_time else time_quantum)
          else th.remaining_time }
    else priority_rr_pick min_prio grp_size time_quantum rest (i + 1)

/-- Lines 89-133. -/
def schedule_priority_rr (args : threads_sched_args) : threads_sched_result :=
  let min_prio := min_prio_loop args.run_queue INT_MAX
  let grp_size := grp_size_loop min_prio args.run_queue 0
  priority_rr_pick min_prio grp_size args.time_quantum args.run_queue 0

/-! ## Deadline miss and schedule_dm -/

/-- Lines 137-152. -/
def __check_deadline_miss (run_queue : List thread) (current_time : Int) :
    Option (Nat × thread) :=
  scan_best (fun th => decide (th.current_deadline ≤ current_time))
    (fun th b => decide (th.ID < b.ID)) run_queue 0 none

/-- Lines 157-169. -/
def __dm_thread_cmp (a b : thread) : Int :=
  if a.period < b.period then -1
  else if a.period > b.period then 1
  else if a.ID < b.ID then -1
  else if a.ID > b.ID then 1
  else 0

/-- Lines 212-219: the remaining time of `best`, capped by the time until
`next_rel` when a release was found. -/
def dm_allocated (next_rel current_time : Int) (best : thread) : Int :=
  let allocated := best.remaining_time
  if next_rel ≠ INT_MAX then
    let until_rel := wrap_int (next_rel - current_time)
    if allocated > until_rel then until_rel else allocated
  else allocated

/-- Lines 171-231. -/
def schedule_dm (args : threads_sched_args) : threads_sched_result :=
  match __check_deadline_miss args.run_queue args.current_time with
  | some (i, _) => { scheduled_thread_list_member := some i, allocated_time := 0 }
  | none =>
    let next_rel := next_release_loop args.current_time args.release_queue INT_MAX
    if args.run_queue.isEmpty then
      { scheduled_thread_list_member := none
        allocated_time := if next_rel ≠ INT_MAX then wrap_int (next_rel - args.current_time) else 1 }
    else
      match scan_best (fun _ => true) (fun th b => decide (__dm_thread_cmp th b < 0))
          args.run_queue 0 none with
      | none =>
        -- not reached: the queue is not empty, so the pass sets `best`
        { scheduled_thread_list_member := none, allocated_time := 1 }
      | some (i, best) =>
        let allocated := dm_allocated next_rel args.current_time best
        if wrap_int (args.current_time + allocated) > best.current_deadline then
          { scheduled_thread_list_member := some i, allocated_time := 1 }
        else
          { scheduled_thread_list_member := some i, allocated_time := allocated }

/-! ## schedule_edf_cbs -/

/-- Lines 236-247. -/
def __edf_thread_cmp (a b : thread) : Int :=
  if a.current_deadline < b.current_deadline then -1
  else if a.current_deadline > b.current_deadline then 1
  else if a.ID < b.ID then -1
  else if a.ID > b.ID then 1
  else 0

/-- Lines 249-252. -/
def is_cbs_soft (t : thread) : Bool := t.cbs.is_hard_rt == 0

/-- The `MIN` of line 254. -/
def MIN (a b : Int) : Int := if a < b then a else b

/-- Body of the pass of lines 261-270. -/
def edf_throttle_step (th : thread) : thread :=
  if th.cbs.remaining_budget ≤ 0 ∧ th.remaining_time > 0 then
    { th with cbs := { th.cbs with is_throttled := 1 } }
  else th

/-- Body of the pass of lines 272-280. -/
def edf_replenish_step (current_time : Int) (th : thread) : thread :=
  if th.cbs.is_throttled ≠ 0 ∧ current_time = th.current_deadline then
    { th with
      cbs := { th.cbs with is_throttled := 0, remaining_budget := th.cbs.budget }
      current_deadline := wrap_int (th.current_deadline + th.period) }
  else th

/-- Lines 295-297: the in-place reset of a soft thread that missed its deadline. -/
def edf_soft_reset (current_time : Int) (miss : thread) : thread :=
  { miss with
    cbs := { miss.cbs with is_throttled := 0, remaining_budget := miss.cbs.budget }
    current_deadline := wrap_int (current_time + miss.period) }

/-- The run-queue pass of lines 312-317 and 373-378. -/
def edf_next_event_loop (current_time : Int) : List thread → Int → Int
  | [], next_event => next_event
  | th :: rest, next_event =>
    if th.cbs.is_throttled ≠ 0 ∧ th.current_deadline > current_time ∧
        th.current_deadline < next_event then
      edf_next_event_loop current_time rest th.current_deadline
    else edf_next_event_loop current_time rest next_event

/-- The idle decision, written twice in the source: lines 303-324 and 367-385. -/
def edf_idle (args : threads_sched_args) (run_queue : List thread) : threads_sched_result :=
  let next_event := next_release_loop args.current_time args.release_queue INT_MAX
  let next_event := edf_next_event_loop args.current_time run_queue next_event
  let sleep := if next_event = INT_MAX then 1 else wrap_int (next_event - args.current_time)
  let sleep := if sleep ≤ 0 then 1 else sleep
  { scheduled_thread_list_member := none, allocated_time := sleep }

/-- Lines 355-356: postponement of the selected soft thread. -/
def edf_postpone (current_time : Int) (best : thread) : thread :=
  { best with
    current_deadline := wrap_int (current_time + best.period)
    cbs := { best.cbs with remaining_budget := best.cbs.budget } }

/-- The `while (1)` of lines 329-363; each unit of fuel is one pass.  The
products of line 350-351 are taken in `long`, which holds the product of any
two `int` values, so they are not wrapped.  `none` is fuel exhaustion. -/
def edf_select (current_time : Int) :
    Nat → List thread → Option (List thread × Option (Nat × thread))
  | 0, _ => none
  | fuel + 1, rq =>
    match scan_best (fun th => th.cbs.is_throttled == 0)
        (fun th b => decide (__edf_thread_cmp th b < 0)) rq 0 none with
    | none => some (rq, none)
    | some (i, best) =>
      if is_cbs_soft best then
        let dist := wrap_int (best.current_deadline - current_time)
        if dist > 0 then
          let lhs := best.cbs.remaining_budget * best.period
          let rhs := best.cbs.budget * dist
          if lhs > rhs then
            edf_select current_time fuel (rq.set i (edf_postpone current_time best))
          else some (rq, some (i, best))
        else some (rq, some (i, best))
      else some (rq, some (i, best))

/-- The release-queue pass of lines 399-413, on `(next_rel, next_rel_dl)`. -/
def edf_release_loop (current_time : Int) : List release_queue_entry → Int → Int → Int × Int
  | [], next_rel, next_rel_dl => (next_rel, next_rel_dl)
  | rq :: rest, next_rel, next_rel_dl =>
    if rq.release_time > current_time ∧ rq.release_time < next_rel then
      edf_release_loop current_time rest rq.release_time
        (wrap_int (rq.release_time + rq.thrd.deadline))
    else if rq.release_time = next_rel then
      let cand_dl := wrap_int (rq.release_time + rq.thrd.deadline)
      if cand_dl < next_rel_dl then edf_release_loop current_time rest next_rel cand_dl
      else edf_release_loop current_time rest next_rel next_rel_dl
    else edf_release_loop current_time rest next_rel next_rel_dl

/-- The run-queue pass of lines 428-432. -/
def edf_next_pre_loop (current_time : Int) (best : thread) : List thread → Int → Int
  | [], next_pre => next_pre
  | th :: rest, next_pre =>
    if is_cbs_soft th = true ∧ th.cbs.is_throttled ≠ 0 ∧
        th.current_deadline < best.current_deadline ∧
        th.current_deadline > current_time ∧ th.current_deadline < next_pre then
      edf_next_pre_loop current_time best rest th.current_deadline
    else edf_next_pre_loop current_time best rest next_pre

/-- Lines 388-437: the allocation for the selected thread.  At line 420 the
cursor `rq` is past the last entry of the release queue, so `rq->thrd->ID` is
read through the list head; `head_thrd_ID` stands for the value found there. -/
def edf_alloc (head_thrd_ID : Int) (args : threads_sched_args) (run_queue : List thread)
    (best : thread) : Int :=
  let alloc := best.remaining_time
  let gap_dl := wrap_int (best.current_deadline - args.current_time)
  let alloc := MIN alloc gap_dl
  let alloc :=
    if is_cbs_soft best then
      MIN alloc (if best.cbs.remaining_budget > 0 then best.cbs.remaining_budget else 1)
    else alloc
  let rel := edf_release_loop args.current_time args.release_queue INT_MAX INT_MAX
  let next_rel := rel.1
  let next_rel_dl := rel.2
  let alloc :=
    if next_rel ≠ INT_MAX ∧ next_rel > args.current_time then
      let incoming_is_better : Bool :=
        if next_rel_dl < best.current_deadline then true
        else if next_rel_dl = best.current_deadline ∧ head_thrd_ID < best.ID then true
        else false
      if incoming_is_better then MIN alloc (wrap_int (next_rel - args.current_time))
      else alloc
    else alloc
  let next_pre := edf_next_pre_loop args.current_time best run_queue INT_MAX
  let alloc :=
    if next_pre ≠ INT_MAX then MIN alloc (wrap_int (next_pre - args.current_time))
    else alloc
  if alloc ≤ 0 then 1 else alloc

/-- Lines 301-441, after the deadline-miss step, on the run queue `rq` it left. -/
def edf_schedule_rest (fuel : Nat) (head_thrd_ID : Int) (args : threads_sched_args)
    (rq : List thread) : Option (List thread × threads_sched_result) :=
  if rq.isEmpty then some (rq, edf_idle args rq)
  else
    match edf_select args.current_time fuel rq with
    | none => none
    | some (rq1, none) => some (rq1, edf_idle args rq1)
    | some (rq1, some (i, best)) =>
      some (rq1, { scheduled_thread_list_member := some i
                   allocated_time := edf_alloc head_thrd_ID args rq1 best })

/-- Lines 256-442 with `fuel` passes allowed to the selection loop.  The result
is the run queue as the call leaves it and the decision. -/
def schedule_edf_cbs_fuel (fuel : Nat) (head_thrd_ID : Int) (args : threads_sched_args) :
    Option (List thread × threads_sched_result) :=
  let rq := args.run_queue.map edf_throttle_step
  let rq := rq.map (edf_replenish_step args.current_time)
  match __check_deadline_miss rq args.current_time with
  | some (i, miss) =>
    if !is_cbs_soft miss then
      some (rq, { scheduled_thread_list_member := some i, allocated_time := 0 })
    else
      edf_schedule_rest fuel head_thrd_ID args (rq.set i (edf_soft_reset args.current_time miss))
  | none => edf_schedule_rest fuel head_thrd_ID args rq

/-- Lines 256-442: the selection loop gets one pass per thread and one more. -/
def schedule_edf_cbs (head_thrd_ID : Int) (args : threads_sched_args) :
    Option (List thread × threads_sched_result) :=
  schedule_edf_cbs_fuel (args.run_queue.length + 1) head_thrd_ID args

/-! ## Predicates and concrete inputs used in the statements -/

/-- Run queue with the identities 3, 1, 2 in this order. -/
def ex_default_queue : List thread :=
  [ { ID := 3, remaining_time := 7, processing_time := 7, arrival_time := 0, priority := 0,
      period := 0, deadline := 0, current_deadline := 0, cbs := ⟨0, 0, 0, 0⟩ },
    { ID := 1, remaining_time := 5, processing_time := 5, arrival_time := 0, priority := 0,
      period := 0, deadline := 0, current_deadline := 0, cbs := ⟨0, 0, 0, 0⟩ },
    { ID := 2, remaining_time := 9, processing_time := 9, arrival_time := 0, priority := 0,
      period := 0, deadline := 0, current_deadline := 0, cbs := ⟨0, 0, 0, 0⟩ } ]

/-- Arguments of a call on `ex_default_queue`. -/
def ex_default_args : threads_sched_args :=
  { current_time := 0, time_quantum := 2, run_queue := ex_default_queue, release_queue := [] }

/-! ### HRRN -/

/-- The replacement test of line 51 against a candidate `b` whose `best_num`
and `best_den` are the ones computed from `b`. -/
def hrrn_better (current_time : Int) (th b : thread) : Bool :=
  decide ((hrrn_num current_time th * hrrn_den b) % ULONG_MOD >
      (hrrn_num current_time b * hrrn_den th) % ULONG_MOD) ||
  (decide ((hrrn_num current_time th * hrrn_den b) % ULONG_MOD =
      (hrrn_num current_time b * hrrn_den th) % ULONG_MOD) &&
    decide (th.ID < b.ID))

/-- The exact response ratio `(waiting time + processing time) / processing time`. -/
def response_ratio (current_time : Int) (x : thread) : ℚ :=
  ((current_time - x.arrival_time + x.processing_time : Int) : ℚ) / ((x.processing_time : Int) : ℚ)

/-- Conditions on a thread for the HRRN arithmetic: a positive `int` processing
time, arrival not after the current time, and a waiting time that fits an
`int` (no overflow in the subtraction of line 47). -/
def hrrn_ok (current_time : Int) (x : thread) : Prop :=
  0 < x.processing_time ∧ x.processing_time ≤ INT_MAX ∧
  x.arrival_time ≤ current_time ∧ current_time - x.arrival_time ≤ INT_MAX

instance (current_time : Int) (x : thread) : Decidable (hrrn_ok current_time x) := by
  unfold hrrn_ok; infer_instance

/-- Thread B (ID 2, arrival 2, processing time 2) queued before thread A
(ID 1, arrival 0, processing time 4), at time 4. -/
def ex_hrrn_args : threads_sched_args :=
  { current_time := 4, time_quantum := 2, release_queue := []
    run_queue :=
      [ { ID := 2, remaining_time := 2, processing_time := 2, arrival_time := 2, priority := 0,
          period := 0, deadline := 0, current_deadline := 0, cbs := ⟨0, 0, 0, 0⟩ },
        { ID := 1, remaining_time := 4, processing_time := 4, arrival_time := 0, priority := 0,
          period := 0, deadline := 0, current_deadline := 0, cbs := ⟨0, 0, 0, 0⟩ } ] }

/-! ### Priority round-robin -/

/-- The threads of the queue that have the minimum priority value of the queue,
in queue order. -/
def tied_group (rq : List thread) : List thread :=
  rq.filter (fun u => decide (∀ v ∈ rq, u.priority ≤ v.priority))

/-- Two threads of priority 1 with remaining times 5 and 3, in ID order, and a
thread of priority 4 in front of them; quantum 2. -/
def ex_prio_args : threads_sched_args :=
  { current_time := 0, time_quantum := 2, release_queue := []
    run_queue :=
      [ { ID := 3, remaining_time := 6, processing_time := 6, arrival_time := 0, priority := 4,
          period := 0, deadline := 0, current_deadline := 0, cbs := ⟨0, 0, 0, 0⟩ },
        { ID := 1, remaining_time := 5, processing_time := 5, arrival_time := 0, priority := 1,
          period := 0, deadline := 0, current_deadline := 0, cbs := ⟨0, 0, 0, 0⟩ },
        { ID := 2, remaining_time := 3, processing_time := 3, arrival_time := 0, priority := 1,
          period := 0, deadline := 0, current_deadline := 0, cbs := ⟨0, 0, 0, 0⟩ } ] }

/-- A single thread of the minimum priority 1 with remaining time 9, behind a
thread of priority 4; quantum 2. -/
def ex_prio_single_args : threads_sched_args :=
  { current_time := 0, time_quantum := 2, release_queue := []
    run_queue :=
      [ { ID := 1, remaining_time := 6, processing_time := 6, arrival_time := 0, priority := 4,
          period := 0, deadline := 0, current_deadline := 0, cbs := ⟨0, 0, 0, 0⟩ },
        { ID := 2, remaining_time := 9, processing_time := 9, arrival_time := 0, priority := 1,
          period := 0, deadline := 0, current_deadline := 0, cbs := ⟨0, 0, 0, 0⟩ } ] }

/-- Two threads of priority 1 with remaining times 5 and 3, the one with the
larger ID queued first (the queue after one round-robin rotation); quantum 2. -/
def ex_prio_rotated_args : threads_sched_args :=
  { current_time := 0, time_quantum := 2, release_queue := []
    run_queue :=
      [ { ID := 2, remaining_time := 3, processing_time := 3, arrival_time := 0, priority := 1,
          period := 0, deadline := 0, current_deadline := 0, cbs := ⟨0, 0, 0, 0⟩ },
        { ID := 1, remaining_time := 5, processing_time := 5, arrival_time := 0, priority := 1,
          period := 0, deadline := 0, current_deadline := 0, cbs := ⟨0, 0, 0, 0⟩ } ] }

/-! ### Deadline-monotonic -/

/-- Two run-queue threads agree on the fields the deadline-miss check reads. -/
def same_id_deadline (a b : thread) : Prop :=
  a.ID = b.ID ∧ a.current_deadline = b.current_deadline

instance (a b : thread) : Decidable (same_id_deadline a b) := by
  unfold same_id_deadline; infer_instance

/-- A thread with period 10, deadline 10 and 2 units of work left at time 10,
queued behind a thread whose deadline 30 is still ahead. -/
def ex_dm_fault_args : threads_sched_args :=
  { current_time := 10, time_quantum := 2, release_queue := []
    run_queue :=
      [ { ID := 2, remaining_time := 4, processing_time := 4, arrival_time := 0, priority := 0,
          period := 30, deadline := 30, current_deadline := 30, cbs := ⟨0, 0, 0, 0⟩ },
        { ID := 1, remaining_time := 2, processing_time := 12, arrival_time := 0, priority := 0,
          period := 10, deadline := 10, current_deadline := 10, cbs := ⟨0, 0, 0, 0⟩ } ] }

/-- Periods 20, 10, 10 with IDs 1, 3, 2, all deadlines ahead of time 0. -/
def ex_dm_args : threads_sched_args :=
  { current_time := 0, time_quantum := 2, release_queue := []
    run_queue :=
      [ { ID := 1, remaining_time := 4, processing_time := 4, arrival_time := 0, priority := 0,
          period := 20, deadline := 20, current_deadline := 20, cbs := ⟨0, 0, 0, 0⟩ },
        { ID := 3, remaining_time := 3, processing_time := 3, arrival_time := 0, priority := 0,
          period := 10, deadline := 10, current_deadline := 10, cbs := ⟨0, 0, 0, 0⟩ },
        { ID := 2, remaining_time := 3, processing_time := 3, arrival_time := 0, priority := 0,
          period := 10, deadline := 10, current_deadline := 10, cbs := ⟨0, 0, 0, 0⟩ } ] }

/-- Holds when `R` is the smallest release time after `current_time` among the
entries of the release queue. -/
def is_next_release (rel : List release_queue_entry) (current_time R : Int) : Prop :=
  (∃ e ∈ rel, e.release_time = R) ∧ current_time < R ∧
  ∀ e ∈ rel, current_time < e.release_time → R ≤ e.release_time

instance (rel : List release_queue_entry) (current_time R : Int) :
    Decidable (is_next_release rel current_time R) := by
  unfold is_next_release; infer_instance

/-- The two `int` operations `schedule_dm` performs for the selected thread
give their exact value: `next_rel - args.current_time` (line 216, evaluated
when a release was found) and `args.current_time + allocated` (line 221). -/
def dm_no_overflow (args : threads_sched_args) (best : thread) : Prop :=
  (next_release_loop args.current_time args.release_queue INT_MAX ≠ INT_MAX →
    is_int (next_release_loop args.current_time args.release_queue INT_MAX - args.current_time)) ∧
  is_int (args.current_time +
    dm_allocated (next_release_loop args.current_time args.release_queue INT_MAX)
      args.current_time best)

instance (args : threads_sched_args) (best : thread) : Decidable (dm_no_overflow args best) := by
  unfold dm_no_overflow; infer_instance

/-- A thread with period 10, deadline 10 and remaining time 12. -/
def ex_dm_thread : thread :=
  { ID := 1, remaining_time := 12, processing_time := 12, arrival_time := 0, priority := 0,
    period := 10, deadline := 10, current_deadline := 10, cbs := ⟨0, 0, 0, 0⟩ }

/-- The thread `ex_dm_thread` at time 0, with an empty release queue. -/
def ex_dm_degraded_args : threads_sched_args :=
  { current_time := 0, time_quantum := 2, release_queue := [], run_queue := [ex_dm_thread] }

/-- The thread `ex_dm_thread` at time 0, with releases pending at times 25 and 11. -/
def ex_dm_release_args : threads_sched_args :=
  { current_time := 0, time_quantum := 2
    release_queue :=
      [ { release_time := 25
          thrd := { ID := 3, remaining_time := 1, processing_time := 1, arrival_time := 25,
                    priority := 0, period := 40, deadline := 40, current_deadline := 65,
                    cbs := ⟨0, 0, 0, 0⟩ } },
        { release_time := 11
          thrd := { ID := 2, remaining_time := 1, processing_time := 1, arrival_time := 11,
                    priority := 0, period := 30, deadline := 30, current_deadline := 41,
                    cbs := ⟨0, 0, 0, 0⟩ } } ]
    run_queue := [ex_dm_thread] }

/-- The thread `ex_dm_thread` at time 0, with releases pending at times 25 and 7. -/
def ex_dm_capped_args : threads_sched_args :=
  { current_time := 0, time_quantum := 2
    release_queue :=
      [ { release_time := 25
          thrd := { ID := 3, remaining_time := 1, processing_time := 1, arrival_time := 25,
                    priority := 0, period := 40, deadline := 40, current_deadline := 65,
                    cbs := ⟨0, 0, 0, 0⟩ } },
        { release_time := 7
          thrd := { ID := 2, remaining_time := 1, processing_time := 1, arrival_time := 7,
                    priority := 0, period := 30, deadline := 30, current_deadline := 37,
                    cbs := ⟨0, 0, 0, 0⟩ } } ]
    run_queue := [ex_dm_thread] }

/-! ### Idle decisions -/

/-- A thread waiting in the release queue. -/
def ex_released_thread : thread :=
  { ID := 1, remaining_time := 3, processing_time := 3, arrival_time := 15, priority := 0,
    period := 20, deadline := 20, current_deadline := 35, cbs := ⟨0, 0, 0, 0⟩ }

/-- Empty run queue, one release-queue entry released at 15, current time 5. -/
def ex_idle_args : threads_sched_args :=
  { current_time := 5, time_quantum := 2, run_queue := []
    release_queue := [ { thrd := ex_released_thread, release_time := 15 } ] }

/-- Empty run queue, one release-queue entry released at `INT_MAX`, current
time 5. -/
def ex_idle_int_max_args : threads_sched_args :=
  { current_time := 5, time_quantum := 2, run_queue := []
    release_queue := [ { thrd := ex_released_thread, release_time := 2147483647 } ] }

/-! ### EDF-CBS -/

/-- The run queue after the two passes of lines 261-280 (throttle, then
replenish). -/
def edf_prepared (args : threads_sched_args) : List thread :=
  (args.run_queue.map edf_throttle_step).map (edf_replenish_step args.current_time)

/-- The run queue after the deadline-miss step of lines 282-299: a soft thread
found by the check is reset in place; otherwise nothing is written. -/
def edf_post_miss (args : threads_sched_args) : List thread :=
  match __check_deadline_miss (edf_prepared args) args.current_time with
  | some (i, miss) =>
    if is_cbs_soft miss then
      (edf_prepared args).set i (edf_soft_reset args.current_time miss)
    else edf_prepared args
  | none => edf_prepared args

/-- The selection pass of lines 331-340 over a run queue. -/
def edf_scan (rq : List thread) : Option (Nat × thread) :=
  scan_best (fun th => th.cbs.is_throttled == 0)
    (fun th b => decide (__edf_thread_cmp th b < 0)) rq 0 none

/-- The test of lines 345-352 that sends the selected thread to postponement. -/
def edf_postponable (current_time : Int) (b : thread) : Prop :=
  is_cbs_soft b = true ∧ wrap_int (b.current_deadline - current_time) > 0 ∧
  b.cbs.remaining_budget * b.period >
    b.cbs.budget * wrap_int (b.current_deadline - current_time)

instance (current_time : Int) (b : thread) : Decidable (edf_postponable current_time b) := by
  unfold edf_postponable; infer_instance

/-- Holds when the thread `m` at position `i` of `rq` has
`current_deadline <= current_time`, no thread with a deadline reached has a
smaller ID, and those queued before it have a larger one: the smallest-ID
thread that missed its deadline, the first in queue order if IDs repeat. -/
def is_first_missed (rq : List thread) (current_time : Int) (i : Nat) (m : thread) : Prop :=
  rq.get? i = some m ∧ m.current_deadline ≤ current_time ∧
  (∀ u ∈ rq, u.current_deadline ≤ current_time → m.ID ≤ u.ID) ∧
  (∀ u ∈ rq.take i, u.current_deadline ≤ current_time → m.ID < u.ID)

instance (rq : List thread) (current_time : Int) (i : Nat) (m : thread) :
    Decidable (is_first_missed rq current_time i m) := by
  unfold is_first_missed; infer_instance

/-- The `int` subtraction `next_rel - args.current_time` of lines 78, 198 and
216, evaluated when a release was found, gives its exact value. -/
def release_no_overflow (args : threads_sched_args) : Prop :=
  next_release_loop args.current_time args.release_queue INT_MAX ≠ INT_MAX →
    is_int (next_release_loop args.current_time args.release_queue INT_MAX - args.current_time)

instance (args : threads_sched_args) : Decidable (release_no_overflow args) := by
  unfold release_no_overflow; infer_instance

/-- A thread given by the fields the EDF-CBS policy reads; the relative deadline
is the period. -/
def ex_thread (ID remaining_time period current_deadline budget remaining_budget
    is_hard_rt is_throttled : Int) : thread :=
  { ID := ID, remaining_time := remaining_time, processing_time := remaining_time
    arrival_time := 0, priority := 0, period := period, deadline := period
    current_deadline := current_deadline
    cbs := { budget := budget, remaining_budget := remaining_budget
             is_hard_rt := is_hard_rt, is_throttled := is_throttled } }

/-- At time 10: a soft thread (ID 1) with deadline 5 and a hard thread (ID 2)
with deadline 8, both with work left and budget left. -/
def ex_edf_masked_args : threads_sched_args :=
  { current_time := 10, time_quantum := 2, release_queue := []
    run_queue := [ex_thread 1 3 10 5 4 2 0 0, ex_thread 2 3 10 8 4 2 1 0] }

/-- At time 7: a soft thread (ID 1) with budget 4, period 10, deadline 10, no
budget left and 6 units of work left, and a soft thread (ID 2) with deadline
20 and budget left. -/
def ex_edf_throttle_args : threads_sched_args :=
  { current_time := 7, time_quantum := 2, release_queue := []
    run_queue := [ex_thread 1 6 10 10 4 0 0 0, ex_thread 2 3 20 20 4 2 0 0] }

/-- The queue of `ex_edf_throttle_args` at time 10, the first thread throttled. -/
def ex_edf_replenish_args : threads_sched_args :=
  { current_time := 10, time_quantum := 2, release_queue := []
    run_queue := [ex_thread 1 6 10 10 4 0 0 1, ex_thread 2 3 20 20 4 2 0 0] }

/-- At time 10: a throttled soft thread (budget 4, period 10) whose deadline 8 is
already passed. -/
def ex_edf_late_soft_args : threads_sched_args :=
  { current_time := 10, time_quantum := 2, release_queue := []
    run_queue := [ex_thread 1 6 10 8 4 0 0 1] }

/-- At time 10: a throttled hard thread (budget 4, period 10) whose deadline 8 is
already passed. -/
def ex_edf_late_hard_args : threads_sched_args :=
  { current_time := 10, time_quantum := 2, release_queue := []
    run_queue := [ex_thread 1 6 10 8 4 0 1 1] }

/-- At time 10: a hard thread with deadline 10, no budget left and 5 units of
work left. -/
def ex_edf_hard_replenished_args : threads_sched_args :=
  { current_time := 10, time_quantum := 2, release_queue := []
    run_queue := [ex_thread 1 5 10 10 4 0 1 0] }

/-- At time 10: a soft thread (ID 2) with deadline 5 queued before a hard thread
(ID 1) with deadline 10, both with budget left. -/
def ex_edf_hard_miss_args : threads_sched_args :=
  { current_time := 10, time_quantum := 2, release_queue := []
    run_queue := [ex_thread 2 3 20 5 4 2 0 0, ex_thread 1 6 10 10 4 2 1 0] }

/-- At time 10: a soft thread with its full budget 4, period 10 and deadline
12. -/
def ex_edf_postpone_args : threads_sched_args :=
  { current_time := 10, time_quantum := 2, release_queue := []
    run_queue := [ex_thread 1 6 10 12 4 4 0 0] }

/-- The budget of the thread is at least 1, and the thread is throttled or has
at least one unit of budget left. -/
def has_budget_or_throttled (x : thread) : Prop :=
  1 ≤ x.cbs.budget ∧ (x.cbs.is_throttled ≠ 0 ∨ 1 ≤ x.cbs.remaining_budget)

instance (x : thread) : Decidable (has_budget_or_throttled x) := by
  unfold has_budget_or_throttled; infer_instance

/-- At time 10: one hard thread with deadline 50 and 30 units of work; the
release queue holds a release at 12 with relative deadline 100 and a release
at 15 with relative deadline 2. -/
def ex_edf_release_args : threads_sched_args :=
  { current_time := 10, time_quantum := 2
    run_queue := [ex_thread 1 30 100 50 4 4 1 0]
    release_queue := [{ thrd := ex_thread 2 1 100 0 4 4 1 0, release_time := 12 },
                      { thrd := ex_thread 3 1 2 0 4 4 1 0, release_time := 15 }] }

/-- At time 10: one hard thread with deadline 50 and 30 units of work; the
release queue holds a release at 15 with relative deadline 2 and a release at
20 with relative deadline 100. -/
def ex_edf_urgent_release_args : threads_sched_args :=
  { current_time := 10, time_quantum := 2
    run_queue := [ex_thread 1 30 100 50 4 4 1 0]
    release_queue := [{ thrd := ex_thread 3 1 2 0 4 4 1 0, release_time := 15 },
                      { thrd := ex_thread 2 1 100 0 4 4 1 0, release_time := 20 }] }

/-! ### Thread state across a call -/

/-- A call of a policy that stores only to its local result: the run queue it
leaves, with the decision.  `schedule_default` (lines 10-33), `schedule_hrrn`
(lines 37-84), `schedule_priority_rr` (lines 89-133) and `schedule_dm` (lines
171-231) contain no store through a thread pointer or through a list link, so
the queue they leave is the queue they are given. -/
def call_without_store (policy : threads_sched_args → threads_sched_result)
    (args : threads_sched_args) : List thread × threads_sched_result :=
  (args.run_queue, policy args)

/-- Holds when two threads agree on every field outside `cbs`. -/
def same_but_cbs (a b : thread) : Prop :=
  a.ID = b.ID ∧ a.remaining_time = b.remaining_time ∧
  a.processing_time = b.processing_time ∧ a.arrival_time = b.arrival_time ∧
  a.priority = b.priority ∧ a.period = b.period ∧ a.deadline = b.deadline ∧
  a.current_deadline = b.current_deadline

instance (a b : thread) : Decidable (same_but_cbs a b) := by
  unfold same_but_cbs; infer_instance

/-- Holds when two argument records agree on everything but the `cbs` fields of
their run-queue threads: same time, quantum and release queue, and run queues
of the same length whose threads agree position by position outside `cbs`. -/
def args_same_but_cbs (args1 args2 : threads_sched_args) : Prop :=
  args1.current_time = args2.current_time ∧ args1.time_quantum = args2.time_quantum ∧
  args1.release_queue = args2.release_queue ∧
  List.Forall₂ same_but_cbs args1.run_queue args2.run_queue

/-- The threads of `ex_dm_args` with other `cbs` fields: budgets 4, 5, 6, the
second thread throttled with no budget left. -/
def ex_dm_cbs_args : threads_sched_args :=
  { current_time := 0, time_quantum := 2, release_queue := []
    run_queue :=
      [ { ID := 1, remaining_time := 4, processing_time := 4, arrival_time := 0, priority := 0,
          period := 20, deadline := 20, current_deadline := 20, cbs := ⟨4, 4, 0, 0⟩ },
        { ID := 3, remaining_time := 3, processing_time := 3, arrival_time := 0, priority := 0,
          period := 10, deadline := 10, current_deadline := 10, cbs := ⟨5, 0, 0, 1⟩ },
        { ID := 2, remaining_time := 3, processing_time := 3, arrival_time := 0, priority := 0,
          period := 10, deadline := 10, current_deadline := 10, cbs := ⟨6, 2, 1, 0⟩ } ] }

/-- The positions of the threads the selection loop of lines 329-363 postpones,
in the order of the passes: the loop of `edf_select` with each `continue` of
line 357 recorded. -/
def edf_postponed_positions (current_time : Int) : Nat → List thread → List Nat
  | 0, _ => []
  | fuel + 1, rq =>
    match scan_best (fun th => th.cbs.is_throttled == 0)
        (fun th b => decide (__edf_thread_cmp th b < 0)) rq 0 none with
    | none => []
    | some (i, best) =>
      if is_cbs_soft best then
        let dist := wrap_int (best.current_deadline - current_time)
        if dist > 0 then
          let lhs := best.cbs.remaining_budget * best.period
          let rhs := best.cbs.budget * dist
          if lhs > rhs then
            i :: edf_postponed_positions current_time fuel
              (rq.set i (edf_postpone current_time best))
          else []
        else []
      else []

/-- Holds when `t1` has every field of `t` but, at most, `cbs.is_throttled`,
`cbs.remaining_budget` and `current_deadline`. -/
def edf_unchanged (t t1 : thread) : Prop :=
  t1.ID = t.ID ∧ t1.remaining_time = t.remaining_time ∧
  t1.processing_time = t.processing_time ∧ t1.arrival_time = t.arrival_time ∧
  t1.priority = t.priority ∧ t1.period = t.period ∧ t1.deadline = t.deadline ∧
  t1.cbs.budget = t.cbs.budget ∧ t1.cbs.is_hard_rt = t.cbs.is_hard_rt

instance (t t1 : thread) : Decidable (edf_unchanged t t1) := by
  unfold edf_unchanged; infer_instance

/-- The release queue as a call of `schedule_edf_cbs` leaves it: lines 256-442
store through `th`, `miss` and `best`, which point into the run queue, and to
locals; the entries of the release queue are read only (lines 307-311,
369-371 and 399-413). -/
def edf_release_queue_after (args : threads_sched_args) : List release_queue_entry :=
  args.release_queue

/-- Holds when `E` is the earliest event after `current_time`: the smallest
value above `current_time` among the release times of the release queue and
the current deadlines of the throttled threads of the run queue. -/
def is_next_event (rel : List release_queue_entry) (rq : List thread)
    (current_time E : Int) : Prop :=
  ((∃ e ∈ rel, e.release_time = E) ∨
    (∃ t ∈ rq, t.cbs.is_throttled ≠ 0 ∧ t.current_deadline = E)) ∧
  current_time < E ∧
  (∀ e ∈ rel, current_time < e.release_time → E ≤ e.release_time) ∧
  (∀ t ∈ rq, t.cbs.is_throttled ≠ 0 → current_time < t.current_deadline →
    E ≤ t.current_deadline)

instance (rel : List release_queue_entry) (rq : List thread) (current_time E : Int) :
    Decidable (is_next_event rel rq current_time E) := by
  unfold is_next_event; infer_instance

/-- At time 2147483640: one throttled soft thread without budget whose deadline
is 2147483647 (`INT_MAX`), and an empty release queue. -/
def ex_edf_idle_int_max_args : threads_sched_args :=
  { current_time := 2147483640, time_quantum := 2, release_queue := []
    run_queue := [ex_thread 1 3 10 2147483647 4 0 0 1] }

/-- At time 10: two throttled soft threads without budget with deadlines 30 and
18, and a release at 25. -/
def ex_edf_all_throttled_args : threads_sched_args :=
  { current_time := 10, time_quantum := 2
    release_queue := [{ thrd := ex_released_thread, release_time := 25 }]
    run_queue := [ex_thread 1 3 40 30 4 0 0 1, ex_thread 2 3 40 18 4 0 0 1] }

end ThreadsSched

namespace Threads

/-! # The thread runtime: `src/MP1/b12902036/threads.c`

Pointers are addresses (`Nat`, `NULL` is 0).  The memory holds one
`struct thread` per address; fields the code does not store to keep the value
the memory had.  The saved contexts (`jmp_buf`) are not data of the model: a
`longjmp` ends the straight-line code of a function, and the function returns
the state it leaves together with the buffer it jumps to.  A function with a
loop takes fuel; `none` is "out of fuel", or "no defined behaviour" for a
handler index outside `0..1`.  `malloc` returns an address chosen by the
allocator, given to the model as an argument, and the allocator is the list of
regions handed out and not freed. -/

/-- The null pointer. -/
def NULL : Nat := 0

/-- The value `((void (*)(int)) - 1)`, a 64-bit address with all bits set. -/
def NULL_FUNC : Nat := 18446744073709551615

def NOT_SUSPENDED : Int := 0
def SUSPENDED : Int := 1
def NO_SIGNAL : Int := -1
def SIGNAL_ZERO : Int := 0
def SIGNAL_ONE : Int := 1

/-- The `struct thread` of `threads.h` without its two `jmp_buf` members;
`sig_handler` holds the two slots of the array. -/
structure thread where
  fp : Nat
  arg : Nat
  stack : Nat
  stack_p : Nat
  handler_stack : Nat
  handler_stack_p : Nat
  buf_set : Int
  ID : Int
  previous : Nat
  next : Nat
  sig_handler : Nat × Nat
  sent : Int
  pending_signal : Int
  suspended : Int
  handler_buf_set : Int
  in_handler : Int
  deriving DecidableEq

/-- The read `sig_handler[signo]`: defined for the indices 0 and 1. -/
def sig_handler_get (t : thread) (signo : Int) : Option Nat :=
  if signo = 0 then some t.sig_handler.1
  else if signo = 1 then some t.sig_handler.2
  else none

/-- The store `sig_handler[signo] = handler`: defined for the indices 0 and 1. -/
def sig_handler_set (t : thread) (signo : Int) (handler : Nat) : Option thread :=
  if signo = 0 then some { t with sig_handler := (handler, t.sig_handler.2) }
  else if signo = 1 then some { t with sig_handler := (t.sig_handler.1, handler) }
  else none

/-- The state of the runtime: the statics `current_thread` and `id` (lines 7-8),
the memory, and the regions the allocator has handed out and not freed. -/
structure state where
  current_thread : Nat
  id : Int
  mem : Nat → thread
  live : List Nat

/-- A store through the pointer `p`: the thread at `p` becomes `f` of it. -/
def store (s : state) (p : Nat) (f : thread → thread) : state :=
  { s with mem := fun a => if a = p then f (s.mem a) else s.mem a }

/-- The call `malloc(..)` returning the address `p`. -/
def malloc (s : state) (p : Nat) : state :=
  { s with live := p :: s.live }

/-- The call `free(p)`. -/
def free (s : state) (p : Nat) : state :=
  { s with live := s.live.erase p }

/-- The buffer a `longjmp` of the runtime jumps to: `env_st` is the driver
(`thread_start_threading`), `env_tmp` starts `thread_trampoline` on the stack
of the current thread, `env` resumes the current thread in `thread_yield`,
`handler_env_tmp` starts `signal_trampoline` on the handler stack of the
current thread, `handler_env` resumes its handler in `thread_yield`. -/
inductive jump where
  | env_st
  | env_tmp
  | env
  | handler_env_tmp
  | handler_env
  deriving DecidableEq

/-- Lines 43-75.  The three `malloc` calls return `t`, `stack` and
`handler_new_stack`.  `next` and `previous` are not stored to. -/
def thread_create (f arg : Nat) (t stack handler_new_stack : Nat) (s : state) :
    Nat × state :=
  let s := malloc s t
  let s := store s t (fun x => { x with fp := f })
  let s := store s t (fun x => { x with arg := arg })
  let s := { store s t (fun x => { x with ID := s.id }) with
             id := ThreadsSched.wrap_int (s.id + 1) }
  let s := store s t (fun x => { x with buf_set := 0 })
  let s := malloc s stack
  let s := store s t (fun x => { x with stack := stack })
  let s := store s t (fun x => { x with stack_p := x.stack + 0x100 * 8 - 0x2 * 8 })
  let s := store s t (fun x => { x with suspended := NOT_SUSPENDED })
  let s := store s t (fun x => { x with pending_signal := NO_SIGNAL })
  let s := store s t (fun x => { x with handler_buf_set := 0 })
  let s := store s t (fun x => { x with in_handler := 0 })
  let s := malloc s handler_new_stack
  let handler_new_stack_p := handler_new_stack + 0x100 * 8 - 0x2 * 8
  let s := store s t (fun x => { x with handler_stack := handler_new_stack })
  let s := store s t (fun x => { x with handler_stack_p := handler_new_stack_p })
  let s := store s t (fun x => { x with sent := 0 })
  let s :=
    if s.current_thread ≠ NULL then
      let s := store s t (fun x =>
        { x with sig_handler := ((s.mem s.current_thread).sig_handler.1, x.sig_handler.2) })
      store s t (fun x =>
        { x with sig_handler := (x.sig_handler.1, (s.mem s.current_thread).sig_handler.2) })
    else
      let s := store s t (fun x => { x with sig_handler := (NULL_FUNC, x.sig_handler.2) })
      store s t (fun x => { x with sig_handler := (x.sig_handler.1, NULL_FUNC) })
  (t, s)

/-- Lines 77-101. -/
def thread_add_runqueue (t : Nat) (s : state) : state :=
  if s.current_thread = NULL then
    let s := { s with current_thread := t }
    let s := store s s.current_thread (fun x => { x with next := s.current_thread })
    let s := store s s.current_thread (fun x => { x with previous := s.current_thread })
    let s := store s t (fun x => { x with sig_handler := (NULL_FUNC, x.sig_handler.2) })
    store s t (fun x => { x with sig_handler := (x.sig_handler.1, NULL_FUNC) })
  else
    let tail := (s.mem s.current_thread).previous
    let s := store s tail (fun x => { x with next := t })
    let s := store s t (fun x => { x with previous := tail })
    let s := store s t (fun x => { x with next := s.current_thread })
    let s := store s s.current_thread (fun x => { x with previous := t })
    let s := store s t (fun x =>
      { x with sig_handler := ((s.mem s.current_thread).sig_handler.1, x.sig_handler.2) })
    store s t (fun x =>
      { x with sig_handler := (x.sig_handler.1, (s.mem s.current_thread).sig_handler.2) })

/-- Lines 140-146: the body of the `do` loop runs once per unit of fuel. -/
def schedule : Nat → state → Option state
  | 0, _ => none
  | fuel + 1, s =>
    let s := { s with current_thread := (s.mem s.current_thread).next }
    if (s.mem s.current_thread).suspended = SUSPENDED then schedule fuel s
    else some s

/-- Lines 155-158: the `while` loop of `dispatch`. -/
def dispatch_skip : Nat → state → Option state
  | fuel, s =>
    if (s.mem s.current_thread).suspended = SUSPENDED then
      match fuel with
      | 0 => none
      | fuel + 1 =>
        dispatch_skip fuel { s with current_thread := (s.mem s.current_thread).next }
    else some s

/-- Lines 198-204: `thread_exit` when the current thread is not alone, up to
the call of `dispatch`. -/
def thread_exit_unlink (s : state) : state :=
  let temp := s.current_thread
  let s := store s (s.mem temp).previous (fun x => { x with next := (s.mem temp).next })
  let s := store s (s.mem temp).next (fun x => { x with previous := (s.mem temp).previous })
  let s := { s with current_thread := (s.mem temp).next }
  let s := free s (s.mem temp).stack
  free s temp

/-- Lines 211-213: `thread_exit` when the current thread is alone, up to the
`longjmp`. -/
def thread_exit_last (s : state) : state :=
  let s := free s (s.mem s.current_thread).stack
  let s := free s s.current_thread
  { s with current_thread := NULL }

/-- Lines 148-191, with the call of `thread_exit` of line 166 (lines 193-216)
in place: it does not return.  One unit of fuel per call of `dispatch`; the
`while` loop gets the same fuel. -/
def dispatch : Nat → state → Option (state × jump)
  | 0, _ => none
  | fuel + 1, s =>
    if s.current_thread = NULL then some (s, jump.env_st)
    else
      match dispatch_skip (fuel + 1) s with
      | none => none
      | some s =>
        if (s.mem s.current_thread).pending_signal ≠ NO_SIGNAL then
          let sig := (s.mem s.current_thread).pending_signal
          match sig_handler_get (s.mem s.current_thread) sig with
          | none => none
          | some handler =>
            if handler = NULL_FUNC then
              if (s.mem s.current_thread).next ≠ s.current_thread then
                dispatch fuel (thread_exit_unlink s)
              else some (thread_exit_last s, jump.env_st)
            else if (s.mem s.current_thread).handler_buf_set = 0 then
              some (s, jump.handler_env_tmp)
            else some (s, jump.handler_env)
        else if (s.mem s.current_thread).buf_set = 0 then
          some (store s s.current_thread (fun x => { x with buf_set := 1 }), jump.env_tmp)
        else some (s, jump.env)

/-- Lines 193-216. -/
def thread_exit (fuel : Nat) (s : state) : Option (state × jump) :=
  if (s.mem s.current_thread).next ≠ s.current_thread then
    dispatch fuel (thread_exit_unlink s)
  else some (thread_exit_last s, jump.env_st)

/-- Lines 103-138, the path on which `setjmp` returns 0: the flag is set, then
`schedule` and `dispatch` run. -/
def thread_yield (fuel : Nat) (s : state) : Option (state × jump) :=
  let s :=
    if (s.mem s.current_thread).pending_signal ≠ NO_SIGNAL then
      store s s.current_thread (fun x => { x with handler_buf_set := 1 })
    else store s s.current_thread (fun x => { x with buf_set := 1 })
  match schedule fuel s with
  | none => none
  | some s => dispatch fuel s

/-- Lines 103-138, the paths on which `setjmp` returns again after a `longjmp`
to `handler_env` (line 118) or to `env` (line 134). -/
def thread_yield_resumed (j : jump) (s : state) : state :=
  match j with
  | jump.handler_env => store s s.current_thread (fun x => { x with handler_buf_set := 0 })
  | jump.env => store s s.current_thread (fun x => { x with buf_set := 0 })
  | _ => s

/-- Lines 25-41.  The call of the handler runs code of the user: `run_handler`
gives the state in which the handler at an address, called with a tag, returns
(`none` when it does not return). -/
def signal_trampoline (run_handler : Nat → Int → state → Option state) (s : state) :
    Option (state × jump) :=
  let signo := (s.mem s.current_thread).pending_signal
  match sig_handler_get (s.mem s.current_thread) signo with
  | none => none
  | some handler =>
    match run_handler handler signo s with
    | none => none
    | some s =>
      let s := store s s.current_thread (fun x => { x with pending_signal := NO_SIGNAL })
      if (s.mem s.current_thread).buf_set ≠ 0 then some (s, jump.env)
      else some (s, jump.env_tmp)

/-- Lines 218-229, up to the first `longjmp`; `none` in the second component
is the plain return of line 222. -/
def thread_start_threading (fuel : Nat) (s : state) : Option (state × Option jump) :=
  if s.current_thread = NULL then some (s, none)
  else
    match dispatch fuel s with
    | none => none
    | some (s, j) => some (s, some j)

/-- Lines 231-234. -/
def thread_register_handler (signo : Int) (handler : Nat) (s : state) : Option state :=
  match sig_handler_set (s.mem s.current_thread) signo handler with
  | none => none
  | some x => some (store s s.current_thread (fun _ => x))

/-- Lines 236-243. -/
def thread_kill (t : Nat) (signo : Int) (s : state) : state :=
  if (s.mem t).sent = 0 then
    let s := store s t (fun x => { x with pending_signal := signo })
    store s t (fun x => { x with sent := 1 })
  else s

/-- Lines 245-252; when `t` is not the current thread the function returns
(`none` in the second component). -/
def thread_suspend (fuel : Nat) (t : Nat) (s : state) : Option (state × Option jump) :=
  let s := store s t (fun x => { x with suspended := SUSPENDED })
  if t = s.current_thread then
    match thread_yield fuel s with
    | none => none
    | some (s, j) => some (s, some j)
  else some (s, none)

/-- Lines 254-257. -/
def thread_resume (t : Nat) (s : state) : state :=
  store s t (fun x => { x with suspended := NOT_SUSPENDED })

/-! ## Predicates and concrete inputs used in the statements of the runtime -/

/-- The links from `a` through the threads of `l` to `z`: each thread has the
one after it as `next`, and is the `previous` of the one after it. -/
def ring_path (s : state) : Nat → List Nat → Nat → Prop
  | a, [], z => (s.mem a).next = z ∧ (s.mem z).previous = a
  | a, b :: l, z => (s.mem a).next = b ∧ (s.mem b).previous = a ∧ ring_path s b l z

instance ring_path_decidable (s : state) :
    ∀ (a : Nat) (l : List Nat) (z : Nat), Decidable (ring_path s a l z)
  | a, [], z => by unfold ring_path; infer_instance
  | a, b :: l, z => by
    have := ring_path_decidable s b l z
    unfold ring_path; infer_instance

/-- The ready queue is the ring of the threads of `l`, met in this order by
following `next` from `current_thread`: the empty list when `current_thread`
is `NULL`; else `l` starts with `current_thread`, has no thread twice and no
null pointer, and the links lead through `l` and back to `current_thread`. -/
def is_ring (s : state) : List Nat → Prop
  | [] => s.current_thread = NULL
  | c :: l => s.current_thread = c ∧ (c :: l).Nodup ∧ NULL ∉ c :: l ∧ ring_path s c l c

instance is_ring_decidable (s : state) : ∀ l : List Nat, Decidable (is_ring s l)
  | [] => by unfold is_ring; infer_instance
  | c :: l => by unfold is_ring; infer_instance

/-- The `n` threads met by following `next` from `p`, `p` first. -/
def follow_next (s : state) : Nat → Nat → List Nat
  | 0, _ => []
  | n + 1, p => p :: follow_next s n (s.mem p).next

/-- The `n` threads met by following `previous` from `p`, `p` first. -/
def follow_previous (s : state) : Nat → Nat → List Nat
  | 0, _ => []
  | n + 1, p => p :: follow_previous s n (s.mem p).previous

/-- Holds when the thread at `m` is not suspended. -/
def not_suspended (s : state) (m : Nat) : Bool :=
  decide ((s.mem m).suspended ≠ SUSPENDED)

/-- A thread with every field 0. -/
def zero_thread : thread :=
  { fp := 0, arg := 0, stack := 0, stack_p := 0, handler_stack := 0, handler_stack_p := 0
    buf_set := 0, ID := 0, previous := 0, next := 0, sig_handler := (0, 0), sent := 0
    pending_signal := 0, suspended := 0, handler_buf_set := 0, in_handler := 0 }

/-- The state at program start: no current thread, `id` 1 (lines 7-8), nothing
allocated, zeroed memory. -/
def initial_state : state :=
  { current_thread := NULL, id := 1, mem := fun _ => zero_thread, live := [] }

/-- A call of the interface of `threads.h`, or of `signal_trampoline`, with its
arguments; for `thread_create` also the three addresses `malloc` returns. -/
inductive call where
  | thread_create (f arg t stack handler_new_stack : Nat)
  | thread_add_runqueue (t : Nat)
  | thread_yield
  | thread_yield_resumed (j : jump)
  | schedule
  | dispatch
  | thread_exit
  | thread_start_threading
  | signal_trampoline
  | thread_register_handler (signo : Int) (handler : Nat)
  | thread_kill (t : Nat) (signo : Int)
  | thread_suspend (t : Nat)
  | thread_resume (t : Nat)

/-- The state a call leaves, `none` when the call has no result.  The calls a
handler makes stand in the sequence of calls themselves, so the handler called
by `signal_trampoline` is taken to return at once. -/
def exec_call (fuel : Nat) : call → state → Option state
  | call.thread_create f arg t stack handler_new_stack, s =>
    some (thread_create f arg t stack handler_new_stack s).2
  | call.thread_add_runqueue t, s => some (thread_add_runqueue t s)
  | call.thread_yield, s => (thread_yield fuel s).map Prod.fst
  | call.thread_yield_resumed j, s => some (thread_yield_resumed j s)
  | call.schedule, s => schedule fuel s
  | call.dispatch, s => (dispatch fuel s).map Prod.fst
  | call.thread_exit, s => (thread_exit fuel s).map Prod.fst
  | call.thread_start_threading, s => (thread_start_threading fuel s).map Prod.fst
  | call.signal_trampoline, s => (signal_trampoline (fun _ _ x => some x) s).map Prod.fst
  | call.thread_register_handler signo handler, s => thread_register_handler signo handler s
  | call.thread_kill t signo, s => some (thread_kill t signo s)
  | call.thread_suspend t, s => (thread_suspend fuel t s).map Prod.fst
  | call.thread_resume t, s => some (thread_resume t s)

/-- The state a sequence of calls leaves. -/
def exec (fuel : Nat) : List call → state → Option state
  | [], s => some s
  | c :: rest, s =>
    match exec_call fuel c s with
    | none => none
    | some s => exec fuel rest s

/-- The `ID` of the thread a call of `thread_create` returns, `none` for any
other call. -/
def created_id (c : call) (s : state) : Option Int :=
  match c with
  | call.thread_create f arg t stack handler_new_stack =>
    let r := thread_create f arg t stack handler_new_stack s
    some (r.2.mem r.1).ID
  | _ => none

/-- The `ID`s of the threads the calls of `thread_create` in a sequence of
calls return, in the order of the calls. -/
def created_ids (fuel : Nat) : List call → state → List Int
  | [], _ => []
  | c :: rest, s =>
    match exec_call fuel c s with
    | none => []
    | some s1 =>
      match created_id c s with
      | some i => i :: created_ids fuel rest s1
      | none => created_ids fuel rest s1

/-- Holds for a call of `thread_create`. -/
def is_create : call → Bool
  | call.thread_create _ _ _ _ _ => true
  | _ => false

/-- Three threads are created, the first is queued and exits, and a fourth
thread is created. -/
def ex_calls : List call :=
  [call.thread_create 1 0 10 100 200, call.thread_create 1 0 20 300 400,
   call.thread_add_runqueue 10, call.thread_create 2 0 30 500 600,
   call.thread_exit, call.thread_create 2 0 10 100 700]

/-- One thread created at address 10 (stack 100, handler stack 200) and
queued. -/
def ex_one_thread : state :=
  thread_add_runqueue 10 (thread_create 1 0 10 100 200 initial_state).2

/-- Two threads created at addresses 10 (stack 100, handler stack 200) and 20
(stack 300, handler stack 400), queued in this order. -/
def ex_two_threads : state :=
  thread_add_runqueue 20 (thread_create 1 0 20 300 400 ex_one_thread).2

/-- The thread of `ex_one_thread` registers the handler at address 777 for
tag 0 and is sent tag 0. -/
def ex_signalled : Option state :=
  (thread_register_handler 0 777 ex_one_thread).map (thread_kill 10 0)

/-- The state of `ex_signalled` after `signal_trampoline` has run the handler,
which returns at once, and has cleared `pending_signal`. -/
def ex_delivered : state :=
  match ex_signalled.bind (signal_trampoline (fun _ _ x => some x)) with
  | some r => r.1
  | none => initial_state

/-- The states the runtime reaches from a state without a current thread (the
empty queue).  `thread_add_runqueue` is called with a thread that is not
null and not in the queue; the functions that read `current_thread` without a
test (`schedule`, `thread_exit`, `thread_yield`, `thread_register_handler`)
are called by the running thread, so with a current thread.
`thread_exit_unlink` is the state in which `thread_exit` calls `dispatch`. -/
inductive reachable : state → Prop
  | empty (s : state) (h0 : s.current_thread = NULL) : reachable s
  | thread_add_runqueue (s : state) (t : Nat) (h : reachable s) (ht0 : t ≠ NULL)
      (ht : ∀ l, is_ring s l → t ∉ l) : reachable (thread_add_runqueue t s)
  | schedule (s s1 : state) (fuel : Nat) (h : reachable s) (h0 : s.current_thread ≠ NULL)
      (hs : schedule fuel s = some s1) : reachable s1
  | thread_exit (s s1 : state) (fuel : Nat) (j : jump) (h : reachable s)
      (h0 : s.current_thread ≠ NULL) (hs : thread_exit fuel s = some (s1, j)) : reachable s1
  | thread_exit_unlink (s : state) (h : reachable s) (h0 : s.current_thread ≠ NULL)
      (hne : (s.mem s.current_thread).next ≠ s.current_thread) :
      reachable (thread_exit_unlink s)
  | dispatch (s s1 : state) (fuel : Nat) (j : jump) (h : reachable s)
      (hs : dispatch fuel s = some (s1, j)) : reachable s1
  | thread_yield (s s1 : state) (fuel : Nat) (j : jump) (h : reachable s)
      (h0 : s.current_thread ≠ NULL) (hs : thread_yield fuel s = some (s1, j)) : reachable s1
  | thread_create (s : state) (f arg t stack handler_new_stack : Nat) (h : reachable s) :
      reachable (thread_create f arg t stack handler_new_stack s).2
  | thread_register_handler (s s1 : state) (signo : Int) (handler : Nat) (h : reachable s)
      (hs : thread_register_handler signo handler s = some s1) : reachable s1
  | thread_kill (s : state) (t : Nat) (signo : Int) (h : reachable s) :
      reachable (thread_kill t signo s)
  | thread_suspend (s s1 : state) (fuel : Nat) (t : Nat) (j : Option jump) (h : reachable s)
      (h0 : s.current_thread ≠ NULL) (hs : thread_suspend fuel t s = some (s1, j)) :
      reachable s1
  | thread_resume (s : state) (t : Nat) (h : reachable s) : reachable (thread_resume t s)

/-- The two threads of `ex_two_threads` and a third thread created at address
30 (stack 500, handler stack 600), not queued yet. -/
def ex_third_created : state :=
  (thread_create 1 0 30 500 600 ex_two_threads).2

/-- Three threads created and queued at addresses 10, 20, 30. -/
def ex_three : state :=
  thread_add_runqueue 30 ex_third_created

/-- The three threads of `ex_three` with the thread at 20 suspended. -/
def ex_ring : state :=
  match thread_suspend 1 20 ex_three with
  | some r => r.1
  | none => initial_state

/-- The thread of `ex_one_thread` after it has registered the handler at
address 777 for tag 0. -/
def ex_registered : state :=
  match thread_register_handler 0 777 ex_one_thread with
  | some s => s
  | none => initial_state

/-- The thread of `ex_one_thread` is current and has created a second thread
at address 20 (stack 300, handler stack 400), not queued yet. -/
def ex_second_created : state :=
  (thread_create 1 0 20 300 400 ex_one_thread).2

/-- The state of `ex_second_created` after the current thread has registered
the handler at address 777 for tag 0. -/
def ex_overridden : state :=
  match thread_register_handler 0 777 ex_second_created with
  | some s => s
  | none => initial_state

/-- Holds of a call of `thread_create` whose control block is allocated at the
address `t`. -/
def creates_at (t : Nat) : call → Bool
  | call.thread_create _ _ t1 _ _ => decide (t1 = t)
  | _ => false

/-- The thread of `ex_registered`, which has the handler 777 for tag 0, after
it has been sent tag 0. -/
def ex_sent : state :=
  thread_kill 10 0 ex_registered

/-- The state of `ex_sent` after `dispatch` has taken the notification path
and `signal_trampoline` has run the handler, which returns at once. -/
def ex_sent_delivered : state :=
  match exec 2 [call.dispatch, call.signal_trampoline] ex_sent with
  | some s => s
  | none => initial_state

end Threads

/-! # Theorems -/

namespace ThreadsSched

/-! ## Facts about the shared loops -/

section scan

variable {keep : thread → Bool} {better : thread → thread → Bool}

/-- The pass ends without a candidate only if it started without one and no
entry passed `keep`. -/
theorem scan_best_eq_none_iff (l : List thread) (k : Nat) (c : Option (Nat × thread)) :
    scan_best keep better l k c = none ↔ c = none ∧ ∀ u ∈ l, keep u = false := by
  induction l generalizing k c with
  | nil => simp [scan_best]
  | cons th rest ih =>
    cases c with
    | none =>
      by_cases hk : keep th = true
      · simp [scan_best, hk, ih]
      · simp only [Bool.not_eq_true] at hk
        simp [scan_best, hk, ih]
    | some jb =>
      obtain ⟨j, b⟩ := jb
      by_cases hk : (keep th && better th b) = true
      · simp [scan_best, hk, ih]
      · simp [scan_best, hk, ih]

/-- The candidate the pass ends with is the initial one or an entry of the list
that passed `keep`, found at its position. -/
theorem scan_best_mem (l : List thread) (k : Nat) (c : Option (Nat × thread))
    (i : Nat) (t : thread) (h : scan_best keep better l k c = some (i, t)) :
    c = some (i, t) ∨ (k ≤ i ∧ l.get? (i - k) = some t ∧ keep t = true) := by
  induction l generalizing k c with
  | nil => left; simpa [scan_best] using h
  | cons th rest ih =>
    have step : ∀ c1, scan_best keep better rest (k + 1) c1 = some (i, t) →
        (c1 = c ∨ (c1 = some (k, th) ∧ keep th = true)) →
        c = some (i, t) ∨ (k ≤ i ∧ (th :: rest).get? (i - k) = some t ∧ keep t = true) := by
      intro c1 h1 hc1
      rcases ih (k + 1) c1 h1 with h2 | ⟨hle, hget, hkeep⟩
      · rcases hc1 with rfl | ⟨rfl, hk⟩
        · exact Or.inl h2
        · right
          simp only [Option.some.injEq, Prod.mk.injEq] at h2
          obtain ⟨rfl, rfl⟩ := h2
          simp [hk]
      · right
        refine ⟨by omega, ?_, hkeep⟩
        have : i - k = (i - (k + 1)) + 1 := by omega
        rw [this]
        simpa using hget
    cases c with
    | none =>
      by_cases hk : keep th = true
      · simp only [scan_best, hk, if_true] at h
        exact step _ h (Or.inr ⟨rfl, hk⟩)
      · simp only [scan_best, hk] at h
        exact step _ h (Or.inl rfl)
    | some jb =>
      obtain ⟨j, b⟩ := jb
      by_cases hk : (keep th && better th b) = true
      · simp only [scan_best, hk, if_true] at h
        refine step _ h (Or.inr ⟨rfl, ?_⟩)
        simp only [Bool.and_eq_true] at hk
        exact hk.1
      · simp only [scan_best, hk] at h
        exact step _ h (Or.inl rfl)

/-- When `better` is the strict order of a key on the threads satisfying `P`,
the candidate the pass ends with has the least key among the initial
candidate and the entries that passed `keep`. -/
theorem scan_best_min {κ : Type} [LinearOrder κ] (key : thread → κ) (P : thread → Prop)
    (hb : ∀ a b, P a → P b → (better a b = true ↔ key a < key b))
    (l : List thread) (k : Nat) (c : Option (Nat × thread))
    (hl : ∀ u ∈ l, P u) (hc : ∀ j b, c = some (j, b) → P b)
    (i : Nat) (t : thread) (h : scan_best keep better l k c = some (i, t)) :
    (∀ u ∈ l, keep u = true → key t ≤ key u) ∧ (∀ j b, c = some (j, b) → key t ≤ key b) := by
  induction l generalizing k c with
  | nil =>
    simp only [scan_best] at h
    refine ⟨by simp, ?_⟩
    intro j b hjb
    rw [hjb] at h
    simp only [Option.some.injEq, Prod.mk.injEq] at h
    rw [h.2]
  | cons th rest ih =>
    have hrest : ∀ u ∈ rest, P u := fun u hu => hl u (List.mem_cons_of_mem _ hu)
    have hth : P th := hl th (List.mem_cons_self _ _)
    cases c with
    | none =>
      by_cases hk : keep th = true
      · simp only [scan_best, hk, if_true] at h
        obtain ⟨h1, h2⟩ := ih (k + 1) (some (k, th)) hrest
          (by intro j b e; simp only [Option.some.injEq, Prod.mk.injEq] at e; rw [← e.2]; exact hth) h
        refine ⟨?_, by simp⟩
        intro u hu hku
        rcases List.mem_cons.mp hu with rfl | hu
        · exact h2 k u rfl
        · exact h1 u hu hku
      · simp only [scan_best, hk] at h
        obtain ⟨h1, _⟩ := ih (k + 1) none hrest (by simp) h
        refine ⟨?_, by simp⟩
        intro u hu hku
        rcases List.mem_cons.mp hu with rfl | hu
        · exact absurd hku hk
        · exact h1 u hu hku
    | some jb =>
      obtain ⟨j, b⟩ := jb
      have hPb : P b := hc j b rfl
      by_cases hk : (keep th && better th b) = true
      · simp only [scan_best, hk, if_true] at h
        obtain ⟨h1, h2⟩ := ih (k + 1) (some (k, th)) hrest
          (by intro j b e; simp only [Option.some.injEq, Prod.mk.injEq] at e; rw [← e.2]; exact hth) h
        simp only [Bool.and_eq_true] at hk
        have hlt : key th < key b := (hb th b hth hPb).mp hk.2
        refine ⟨?_, ?_⟩
        · intro u hu hku
          rcases List.mem_cons.mp hu with rfl | hu
          · exact h2 k u rfl
          · exact h1 u hu hku
        · intro j1 b1 e
          simp only [Option.some.injEq, Prod.mk.injEq] at e
          rw [← e.2]
          exact le_trans (h2 k th rfl) (le_of_lt hlt)
      · simp only [scan_best, hk] at h
        obtain ⟨h1, h2⟩ := ih (k + 1) (some (j, b)) hrest
          (by intro j b e; simp only [Option.some.injEq, Prod.mk.injEq] at e; rw [← e.2]; exact hPb) h
        refine ⟨?_, ?_⟩
        · intro u hu hku
          rcases List.mem_cons.mp hu with rfl | hu
          · have hnb : ¬ key u < key b := by
              intro hlt
              apply hk
              simp only [Bool.and_eq_true]
              exact ⟨hku, (hb u b hth hPb).mpr hlt⟩
            exact le_trans (h2 j b rfl) (not_lt.mp hnb)
          · exact h1 u hu hku
        · intro j1 b1 e
          simp only [Option.some.injEq, Prod.mk.injEq] at e
          rw [← e.2]
          exact h2 j b rfl

end scan

/-- A pass started without a candidate at position 0 ends with an entry of the
list, found at its position, that passed `keep`. -/
theorem scan_best_start {keep : thread → Bool} {better : thread → thread → Bool}
    (l : List thread) (i : Nat) (t : thread)
    (h : scan_best keep better l 0 none = some (i, t)) :
    l.get? i = some t ∧ t ∈ l ∧ keep t = true := by
  rcases scan_best_mem l 0 none i t h with h1 | ⟨_, h2, h3⟩
  · simp at h1
  · simp only [Nat.sub_zero] at h2
    exact ⟨h2, List.get?_mem h2, h3⟩

/-- On a non-empty queue a pass that keeps every entry ends with a candidate. -/
theorem scan_best_all_some (better : thread → thread → Bool) (l : List thread) (hne : l ≠ []) :
    ∃ i t, scan_best (fun _ => true) better l 0 none = some (i, t) := by
  cases hres : scan_best (fun _ => true) better l 0 none with
  | some it => exact ⟨it.1, it.2, rfl⟩
  | none =>
    rw [scan_best_eq_none_iff] at hres
    cases l with
    | nil => exact absurd rfl hne
    | cons a _ => simpa using hres.2 a (List.mem_cons_self _ _)

/-! ## schedule_default: smallest identity -/

/-- C1: on a non-empty run queue with pairwise distinct IDs, `schedule_default`
names a thread of the queue whose ID is the smallest, allocates that thread's
`remaining_time`, and makes the same decision (same thread, same allocation)
on every reordering of the queue. -/
theorem schedule_default_smallest_id (args : threads_sched_args)
    (hne : args.run_queue ≠ [])
    (hnd : (args.run_queue.map (fun th => th.ID)).Nodup) :
    ∃ i t, (schedule_default args).scheduled_thread_list_member = some i ∧
      args.run_queue.get? i = some t ∧
      (∀ u ∈ args.run_queue, t.ID ≤ u.ID) ∧
      (schedule_default args).allocated_time = t.remaining_time ∧
      ∀ args1 : threads_sched_args, args1.run_queue.Perm args.run_queue →
        scheduled_thread args1.run_queue (schedule_default args1) = some t ∧
        (schedule_default args1).allocated_time = t.remaining_time := by
  have key : ∀ rq : List thread, rq ≠ [] →
      ∃ i t, scan_best (fun _ => true) (fun th b => decide (th.ID < b.ID)) rq 0 none = some (i, t) ∧
        rq.get? i = some t ∧ t ∈ rq ∧ ∀ u ∈ rq, t.ID ≤ u.ID := by
    intro rq hrq
    obtain ⟨i, t, h⟩ := scan_best_all_some (fun th b => decide (th.ID < b.ID)) rq hrq
    obtain ⟨hget, hmem, _⟩ := scan_best_start rq i t h
    have hmin := (scan_best_min (fun th => th.ID) (fun _ => True)
      (by intro a b _ _; simp) rq 0 none (by simp) (by simp) i t h).1
    exact ⟨i, t, h, hget, hmem, fun u hu => hmin u hu rfl⟩
  obtain ⟨i, t, h, hget, hmem, hmin⟩ := key args.run_queue hne
  refine ⟨i, t, ?_, hget, hmin, ?_, ?_⟩
  · simp [schedule_default, h]
  · simp [schedule_default, h]
  · intro args1 hperm
    have hne1 : args1.run_queue ≠ [] := by
      intro e
      rw [e] at hperm
      exact hne (List.Perm.nil_eq hperm).symm
    obtain ⟨i1, t1, h1, hget1, hmem1, hmin1⟩ := key args1.run_queue hne1
    have hmem1q : t1 ∈ args.run_queue := hperm.mem_iff.mp hmem1
    have hmemq1 : t ∈ args1.run_queue := hperm.mem_iff.mpr hmem
    have hid : t1.ID = t.ID := le_antisymm (hmin1 t hmemq1) (hmin t1 hmem1q)
    have heq : t1 = t := List.inj_on_of_nodup_map hnd hmem1q hmem hid
    subst heq
    refine ⟨?_, ?_⟩
    · simp only [schedule_default, scheduled_thread, h1]
      exact hget1
    · simp only [schedule_default, h1]

/-- C1 at the identities 3, 1, 2: the thread with ID 1 is named. -/
theorem schedule_default_smallest_id_witness :
    ex_default_args.run_queue ≠ [] ∧
    (ex_default_args.run_queue.map (fun th => th.ID)).Nodup ∧
    (schedule_default ex_default_args).scheduled_thread_list_member = some 1 ∧
    ∃ i t, (schedule_default ex_default_args).scheduled_thread_list_member = some i ∧
      ex_default_args.run_queue.get? i = some t ∧
      (∀ u ∈ ex_default_args.run_queue, t.ID ≤ u.ID) ∧
      (schedule_default ex_default_args).allocated_time = t.remaining_time ∧
      ∀ args1 : threads_sched_args, args1.run_queue.Perm ex_default_args.run_queue →
        scheduled_thread args1.run_queue (schedule_default args1) = some t ∧
        (schedule_default args1).allocated_time = t.remaining_time :=
  ⟨by decide, by decide, by decide,
    schedule_default_smallest_id ex_default_args (by decide) (by decide)⟩

/-! ## schedule_hrrn: highest response ratio -/

/-- The loop of `schedule_hrrn` keeps in `best_num`, `best_den` the values
computed from `best`, so it is the candidate pass with `hrrn_better`. -/
theorem hrrn_loop_best (ct : Int) (l : List thread) (k : Nat) (s : hrrn_state)
    (hs : ∀ j b, s.best = some (j, b) → s.best_num = hrrn_num ct b ∧ s.best_den = hrrn_den b) :
    (hrrn_loop ct l k s).best = scan_best (fun _ => true) (hrrn_better ct) l k s.best := by
  induction l generalizing k s with
  | nil => simp [hrrn_loop, scan_best]
  | cons th rest ih =>
    obtain ⟨best, bn, bd⟩ := s
    cases best with
    | none =>
      simp only [hrrn_loop, scan_best, if_true]
      rw [ih]
      intro j b e
      simp only [Option.some.injEq, Prod.mk.injEq] at e
      rw [← e.2]
      exact ⟨rfl, rfl⟩
    | some jb =>
      obtain ⟨j, b⟩ := jb
      obtain ⟨h1, h2⟩ := hs j b rfl
      simp only at h1 h2
      subst h1 h2
      simp only [hrrn_loop, scan_best, Bool.true_and, hrrn_better]
      split_ifs with hb
      · rw [ih]
        intro j1 b1 e1
        simp only [Option.some.injEq, Prod.mk.injEq] at e1
        rw [← e1.2]
        exact ⟨rfl, rfl⟩
      · rw [ih]
        intro j1 b1 e1
        simp only [Option.some.injEq, Prod.mk.injEq] at e1
        rw [← e1.2]
        exact ⟨rfl, rfl⟩

/-- Under `hrrn_ok` the numerator and the denominator are the exact values and
fit 32 bits, so the products of line 51 do not wrap. -/
theorem hrrn_num_den_exact (ct : Int) (x : thread) (h : hrrn_ok ct x) :
    (hrrn_num ct x : Int) = ct - x.arrival_time + x.processing_time ∧
    (hrrn_den x : Int) = x.processing_time ∧
    hrrn_num ct x < 4294967296 ∧ hrrn_den x < 4294967296 ∧ 0 < hrrn_den x := by
  obtain ⟨h1, h2, h3, h4⟩ := h
  simp only [INT_MAX] at h2 h4
  simp only [hrrn_num, hrrn_den, hrrn_wait, to_ulong, wrap_int, ULONG_MOD]
  omega

/-- Under `hrrn_ok` the test of line 51 compares the exact response ratios and
then the IDs. -/
theorem hrrn_better_iff (ct : Int) (a b : thread) (ha : hrrn_ok ct a) (hb : hrrn_ok ct b) :
    hrrn_better ct a b = true ↔
      toLex (-(response_ratio ct a), a.ID) < toLex (-(response_ratio ct b), b.ID) := by
  obtain ⟨na, da, la, lda, pa⟩ := hrrn_num_den_exact ct a ha
  obtain ⟨nb, db, lb, ldb, pb⟩ := hrrn_num_den_exact ct b hb
  have p1 : hrrn_num ct a * hrrn_den b < ULONG_MOD := by
    simp only [ULONG_MOD]; nlinarith
  have p2 : hrrn_num ct b * hrrn_den a < ULONG_MOD := by
    simp only [ULONG_MOD]; nlinarith
  have ra : response_ratio ct a = (hrrn_num ct a : ℚ) / (hrrn_den a : ℚ) := by
    simp only [response_ratio]
    rw [← na, ← da]
    simp
  have rb : response_ratio ct b = (hrrn_num ct b : ℚ) / (hrrn_den b : ℚ) := by
    simp only [response_ratio]
    rw [← nb, ← db]
    simp
  have qa : (0 : ℚ) < (hrrn_den a : ℚ) := by exact_mod_cast pa
  have qb : (0 : ℚ) < (hrrn_den b : ℚ) := by exact_mod_cast pb
  have hlt : response_ratio ct b < response_ratio ct a ↔
      hrrn_num ct b * hrrn_den a < hrrn_num ct a * hrrn_den b := by
    rw [ra, rb, div_lt_div_iff₀ qb qa]
    exact_mod_cast Iff.rfl
  have heq : response_ratio ct a = response_ratio ct b ↔
      hrrn_num ct a * hrrn_den b = hrrn_num ct b * hrrn_den a := by
    rw [ra, rb, div_eq_div_iff (ne_of_gt qa) (ne_of_gt qb)]
    exact_mod_cast Iff.rfl
  rw [Prod.Lex.lt_iff]
  simp only [hrrn_better, Nat.mod_eq_of_lt p1, Nat.mod_eq_of_lt p2, Bool.or_eq_true,
    Bool.and_eq_true, decide_eq_true_eq, neg_lt_neg_iff, neg_inj, gt_iff_lt]
  rw [hlt, heq]

/-- C2: on a non-empty run queue whose threads have a positive processing time
and arrived no later than the current time (`int` fields, the waiting time
fits an `int`, hence none of the `unsigned long` products wraps),
`schedule_hrrn` names a thread `t` of the queue such that every thread `u` of
the queue has a smaller exact response ratio, or the same ratio and an ID not
below that of `t`; the allocation is the `remaining_time` of `t`. -/
theorem schedule_hrrn_highest_ratio (args : threads_sched_args)
    (hne : args.run_queue ≠ [])
    (hok : ∀ x ∈ args.run_queue, hrrn_ok args.current_time x) :
    ∃ i t, (schedule_hrrn args).scheduled_thread_list_member = some i ∧
      args.run_queue.get? i = some t ∧
      (∀ u ∈ args.run_queue,
        response_ratio args.current_time t > response_ratio args.current_time u ∨
        (response_ratio args.current_time t = response_ratio args.current_time u ∧
          t.ID ≤ u.ID)) ∧
      (schedule_hrrn args).allocated_time = t.remaining_time := by
  have hloop := hrrn_loop_best args.current_time args.run_queue 0 ⟨none, 0, 1⟩ (by simp)
  obtain ⟨i, t, h⟩ := scan_best_all_some (hrrn_better args.current_time)
    args.run_queue hne
  simp only at hloop
  rw [h] at hloop
  obtain ⟨hget, hmem, _⟩ := scan_best_start args.run_queue i t h
  have hmin := (scan_best_min
    (fun th => toLex (-(response_ratio args.current_time th), th.ID))
    (hrrn_ok args.current_time)
    (fun a b ha hb => hrrn_better_iff args.current_time a b ha hb)
    args.run_queue 0 none hok (by simp) i t h).1
  refine ⟨i, t, ?_, hget, ?_, ?_⟩
  · simp only [schedule_hrrn, hloop]
  · intro u hu
    have hle := hmin u hu rfl
    rw [Prod.Lex.le_iff] at hle
    simp only [neg_lt_neg_iff, neg_inj] at hle
    rcases hle with h1 | ⟨h1, h2⟩
    · exact Or.inl h1
    · exact Or.inr ⟨h1, h2⟩
  · simp only [schedule_hrrn, hloop]

/-- C2 at A (arrival 0, processing time 4, ID 1) and B (arrival 2, processing
time 2, ID 2) at time 4: both ratios are 2 and A, queued second, is named. -/
theorem schedule_hrrn_highest_ratio_witness :
    ex_hrrn_args.run_queue ≠ [] ∧
    (∀ x ∈ ex_hrrn_args.run_queue, hrrn_ok ex_hrrn_args.current_time x) ∧
    (∀ x ∈ ex_hrrn_args.run_queue, response_ratio ex_hrrn_args.current_time x = 2) ∧
    (schedule_hrrn ex_hrrn_args).scheduled_thread_list_member = some 1 ∧
    ∃ i t, (schedule_hrrn ex_hrrn_args).scheduled_thread_list_member = some i ∧
      ex_hrrn_args.run_queue.get? i = some t ∧
      (∀ u ∈ ex_hrrn_args.run_queue,
        response_ratio ex_hrrn_args.current_time t > response_ratio ex_hrrn_args.current_time u ∨
        (response_ratio ex_hrrn_args.current_time t = response_ratio ex_hrrn_args.current_time u ∧
          t.ID ≤ u.ID)) ∧
      (schedule_hrrn ex_hrrn_args).allocated_time = t.remaining_time :=
  ⟨by decide, by decide, by simp [ex_hrrn_args, response_ratio]; norm_num, by decide,
    schedule_hrrn_highest_ratio ex_hrrn_args (by decide) (by decide)⟩

/-! ## schedule_priority_rr -/

/-- The first pass computes a lower bound of its start value and of every
priority of the queue. -/
theorem min_prio_loop_le (l : List thread) (m : Int) :
    min_prio_loop l m ≤ m ∧ ∀ u ∈ l, min_prio_loop l m ≤ u.priority := by
  induction l generalizing m with
  | nil => simp [min_prio_loop]
  | cons th rest ih =>
    simp only [min_prio_loop]
    split_ifs with h
    · obtain ⟨h1, h2⟩ := ih th.priority
      refine ⟨by omega, ?_⟩
      intro u hu
      rcases List.mem_cons.mp hu with rfl | hu
      · exact h1
      · exact h2 u hu
    · obtain ⟨h1, h2⟩ := ih m
      refine ⟨h1, ?_⟩
      intro u hu
      rcases List.mem_cons.mp hu with rfl | hu
      · omega
      · exact h2 u hu

/-- The value computed by the first pass is the start value or a priority of
the queue. -/
theorem min_prio_loop_attained (l : List thread) (m : Int) :
    min_prio_loop l m = m ∨ ∃ u ∈ l, u.priority = min_prio_loop l m := by
  induction l generalizing m with
  | nil => simp [min_prio_loop]
  | cons th rest ih =>
    simp only [min_prio_loop]
    split_ifs with h
    · rcases ih th.priority with h1 | ⟨u, hu, h1⟩
      · exact Or.inr ⟨th, List.mem_cons_self _ _, h1.symm⟩
      · exact Or.inr ⟨u, List.mem_cons_of_mem _ hu, h1⟩
    · rcases ih m with h1 | ⟨u, hu, h1⟩
      · exact Or.inl h1
      · exact Or.inr ⟨u, List.mem_cons_of_mem _ hu, h1⟩

/-- On a non-empty queue of `int` priorities the first pass computes the
minimum priority, attained by a thread of the queue. -/
theorem min_prio_loop_is_min (l : List thread) (hne : l ≠ [])
    (hint : ∀ u ∈ l, u.priority ≤ INT_MAX) :
    (∃ u ∈ l, u.priority = min_prio_loop l INT_MAX) ∧
    ∀ u ∈ l, min_prio_loop l INT_MAX ≤ u.priority := by
  obtain ⟨_, h2⟩ := min_prio_loop_le l INT_MAX
  refine ⟨?_, h2⟩
  rcases min_prio_loop_attained l INT_MAX with h | h
  · cases l with
    | nil => exact absurd rfl hne
    | cons a rest =>
      refine ⟨a, List.mem_cons_self _ _, ?_⟩
      have h3 := h2 a (List.mem_cons_self _ _)
      have h4 := hint a (List.mem_cons_self _ _)
      omega
  · exact h

/-- The second pass counts the threads whose priority is `min_prio`. -/
theorem grp_size_loop_eq (mp : Int) (l : List thread) (g : Int) :
    grp_size_loop mp l g = g + ((l.filter (fun u => decide (u.priority = mp))).length : Int) := by
  induction l generalizing g with
  | nil => simp [grp_size_loop]
  | cons th rest ih =>
    simp only [grp_size_loop]
    split_ifs with h
    · rw [ih, List.filter_cons_of_pos (by simpa using h)]
      simp only [List.length_cons, Nat.cast_add, Nat.cast_one]
      omega
    · rw [ih, List.filter_cons_of_neg (by simpa using h)]

/-- The third pass returns the first thread whose priority is `min_prio`, with
the allocation of lines 116-125. -/
theorem priority_rr_pick_first (mp g q : Int) (l : List thread) (k : Nat)
    (hex : ∃ u ∈ l, u.priority = mp) :
    ∃ i t, (priority_rr_pick mp g q l k).scheduled_thread_list_member = some (k + i) ∧
      l.get? i = some t ∧ t.priority = mp ∧
      (∀ j u, j < i → l.get? j = some u → u.priority ≠ mp) ∧
      (priority_rr_pick mp g q l k).allocated_time =
        (if g > 1 then (if t.remaining_time < q then t.remaining_time else q)
         else t.remaining_time) := by
  induction l generalizing k with
  | nil => simp at hex
  | cons th rest ih =>
    by_cases h : th.priority = mp
    · refine ⟨0, th, ?_, rfl, h, ?_, ?_⟩
      · simp [priority_rr_pick, h]
      · intro j u hj; omega
      · simp [priority_rr_pick, h]
    · have hex1 : ∃ u ∈ rest, u.priority = mp := by
        obtain ⟨u, hu, hp⟩ := hex
        rcases List.mem_cons.mp hu with rfl | hu
        · exact absurd hp h
        · exact ⟨u, hu, hp⟩
      obtain ⟨i, t, h1, h2, h3, h4, h5⟩ := ih (k + 1) hex1
      refine ⟨i + 1, t, ?_, ?_, h3, ?_, ?_⟩
      · simp only [priority_rr_pick, h, if_false, h1]
        congr 1; omega
      · simpa using h2
      · intro j u hj hget
        cases j with
        | zero =>
          simp only [List.get?_cons_zero, Option.some.injEq] at hget
          rw [← hget]; exact h
        | succ j1 =>
          simp only [List.get?_cons_succ] at hget
          exact h4 j1 u (by omega) hget
      · simp only [priority_rr_pick, h, if_false, h5]

/-- The decision of `schedule_priority_rr` on a non-empty queue of `int`
priorities: the first thread in queue order among those with the minimum
priority, and the allocation by the size of that group. -/
theorem priority_rr_decision (args : threads_sched_args) (hne : args.run_queue ≠ [])
    (hint : ∀ u ∈ args.run_queue, u.priority ≤ INT_MAX) :
    ∃ i t, (schedule_priority_rr args).scheduled_thread_list_member = some i ∧
      args.run_queue.get? i = some t ∧
      (∀ u ∈ args.run_queue, t.priority ≤ u.priority) ∧
      (∀ j u, j < i → args.run_queue.get? j = some u → u.priority ≠ t.priority) ∧
      (schedule_priority_rr args).allocated_time =
        (if 2 ≤ (tied_group args.run_queue).length then min t.remaining_time args.time_quantum
         else t.remaining_time) := by
  obtain ⟨hatt, hmin⟩ := min_prio_loop_is_min args.run_queue hne hint
  obtain ⟨i, t, h1, h2, h3, h4, h5⟩ := priority_rr_pick_first
    (min_prio_loop args.run_queue INT_MAX)
    (grp_size_loop (min_prio_loop args.run_queue INT_MAX) args.run_queue 0)
    args.time_quantum args.run_queue 0 hatt
  have hgrp : tied_group args.run_queue =
      args.run_queue.filter
        (fun u => decide (u.priority = min_prio_loop args.run_queue INT_MAX)) := by
    unfold tied_group
    apply List.filter_congr
    intro u hu
    simp only [decide_eq_decide]
    constructor
    · intro hall
      obtain ⟨w, hw, hwp⟩ := hatt
      have := hall w hw
      have := hmin u hu
      omega
    · intro he v hv
      rw [he]
      exact hmin v hv
  refine ⟨i, t, ?_, h2, ?_, ?_, ?_⟩
  · simpa [schedule_priority_rr] using h1
  · intro u hu
    rw [h3]
    exact hmin u hu
  · intro j u hj hget
    rw [h3]
    exact h4 j u hj hget
  · simp only [schedule_priority_rr]
    rw [h5, grp_size_loop_eq, hgrp]
    by_cases hc : 2 ≤ (List.filter (fun u => decide (u.priority = min_prio_loop args.run_queue INT_MAX))
        args.run_queue).length
    · have hc1 : (0 : Int) + ((List.filter
          (fun u => decide (u.priority = min_prio_loop args.run_queue INT_MAX))
          args.run_queue).length : Int) > 1 := by omega
      rw [if_pos hc1, if_pos hc]
      by_cases hq : t.remaining_time < args.time_quantum
      · rw [if_pos hq, min_eq_left (le_of_lt hq)]
      · rw [if_neg hq, min_eq_right (not_lt.mp hq)]
    · have hc1 : ¬ ((0 : Int) + ((List.filter
          (fun u => decide (u.priority = min_prio_loop args.run_queue INT_MAX))
          args.run_queue).length : Int) > 1) := by omega
      rw [if_neg hc1, if_neg hc]

/-- C3: on a non-empty run queue (of `int` priorities) `schedule_priority_rr`
names a thread that has the minimum priority value of the queue and that no
thread of the same priority precedes in queue order. -/
theorem schedule_priority_rr_first_of_min (args : threads_sched_args)
    (hne : args.run_queue ≠ [])
    (hint : ∀ u ∈ args.run_queue, u.priority ≤ INT_MAX) :
    ∃ i t, (schedule_priority_rr args).scheduled_thread_list_member = some i ∧
      args.run_queue.get? i = some t ∧
      (∀ u ∈ args.run_queue, t.priority ≤ u.priority) ∧
      (∀ j u, j < i → args.run_queue.get? j = some u → u.priority ≠ t.priority) := by
  obtain ⟨i, t, h1, h2, h3, h4, _⟩ := priority_rr_decision args hne hint
  exact ⟨i, t, h1, h2, h3, h4⟩

/-- C3 on a queue with priorities 4, 1, 1: the thread at position 1 is named. -/
theorem schedule_priority_rr_first_of_min_witness :
    ex_prio_args.run_queue ≠ [] ∧
    (∀ u ∈ ex_prio_args.run_queue, u.priority ≤ INT_MAX) ∧
    (schedule_priority_rr ex_prio_args).scheduled_thread_list_member = some 1 ∧
    ∃ i t, (schedule_priority_rr ex_prio_args).scheduled_thread_list_member = some i ∧
      ex_prio_args.run_queue.get? i = some t ∧
      (∀ u ∈ ex_prio_args.run_queue, t.priority ≤ u.priority) ∧
      (∀ j u, j < i → ex_prio_args.run_queue.get? j = some u → u.priority ≠ t.priority) :=
  ⟨by decide, by decide, by decide,
    schedule_priority_rr_first_of_min ex_prio_args (by decide) (by decide)⟩

/-- The first entry that satisfies `p` is the head of the filtered list. -/
theorem filter_head_of_first (p : thread → Bool) (l : List thread) (i : Nat) (t : thread)
    (hget : l.get? i = some t) (hp : p t = true)
    (hfirst : ∀ j u, j < i → l.get? j = some u → p u = false) :
    (l.filter p).head? = some t := by
  induction l generalizing i with
  | nil => simp at hget
  | cons a rest ih =>
    cases i with
    | zero =>
      simp only [List.get?_cons_zero, Option.some.injEq] at hget
      subst hget
      simp [List.filter_cons_of_pos hp]
    | succ i1 =>
      have ha : p a = false := hfirst 0 a (by omega) rfl
      rw [List.filter_cons_of_neg (by simp [ha])]
      apply ih i1 (by simpa using hget)
      intro j u hj hu
      exact hfirst (j + 1) u (by omega) (by simpa using hu)

/-- C4: on a non-empty run queue (of `int` priorities) the thread named by
`schedule_priority_rr` belongs to the group of threads with the minimum
priority; when that group has two or more threads the allocation is
`min (remaining_time, time_quantum)`, and when the named thread is the only
one of the group the allocation is its `remaining_time`. -/
theorem schedule_priority_rr_allocation (args : threads_sched_args)
    (hne : args.run_queue ≠ [])
    (hint : ∀ u ∈ args.run_queue, u.priority ≤ INT_MAX) :
    ∃ i t, (schedule_priority_rr args).scheduled_thread_list_member = some i ∧
      args.run_queue.get? i = some t ∧
      t ∈ tied_group args.run_queue ∧
      (2 ≤ (tied_group args.run_queue).length →
        (schedule_priority_rr args).allocated_time = min t.remaining_time args.time_quantum) ∧
      (tied_group args.run_queue = [t] →
        (schedule_priority_rr args).allocated_time = t.remaining_time) := by
  obtain ⟨i, t, h1, h2, h3, _, h5⟩ := priority_rr_decision args hne hint
  refine ⟨i, t, h1, h2, ?_, ?_, ?_⟩
  · unfold tied_group
    rw [List.mem_filter]
    exact ⟨List.get?_mem h2, by simpa using h3⟩
  · intro h
    rw [h5, if_pos h]
  · intro h
    rw [h5, h]
    simp

/-- C4 at quantum 2: a tied group of two threads, the first with remaining time
5, gets 2; a thread alone at the minimum priority with remaining time 9 gets 9. -/
theorem schedule_priority_rr_allocation_witness :
    (ex_prio_args.run_queue ≠ [] ∧
      (∀ u ∈ ex_prio_args.run_queue, u.priority ≤ INT_MAX) ∧
      2 ≤ (tied_group ex_prio_args.run_queue).length ∧
      (schedule_priority_rr ex_prio_args).allocated_time = 2 ∧
      ∃ i t, (schedule_priority_rr ex_prio_args).scheduled_thread_list_member = some i ∧
        ex_prio_args.run_queue.get? i = some t ∧
        t ∈ tied_group ex_prio_args.run_queue ∧
        (2 ≤ (tied_group ex_prio_args.run_queue).length →
          (schedule_priority_rr ex_prio_args).allocated_time =
            min t.remaining_time ex_prio_args.time_quantum) ∧
        (tied_group ex_prio_args.run_queue = [t] →
          (schedule_priority_rr ex_prio_args).allocated_time = t.remaining_time)) ∧
    (ex_prio_single_args.run_queue ≠ [] ∧
      (∀ u ∈ ex_prio_single_args.run_queue, u.priority ≤ INT_MAX) ∧
      (tied_group ex_prio_single_args.run_queue).length = 1 ∧
      (schedule_priority_rr ex_prio_single_args).allocated_time = 9 ∧
      ∃ i t, (schedule_priority_rr ex_prio_single_args).scheduled_thread_list_member = some i ∧
        ex_prio_single_args.run_queue.get? i = some t ∧
        t ∈ tied_group ex_prio_single_args.run_queue ∧
        (2 ≤ (tied_group ex_prio_single_args.run_queue).length →
          (schedule_priority_rr ex_prio_single_args).allocated_time =
            min t.remaining_time ex_prio_single_args.time_quantum) ∧
        (tied_group ex_prio_single_args.run_queue = [t] →
          (schedule_priority_rr ex_prio_single_args).allocated_time = t.remaining_time)) :=
  ⟨⟨by decide, by decide, by decide, by decide,
      schedule_priority_rr_allocation ex_prio_args (by decide) (by decide)⟩,
    ⟨by decide, by decide, by decide, by decide,
      schedule_priority_rr_allocation ex_prio_single_args (by decide) (by decide)⟩⟩

/-- C5 fails as stated: with two threads of priority 1 queued as ID 2, ID 1 the
tied group has two members, the decision names the thread with ID 2, and the
group holds a thread with a smaller ID. -/
theorem schedule_priority_rr_smallest_id_counterexample :
    2 ≤ (tied_group ex_prio_rotated_args.run_queue).length ∧
    ∃ t, scheduled_thread ex_prio_rotated_args.run_queue
        (schedule_priority_rr ex_prio_rotated_args) = some t ∧
      t.ID = 2 ∧
      ¬ (∀ u ∈ tied_group ex_prio_rotated_args.run_queue, t.ID ≤ u.ID) :=
  ⟨by decide,
    { ID := 2, remaining_time := 3, processing_time := 3, arrival_time := 0, priority := 1,
      period := 0, deadline := 0, current_deadline := 0, cbs := ⟨0, 0, 0, 0⟩ },
    by decide, by decide, by decide⟩

/-- C5, amended: when two or more threads share the minimum priority (`int`
priorities), `schedule_priority_rr` names the member of that tied group that
comes first in queue order, which has the smallest ID of the group when the
group is queued in increasing ID order, and allocates it
`min (remaining_time, time_quantum)`. -/
theorem schedule_priority_rr_tied_group (args : threads_sched_args)
    (hint : ∀ u ∈ args.run_queue, u.priority ≤ INT_MAX)
    (htie : 2 ≤ (tied_group args.run_queue).length) :
    ∃ i t, (schedule_priority_rr args).scheduled_thread_list_member = some i ∧
      args.run_queue.get? i = some t ∧
      (tied_group args.run_queue).head? = some t ∧
      ((tied_group args.run_queue).Pairwise (fun a b => a.ID ≤ b.ID) →
        ∀ u ∈ tied_group args.run_queue, t.ID ≤ u.ID) ∧
      (schedule_priority_rr args).allocated_time = min t.remaining_time args.time_quantum := by
  have hne : args.run_queue ≠ [] := by
    intro e
    rw [e] at htie
    simp [tied_group] at htie
  obtain ⟨i, t, h1, h2, h3, h4, h5⟩ := priority_rr_decision args hne hint
  have hhead : (tied_group args.run_queue).head? = some t := by
    unfold tied_group
    apply filter_head_of_first _ _ i t h2
    · simpa using h3
    · intro j u hj hu
      have hne := h4 j u hj hu
      have hle := h3 u (List.get?_mem hu)
      simp only [decide_eq_false_iff_not, not_forall]
      refine ⟨t, List.get?_mem h2, ?_⟩
      omega
  refine ⟨i, t, h1, h2, hhead, ?_, ?_⟩
  · intro hpw u hu
    cases hg : tied_group args.run_queue with
    | nil => rw [hg] at hu; simp at hu
    | cons a rest =>
      rw [hg] at hhead hpw hu
      simp only [List.head?_cons, Option.some.injEq] at hhead
      subst hhead
      rcases List.mem_cons.mp hu with rfl | hu
      · exact le_refl _
      · exact (List.pairwise_cons.mp hpw).1 u hu
  · rw [h5, if_pos htie]

/-- C5, amended, at two threads of priority 1 with remaining times 5 and 3
queued in ID order and quantum 2: the thread with ID 1 is named for 2 units. -/
theorem schedule_priority_rr_tied_group_witness :
    (∀ u ∈ ex_prio_args.run_queue, u.priority ≤ INT_MAX) ∧
    2 ≤ (tied_group ex_prio_args.run_queue).length ∧
    (schedule_priority_rr ex_prio_args).scheduled_thread_list_member = some 1 ∧
    (schedule_priority_rr ex_prio_args).allocated_time = 2 ∧
    ∃ i t, (schedule_priority_rr ex_prio_args).scheduled_thread_list_member = some i ∧
      ex_prio_args.run_queue.get? i = some t ∧
      (tied_group ex_prio_args.run_queue).head? = some t ∧
      ((tied_group ex_prio_args.run_queue).Pairwise (fun a b => a.ID ≤ b.ID) →
        ∀ u ∈ tied_group ex_prio_args.run_queue, t.ID ≤ u.ID) ∧
      (schedule_priority_rr ex_prio_args).allocated_time =
        min t.remaining_time ex_prio_args.time_quantum :=
  ⟨by decide, by decide, by decide, by decide,
    schedule_priority_rr_tied_group ex_prio_args (by decide) (by decide)⟩

/-! ## Deadline miss and schedule_dm -/

/-- Two passes over queues related entry by entry, by a relation that `keep`
and `better` respect, end with no candidate or with candidates at the same
position that are related. -/
theorem scan_best_rel (keep : thread → Bool) (better : thread → thread → Bool)
    (R : thread → thread → Prop)
    (hk : ∀ a b, R a b → keep a = keep b)
    (hb : ∀ a b a1 b1, R a b → R a1 b1 → better a a1 = better b b1)
    (l1 l2 : List thread) (hl : List.Forall₂ R l1 l2) (k : Nat)
    (c1 c2 : Option (Nat × thread))
    (hc : (c1 = none ∧ c2 = none) ∨ ∃ j a b, c1 = some (j, a) ∧ c2 = some (j, b) ∧ R a b) :
    (scan_best keep better l1 k c1 = none ∧ scan_best keep better l2 k c2 = none) ∨
    ∃ j a b, scan_best keep better l1 k c1 = some (j, a) ∧
      scan_best keep better l2 k c2 = some (j, b) ∧ R a b := by
  induction hl generalizing k c1 c2 with
  | nil => simpa [scan_best] using hc
  | @cons x y r1 r2 hxy _ ih =>
    rcases hc with ⟨rfl, rfl⟩ | ⟨j, a, b, rfl, rfl, hab⟩
    · simp only [scan_best, ← hk x y hxy]
      split_ifs with h
      · exact ih (k + 1) _ _ (Or.inr ⟨k, x, y, rfl, rfl, hxy⟩)
      · exact ih (k + 1) _ _ (Or.inl ⟨rfl, rfl⟩)
    · simp only [scan_best, ← hk x y hxy, ← hb x y a b hxy hab]
      split_ifs with h
      · exact ih (k + 1) _ _ (Or.inr ⟨k, x, y, rfl, rfl, hxy⟩)
      · exact ih (k + 1) _ _ (Or.inr ⟨j, a, b, rfl, rfl, hab⟩)

/-- The deadline-miss check finds nothing exactly when every deadline is ahead. -/
theorem check_deadline_miss_none (rq : List thread) (ct : Int) :
    __check_deadline_miss rq ct = none ↔ ∀ x ∈ rq, ct < x.current_deadline := by
  unfold __check_deadline_miss
  rw [scan_best_eq_none_iff]
  simp

/-- C6: when some run-queue thread has `current_deadline <= current_time`,
`schedule_dm` returns a fault: `allocated_time = 0`, and the named thread has
missed its deadline and has the smallest ID among the threads that missed
theirs.  The decision is the same for every call at the same current time on
a run queue with the same IDs and current deadlines position by position,
whatever the release queue, the periods and the remaining times. -/
theorem schedule_dm_fault (args : threads_sched_args)
    (hmiss : ∃ x ∈ args.run_queue, x.current_deadline ≤ args.current_time) :
    ∃ i t, schedule_dm args = { scheduled_thread_list_member := some i, allocated_time := 0 } ∧
      args.run_queue.get? i = some t ∧
      t.current_deadline ≤ args.current_time ∧
      (∀ u ∈ args.run_queue, u.current_deadline ≤ args.current_time → t.ID ≤ u.ID) ∧
      ∀ args1 : threads_sched_args, args1.current_time = args.current_time →
        List.Forall₂ same_id_deadline args1.run_queue args.run_queue →
        schedule_dm args1 = schedule_dm args := by
  cases hres : __check_deadline_miss args.run_queue args.current_time with
  | none =>
    rw [check_deadline_miss_none] at hres
    obtain ⟨x, hx, hd⟩ := hmiss
    have := hres x hx
    omega
  | some it =>
    obtain ⟨i, t⟩ := it
    have hres1 := hres
    unfold __check_deadline_miss at hres1
    obtain ⟨hget, _, hkeep⟩ := scan_best_start args.run_queue i t hres1
    have hmin := (scan_best_min (fun th => th.ID) (fun _ => True)
      (by intro a b _ _; simp) args.run_queue 0 none (by simp) (by simp) i t hres1).1
    have hdm : schedule_dm args =
        { scheduled_thread_list_member := some i, allocated_time := 0 } := by
      simp only [schedule_dm, hres]
    refine ⟨i, t, hdm, hget, by simpa using hkeep, ?_, ?_⟩
    · intro u hu hd
      exact hmin u hu (by simpa using hd)
    · intro args1 hct hrel
      have hscan := scan_best_rel
        (fun th => decide (th.current_deadline ≤ args.current_time))
        (fun th b => decide (th.ID < b.ID))
        same_id_deadline
        (by intro a b h; simp only [same_id_deadline] at h; simp [h.2])
        (by intro a b a1 b1 h h1; simp only [same_id_deadline] at h h1; simp [h.1, h1.1])
        args1.run_queue args.run_queue hrel 0 none none (Or.inl ⟨rfl, rfl⟩)
      rcases hscan with ⟨_, h2⟩ | ⟨j, a, b, h1, h2, _⟩
      · rw [hres1] at h2
        simp at h2
      · rw [hres1] at h2
        simp only [Option.some.injEq, Prod.mk.injEq] at h2
        rw [hdm]
        simp only [schedule_dm, __check_deadline_miss, hct, h1, h2.1]

/-- C6 at time 10 with a thread of period 10, deadline 10 and work left, queued
second: it is returned with `allocated_time = 0`. -/
theorem schedule_dm_fault_witness :
    (∃ x ∈ ex_dm_fault_args.run_queue, x.current_deadline ≤ ex_dm_fault_args.current_time) ∧
    schedule_dm ex_dm_fault_args =
      { scheduled_thread_list_member := some 1, allocated_time := 0 } ∧
    ∃ i t, schedule_dm ex_dm_fault_args =
        { scheduled_thread_list_member := some i, allocated_time := 0 } ∧
      ex_dm_fault_args.run_queue.get? i = some t ∧
      t.current_deadline ≤ ex_dm_fault_args.current_time ∧
      (∀ u ∈ ex_dm_fault_args.run_queue,
        u.current_deadline ≤ ex_dm_fault_args.current_time → t.ID ≤ u.ID) ∧
      ∀ args1 : threads_sched_args, args1.current_time = ex_dm_fault_args.current_time →
        List.Forall₂ same_id_deadline args1.run_queue ex_dm_fault_args.run_queue →
        schedule_dm args1 = schedule_dm ex_dm_fault_args :=
  ⟨by decide, by decide, schedule_dm_fault ex_dm_fault_args (by decide)⟩

/-- The comparison of `__dm_thread_cmp` is the lexicographic order on
(period, ID). -/
theorem dm_thread_cmp_lt_iff (a b : thread) :
    decide (__dm_thread_cmp a b < 0) = true ↔
      toLex (a.period, a.ID) < toLex (b.period, b.ID) := by
  rw [Prod.Lex.lt_iff]
  simp only [__dm_thread_cmp, decide_eq_true_eq]
  split_ifs <;> omega

/-- The decision of `schedule_dm` when no deadline is missed and the queue is
not empty: the thread that is least for (period, ID), with the allocation of
lines 212-230. -/
theorem schedule_dm_normal (args : threads_sched_args)
    (hne : args.run_queue ≠ [])
    (hno : ∀ x ∈ args.run_queue, args.current_time < x.current_deadline) :
    ∃ i b, args.run_queue.get? i = some b ∧
      (∀ u ∈ args.run_queue, toLex (b.period, b.ID) ≤ toLex (u.period, u.ID)) ∧
      schedule_dm args =
        { scheduled_thread_list_member := some i
          allocated_time :=
            if wrap_int (args.current_time +
                dm_allocated (next_release_loop args.current_time args.release_queue INT_MAX)
                  args.current_time b) > b.current_deadline then 1
            else dm_allocated (next_release_loop args.current_time args.release_queue INT_MAX)
                  args.current_time b } := by
  obtain ⟨i, b, h⟩ := scan_best_all_some (fun th b => decide (__dm_thread_cmp th b < 0))
    args.run_queue hne
  obtain ⟨hget, _, _⟩ := scan_best_start args.run_queue i b h
  have hmin := (scan_best_min (fun th => toLex (th.period, th.ID)) (fun _ => True)
    (fun a b _ _ => dm_thread_cmp_lt_iff a b) args.run_queue 0 none (by simp) (by simp) i b h).1
  have hmiss := (check_deadline_miss_none args.run_queue args.current_time).mpr hno
  have hemp : args.run_queue.isEmpty = false := by
    cases hq : args.run_queue with
    | nil => exact absurd hq hne
    | cons _ _ => rfl
  refine ⟨i, b, hget, fun u hu => hmin u hu rfl, ?_⟩
  simp only [schedule_dm, hmiss, hemp, h]
  split_ifs <;> simp_all

/-- C7: on a non-empty run queue in which no thread has
`current_deadline <= current_time`, `schedule_dm` names a thread of the queue
with the smallest period and, among the threads with that period, the smallest
ID; on every reordering of the queue the named thread has the same period and
the same ID. -/
theorem schedule_dm_smallest_period (args : threads_sched_args)
    (hne : args.run_queue ≠ [])
    (hno : ∀ x ∈ args.run_queue, args.current_time < x.current_deadline) :
    ∃ i t, (schedule_dm args).scheduled_thread_list_member = some i ∧
      args.run_queue.get? i = some t ∧
      (∀ u ∈ args.run_queue, t.period < u.period ∨ (t.period = u.period ∧ t.ID ≤ u.ID)) ∧
      ∀ args1 : threads_sched_args, args1.current_time = args.current_time →
        args1.run_queue.Perm args.run_queue →
        ∃ i1 t1, (schedule_dm args1).scheduled_thread_list_member = some i1 ∧
          args1.run_queue.get? i1 = some t1 ∧ t1.period = t.period ∧ t1.ID = t.ID := by
  obtain ⟨i, t, hget, hmin, hdm⟩ := schedule_dm_normal args hne hno
  refine ⟨i, t, by rw [hdm], hget, ?_, ?_⟩
  · intro u hu
    have h := hmin u hu
    rw [Prod.Lex.le_iff] at h
    exact h
  · intro args1 hct hperm
    have hne1 : args1.run_queue ≠ [] := by
      intro e
      rw [e] at hperm
      exact hne (List.Perm.nil_eq hperm).symm
    have hno1 : ∀ x ∈ args1.run_queue, args1.current_time < x.current_deadline := by
      intro x hx
      rw [hct]
      exact hno x (hperm.mem_iff.mp hx)
    obtain ⟨i1, t1, hget1, hmin1, hdm1⟩ := schedule_dm_normal args1 hne1 hno1
    have h1 := hmin1 t (hperm.mem_iff.mpr (List.get?_mem hget))
    have h2 := hmin t1 (hperm.mem_iff.mp (List.get?_mem hget1))
    have heq := le_antisymm h1 h2
    simp only [EmbeddingLike.apply_eq_iff_eq, Prod.mk.injEq] at heq
    exact ⟨i1, t1, by rw [hdm1], hget1, heq.1, heq.2⟩

/-- C7 at periods 20, 10, 10 with IDs 1, 3, 2: the thread at position 2 (period
10, ID 2) is named. -/
theorem schedule_dm_smallest_period_witness :
    ex_dm_args.run_queue ≠ [] ∧
    (∀ x ∈ ex_dm_args.run_queue, ex_dm_args.current_time < x.current_deadline) ∧
    (schedule_dm ex_dm_args).scheduled_thread_list_member = some 2 ∧
    ∃ i t, (schedule_dm ex_dm_args).scheduled_thread_list_member = some i ∧
      ex_dm_args.run_queue.get? i = some t ∧
      (∀ u ∈ ex_dm_args.run_queue,
        t.period < u.period ∨ (t.period = u.period ∧ t.ID ≤ u.ID)) ∧
      ∀ args1 : threads_sched_args, args1.current_time = ex_dm_args.current_time →
        args1.run_queue.Perm ex_dm_args.run_queue →
        ∃ i1 t1, (schedule_dm args1).scheduled_thread_list_member = some i1 ∧
          args1.run_queue.get? i1 = some t1 ∧ t1.period = t.period ∧ t1.ID = t.ID :=
  ⟨by decide, by decide, by decide, schedule_dm_smallest_period ex_dm_args (by decide) (by decide)⟩

/-- An `int` operation whose exact value fits an `int` yields that value. -/
theorem wrap_int_of_is_int (x : Int) (h : is_int x) : wrap_int x = x := by
  simp only [is_int, INT_MIN, INT_MAX] at h
  simp only [wrap_int]
  omega

/-- The release-queue pass ends with a value not above its start value, that is
the start value or a release time after `current_time`, and not above any
release time after `current_time`. -/
theorem next_release_loop_spec (ct : Int) (rel : List release_queue_entry) (m : Int) :
    next_release_loop ct rel m ≤ m ∧
    (next_release_loop ct rel m = m ∨
      ∃ e ∈ rel, e.release_time = next_release_loop ct rel m ∧ ct < e.release_time) ∧
    ∀ e ∈ rel, ct < e.release_time → next_release_loop ct rel m ≤ e.release_time := by
  induction rel generalizing m with
  | nil => simp [next_release_loop]
  | cons a rest ih =>
    simp only [next_release_loop]
    split_ifs with h
    · obtain ⟨h1, h2, h3⟩ := ih a.release_time
      refine ⟨by omega, ?_, ?_⟩
      · right
        rcases h2 with h2 | ⟨e, he, h2, h4⟩
        · exact ⟨a, List.mem_cons_self _ _, h2.symm, h.1⟩
        · exact ⟨e, List.mem_cons_of_mem _ he, h2, h4⟩
      · intro e he hlt
        rcases List.mem_cons.mp he with rfl | he
        · exact h1
        · exact h3 e he hlt
    · obtain ⟨h1, h2, h3⟩ := ih m
      refine ⟨h1, ?_, ?_⟩
      · rcases h2 with h2 | ⟨e, he, h2, h4⟩
        · exact Or.inl h2
        · exact Or.inr ⟨e, List.mem_cons_of_mem _ he, h2, h4⟩
      · intro e he hlt
        rcases List.mem_cons.mp he with rfl | he
        · omega
        · exact h3 e he hlt

/-- When the smallest release time after `current_time` is below `INT_MAX`, the
pass started at `INT_MAX` finds it. -/
theorem next_release_loop_eq (ct : Int) (rel : List release_queue_entry) (R : Int)
    (hR : is_next_release rel ct R) (hlt : R < INT_MAX) :
    next_release_loop ct rel INT_MAX = R := by
  obtain ⟨⟨e, he, heR⟩, hct, hmin⟩ := hR
  obtain ⟨_, h2, h3⟩ := next_release_loop_spec ct rel INT_MAX
  have hle := h3 e he (by omega)
  rcases h2 with h2 | ⟨e1, he1, h2, h4⟩
  · omega
  · have := hmin e1 he1 h4
    omega

/-- When no release time lies strictly between `current_time` and `INT_MAX`,
the pass started at `INT_MAX` ends with `INT_MAX`. -/
theorem next_release_loop_none (ct : Int) (rel : List release_queue_entry)
    (hnone : ∀ e ∈ rel, ¬ (ct < e.release_time ∧ e.release_time < INT_MAX)) :
    next_release_loop ct rel INT_MAX = INT_MAX := by
  obtain ⟨h1, h2, _⟩ := next_release_loop_spec ct rel INT_MAX
  rcases h2 with h2 | ⟨e, he, h2, h4⟩
  · exact h2
  · have := hnone e he
    omega

/-- The decision of `schedule_dm` for a named thread `b` when no deadline is
missed. -/
theorem schedule_dm_named (args : threads_sched_args) (i : Nat) (b : thread)
    (hno : ∀ x ∈ args.run_queue, args.current_time < x.current_deadline)
    (hsel : (schedule_dm args).scheduled_thread_list_member = some i)
    (hb : args.run_queue.get? i = some b) :
    (schedule_dm args).allocated_time =
      if wrap_int (args.current_time +
          dm_allocated (next_release_loop args.current_time args.release_queue INT_MAX)
            args.current_time b) > b.current_deadline then 1
      else dm_allocated (next_release_loop args.current_time args.release_queue INT_MAX)
            args.current_time b := by
  have hne : args.run_queue ≠ [] := by
    intro e
    rw [e] at hb
    simp at hb
  obtain ⟨i1, b1, hget, _, hdm⟩ := schedule_dm_normal args hne hno
  rw [hdm] at hsel
  simp only [Option.some.injEq] at hsel
  subst hsel
  rw [hb] at hget
  simp only [Option.some.injEq] at hget
  subst hget
  rw [hdm]

/-- C8: for a non-fault decision of `schedule_dm` that names thread `b` (`int`
release times, no overflow in the two `int` operations of the code), with
`a = min (b.remaining_time, R - current_time)` where `R` is the smallest
release time after `current_time`, or `a = b.remaining_time` when there is no
such release, `allocated_time` is 1 if `current_time + a > b.current_deadline`
and `a` otherwise. -/
theorem schedule_dm_allocation (args : threads_sched_args) (i : Nat) (b : thread)
    (hno : ∀ x ∈ args.run_queue, args.current_time < x.current_deadline)
    (hsel : (schedule_dm args).scheduled_thread_list_member = some i)
    (hb : args.run_queue.get? i = some b)
    (hint : ∀ e ∈ args.release_queue, e.release_time ≤ INT_MAX)
    (hov : dm_no_overflow args b) :
    (∀ R, is_next_release args.release_queue args.current_time R →
      (schedule_dm args).allocated_time =
        if args.current_time + min b.remaining_time (R - args.current_time) > b.current_deadline
        then 1 else min b.remaining_time (R - args.current_time)) ∧
    ((∀ e ∈ args.release_queue, e.release_time ≤ args.current_time) →
      (schedule_dm args).allocated_time =
        if args.current_time + b.remaining_time > b.current_deadline
        then 1 else b.remaining_time) := by
  have halloc := schedule_dm_named args i b hno hsel hb
  obtain ⟨hov1, hov2⟩ := hov
  rw [wrap_int_of_is_int _ hov2] at halloc
  constructor
  · intro R hR
    have hRmax : R ≤ INT_MAX := by
      obtain ⟨⟨e, he, heR⟩, _, _⟩ := hR
      rw [← heR]
      exact hint e he
    have key : dm_allocated (next_release_loop args.current_time args.release_queue INT_MAX)
        args.current_time b = min b.remaining_time (R - args.current_time) := by
      by_cases hlt : R < INT_MAX
      · have hnr := next_release_loop_eq args.current_time args.release_queue R hR hlt
        rw [hnr] at hov1 ⊢
        have hne : R ≠ INT_MAX := by omega
        simp only [dm_allocated, if_pos hne, wrap_int_of_is_int _ (hov1 hne)]
        split_ifs with h
        · rw [min_eq_right (by omega)]
        · rw [min_eq_left (by omega)]
      · have hReq : R = INT_MAX := by omega
        have hnr : next_release_loop args.current_time args.release_queue INT_MAX = INT_MAX := by
          obtain ⟨h1, h2, _⟩ := next_release_loop_spec args.current_time args.release_queue INT_MAX
          rcases h2 with h2 | ⟨e1, he1, h2, h4⟩
          · exact h2
          · have := hR.2.2 e1 he1 h4
            omega
        rw [hnr] at hov2 ⊢
        simp only [dm_allocated, ne_eq, not_true_eq_false, if_false] at hov2 ⊢
        have := hov2.2
        rw [min_eq_left (by omega)]
    rw [halloc, key]
  · intro hnone
    have hnr := next_release_loop_none args.current_time args.release_queue
      (by intro e he h; have := hnone e he; omega)
    rw [hnr] at halloc
    simpa [dm_allocated] using halloc

/-- C8 at period 10, deadline 10, remaining time 12 and time 0: with an empty
release queue the allocation is 1 (0 + 12 > 10); with releases at 25 and 7
it is 7 (`a = min (12, 7)` and 0 + 7 <= 10). -/
theorem schedule_dm_allocation_witness :
    ((∀ x ∈ ex_dm_degraded_args.run_queue,
        ex_dm_degraded_args.current_time < x.current_deadline) ∧
      (schedule_dm ex_dm_degraded_args).scheduled_thread_list_member = some 0 ∧
      ex_dm_degraded_args.run_queue.get? 0 = some ex_dm_thread ∧
      (∀ e ∈ ex_dm_degraded_args.release_queue, e.release_time ≤ INT_MAX) ∧
      dm_no_overflow ex_dm_degraded_args ex_dm_thread ∧
      (schedule_dm ex_dm_degraded_args).allocated_time = 1 ∧
      (∀ R, is_next_release ex_dm_degraded_args.release_queue
          ex_dm_degraded_args.current_time R →
        (schedule_dm ex_dm_degraded_args).allocated_time =
          if ex_dm_degraded_args.current_time +
              min ex_dm_thread.remaining_time (R - ex_dm_degraded_args.current_time) >
              ex_dm_thread.current_deadline
          then 1 else min ex_dm_thread.remaining_time (R - ex_dm_degraded_args.current_time)) ∧
      ((∀ e ∈ ex_dm_degraded_args.release_queue,
          e.release_time ≤ ex_dm_degraded_args.current_time) →
        (schedule_dm ex_dm_degraded_args).allocated_time =
          if ex_dm_degraded_args.current_time + ex_dm_thread.remaining_time >
              ex_dm_thread.current_deadline
          then 1 else ex_dm_thread.remaining_time)) ∧
    (is_next_release ex_dm_capped_args.release_queue ex_dm_capped_args.current_time 7 ∧
      dm_no_overflow ex_dm_capped_args ex_dm_thread ∧
      (schedule_dm ex_dm_capped_args).allocated_time = 7 ∧
      (schedule_dm ex_dm_capped_args).allocated_time =
        if ex_dm_capped_args.current_time +
            min ex_dm_thread.remaining_time (7 - ex_dm_capped_args.current_time) >
            ex_dm_thread.current_deadline
        then 1 else min ex_dm_thread.remaining_time (7 - ex_dm_capped_args.current_time)) :=
  ⟨⟨by decide, by decide, by decide, by decide, by decide, by decide,
      schedule_dm_allocation ex_dm_degraded_args 0 ex_dm_thread (by decide) (by decide)
        (by decide) (by decide) (by decide)⟩,
    ⟨by decide, by decide, by decide,
      (schedule_dm_allocation ex_dm_capped_args 0 ex_dm_thread (by decide) (by decide)
        (by decide) (by decide) (by decide)).1 7 (by decide)⟩⟩

/-- C9: for a non-fault decision of `schedule_dm` that names a thread (no
overflow in the two `int` operations of the code), when the release queue
holds a release after `current_time` the allocation ends no later than the
smallest such release time, in the degraded 1-unit case too. -/
theorem schedule_dm_release_cap (args : threads_sched_args) (i : Nat) (b : thread)
    (hno : ∀ x ∈ args.run_queue, args.current_time < x.current_deadline)
    (hsel : (schedule_dm args).scheduled_thread_list_member = some i)
    (hb : args.run_queue.get? i = some b)
    (hov : dm_no_overflow args b) :
    ∀ R, is_next_release args.release_queue args.current_time R →
      args.current_time + (schedule_dm args).allocated_time ≤ R := by
  intro R hR
  have halloc := schedule_dm_named args i b hno hsel hb
  obtain ⟨hov1, hov2⟩ := hov
  obtain ⟨⟨e, he, heR⟩, hct, hmin⟩ := hR
  obtain ⟨h1, h2, h3⟩ := next_release_loop_spec args.current_time args.release_queue INT_MAX
  have hle := h3 e he (by omega)
  rw [halloc]
  split_ifs with hdeg
  · omega
  · by_cases hnr : next_release_loop args.current_time args.release_queue INT_MAX = INT_MAX
    · have := hov2.2
      omega
    · have hw := wrap_int_of_is_int _ (hov1 hnr)
      simp only [dm_allocated, ne_eq, hnr, not_false_eq_true, if_true, hw]
      split_ifs with hc
      · omega
      · omega

/-- C9 at remaining time 12, deadline 10, time 0 and releases at 25 and 11: the
allocation is degraded to 1 (0 + 11 > 10) and ends before the release at 11. -/
theorem schedule_dm_release_cap_witness :
    (∀ x ∈ ex_dm_release_args.run_queue, ex_dm_release_args.current_time < x.current_deadline) ∧
    (schedule_dm ex_dm_release_args).scheduled_thread_list_member = some 0 ∧
    ex_dm_release_args.run_queue.get? 0 = some ex_dm_thread ∧
    dm_no_overflow ex_dm_release_args ex_dm_thread ∧
    is_next_release ex_dm_release_args.release_queue ex_dm_release_args.current_time 11 ∧
    (schedule_dm ex_dm_release_args).allocated_time = 1 ∧
    ex_dm_release_args.current_time + (schedule_dm ex_dm_release_args).allocated_time ≤ 11 :=
  ⟨by decide, by decide, by decide, by decide, by decide, by decide,
    schedule_dm_release_cap ex_dm_release_args 0 ex_dm_thread (by decide) (by decide)
      (by decide) (by decide) 11 (by decide)⟩

/-! ## Idle decisions of schedule_hrrn, schedule_dm and schedule_edf_cbs -/

/-- C10 fails as stated: with an empty run queue, current time 5 and one entry
released at 2147483647 (`INT_MAX`), that release is the smallest one after the
current time, yet the three policies return the idle decision with
`allocated_time = 1`, not 2147483647 - 5. -/
theorem idle_release_at_int_max_counterexample :
    ex_idle_int_max_args.run_queue = [] ∧
    is_next_release ex_idle_int_max_args.release_queue ex_idle_int_max_args.current_time
      2147483647 ∧
    schedule_hrrn ex_idle_int_max_args =
      { scheduled_thread_list_member := none, allocated_time := 1 } ∧
    schedule_dm ex_idle_int_max_args =
      { scheduled_thread_list_member := none, allocated_time := 1 } ∧
    schedule_edf_cbs 0 ex_idle_int_max_args =
      some ([], { scheduled_thread_list_member := none, allocated_time := 1 }) ∧
    (1 : Int) ≠ 2147483647 - ex_idle_int_max_args.current_time := by
  refine ⟨by decide, by decide, by decide, by decide, by decide, by decide⟩

/-- C10, amended: with an empty run queue `schedule_hrrn`, `schedule_dm` and
`schedule_edf_cbs` return the idle decision (the run-queue head) with
`allocated_time = R - current_time`, where `R` is the smallest release time
after `current_time`, provided `R < INT_MAX` and `R - current_time` fits an
`int`; and with `allocated_time = 1` when no release time lies strictly
between `current_time` and `INT_MAX`. -/
theorem idle_until_next_release (head_thrd_ID : Int) (args : threads_sched_args)
    (hemp : args.run_queue = []) :
    (∀ R, is_next_release args.release_queue args.current_time R → R < INT_MAX →
      is_int (R - args.current_time) →
      schedule_hrrn args =
        { scheduled_thread_list_member := none, allocated_time := R - args.current_time } ∧
      schedule_dm args =
        { scheduled_thread_list_member := none, allocated_time := R - args.current_time } ∧
      schedule_edf_cbs head_thrd_ID args =
        some ([], { scheduled_thread_list_member := none
                    allocated_time := R - args.current_time })) ∧
    ((∀ e ∈ args.release_queue,
        ¬ (args.current_time < e.release_time ∧ e.release_time < INT_MAX)) →
      schedule_hrrn args = { scheduled_thread_list_member := none, allocated_time := 1 } ∧
      schedule_dm args = { scheduled_thread_list_member := none, allocated_time := 1 } ∧
      schedule_edf_cbs head_thrd_ID args =
        some ([], { scheduled_thread_list_member := none, allocated_time := 1 })) := by
  constructor
  · intro R hR hlt hint
    have hnr := next_release_loop_eq args.current_time args.release_queue R hR hlt
    have hne : R ≠ INT_MAX := by omega
    have hw := wrap_int_of_is_int _ hint
    have hpos : ¬ (R - args.current_time ≤ 0) := by
      have := hR.2.1
      omega
    refine ⟨?_, ?_, ?_⟩
    · simp [schedule_hrrn, hemp, hrrn_loop, hnr, hne, hw]
    · simp [schedule_dm, __check_deadline_miss, scan_best, hemp, hnr, hne, hw]
    · simp [schedule_edf_cbs, schedule_edf_cbs_fuel, __check_deadline_miss, scan_best,
        edf_schedule_rest, edf_idle, edf_next_event_loop, hemp, hnr, hne, hw, hpos]
  · intro hnone
    have hnr := next_release_loop_none args.current_time args.release_queue hnone
    refine ⟨?_, ?_, ?_⟩
    · simp [schedule_hrrn, hemp, hrrn_loop, hnr]
    · simp [schedule_dm, __check_deadline_miss, scan_best, hemp, hnr]
    · simp [schedule_edf_cbs, schedule_edf_cbs_fuel, __check_deadline_miss, scan_best,
        edf_schedule_rest, edf_idle, edf_next_event_loop, hemp, hnr]

/-- C10, amended, at one entry released at 15 and current time 5: the three
policies idle for 15 - 5 = 10. -/
theorem idle_until_next_release_witness :
    ex_idle_args.run_queue = [] ∧
    is_next_release ex_idle_args.release_queue ex_idle_args.current_time 15 ∧
    15 < INT_MAX ∧
    is_int (15 - ex_idle_args.current_time) ∧
    15 - ex_idle_args.current_time = 10 ∧
    (schedule_hrrn ex_idle_args =
        { scheduled_thread_list_member := none
          allocated_time := 15 - ex_idle_args.current_time } ∧
      schedule_dm ex_idle_args =
        { scheduled_thread_list_member := none
          allocated_time := 15 - ex_idle_args.current_time } ∧
      schedule_edf_cbs 0 ex_idle_args =
        some ([], { scheduled_thread_list_member := none
                    allocated_time := 15 - ex_idle_args.current_time })) :=
  ⟨by decide, by decide, by decide, by decide, by decide,
    (idle_until_next_release 0 ex_idle_args (by decide)).1 15 (by decide) (by decide)
      (by decide)⟩

/-! ## Idle decisions of schedule_default and schedule_priority_rr -/

/-- C11, where the code differs from the claim: with an empty run queue,
current time 5 and one entry released at 15, the next release is 10 units
away; `schedule_hrrn`, `schedule_dm` and `schedule_edf_cbs` return the idle
decision with `allocated_time = 10`, while `schedule_default` and
`schedule_priority_rr` return it with `allocated_time = 1`.  The two return 1
for every empty run queue, whatever the release queue holds. -/
theorem idle_default_priority_rr_ignores_release :
    ex_idle_args.run_queue = [] ∧
    is_next_release ex_idle_args.release_queue ex_idle_args.current_time 15 ∧
    15 - ex_idle_args.current_time = 10 ∧
    schedule_hrrn ex_idle_args =
      { scheduled_thread_list_member := none, allocated_time := 10 } ∧
    schedule_dm ex_idle_args =
      { scheduled_thread_list_member := none, allocated_time := 10 } ∧
    schedule_edf_cbs 0 ex_idle_args =
      some ([], { scheduled_thread_list_member := none, allocated_time := 10 }) ∧
    schedule_default ex_idle_args =
      { scheduled_thread_list_member := none, allocated_time := 1 } ∧
    schedule_priority_rr ex_idle_args =
      { scheduled_thread_list_member := none, allocated_time := 1 } ∧
    (schedule_default ex_idle_args).allocated_time ≠ 15 - ex_idle_args.current_time ∧
    (schedule_priority_rr ex_idle_args).allocated_time ≠ 15 - ex_idle_args.current_time ∧
    ∀ args : threads_sched_args, args.run_queue = [] →
      schedule_default args =
        { scheduled_thread_list_member := none, allocated_time := 1 } ∧
      schedule_priority_rr args =
        { scheduled_thread_list_member := none, allocated_time := 1 } := by
  refine ⟨by decide, by decide, by decide, by decide, by decide, by decide, by decide,
    by decide, by decide, by decide, ?_⟩
  intro args hemp
  constructor
  · simp [schedule_default, scan_best, hemp]
  · simp [schedule_priority_rr, priority_rr_pick, hemp]

/-! ## More facts about the candidate pass -/

/-- When `better` is the strict order of a key, a candidate taken from the list
has a key strictly below that of the initial candidate and of every entry
before it that passed `keep`: the pass ends with the first least entry. -/
theorem scan_best_strict {keep : thread → Bool} {better : thread → thread → Bool}
    {κ : Type} [LinearOrder κ] (key : thread → κ)
    (hb : ∀ a b, better a b = true ↔ key a < key b)
    (l : List thread) (k : Nat) (c : Option (Nat × thread))
    (i : Nat) (t : thread) (h : scan_best keep better l k c = some (i, t)) :
    c = some (i, t) ∨
    (k ≤ i ∧ (∀ j b, c = some (j, b) → key t < key b) ∧
      ∀ j u, j < i - k → l.get? j = some u → keep u = true → key t < key u) := by
  induction l generalizing k c with
  | nil => left; simpa [scan_best] using h
  | cons th rest ih =>
    have taken : scan_best keep better rest (k + 1) (some (k, th)) = some (i, t) →
        (∀ j b, c = some (j, b) → key th < key b) →
        k ≤ i ∧ (∀ j b, c = some (j, b) → key t < key b) ∧
          ∀ j u, j < i - k → (th :: rest).get? j = some u → keep u = true → key t < key u := by
      intro h1 hc
      rcases ih (k + 1) (some (k, th)) h1 with h2 | ⟨hle, h3, h4⟩
      · simp only [Option.some.injEq, Prod.mk.injEq] at h2
        obtain ⟨rfl, rfl⟩ := h2
        exact ⟨le_refl _, hc, fun j u hj => by omega⟩
      · have hlt : key t < key th := h3 k th rfl
        refine ⟨by omega, fun j b e => lt_trans hlt (hc j b e), ?_⟩
        intro j u hj hget hku
        cases j with
        | zero =>
          simp only [List.get?_cons_zero, Option.some.injEq] at hget
          rw [← hget]; exact hlt
        | succ j1 =>
          simp only [List.get?_cons_succ] at hget
          exact h4 j1 u (by omega) hget hku
    cases c with
    | none =>
      by_cases hk : keep th = true
      · simp only [scan_best, hk, if_true] at h
        exact Or.inr (taken h (by simp))
      · simp only [scan_best, hk] at h
        rcases ih (k + 1) none h with h2 | ⟨hle, _, h4⟩
        · simp at h2
        · right
          refine ⟨by omega, by simp, ?_⟩
          intro j u hj hget hku
          cases j with
          | zero =>
            simp only [List.get?_cons_zero, Option.some.injEq] at hget
            rw [← hget] at hku; exact absurd hku hk
          | succ j1 =>
            simp only [List.get?_cons_succ] at hget
            exact h4 j1 u (by omega) hget hku
    | some jb =>
      obtain ⟨j0, b0⟩ := jb
      by_cases hk : (keep th && better th b0) = true
      · simp only [scan_best, hk, if_true] at h
        simp only [Bool.and_eq_true] at hk
        right
        apply taken h
        intro j b e
        simp only [Option.some.injEq, Prod.mk.injEq] at e
        rw [← e.2]
        exact (hb th b0).mp hk.2
      · simp only [scan_best, hk] at h
        rcases ih (k + 1) (some (j0, b0)) h with h2 | ⟨hle, h3, h4⟩
        · exact Or.inl h2
        · right
          have hlt : key t < key b0 := h3 j0 b0 rfl
          refine ⟨by omega, ?_, ?_⟩
          · intro j b e
            simp only [Option.some.injEq, Prod.mk.injEq] at e
            rw [← e.2]; exact hlt
          · intro j u hj hget hku
            cases j with
            | zero =>
              simp only [List.get?_cons_zero, Option.some.injEq] at hget
              subst hget
              have hnb : ¬ key th < key b0 := by
                intro hlt2
                apply hk
                simp only [Bool.and_eq_true]
                exact ⟨hku, (hb th b0).mpr hlt2⟩
              exact lt_of_lt_of_le hlt (not_lt.mp hnb)
            | succ j1 =>
              simp only [List.get?_cons_succ] at hget
              exact h4 j1 u (by omega) hget hku

/-- An entry that passed `keep`, whose key is least among the entries that
passed and strictly below the keys of those before it, is the candidate the
pass ends with. -/
theorem scan_best_unique {keep : thread → Bool} {better : thread → thread → Bool}
    {κ : Type} [LinearOrder κ] (key : thread → κ)
    (hb : ∀ a b, better a b = true ↔ key a < key b)
    (l : List thread) (i : Nat) (m : thread)
    (hget : l.get? i = some m) (hkeep : keep m = true)
    (hmin : ∀ u ∈ l, keep u = true → key m ≤ key u)
    (hfirst : ∀ u ∈ l.take i, keep u = true → key m < key u) :
    scan_best keep better l 0 none = some (i, m) := by
  cases hres : scan_best keep better l 0 none with
  | none =>
    rw [scan_best_eq_none_iff] at hres
    have := hres.2 m (List.get?_mem hget)
    rw [hkeep] at this
    exact absurd this (by simp)
  | some it =>
    obtain ⟨i1, m1⟩ := it
    obtain ⟨hget1, hmem1, hkeep1⟩ := scan_best_start l i1 m1 hres
    have hle1 := (scan_best_min key (fun _ => True) (fun a b _ _ => hb a b) l 0 none
      (by simp) (by simp) i1 m1 hres).1 m (List.get?_mem hget) hkeep
    have hle := hmin m1 hmem1 hkeep1
    rcases scan_best_strict key hb l 0 none i1 m1 hres with h0 | ⟨_, _, hstrict⟩
    · simp at h0
    · rcases Nat.lt_trichotomy i1 i with hlt | heq | hgt
      · have hm1 : m1 ∈ l.take i := by
          rw [List.mem_iff_get?]
          refine ⟨i1, ?_⟩
          rw [List.get?_eq_getElem?, List.getElem?_take_of_lt hlt, ← List.get?_eq_getElem?]
          exact hget1
        have := hfirst m1 hm1 hkeep1
        exact absurd hle1 (not_le.mpr this)
      · subst heq
        rw [hget] at hget1
        simp only [Option.some.injEq] at hget1
        rw [hget1]
      · have := hstrict i m (by omega) hget hkeep
        exact absurd hle (not_le.mpr this)

/-! ## The selection loop of schedule_edf_cbs -/

/-- One pass of the selection loop: the pass stops on a queue without a
non-throttled thread and on a selected thread that is not postponable;
otherwise it postpones the selected thread and starts again. -/
theorem edf_select_succ (ct : Int) (fuel : Nat) (rq : List thread) :
    edf_select ct (fuel + 1) rq =
      match edf_scan rq with
      | none => some (rq, none)
      | some (i, best) =>
        if edf_postponable ct best then
          edf_select ct fuel (rq.set i (edf_postpone ct best))
        else some (rq, some (i, best)) := by
  rw [edf_select]
  unfold edf_scan
  cases scan_best (fun th => th.cbs.is_throttled == 0)
      (fun th b => decide (__edf_thread_cmp th b < 0)) rq 0 none with
  | none => rfl
  | some ib =>
    obtain ⟨i, best⟩ := ib
    simp only [edf_postponable]
    by_cases h1 : is_cbs_soft best = true
    · by_cases h2 : wrap_int (best.current_deadline - ct) > 0
      · by_cases h3 : best.cbs.remaining_budget * best.period >
            best.cbs.budget * wrap_int (best.current_deadline - ct)
        · simp [h1, h2, h3]
        · simp [h1, h2, h3]
      · simp [h1, h2]
    · simp [h1]

/-- The pass of the selection loop names a non-throttled thread of the queue,
at its position, that is least for (current_deadline, ID) among the
non-throttled threads. -/
theorem edf_scan_spec (rq : List thread) (i : Nat) (b : thread)
    (h : edf_scan rq = some (i, b)) :
    rq.get? i = some b ∧ b.cbs.is_throttled = 0 ∧
    ∀ u ∈ rq, u.cbs.is_throttled = 0 →
      b.current_deadline < u.current_deadline ∨
      (b.current_deadline = u.current_deadline ∧ b.ID ≤ u.ID) := by
  unfold edf_scan at h
  obtain ⟨hget, _, hkeep⟩ := scan_best_start rq i b h
  have hmin := (scan_best_min (fun th => toLex (th.current_deadline, th.ID)) (fun _ => True)
    (by
      intro a b _ _
      rw [Prod.Lex.lt_iff]
      simp only [__edf_thread_cmp, decide_eq_true_eq]
      split_ifs <;> omega)
    rq 0 none (by simp) (by simp) i b h).1
  refine ⟨hget, by simpa using hkeep, ?_⟩
  intro u hu hthr
  have hle := hmin u hu (by simpa using hthr)
  rw [Prod.Lex.le_iff] at hle
  exact hle

/-- A thread whose remaining budget is its budget and whose deadline is one
(`int`) period after the current time is not postponable, whatever the signs
of the period and of the budget. -/
theorem not_postponable_fresh (ct : Int) (t : thread)
    (hrb : t.cbs.remaining_budget = t.cbs.budget)
    (hcd : t.current_deadline = wrap_int (ct + t.period))
    (hper : is_int t.period) :
    ¬ edf_postponable ct t := by
  rintro ⟨_, _, hlt⟩
  have hdist : wrap_int (t.current_deadline - ct) = t.period := by
    rw [hcd]
    simp only [is_int, INT_MIN, INT_MAX] at hper
    simp only [wrap_int]
    omega
  rw [hdist, hrb] at hlt
  exact lt_irrefl _ hlt

/-- Postponing twice is postponing once. -/
theorem edf_postpone_idem (ct : Int) (t : thread) :
    edf_postpone ct (edf_postpone ct t) = edf_postpone ct t := rfl

/-- What a run of the selection loop that ends leaves: the queue keeps its
length; the result is the pass over the final queue and is not postponable;
threads that were throttled or not postponable are untouched; every thread is
as before or is the postponed form of a non-throttled soft thread. -/
theorem edf_select_spec (ct : Int) (fuel : Nat) (rq rq1 : List thread)
    (res : Option (Nat × thread)) (h : edf_select ct fuel rq = some (rq1, res)) :
    rq1.length = rq.length ∧ edf_scan rq1 = res ∧
    (∀ i b, res = some (i, b) → ¬ edf_postponable ct b) ∧
    (∀ j t, rq.get? j = some t →
      (t.cbs.is_throttled ≠ 0 ∨ ¬ edf_postponable ct t) → rq1.get? j = some t) ∧
    (∀ j t1, rq1.get? j = some t1 →
      ∃ t, rq.get? j = some t ∧
        (t1 = t ∨ (t1 = edf_postpone ct t ∧ t.cbs.is_throttled = 0 ∧
          edf_postponable ct t))) := by
  induction fuel generalizing rq with
  | zero => simp [edf_select] at h
  | succ n ih =>
    rw [edf_select_succ] at h
    cases hs : edf_scan rq with
    | none =>
      simp only [hs, Option.some.injEq, Prod.mk.injEq] at h
      obtain ⟨rfl, rfl⟩ := h
      exact ⟨rfl, hs, by simp, fun j t hj _ => hj, fun j t1 hj => ⟨t1, hj, Or.inl rfl⟩⟩
    | some ib =>
      obtain ⟨i, best⟩ := ib
      simp only [hs] at h
      obtain ⟨hget, hthr, _⟩ := edf_scan_spec rq i best hs
      by_cases hp : edf_postponable ct best
      · rw [if_pos hp] at h
        obtain ⟨h1, h2, h3, h4, h5⟩ := ih (rq.set i (edf_postpone ct best)) h
        refine ⟨by rw [h1, List.length_set], h2, h3, ?_, ?_⟩
        · intro j t hj hcond
          apply h4 j t _ hcond
          have hne : i ≠ j := by
            rintro rfl
            rw [hget] at hj
            simp only [Option.some.injEq] at hj
            subst hj
            rcases hcond with hc | hc
            · exact hc hthr
            · exact hc hp
          rw [List.get?_eq_getElem?, List.getElem?_set_ne hne, ← List.get?_eq_getElem?]
          exact hj
        · intro j t1 hj
          obtain ⟨t, ht, hcase⟩ := h5 j t1 hj
          by_cases hij : i = j
          · subst hij
            rw [List.get?_eq_getElem?, List.getElem?_set_self', ← List.get?_eq_getElem?, hget] at ht
            simp only [Option.map_eq_map, Option.map_some', Function.const_apply,
              Option.some.injEq] at ht
            subst ht
            refine ⟨best, hget, Or.inr ⟨?_, hthr, hp⟩⟩
            rcases hcase with rfl | ⟨rfl, _, _⟩
            · rfl
            · exact edf_postpone_idem ct best
          · rw [List.get?_eq_getElem?, List.getElem?_set_ne hij, ← List.get?_eq_getElem?] at ht
            exact ⟨t, ht, hcase⟩
      · rw [if_neg hp] at h
        simp only [Option.some.injEq, Prod.mk.injEq] at h
        obtain ⟨rfl, rfl⟩ := h
        refine ⟨rfl, hs, ?_, fun j t hj _ => hj, fun j t1 hj => ⟨t1, hj, Or.inl rfl⟩⟩
        intro i1 b1 e
        simp only [Option.some.injEq, Prod.mk.injEq] at e
        rw [← e.2]
        exact hp

/-- The selection loop ends within the fuel when each thread has an `int`
period and the fuel exceeds the number of postponable threads: a postponed
thread is not postponable any more. -/
theorem edf_select_some (ct : Int) (fuel : Nat) (rq : List thread)
    (hper : ∀ t ∈ rq, is_int t.period)
    (hfuel : rq.countP (fun t => decide (edf_postponable ct t)) < fuel) :
    ∃ r, edf_select ct fuel rq = some r := by
  induction fuel generalizing rq with
  | zero => omega
  | succ n ih =>
    rw [edf_select_succ]
    cases hs : edf_scan rq with
    | none => exact ⟨_, rfl⟩
    | some ib =>
      obtain ⟨i, best⟩ := ib
      obtain ⟨hget, _, _⟩ := edf_scan_spec rq i best hs
      by_cases hp : edf_postponable ct best
      · simp only [if_pos hp]
        apply ih
        · intro t ht
          rcases List.mem_or_eq_of_mem_set ht with h1 | rfl
          · exact hper t h1
          · exact hper best (List.get?_mem hget)
        · have hlt : i < rq.length := by
            rw [List.get?_eq_some] at hget
            exact hget.1
          have hi : rq[i] = best := by
            rw [List.get?_eq_some] at hget
            obtain ⟨_, h2⟩ := hget
            exact h2
          have hnp : ¬ edf_postponable ct (edf_postpone ct best) :=
            not_postponable_fresh ct _ rfl rfl (hper best (List.get?_mem hget))
          have hle := List.boole_getElem_le_countP
            (fun t => decide (edf_postponable ct t)) rq i hlt
          rw [List.countP_set _ _ _ _ hlt]
          simp only [hi, hp, hnp, decide_True, decide_False, if_true] at hle ⊢
          simp only [Bool.false_eq_true, if_false]
          omega
      · simp only [if_neg hp]
        exact ⟨_, rfl⟩

/-! ## The steps of schedule_edf_cbs before the selection loop -/

/-- The deadline-miss check returns the smallest-ID thread whose deadline is
reached, the first one in queue order if IDs repeat, and only that one. -/
theorem check_deadline_miss_iff (rq : List thread) (ct : Int) (i : Nat) (m : thread) :
    __check_deadline_miss rq ct = some (i, m) ↔ is_first_missed rq ct i m := by
  have hb : ∀ a b : thread, decide (a.ID < b.ID) = true ↔ a.ID < b.ID := by
    intro a b; simp
  constructor
  · intro h
    unfold __check_deadline_miss at h
    obtain ⟨hget, _, hkeep⟩ := scan_best_start rq i m h
    have hmin := (scan_best_min (fun th => th.ID) (fun _ => True)
      (fun a b _ _ => hb a b) rq 0 none (by simp) (by simp) i m h).1
    refine ⟨hget, by simpa using hkeep, ?_, ?_⟩
    · intro u hu hd
      exact hmin u hu (by simpa using hd)
    · intro u hu hd
      rcases scan_best_strict (fun th => th.ID) hb rq 0 none i m h with h0 | ⟨_, _, hstrict⟩
      · simp at h0
      · rw [List.mem_iff_get?] at hu
        obtain ⟨j, hj⟩ := hu
        have hjlt : j < i := by
          have := List.get?_eq_some.mp hj
          obtain ⟨hlen, _⟩ := this
          simp only [List.length_take] at hlen
          omega
        rw [List.get?_eq_getElem?, List.getElem?_take_of_lt hjlt,
          ← List.get?_eq_getElem?] at hj
        exact hstrict j u (by omega) hj (by simpa using hd)
  · rintro ⟨hget, hd, hmin, hfirst⟩
    unfold __check_deadline_miss
    apply scan_best_unique (fun th => th.ID) hb rq i m hget (by simpa using hd)
    · intro u hu hk
      exact hmin u hu (by simpa using hk)
    · intro u hu hk
      exact hfirst u hu (by simpa using hk)

/-- Position by position, the queue after the two first passes holds the
threads of the run queue after the throttle step and the replenish step. -/
theorem edf_prepared_get (args : threads_sched_args) (j : Nat) :
    (edf_prepared args).get? j =
      (args.run_queue.get? j).map
        (fun t => edf_replenish_step args.current_time (edf_throttle_step t)) := by
  simp only [edf_prepared, List.get?_eq_getElem?, List.getElem?_map, Option.map_map]
  rfl

/-- The deadline-miss step keeps the length of the queue. -/
theorem edf_post_miss_length (args : threads_sched_args) :
    (edf_post_miss args).length = args.run_queue.length := by
  unfold edf_post_miss
  split
  · split_ifs <;> simp [edf_prepared]
  · simp [edf_prepared]

/-- Every thread of the queue after the deadline-miss step is a thread of the
run queue after the throttle and replenish steps, possibly reset. -/
theorem edf_post_miss_mem (args : threads_sched_args) (t1 : thread)
    (h : t1 ∈ edf_post_miss args) :
    ∃ t ∈ args.run_queue,
      t1 = edf_replenish_step args.current_time (edf_throttle_step t) ∨
      t1 = edf_soft_reset args.current_time
        (edf_replenish_step args.current_time (edf_throttle_step t)) := by
  have hprep : ∀ x ∈ edf_prepared args, ∃ t ∈ args.run_queue,
      x = edf_replenish_step args.current_time (edf_throttle_step t) := by
    intro x hx
    simp only [edf_prepared, List.map_map, List.mem_map, Function.comp_apply] at hx
    obtain ⟨t, ht, rfl⟩ := hx
    exact ⟨t, ht, rfl⟩
  unfold edf_post_miss at h
  split at h
  · rename_i i miss hc
    split_ifs at h
    · rcases List.mem_or_eq_of_mem_set h with h1 | rfl
      · obtain ⟨t, ht, rfl⟩ := hprep t1 h1
        exact ⟨t, ht, Or.inl rfl⟩
      · have hm := ((check_deadline_miss_iff _ _ _ _).mp hc).1
        obtain ⟨t, ht, rfl⟩ := hprep miss (List.get?_mem hm)
        exact ⟨t, ht, Or.inr rfl⟩
    · obtain ⟨t, ht, rfl⟩ := hprep t1 h
      exact ⟨t, ht, Or.inl rfl⟩
  · obtain ⟨t, ht, rfl⟩ := hprep t1 h
    exact ⟨t, ht, Or.inl rfl⟩

/-- The steps before the selection loop do not write the period. -/
theorem edf_post_miss_period (args : threads_sched_args)
    (hper : ∀ t ∈ args.run_queue, is_int t.period) :
    ∀ t ∈ edf_post_miss args, is_int t.period := by
  intro t1 h1
  obtain ⟨t, ht, h | h⟩ := edf_post_miss_mem args t1 h1
  · have : t1.period = t.period := by
      rw [h]
      simp only [edf_replenish_step, edf_throttle_step]
      split_ifs <;> rfl
    rw [this]; exact hper t ht
  · have : t1.period = t.period := by
      rw [h]
      simp only [edf_soft_reset, edf_replenish_step, edf_throttle_step]
      split_ifs <;> rfl
    rw [this]; exact hper t ht

/-- The function is the fault decision when the deadline-miss check returns a
hard thread, and otherwise lines 301-441 on the queue the deadline-miss step
leaves. -/
theorem schedule_edf_cbs_unfold (head_thrd_ID : Int) (args : threads_sched_args) :
    schedule_edf_cbs head_thrd_ID args =
      match __check_deadline_miss (edf_prepared args) args.current_time with
      | some (i, miss) =>
        if is_cbs_soft miss then
          edf_schedule_rest (args.run_queue.length + 1) head_thrd_ID args (edf_post_miss args)
        else some (edf_prepared args, { scheduled_thread_list_member := some i
                                        allocated_time := 0 })
      | none =>
        edf_schedule_rest (args.run_queue.length + 1) head_thrd_ID args (edf_post_miss args) := by
  simp only [schedule_edf_cbs, schedule_edf_cbs_fuel, edf_post_miss, edf_prepared]
  cases hc : __check_deadline_miss
      (List.map (edf_replenish_step args.current_time)
        (List.map edf_throttle_step args.run_queue)) args.current_time with
  | none => rfl
  | some im =>
    obtain ⟨i, miss⟩ := im
    by_cases hs : is_cbs_soft miss = true
    · simp [hs]
    · simp [hs]

/-- Lines 301-441 return the idle decision when the selection loop ends without
a thread and the allocation of lines 388-437 for the thread it ends with. -/
theorem edf_schedule_rest_cases (fuel : Nat) (head_thrd_ID : Int) (args : threads_sched_args)
    (rq : List thread) (hsome : ∃ x, edf_select args.current_time (fuel + 1) rq = some x) :
    ∃ rq1 r, edf_schedule_rest (fuel + 1) head_thrd_ID args rq = some (rq1, r) ∧
      ∃ res, edf_select args.current_time (fuel + 1) rq = some (rq1, res) ∧
        ((res = none ∧ r = edf_idle args rq1) ∨
          ∃ i b, res = some (i, b) ∧
            r = { scheduled_thread_list_member := some i
                  allocated_time := edf_alloc head_thrd_ID args rq1 b }) := by
  cases rq with
  | nil =>
    refine ⟨[], edf_idle args [], by simp [edf_schedule_rest], none, ?_, Or.inl ⟨rfl, rfl⟩⟩
    rw [edf_select_succ]
    simp [edf_scan, scan_best]
  | cons a rest =>
    obtain ⟨⟨rq1, res⟩, hx⟩ := hsome
    cases res with
    | none =>
      exact ⟨rq1, edf_idle args rq1, by simp [edf_schedule_rest, hx], none, hx,
        Or.inl ⟨rfl, rfl⟩⟩
    | some ib =>
      obtain ⟨i, b⟩ := ib
      exact ⟨rq1, _, by simp [edf_schedule_rest, hx], some (i, b), hx,
        Or.inr ⟨i, b, rfl, rfl⟩⟩

/-- With `int` periods `schedule_edf_cbs` returns.  Its decision is the
zero-time fault for the hard thread found by the deadline-miss check, with
the queue as the two first passes left it; or, when the check finds nothing
or a soft thread, the idle decision or a thread with its allocation, on the
queue the selection loop leaves. -/
theorem schedule_edf_cbs_cases (head_thrd_ID : Int) (args : threads_sched_args)
    (hper : ∀ t ∈ args.run_queue, is_int t.period) :
    ∃ rq1 r, schedule_edf_cbs head_thrd_ID args = some (rq1, r) ∧
      ((∃ i m, is_first_missed (edf_prepared args) args.current_time i m ∧
          is_cbs_soft m = false ∧ rq1 = edf_prepared args ∧
          r = { scheduled_thread_list_member := some i, allocated_time := 0 }) ∨
        ((∀ i m, is_first_missed (edf_prepared args) args.current_time i m →
            is_cbs_soft m = true) ∧
          ∃ res, edf_select args.current_time (args.run_queue.length + 1) (edf_post_miss args) =
              some (rq1, res) ∧
            ((res = none ∧ r = edf_idle args rq1) ∨
              ∃ i b, res = some (i, b) ∧
                r = { scheduled_thread_list_member := some i
                      allocated_time := edf_alloc head_thrd_ID args rq1 b }))) := by
  have hsome : ∃ x, edf_select args.current_time (args.run_queue.length + 1)
      (edf_post_miss args) = some x := by
    apply edf_select_some _ _ _ (edf_post_miss_period args hper)
    have := List.countP_le_length (fun t => decide (edf_postponable args.current_time t))
      (l := edf_post_miss args)
    rw [edf_post_miss_length] at this
    omega
  obtain ⟨rq1, r, hrest, hsel⟩ := edf_schedule_rest_cases args.run_queue.length
    head_thrd_ID args (edf_post_miss args) hsome
  rw [schedule_edf_cbs_unfold]
  cases hc : __check_deadline_miss (edf_prepared args) args.current_time with
  | none =>
    refine ⟨rq1, r, hrest, Or.inr ⟨?_, hsel⟩⟩
    intro i m hm
    rw [← check_deadline_miss_iff, hc] at hm
    simp at hm
  | some im =>
    obtain ⟨i, miss⟩ := im
    by_cases hs : is_cbs_soft miss = true
    · simp only [hs, if_true]
      refine ⟨rq1, r, hrest, Or.inr ⟨?_, hsel⟩⟩
      intro i1 m1 hm
      rw [← check_deadline_miss_iff, hc] at hm
      simp only [Option.some.injEq, Prod.mk.injEq] at hm
      rw [← hm.2]; exact hs
    · simp only [hs]
      refine ⟨_, _, rfl, Or.inl ⟨i, miss, (check_deadline_miss_iff _ _ _ _).mp hc, ?_, rfl, rfl⟩⟩
      simpa using hs

/-! ## Every decision but the fault allocates at least one unit -/

/-- The time until a release found by the release-queue pass is at least 1 when
the subtraction does not overflow. -/
theorem release_gap_pos (args : threads_sched_args) (hov : release_no_overflow args)
    (hne : next_release_loop args.current_time args.release_queue INT_MAX ≠ INT_MAX) :
    1 ≤ wrap_int (next_release_loop args.current_time args.release_queue INT_MAX
      - args.current_time) := by
  rw [wrap_int_of_is_int _ (hov hne)]
  obtain ⟨_, h2, _⟩ := next_release_loop_spec args.current_time args.release_queue INT_MAX
  rcases h2 with h2 | ⟨e, _, h2, h4⟩
  · exact absurd h2 hne
  · omega

/-- The third pass of `schedule_priority_rr` allocates at least 1 when the
remaining times and the quantum are at least 1. -/
theorem priority_rr_pick_pos (mp g q : Int) (l : List thread) (k : Nat)
    (hrem : ∀ t ∈ l, 1 ≤ t.remaining_time) (hq : 1 ≤ q) :
    1 ≤ (priority_rr_pick mp g q l k).allocated_time := by
  induction l generalizing k with
  | nil => simp [priority_rr_pick]
  | cons th rest ih =>
    have h1 := hrem th (List.mem_cons_self _ _)
    simp only [priority_rr_pick]
    split_ifs
    · exact h1
    · exact hq
    · exact h1
    · exact ih (k + 1) (fun t ht => hrem t (List.mem_cons_of_mem _ ht))

/-- The idle decision of `schedule_edf_cbs` lasts at least 1. -/
theorem edf_idle_pos (args : threads_sched_args) (rq : List thread) :
    1 ≤ (edf_idle args rq).allocated_time := by
  simp only [edf_idle]
  split_ifs <;> omega

/-- The allocation of `schedule_edf_cbs` for a selected thread is at least 1. -/
theorem edf_alloc_pos (head_thrd_ID : Int) (args : threads_sched_args) (rq : List thread)
    (b : thread) : 1 ≤ edf_alloc head_thrd_ID args rq b := by
  have key : ∀ x : Int, 1 ≤ (if x ≤ 0 then 1 else x) := by
    intro x
    split_ifs <;> omega
  unfold edf_alloc
  exact key _

/-- C12: when every run-queue thread has `remaining_time >= 1` and
`time_quantum >= 1` (the time until a release found does not overflow, `int`
periods), `schedule_default`, `schedule_hrrn` and `schedule_priority_rr`
allocate at least 1; `schedule_dm` allocates at least 1 or returns the fault
(0 for a thread whose deadline is reached); `schedule_edf_cbs` returns, and
allocates at least 1 or returns the fault (0 for a hard thread whose deadline
is reached).  Idle decisions fall under the first case. -/
theorem allocated_time_at_least_one (head_thrd_ID : Int) (args : threads_sched_args)
    (hrem : ∀ t ∈ args.run_queue, 1 ≤ t.remaining_time)
    (hq : 1 ≤ args.time_quantum)
    (hov : release_no_overflow args)
    (hper : ∀ t ∈ args.run_queue, is_int t.period) :
    1 ≤ (schedule_default args).allocated_time ∧
    1 ≤ (schedule_hrrn args).allocated_time ∧
    1 ≤ (schedule_priority_rr args).allocated_time ∧
    (1 ≤ (schedule_dm args).allocated_time ∨
      ((schedule_dm args).allocated_time = 0 ∧
        ∃ i t, (schedule_dm args).scheduled_thread_list_member = some i ∧
          args.run_queue.get? i = some t ∧ t.current_deadline ≤ args.current_time)) ∧
    ∃ rq1 r, schedule_edf_cbs head_thrd_ID args = some (rq1, r) ∧
      (1 ≤ r.allocated_time ∨
        (r.allocated_time = 0 ∧
          ∃ i t, r.scheduled_thread_list_member = some i ∧ rq1.get? i = some t ∧
            t.current_deadline ≤ args.current_time ∧ is_cbs_soft t = false)) := by
  refine ⟨?_, ?_, ?_, ?_, ?_⟩
  · simp only [schedule_default]
    cases h : scan_best (fun _ => true) (fun th b => decide (th.ID < b.ID))
        args.run_queue 0 none with
    | none => simp
    | some ib =>
      obtain ⟨i, b⟩ := ib
      exact hrem b (scan_best_start args.run_queue i b h).2.1
  · have hloop := hrrn_loop_best args.current_time args.run_queue 0 ⟨none, 0, 1⟩ (by simp)
    simp only at hloop
    simp only [schedule_hrrn, hloop]
    cases h : scan_best (fun _ => true) (hrrn_better args.current_time)
        args.run_queue 0 none with
    | none =>
      simp only
      split_ifs with hne
      · exact release_gap_pos args hov hne
      · exact le_refl _
    | some ib =>
      obtain ⟨i, b⟩ := ib
      exact hrem b (scan_best_start args.run_queue i b h).2.1
  · exact priority_rr_pick_pos _ _ _ _ _ hrem hq
  · simp only [schedule_dm]
    cases hc : __check_deadline_miss args.run_queue args.current_time with
    | some ib =>
      obtain ⟨i, t⟩ := ib
      right
      obtain ⟨hget, hd, _, _⟩ := (check_deadline_miss_iff _ _ _ _).mp hc
      exact ⟨rfl, i, t, rfl, hget, hd⟩
    | none =>
      left
      simp only
      split_ifs with hemp hne
      · exact release_gap_pos args hov hne
      · exact le_refl _
      · cases h : scan_best (fun _ => true) (fun th b => decide (__dm_thread_cmp th b < 0))
            args.run_queue 0 none with
        | none => simp
        | some ib =>
          obtain ⟨i, b⟩ := ib
          have hb := hrem b (scan_best_start args.run_queue i b h).2.1
          simp only
          split_ifs with hdeg
          · exact le_refl _
          · simp only [dm_allocated]
            split_ifs with hne hcap
            · exact release_gap_pos args hov hne
            · exact hb
            · exact hb
  · obtain ⟨rq1, r, hres, hcase⟩ := schedule_edf_cbs_cases head_thrd_ID args hper
    refine ⟨rq1, r, hres, ?_⟩
    rcases hcase with ⟨i, m, hm, hhard, hrq, hr⟩ | ⟨_, res, _, hr⟩
    · right
      subst hrq hr
      exact ⟨rfl, i, m, rfl, hm.1, hm.2.1, hhard⟩
    · left
      rcases hr with ⟨_, rfl⟩ | ⟨i, b, _, rfl⟩
      · exact edf_idle_pos args rq1
      · exact edf_alloc_pos head_thrd_ID args rq1 b

/-- C12 at time 10 with a soft thread (deadline 5, ID 1) and a hard thread
(deadline 8, ID 2): `schedule_edf_cbs` names the hard thread, for which the
time to the deadline is -2, with `allocated_time = 1`. -/
theorem allocated_time_at_least_one_witness :
    (∀ t ∈ ex_edf_masked_args.run_queue, 1 ≤ t.remaining_time) ∧
    1 ≤ ex_edf_masked_args.time_quantum ∧
    release_no_overflow ex_edf_masked_args ∧
    (∀ t ∈ ex_edf_masked_args.run_queue, is_int t.period) ∧
    (schedule_edf_cbs 0 ex_edf_masked_args).map (fun x => x.2) =
      some { scheduled_thread_list_member := some 1, allocated_time := 1 } ∧
    (1 ≤ (schedule_default ex_edf_masked_args).allocated_time ∧
      1 ≤ (schedule_hrrn ex_edf_masked_args).allocated_time ∧
      1 ≤ (schedule_priority_rr ex_edf_masked_args).allocated_time ∧
      (1 ≤ (schedule_dm ex_edf_masked_args).allocated_time ∨
        ((schedule_dm ex_edf_masked_args).allocated_time = 0 ∧
          ∃ i t, (schedule_dm ex_edf_masked_args).scheduled_thread_list_member = some i ∧
            ex_edf_masked_args.run_queue.get? i = some t ∧
            t.current_deadline ≤ ex_edf_masked_args.current_time)) ∧
      ∃ rq1 r, schedule_edf_cbs 0 ex_edf_masked_args = some (rq1, r) ∧
        (1 ≤ r.allocated_time ∨
          (r.allocated_time = 0 ∧
            ∃ i t, r.scheduled_thread_list_member = some i ∧ rq1.get? i = some t ∧
              t.current_deadline ≤ ex_edf_masked_args.current_time ∧
              is_cbs_soft t = false))) :=
  ⟨by decide, by decide, by decide, by decide, by decide,
    allocated_time_at_least_one 0 ex_edf_masked_args (by decide) (by decide) (by decide)
      (by decide)⟩

/-! ## schedule_edf_cbs: throttling and replenishment -/

/-- The deadline-miss step leaves a thread as the two first passes left it, or
resets it when it is the soft thread found by the check. -/
theorem edf_post_miss_get (args : threads_sched_args) (j : Nat) (x : thread)
    (h : (edf_prepared args).get? j = some x) :
    (edf_post_miss args).get? j = some x ∨
    (is_first_missed (edf_prepared args) args.current_time j x ∧ is_cbs_soft x = true ∧
      (edf_post_miss args).get? j = some (edf_soft_reset args.current_time x)) := by
  unfold edf_post_miss
  cases hc : __check_deadline_miss (edf_prepared args) args.current_time with
  | none => exact Or.inl h
  | some im =>
    obtain ⟨i, miss⟩ := im
    have hm := (check_deadline_miss_iff _ _ _ _).mp hc
    by_cases hs : is_cbs_soft miss = true
    · simp only [hs, if_true]
      by_cases hij : i = j
      · subst hij
        have hx : miss = x := by
          have := hm.1
          rw [h] at this
          simp only [Option.some.injEq] at this
          exact this.symm
        subst hx
        right
        refine ⟨hm, hs, ?_⟩
        rw [List.get?_eq_getElem?, List.getElem?_set_self', ← List.get?_eq_getElem?, h]
        rfl
      · left
        rw [List.get?_eq_getElem?, List.getElem?_set_ne hij, ← List.get?_eq_getElem?]
        exact h
    · simp only [hs]
      exact Or.inl h

/-- A thread that is not throttled, has its full budget and a deadline one
period after the current time is left as it is by the reset of line 295-297. -/
theorem edf_soft_reset_fresh (ct : Int) (x : thread)
    (hthr : x.cbs.is_throttled = 0) (hrb : x.cbs.remaining_budget = x.cbs.budget)
    (hcd : x.current_deadline = wrap_int (ct + x.period)) :
    edf_soft_reset ct x = x := by
  obtain ⟨ID, rem, pt, arr, prio, per, dl, cd, ⟨bud, rb, hard, thr⟩⟩ := x
  simp only at hthr hrb hcd
  subst hthr hrb hcd
  rfl

/-- C13: a run-queue thread that on entry has `remaining_budget <= 0`,
`remaining_time > 0` and `current_deadline > current_time` is, after the call
(which returns, periods being `int`), the same thread with `is_throttled = 1`,
and the decision does not name it. -/
theorem edf_throttled_not_selected (head_thrd_ID : Int) (args : threads_sched_args)
    (j : Nat) (t : thread)
    (hper : ∀ x ∈ args.run_queue, is_int x.period)
    (hj : args.run_queue.get? j = some t)
    (hrb : t.cbs.remaining_budget ≤ 0) (hrem : 0 < t.remaining_time)
    (hcd : args.current_time < t.current_deadline) :
    ∃ rq1 r, schedule_edf_cbs head_thrd_ID args = some (rq1, r) ∧
      rq1.get? j = some { t with cbs := { t.cbs with is_throttled := 1 } } ∧
      r.scheduled_thread_list_member ≠ some j := by
  have hprep : (edf_prepared args).get? j =
      some { t with cbs := { t.cbs with is_throttled := 1 } } := by
    rw [edf_prepared_get, hj]
    have hne : ¬ (args.current_time = t.current_deadline) := by omega
    simp [edf_throttle_step, edf_replenish_step, hrb, hrem, hne]
  have hpost : (edf_post_miss args).get? j =
      some { t with cbs := { t.cbs with is_throttled := 1 } } := by
    rcases edf_post_miss_get args j _ hprep with h | ⟨hm, _, _⟩
    · exact h
    · have := hm.2.1
      simp only at this
      omega
  obtain ⟨rq1, r, hres, hcase⟩ := schedule_edf_cbs_cases head_thrd_ID args hper
  refine ⟨rq1, r, hres, ?_⟩
  rcases hcase with ⟨i, m, hm, _, hrq, hr⟩ | ⟨_, res, hsel, hr⟩
  · subst hrq hr
    refine ⟨hprep, ?_⟩
    simp only [ne_eq, Option.some.injEq]
    rintro rfl
    have h1 := hm.1
    rw [hprep] at h1
    simp only [Option.some.injEq] at h1
    have h2 := hm.2.1
    rw [← h1] at h2
    simp only at h2
    omega
  · obtain ⟨_, hscan, _, hframe, _⟩ := edf_select_spec _ _ _ _ _ hsel
    have hfin := hframe j _ hpost (Or.inl (by simp))
    refine ⟨hfin, ?_⟩
    rcases hr with ⟨_, rfl⟩ | ⟨i, b, hresb, rfl⟩
    · simp [edf_idle]
    · simp only [ne_eq, Option.some.injEq]
      rintro rfl
      rw [hresb] at hscan
      obtain ⟨hget, hthr, _⟩ := edf_scan_spec rq1 i b hscan
      rw [hfin] at hget
      simp only [Option.some.injEq] at hget
      rw [← hget] at hthr
      simp at hthr

/-- C13 at time 7 with a soft thread of budget 4, period 10, deadline 10,
remaining budget 0 and 6 units of work left, queued first: it is throttled
and the decision names the other thread. -/
theorem edf_throttled_not_selected_witness :
    (∀ x ∈ ex_edf_throttle_args.run_queue, is_int x.period) ∧
    ex_edf_throttle_args.run_queue.get? 0 = some (ex_thread 1 6 10 10 4 0 0 0) ∧
    (schedule_edf_cbs 0 ex_edf_throttle_args).map (fun x => x.2) =
      some { scheduled_thread_list_member := some 1, allocated_time := 2 } ∧
    ∃ rq1 r, schedule_edf_cbs 0 ex_edf_throttle_args = some (rq1, r) ∧
      rq1.get? 0 = some { ex_thread 1 6 10 10 4 0 0 0 with
        cbs := { (ex_thread 1 6 10 10 4 0 0 0).cbs with is_throttled := 1 } } ∧
      r.scheduled_thread_list_member ≠ some 0 :=
  ⟨by decide, by decide, by decide,
    edf_throttled_not_selected 0 ex_edf_throttle_args 0 (ex_thread 1 6 10 10 4 0 0 0)
      (by decide) (by decide) (by decide) (by decide) (by decide)⟩

/-- The case analysis of `schedule_edf_cbs_cases` for a given result of the
call. -/
theorem schedule_edf_cbs_result (head_thrd_ID : Int) (args : threads_sched_args)
    (hper : ∀ t ∈ args.run_queue, is_int t.period)
    (rq1 : List thread) (r : threads_sched_result)
    (h : schedule_edf_cbs head_thrd_ID args = some (rq1, r)) :
    (∃ i m, is_first_missed (edf_prepared args) args.current_time i m ∧
        is_cbs_soft m = false ∧ rq1 = edf_prepared args ∧
        r = { scheduled_thread_list_member := some i, allocated_time := 0 }) ∨
      ((∀ i m, is_first_missed (edf_prepared args) args.current_time i m →
          is_cbs_soft m = true) ∧
        ∃ res, edf_select args.current_time (args.run_queue.length + 1) (edf_post_miss args) =
            some (rq1, res) ∧
          ((res = none ∧ r = edf_idle args rq1) ∨
            ∃ i b, res = some (i, b) ∧
              r = { scheduled_thread_list_member := some i
                    allocated_time := edf_alloc head_thrd_ID args rq1 b })) := by
  obtain ⟨rq2, r2, h2, hc⟩ := schedule_edf_cbs_cases head_thrd_ID args hper
  rw [h] at h2
  simp only [Option.some.injEq, Prod.mk.injEq] at h2
  obtain ⟨rfl, rfl⟩ := h2
  exact hc

/-- When the deadline-miss check finds a hard thread nothing is written. -/
theorem edf_post_miss_hard (args : threads_sched_args) (i : Nat) (m : thread)
    (hm : is_first_missed (edf_prepared args) args.current_time i m)
    (hhard : is_cbs_soft m = false) :
    edf_post_miss args = edf_prepared args := by
  unfold edf_post_miss
  rw [(check_deadline_miss_iff _ _ _ _).mpr hm]
  simp [hhard]

/-- When the deadline-miss check finds a soft thread, that thread is reset in
place. -/
theorem edf_post_miss_soft (args : threads_sched_args) (i : Nat) (m : thread)
    (hm : is_first_missed (edf_prepared args) args.current_time i m)
    (hsoft : is_cbs_soft m = true) :
    (edf_post_miss args).get? i = some (edf_soft_reset args.current_time m) := by
  unfold edf_post_miss
  rw [(check_deadline_miss_iff _ _ _ _).mpr hm]
  simp only [hsoft, if_true]
  rw [List.get?_eq_getElem?, List.getElem?_set_self', ← List.get?_eq_getElem?, hm.1]
  rfl

/-- A thread that, after the deadline-miss step, is throttled or not
postponable is in the queue the call leaves, at the same position. -/
theorem edf_final_kept (head_thrd_ID : Int) (args : threads_sched_args)
    (hper : ∀ t ∈ args.run_queue, is_int t.period)
    (rq1 : List thread) (r : threads_sched_result)
    (h : schedule_edf_cbs head_thrd_ID args = some (rq1, r))
    (j : Nat) (x : thread) (hx : (edf_post_miss args).get? j = some x)
    (hk : x.cbs.is_throttled ≠ 0 ∨ ¬ edf_postponable args.current_time x) :
    rq1.get? j = some x := by
  rcases schedule_edf_cbs_result head_thrd_ID args hper rq1 r h with
    ⟨i, m, hm, hhard, hrq, _⟩ | ⟨_, res, hsel, _⟩
  · rw [hrq, ← edf_post_miss_hard args i m hm hhard]
    exact hx
  · exact (edf_select_spec _ _ _ _ _ hsel).2.2.2.1 j x hx hk

/-- A thread that, after the two first passes, is not throttled, has its full
budget and a deadline one period after the current time is in the queue the
call leaves, at the same position. -/
theorem edf_final_fresh (head_thrd_ID : Int) (args : threads_sched_args)
    (hper : ∀ t ∈ args.run_queue, is_int t.period)
    (rq1 : List thread) (r : threads_sched_result)
    (h : schedule_edf_cbs head_thrd_ID args = some (rq1, r))
    (j : Nat) (x : thread) (hx : (edf_prepared args).get? j = some x)
    (hthr : x.cbs.is_throttled = 0) (hrb : x.cbs.remaining_budget = x.cbs.budget)
    (hcd : x.current_deadline = wrap_int (args.current_time + x.period)) :
    rq1.get? j = some x := by
  have hpost : (edf_post_miss args).get? j = some x := by
    rcases edf_post_miss_get args j x hx with h1 | ⟨_, _, h1⟩
    · exact h1
    · rw [edf_soft_reset_fresh _ x hthr hrb hcd] at h1
      exact h1
  apply edf_final_kept head_thrd_ID args hper rq1 r h j x hpost
  right
  exact not_postponable_fresh _ x hrb hcd
    (edf_post_miss_period args hper x (List.get?_mem hpost))

/-- The throttle step leaves a thread that is throttled, or has no budget left
and work left, throttled, and writes nothing else. -/
theorem edf_throttle_step_fields (t : thread)
    (hthr : t.cbs.is_throttled ≠ 0 ∨ (t.cbs.remaining_budget ≤ 0 ∧ 0 < t.remaining_time)) :
    (edf_throttle_step t).cbs.is_throttled ≠ 0 ∧
    (edf_throttle_step t).current_deadline = t.current_deadline ∧
    (edf_throttle_step t).period = t.period ∧
    (edf_throttle_step t).cbs.budget = t.cbs.budget ∧
    (edf_throttle_step t).cbs.remaining_budget = t.cbs.remaining_budget ∧
    is_cbs_soft (edf_throttle_step t) = is_cbs_soft t := by
  simp only [edf_throttle_step]
  split_ifs with hc
  · simp [is_cbs_soft]
  · refine ⟨?_, rfl, rfl, rfl, rfl, rfl⟩
    rcases hthr with h1 | h1
    · exact h1
    · exact absurd h1 hc

/-- A thread that is throttled on entry, or has no budget left and work left,
and whose deadline is the current time is replenished by the second pass and
is found in that state in the queue the call leaves. -/
theorem edf_replenished_final (head_thrd_ID : Int) (args : threads_sched_args)
    (hper : ∀ x ∈ args.run_queue, is_int x.period)
    (rq1 : List thread) (r : threads_sched_result)
    (hres : schedule_edf_cbs head_thrd_ID args = some (rq1, r))
    (j : Nat) (t : thread) (hj : args.run_queue.get? j = some t)
    (hthr : t.cbs.is_throttled ≠ 0 ∨ (t.cbs.remaining_budget ≤ 0 ∧ 0 < t.remaining_time))
    (hcd : t.current_deadline = args.current_time) :
    ∃ t1, rq1.get? j = some t1 ∧
      t1.cbs.is_throttled = 0 ∧ t1.cbs.remaining_budget = t.cbs.budget ∧
      t1.current_deadline = wrap_int (t.current_deadline + t.period) := by
  have hprep := edf_prepared_get args j
  rw [hj] at hprep
  simp only [Option.map_some'] at hprep
  obtain ⟨h1, h2, h3, h4, _, _⟩ := edf_throttle_step_fields t hthr
  have hfields :
      (edf_replenish_step args.current_time (edf_throttle_step t)).cbs.is_throttled = 0 ∧
      (edf_replenish_step args.current_time (edf_throttle_step t)).cbs.remaining_budget =
        t.cbs.budget ∧
      (edf_replenish_step args.current_time (edf_throttle_step t)).cbs.budget = t.cbs.budget ∧
      (edf_replenish_step args.current_time (edf_throttle_step t)).period = t.period ∧
      (edf_replenish_step args.current_time (edf_throttle_step t)).current_deadline =
        wrap_int (t.current_deadline + t.period) := by
    have hc : (edf_throttle_step t).cbs.is_throttled ≠ 0 ∧
        args.current_time = (edf_throttle_step t).current_deadline := ⟨h1, by rw [h2, hcd]⟩
    unfold edf_replenish_step
    rw [if_pos hc]
    refine ⟨rfl, h4, h4, h3, ?_⟩
    simp only [h2, h3]
  obtain ⟨f1, f2, f3, f4, f5⟩ := hfields
  have hfin := edf_final_fresh head_thrd_ID args hper rq1 r hres j _ hprep f1
    (by rw [f2, f3]) (by rw [f5, f4, hcd])
  exact ⟨_, hfin, f1, f2, f5⟩

/-- C14: a run-queue thread that is throttled on entry, or has
`remaining_budget <= 0` with `remaining_time > 0`, and whose
`current_deadline` equals `current_time` (the sum `current_deadline + period`
fits an `int`, periods are `int`) has after the call `is_throttled = 0`,
`remaining_budget = budget` and `current_deadline` = old `current_deadline`
+ `period`.  The conditions `period > 0` and `budget > 0` are not needed. -/
theorem edf_replenish_at_deadline (head_thrd_ID : Int) (args : threads_sched_args)
    (j : Nat) (t : thread)
    (hper : ∀ x ∈ args.run_queue, is_int x.period)
    (hj : args.run_queue.get? j = some t)
    (hthr : t.cbs.is_throttled ≠ 0 ∨ (t.cbs.remaining_budget ≤ 0 ∧ 0 < t.remaining_time))
    (hcd : t.current_deadline = args.current_time)
    (hov : is_int (t.current_deadline + t.period)) :
    ∃ rq1 r t1, schedule_edf_cbs head_thrd_ID args = some (rq1, r) ∧
      rq1.get? j = some t1 ∧
      t1.cbs.is_throttled = 0 ∧ t1.cbs.remaining_budget = t.cbs.budget ∧
      t1.current_deadline = t.current_deadline + t.period := by
  obtain ⟨rq1, r, hres, _⟩ := schedule_edf_cbs_cases head_thrd_ID args hper
  obtain ⟨t1, h1, h2, h3, h4⟩ :=
    edf_replenished_final head_thrd_ID args hper rq1 r hres j t hj hthr hcd
  refine ⟨rq1, r, t1, hres, h1, h2, h3, ?_⟩
  rw [h4, wrap_int_of_is_int _ hov]

/-- C14 at time 10 with a throttled soft thread of budget 4, period 10 and
deadline 10: after the call it is not throttled, its remaining budget is 4
and its deadline is 20. -/
theorem edf_replenish_at_deadline_witness :
    (∀ x ∈ ex_edf_replenish_args.run_queue, is_int x.period) ∧
    ex_edf_replenish_args.run_queue.get? 0 = some (ex_thread 1 6 10 10 4 0 0 1) ∧
    (schedule_edf_cbs 0 ex_edf_replenish_args).map (fun x => x.1.get? 0) =
      some (some (ex_thread 1 6 10 20 4 4 0 0)) ∧
    ∃ rq1 r t1, schedule_edf_cbs 0 ex_edf_replenish_args = some (rq1, r) ∧
      rq1.get? 0 = some t1 ∧
      t1.cbs.is_throttled = 0 ∧
      t1.cbs.remaining_budget = (ex_thread 1 6 10 10 4 0 0 1).cbs.budget ∧
      t1.current_deadline =
        (ex_thread 1 6 10 10 4 0 0 1).current_deadline + (ex_thread 1 6 10 10 4 0 0 1).period :=
  ⟨by decide, by decide, by decide,
    edf_replenish_at_deadline 0 ex_edf_replenish_args 0 (ex_thread 1 6 10 10 4 0 0 1)
      (by decide) (by decide) (by decide) (by decide) (by decide)⟩

/-- C15 fails as stated: at time 10 a throttled soft thread with deadline 8 and
period 10 ends with deadline 20, not 8 + 10; a throttled hard thread with
deadline 8 is returned as a fault and is still throttled, with deadline 8. -/
theorem edf_replenish_passed_deadline_counterexample :
    (ex_edf_late_soft_args.run_queue.get? 0 = some (ex_thread 1 6 10 8 4 0 0 1) ∧
      (ex_thread 1 6 10 8 4 0 0 1).cbs.is_throttled ≠ 0 ∧
      (ex_thread 1 6 10 8 4 0 0 1).current_deadline ≤ ex_edf_late_soft_args.current_time ∧
      (schedule_edf_cbs 0 ex_edf_late_soft_args).map (fun x => x.1) =
        some [ex_thread 1 6 10 20 4 4 0 0] ∧
      (ex_thread 1 6 10 20 4 4 0 0).current_deadline ≠
        (ex_thread 1 6 10 8 4 0 0 1).current_deadline + (ex_thread 1 6 10 8 4 0 0 1).period) ∧
    (ex_edf_late_hard_args.run_queue.get? 0 = some (ex_thread 1 6 10 8 4 0 1 1) ∧
      (ex_thread 1 6 10 8 4 0 1 1).cbs.is_throttled ≠ 0 ∧
      (ex_thread 1 6 10 8 4 0 1 1).current_deadline ≤ ex_edf_late_hard_args.current_time ∧
      schedule_edf_cbs 0 ex_edf_late_hard_args =
        some ([ex_thread 1 6 10 8 4 0 1 1],
          { scheduled_thread_list_member := some 0, allocated_time := 0 }) ∧
      (ex_thread 1 6 10 8 4 0 1 1).cbs.is_throttled ≠ 0) := by
  refine ⟨⟨by decide, by decide, by decide, by decide, by decide⟩,
    ⟨by decide, by decide, by decide, by decide, by decide⟩⟩

/-- C15, amended: a run-queue thread that is throttled on entry (periods are
`int`) and whose `current_deadline` equals `current_time` has after the call
`is_throttled = 0`, `remaining_budget = budget` and `current_deadline` = old
`current_deadline` + `period`.  When its `current_deadline` is below
`current_time` it is not replenished that way: after the call it is still
throttled with `remaining_budget` and `current_deadline` unchanged, or it is
soft and has `is_throttled = 0`, `remaining_budget = budget` and
`current_deadline = current_time + period` (the reset of the deadline-miss
step). -/
theorem edf_replenish_only_at_deadline (head_thrd_ID : Int) (args : threads_sched_args)
    (j : Nat) (t : thread)
    (hper : ∀ x ∈ args.run_queue, is_int x.period)
    (hj : args.run_queue.get? j = some t)
    (hthr : t.cbs.is_throttled ≠ 0) :
    ∃ rq1 r, schedule_edf_cbs head_thrd_ID args = some (rq1, r) ∧
      (t.current_deadline = args.current_time → is_int (t.current_deadline + t.period) →
        ∃ t1, rq1.get? j = some t1 ∧
          t1.cbs.is_throttled = 0 ∧ t1.cbs.remaining_budget = t.cbs.budget ∧
          t1.current_deadline = t.current_deadline + t.period) ∧
      (t.current_deadline < args.current_time → is_int (args.current_time + t.period) →
        ∃ t1, rq1.get? j = some t1 ∧
          ((t1.cbs.is_throttled ≠ 0 ∧ t1.cbs.remaining_budget = t.cbs.remaining_budget ∧
              t1.current_deadline = t.current_deadline) ∨
            (is_cbs_soft t = true ∧ t1.cbs.is_throttled = 0 ∧
              t1.cbs.remaining_budget = t.cbs.budget ∧
              t1.current_deadline = args.current_time + t.period))) := by
  obtain ⟨rq1, r, hres, _⟩ := schedule_edf_cbs_cases head_thrd_ID args hper
  refine ⟨rq1, r, hres, ?_, ?_⟩
  · intro hcd hov
    obtain ⟨t1, h1, h2, h3, h4⟩ :=
      edf_replenished_final head_thrd_ID args hper rq1 r hres j t hj (Or.inl hthr) hcd
    refine ⟨t1, h1, h2, h3, ?_⟩
    rw [h4, wrap_int_of_is_int _ hov]
  · intro hcd hov
    obtain ⟨h1, h2, h3, h4, h5, h6⟩ := edf_throttle_step_fields t (Or.inl hthr)
    have hprep := edf_prepared_get args j
    rw [hj] at hprep
    simp only [Option.map_some'] at hprep
    have hnofire : edf_replenish_step args.current_time (edf_throttle_step t) =
        edf_throttle_step t := by
      unfold edf_replenish_step
      rw [if_neg]
      rw [h2]
      intro hc
      omega
    rw [hnofire] at hprep
    rcases edf_post_miss_get args j _ hprep with hpost | ⟨_, hsoft, hpost⟩
    · refine ⟨_, edf_final_kept head_thrd_ID args hper rq1 r hres j _ hpost (Or.inl h1), ?_⟩
      exact Or.inl ⟨h1, h5, h2⟩
    · have hint : is_int (edf_soft_reset args.current_time (edf_throttle_step t)).period :=
        edf_post_miss_period args hper _ (List.get?_mem hpost)
      have hfin := edf_final_kept head_thrd_ID args hper rq1 r hres j _ hpost
        (Or.inr (not_postponable_fresh _ _ rfl rfl hint))
      refine ⟨_, hfin, Or.inr ⟨by rw [← h6]; exact hsoft, rfl, h4, ?_⟩⟩
      show wrap_int (args.current_time + (edf_throttle_step t).period) = _
      rw [h3, wrap_int_of_is_int _ hov]

/-- C15, amended, at time 10: a throttled soft thread of budget 4 and period 10
with deadline 10 ends not throttled, with remaining budget 4 and deadline
20; with deadline 8 it ends still throttled and unchanged, or not throttled
with remaining budget 4 and deadline 10 + 10. -/
theorem edf_replenish_only_at_deadline_witness :
    ((∀ x ∈ ex_edf_replenish_args.run_queue, is_int x.period) ∧
      ex_edf_replenish_args.run_queue.get? 0 = some (ex_thread 1 6 10 10 4 0 0 1) ∧
      (ex_thread 1 6 10 10 4 0 0 1).cbs.is_throttled ≠ 0 ∧
      ∃ rq1 r, schedule_edf_cbs 0 ex_edf_replenish_args = some (rq1, r) ∧
        ∃ t1, rq1.get? 0 = some t1 ∧
          t1.cbs.is_throttled = 0 ∧
          t1.cbs.remaining_budget = (ex_thread 1 6 10 10 4 0 0 1).cbs.budget ∧
          t1.current_deadline =
            (ex_thread 1 6 10 10 4 0 0 1).current_deadline +
              (ex_thread 1 6 10 10 4 0 0 1).period) ∧
    ((∀ x ∈ ex_edf_late_soft_args.run_queue, is_int x.period) ∧
      ex_edf_late_soft_args.run_queue.get? 0 = some (ex_thread 1 6 10 8 4 0 0 1) ∧
      (ex_thread 1 6 10 8 4 0 0 1).cbs.is_throttled ≠ 0 ∧
      ∃ rq1 r, schedule_edf_cbs 0 ex_edf_late_soft_args = some (rq1, r) ∧
        ∃ t1, rq1.get? 0 = some t1 ∧
          ((t1.cbs.is_throttled ≠ 0 ∧
              t1.cbs.remaining_budget = (ex_thread 1 6 10 8 4 0 0 1).cbs.remaining_budget ∧
              t1.current_deadline = (ex_thread 1 6 10 8 4 0 0 1).current_deadline) ∨
            (is_cbs_soft (ex_thread 1 6 10 8 4 0 0 1) = true ∧ t1.cbs.is_throttled = 0 ∧
              t1.cbs.remaining_budget = (ex_thread 1 6 10 8 4 0 0 1).cbs.budget ∧
              t1.current_deadline =
                ex_edf_late_soft_args.current_time + (ex_thread 1 6 10 8 4 0 0 1).period))) := by
  refine ⟨⟨by decide, by decide, by decide, ?_⟩, ⟨by decide, by decide, by decide, ?_⟩⟩
  · obtain ⟨rq1, r, hres, h1, _⟩ :=
      edf_replenish_only_at_deadline 0 ex_edf_replenish_args 0 (ex_thread 1 6 10 10 4 0 0 1)
        (by decide) (by decide) (by decide)
    exact ⟨rq1, r, hres, h1 (by decide) (by decide)⟩
  · obtain ⟨rq1, r, hres, _, h2⟩ :=
      edf_replenish_only_at_deadline 0 ex_edf_late_soft_args 0 (ex_thread 1 6 10 8 4 0 0 1)
        (by decide) (by decide) (by decide)
    exact ⟨rq1, r, hres, h2 (by decide) (by decide)⟩

/-! ## schedule_edf_cbs: deadline misses -/

/-- C16 fails as stated.  At time 10 a hard thread with deadline 10, no budget
left and work left is throttled, replenished (deadline 20) and then named
with `allocated_time = 5`.  At time 10 a hard thread (ID 2) with deadline 8
queued with a soft thread (ID 1) with deadline 5 is named with
`allocated_time = 1`: the deadline-miss check returned the soft thread. -/
theorem edf_hard_miss_counterexample :
    (ex_edf_hard_replenished_args.run_queue.get? 0 = some (ex_thread 1 5 10 10 4 0 1 0) ∧
      (ex_thread 1 5 10 10 4 0 1 0).cbs.is_hard_rt ≠ 0 ∧
      (ex_thread 1 5 10 10 4 0 1 0).current_deadline ≤
        ex_edf_hard_replenished_args.current_time ∧
      schedule_edf_cbs 0 ex_edf_hard_replenished_args =
        some ([ex_thread 1 5 10 20 4 4 1 0],
          { scheduled_thread_list_member := some 0, allocated_time := 5 })) ∧
    (ex_edf_masked_args.run_queue.get? 1 = some (ex_thread 2 3 10 8 4 2 1 0) ∧
      (ex_thread 2 3 10 8 4 2 1 0).cbs.is_hard_rt ≠ 0 ∧
      (ex_thread 2 3 10 8 4 2 1 0).current_deadline ≤ ex_edf_masked_args.current_time ∧
      schedule_edf_cbs 0 ex_edf_masked_args =
        some ([ex_thread 1 3 10 20 4 4 0 0, ex_thread 2 3 10 8 4 2 1 0],
          { scheduled_thread_list_member := some 1, allocated_time := 1 })) := by
  refine ⟨⟨by decide, by decide, by decide, by decide⟩,
    ⟨by decide, by decide, by decide, by decide⟩⟩

/-- C16, amended: when, after the throttle and replenish passes, the
smallest-ID run-queue thread with `current_deadline <= current_time` is hard
real-time, `schedule_edf_cbs` returns the zero-time fault that names it, and
writes nothing after those two passes, whatever other threads are queued. -/
theorem edf_hard_miss_fault (head_thrd_ID : Int) (args : threads_sched_args)
    (i : Nat) (m : thread)
    (hm : is_first_missed (edf_prepared args) args.current_time i m)
    (hhard : m.cbs.is_hard_rt ≠ 0) :
    schedule_edf_cbs head_thrd_ID args =
      some (edf_prepared args, { scheduled_thread_list_member := some i, allocated_time := 0 }) := by
  rw [schedule_edf_cbs_unfold, (check_deadline_miss_iff _ _ _ _).mpr hm]
  have hs : is_cbs_soft m = false := by
    simp [is_cbs_soft, hhard]
  simp [hs]

/-- C16, amended, at time 10 with a soft thread (ID 2, deadline 5) queued before
a hard thread (ID 1, deadline 10): the fault names the hard thread. -/
theorem edf_hard_miss_fault_witness :
    is_first_missed (edf_prepared ex_edf_hard_miss_args) ex_edf_hard_miss_args.current_time 1
      (ex_thread 1 6 10 10 4 2 1 0) ∧
    (ex_thread 1 6 10 10 4 2 1 0).cbs.is_hard_rt ≠ 0 ∧
    schedule_edf_cbs 0 ex_edf_hard_miss_args =
      some (edf_prepared ex_edf_hard_miss_args,
        { scheduled_thread_list_member := some 1, allocated_time := 0 }) :=
  ⟨by decide, by decide,
    edf_hard_miss_fault 0 ex_edf_hard_miss_args 1 (ex_thread 1 6 10 10 4 2 1 0)
      (by decide) (by decide)⟩

/-- C17: when, after the throttle and replenish passes, the smallest-ID
run-queue thread with `current_deadline <= current_time` is soft (periods are
`int`, `current_time + period` fits an `int`), the call returns a decision
with `allocated_time >= 1` and leaves that thread with `is_throttled = 0`,
`remaining_budget = budget` and `current_deadline = current_time + period`.
The condition `period > 0` is not needed. -/
theorem edf_soft_miss_reset (head_thrd_ID : Int) (args : threads_sched_args)
    (i : Nat) (m : thread)
    (hper : ∀ x ∈ args.run_queue, is_int x.period)
    (hm : is_first_missed (edf_prepared args) args.current_time i m)
    (hsoft : m.cbs.is_hard_rt = 0)
    (hov : is_int (args.current_time + m.period)) :
    ∃ rq1 r t1, schedule_edf_cbs head_thrd_ID args = some (rq1, r) ∧
      1 ≤ r.allocated_time ∧ rq1.get? i = some t1 ∧
      t1.cbs.is_throttled = 0 ∧ t1.cbs.remaining_budget = m.cbs.budget ∧
      t1.current_deadline = args.current_time + m.period := by
  have hs : is_cbs_soft m = true := by
    simp [is_cbs_soft, hsoft]
  obtain ⟨rq1, r, hres, hcase⟩ := schedule_edf_cbs_cases head_thrd_ID args hper
  have hpost := edf_post_miss_soft args i m hm hs
  have hint : is_int (edf_soft_reset args.current_time m).period :=
    edf_post_miss_period args hper _ (List.get?_mem hpost)
  have hfin := edf_final_kept head_thrd_ID args hper rq1 r hres i _ hpost
    (Or.inr (not_postponable_fresh _ _ rfl rfl hint))
  refine ⟨rq1, r, _, hres, ?_, hfin, rfl, rfl, ?_⟩
  · rcases hcase with ⟨i1, m1, hm1, hhard, _, _⟩ | ⟨_, res, _, hr⟩
    · have e1 := (check_deadline_miss_iff _ _ _ _).mpr hm
      rw [(check_deadline_miss_iff _ _ _ _).mpr hm1] at e1
      simp only [Option.some.injEq, Prod.mk.injEq] at e1
      rw [e1.2, hs] at hhard
      exact absurd hhard (by simp)
    · rcases hr with ⟨_, rfl⟩ | ⟨i1, b, _, rfl⟩
      · exact edf_idle_pos args rq1
      · exact edf_alloc_pos head_thrd_ID args rq1 b
  · show wrap_int (args.current_time + m.period) = _
    rw [wrap_int_of_is_int _ hov]

/-- C17 at time 10 with a soft thread (ID 1, deadline 5, period 10, budget 4)
and a hard thread (ID 2, deadline 8): the soft thread ends with remaining
budget 4 and deadline 20, and the decision allocates 1. -/
theorem edf_soft_miss_reset_witness :
    (∀ x ∈ ex_edf_masked_args.run_queue, is_int x.period) ∧
    is_first_missed (edf_prepared ex_edf_masked_args) ex_edf_masked_args.current_time 0
      (ex_thread 1 3 10 5 4 2 0 0) ∧
    (ex_thread 1 3 10 5 4 2 0 0).cbs.is_hard_rt = 0 ∧
    is_int (ex_edf_masked_args.current_time + (ex_thread 1 3 10 5 4 2 0 0).period) ∧
    ∃ rq1 r t1, schedule_edf_cbs 0 ex_edf_masked_args = some (rq1, r) ∧
      1 ≤ r.allocated_time ∧ rq1.get? 0 = some t1 ∧
      t1.cbs.is_throttled = 0 ∧
      t1.cbs.remaining_budget = (ex_thread 1 3 10 5 4 2 0 0).cbs.budget ∧
      t1.current_deadline =
        ex_edf_masked_args.current_time + (ex_thread 1 3 10 5 4 2 0 0).period :=
  ⟨by decide, by decide, by decide, by decide,
    edf_soft_miss_reset 0 ex_edf_masked_args 0 (ex_thread 1 3 10 5 4 2 0 0)
      (by decide) (by decide) (by decide) (by decide)⟩

/-! ## schedule_edf_cbs: selection -/

/-- C18: `schedule_edf_cbs` returns (periods are `int`), and when its decision
names a thread `b` with `allocated_time > 0`, in the queue the call leaves
`b` is not throttled and every non-throttled thread `u` has a later
`current_deadline`, or the same one and an ID not below that of `b`. -/
theorem edf_selects_earliest_deadline (head_thrd_ID : Int) (args : threads_sched_args)
    (hper : ∀ x ∈ args.run_queue, is_int x.period) :
    ∃ rq1 r, schedule_edf_cbs head_thrd_ID args = some (rq1, r) ∧
      ∀ i b, r.scheduled_thread_list_member = some i → rq1.get? i = some b →
        0 < r.allocated_time →
        b.cbs.is_throttled = 0 ∧
        ∀ u ∈ rq1, u.cbs.is_throttled = 0 →
          b.current_deadline < u.current_deadline ∨
          (b.current_deadline = u.current_deadline ∧ b.ID ≤ u.ID) := by
  obtain ⟨rq1, r, hres, hcase⟩ := schedule_edf_cbs_cases head_thrd_ID args hper
  refine ⟨rq1, r, hres, ?_⟩
  intro i b hi hb hpos
  rcases hcase with ⟨_, _, _, _, _, rfl⟩ | ⟨_, res, hsel, hr⟩
  · simp at hpos
  · rcases hr with ⟨_, rfl⟩ | ⟨i1, b1, hresb, rfl⟩
    · simp [edf_idle] at hi
    · simp only [Option.some.injEq] at hi
      subst hi
      obtain ⟨_, hscan, _, _, _⟩ := edf_select_spec _ _ _ _ _ hsel
      rw [hresb] at hscan
      obtain ⟨hget, hthr, hmin⟩ := edf_scan_spec rq1 i1 b1 hscan
      rw [hb] at hget
      simp only [Option.some.injEq] at hget
      subst hget
      exact ⟨hthr, hmin⟩

/-- C18 at time 7 with a throttled thread (deadline 10) and a thread with
budget left (deadline 20): the second is named for 2 units and is least for
(current_deadline, ID) among the non-throttled threads. -/
theorem edf_selects_earliest_deadline_witness :
    (∀ x ∈ ex_edf_throttle_args.run_queue, is_int x.period) ∧
    schedule_edf_cbs 0 ex_edf_throttle_args =
      some ([ex_thread 1 6 10 10 4 0 0 1, ex_thread 2 3 20 20 4 2 0 0],
        { scheduled_thread_list_member := some 1, allocated_time := 2 }) ∧
    ∃ rq1 r, schedule_edf_cbs 0 ex_edf_throttle_args = some (rq1, r) ∧
      ∀ i b, r.scheduled_thread_list_member = some i → rq1.get? i = some b →
        0 < r.allocated_time →
        b.cbs.is_throttled = 0 ∧
        ∀ u ∈ rq1, u.cbs.is_throttled = 0 →
          b.current_deadline < u.current_deadline ∨
          (b.current_deadline = u.current_deadline ∧ b.ID ≤ u.ID) :=
  ⟨by decide, by decide,
    edf_selects_earliest_deadline 0 ex_edf_throttle_args (by decide)⟩

/-! ## schedule_edf_cbs: postponement and budget -/

/-- C19 fails as stated: at time 10 a soft thread with remaining budget 4,
budget 4, period 10 and deadline 12 is selected and postponed (4 * 10 > 4 * 2);
its new deadline is 20 = 10 + 10, not 12 + 10. -/
theorem edf_postpone_deadline_counterexample :
    edf_scan ex_edf_postpone_args.run_queue = some (0, ex_thread 1 6 10 12 4 4 0 0) ∧
    edf_postponable ex_edf_postpone_args.current_time (ex_thread 1 6 10 12 4 4 0 0) ∧
    (edf_postpone ex_edf_postpone_args.current_time
      (ex_thread 1 6 10 12 4 4 0 0)).current_deadline = 20 ∧
    (edf_postpone ex_edf_postpone_args.current_time
      (ex_thread 1 6 10 12 4 4 0 0)).current_deadline ≠
        (ex_thread 1 6 10 12 4 4 0 0).current_deadline + (ex_thread 1 6 10 12 4 4 0 0).period ∧
    schedule_edf_cbs 0 ex_edf_postpone_args =
      some ([ex_thread 1 6 10 20 4 4 0 0],
        { scheduled_thread_list_member := some 0, allocated_time := 4 }) := by
  refine ⟨by decide, by decide, by decide, by decide, by decide⟩

/-- C19, amended: when a pass of the selection loop selects `best` and the test
of lines 345-352 holds for it, the loop goes on with the queue in which
`best` alone is replaced, by a thread whose `current_deadline` is
`current_time + period` (the sum fits an `int`) and whose `remaining_budget`
is `budget`; its throttled flag and `remaining_time` are those of `best`. -/
theorem edf_postpone_effect (ct : Int) (fuel : Nat) (rq : List thread) (i : Nat)
    (best : thread)
    (hscan : edf_scan rq = some (i, best))
    (hp : edf_postponable ct best)
    (hov : is_int (ct + best.period)) :
    edf_select ct (fuel + 1) rq = edf_select ct fuel (rq.set i (edf_postpone ct best)) ∧
    (rq.set i (edf_postpone ct best)).get? i = some (edf_postpone ct best) ∧
    (∀ j, j ≠ i → (rq.set i (edf_postpone ct best)).get? j = rq.get? j) ∧
    (edf_postpone ct best).current_deadline = ct + best.period ∧
    (edf_postpone ct best).cbs.remaining_budget = best.cbs.budget ∧
    (edf_postpone ct best).cbs.is_throttled = best.cbs.is_throttled ∧
    (edf_postpone ct best).remaining_time = best.remaining_time := by
  obtain ⟨hget, _, _⟩ := edf_scan_spec rq i best hscan
  refine ⟨?_, ?_, ?_, ?_, rfl, rfl, rfl⟩
  · rw [edf_select_succ, hscan]
    simp only [if_pos hp]
  · rw [List.get?_eq_getElem?, List.getElem?_set_self', ← List.get?_eq_getElem?, hget]
    rfl
  · intro j hj
    rw [List.get?_eq_getElem?, List.getElem?_set_ne (Ne.symm hj), ← List.get?_eq_getElem?]
  · show wrap_int (ct + best.period) = _
    rw [wrap_int_of_is_int _ hov]

/-- C19, amended, at time 10 with a soft thread of remaining budget 4, budget
4, period 10 and deadline 12: the postponed thread has deadline 20 and
remaining budget 4. -/
theorem edf_postpone_effect_witness :
    edf_scan ex_edf_postpone_args.run_queue = some (0, ex_thread 1 6 10 12 4 4 0 0) ∧
    edf_postponable 10 (ex_thread 1 6 10 12 4 4 0 0) ∧
    is_int (10 + (ex_thread 1 6 10 12 4 4 0 0).period) ∧
    edf_postpone 10 (ex_thread 1 6 10 12 4 4 0 0) = ex_thread 1 6 10 20 4 4 0 0 ∧
    (edf_select 10 2 ex_edf_postpone_args.run_queue =
        edf_select 10 1
          (ex_edf_postpone_args.run_queue.set 0 (edf_postpone 10 (ex_thread 1 6 10 12 4 4 0 0))) ∧
      (ex_edf_postpone_args.run_queue.set 0
          (edf_postpone 10 (ex_thread 1 6 10 12 4 4 0 0))).get? 0 =
        some (edf_postpone 10 (ex_thread 1 6 10 12 4 4 0 0)) ∧
      (∀ j, j ≠ 0 →
        (ex_edf_postpone_args.run_queue.set 0
          (edf_postpone 10 (ex_thread 1 6 10 12 4 4 0 0))).get? j =
          ex_edf_postpone_args.run_queue.get? j) ∧
      (edf_postpone 10 (ex_thread 1 6 10 12 4 4 0 0)).current_deadline =
        10 + (ex_thread 1 6 10 12 4 4 0 0).period ∧
      (edf_postpone 10 (ex_thread 1 6 10 12 4 4 0 0)).cbs.remaining_budget =
        (ex_thread 1 6 10 12 4 4 0 0).cbs.budget ∧
      (edf_postpone 10 (ex_thread 1 6 10 12 4 4 0 0)).cbs.is_throttled =
        (ex_thread 1 6 10 12 4 4 0 0).cbs.is_throttled ∧
      (edf_postpone 10 (ex_thread 1 6 10 12 4 4 0 0)).remaining_time =
        (ex_thread 1 6 10 12 4 4 0 0).remaining_time) :=
  ⟨by decide, by decide, by decide, by decide,
    edf_postpone_effect 10 1 ex_edf_postpone_args.run_queue 0 (ex_thread 1 6 10 12 4 4 0 0)
      (by decide) (by decide) (by decide)⟩

/-- The smaller of the two arguments: `MIN` is below its first argument. -/
theorem MIN_le_left (a b : Int) : MIN a b ≤ a := by
  unfold MIN
  split_ifs <;> omega

/-- The smaller of the two arguments: `MIN` is below its second argument. -/
theorem MIN_le_right (a b : Int) : MIN a b ≤ b := by
  unfold MIN
  split_ifs <;> omega

/-- The allocation for a selected soft thread with at least one unit of budget
left does not exceed that budget. -/
theorem edf_alloc_le_budget (head_thrd_ID : Int) (args : threads_sched_args)
    (rq : List thread) (b : thread)
    (hsoft : is_cbs_soft b = true) (hrb : 1 ≤ b.cbs.remaining_budget) :
    edf_alloc head_thrd_ID args rq b ≤ b.cbs.remaining_budget := by
  have hpos : b.cbs.remaining_budget > 0 := by omega
  have floor : ∀ x : Int, x ≤ b.cbs.remaining_budget →
      (if x ≤ 0 then 1 else x) ≤ b.cbs.remaining_budget := by
    intro x hx
    split_ifs <;> omega
  have cap : ∀ (c : Prop) [Decidable c] (x y : Int), x ≤ b.cbs.remaining_budget →
      (if c then MIN x y else x) ≤ b.cbs.remaining_budget := by
    intro c _ x y hx
    split_ifs
    · exact le_trans (MIN_le_left x y) hx
    · exact hx
  unfold edf_alloc
  simp only [hsoft, if_true, if_pos hpos]
  apply floor
  apply cap
  split_ifs <;>
    first
    | exact MIN_le_right _ _
    | exact le_trans (MIN_le_left _ _) (MIN_le_right _ _)

/-- After the throttle and replenish steps, and after a reset, a thread with
`budget >= 1` and `remaining_time >= 1` is throttled or has budget left. -/
theorem edf_steps_budget (ct : Int) (t : thread)
    (hb : 1 ≤ t.cbs.budget) (hr : 1 ≤ t.remaining_time) :
    has_budget_or_throttled (edf_replenish_step ct (edf_throttle_step t)) ∧
    has_budget_or_throttled (edf_soft_reset ct (edf_replenish_step ct (edf_throttle_step t))) := by
  constructor
  · simp only [has_budget_or_throttled, edf_replenish_step, edf_throttle_step]
    split_ifs with h1 h2 h3
    · exact ⟨hb, Or.inr hb⟩
    · exact ⟨hb, Or.inl (by simp)⟩
    · exact ⟨hb, Or.inr hb⟩
    · refine ⟨hb, Or.inr ?_⟩
      by_contra hlt
      exact h1 ⟨by omega, by omega⟩
  · simp only [has_budget_or_throttled, edf_soft_reset, edf_replenish_step, edf_throttle_step]
    split_ifs <;> exact ⟨hb, Or.inr hb⟩

/-- When every run-queue thread has `budget >= 1` and `remaining_time >= 1`,
every thread of the queue the call leaves is throttled or has budget left. -/
theorem edf_final_budget (head_thrd_ID : Int) (args : threads_sched_args)
    (hper : ∀ t ∈ args.run_queue, is_int t.period)
    (hpre : ∀ t ∈ args.run_queue, 1 ≤ t.cbs.budget ∧ 1 ≤ t.remaining_time)
    (rq1 : List thread) (r : threads_sched_result)
    (hres : schedule_edf_cbs head_thrd_ID args = some (rq1, r)) :
    ∀ x ∈ rq1, has_budget_or_throttled x := by
  have hpost : ∀ x ∈ edf_post_miss args, has_budget_or_throttled x := by
    intro x hx
    obtain ⟨t, ht, h | h⟩ := edf_post_miss_mem args x hx
    · rw [h]; exact (edf_steps_budget _ t (hpre t ht).1 (hpre t ht).2).1
    · rw [h]; exact (edf_steps_budget _ t (hpre t ht).1 (hpre t ht).2).2
  intro x hx
  rcases schedule_edf_cbs_result head_thrd_ID args hper rq1 r hres with
    ⟨i, m, hm, hhard, hrq, _⟩ | ⟨_, res, hsel, _⟩
  · rw [hrq, ← edf_post_miss_hard args i m hm hhard] at hx
    exact hpost x hx
  · obtain ⟨_, _, _, _, hprov⟩ := edf_select_spec _ _ _ _ _ hsel
    rw [List.mem_iff_get?] at hx
    obtain ⟨j, hj⟩ := hx
    obtain ⟨t, ht, hcase⟩ := hprov j x hj
    have hinv := hpost t (List.get?_mem ht)
    rcases hcase with rfl | ⟨rfl, _, _⟩
    · exact hinv
    · exact ⟨hinv.1, Or.inr hinv.1⟩

/-- C20: `schedule_edf_cbs` returns (periods are `int`), and when its decision
names a soft thread `b`: if `b.remaining_budget >= 1` in the queue the call
leaves then `allocated_time <= b.remaining_budget`; and if every run-queue
thread has `budget >= 1` and `remaining_time >= 1` on entry then
`b.remaining_budget >= 1`, hence `allocated_time <= b.remaining_budget`. -/
theorem edf_budget_isolation (head_thrd_ID : Int) (args : threads_sched_args)
    (hper : ∀ t ∈ args.run_queue, is_int t.period) :
    ∃ rq1 r, schedule_edf_cbs head_thrd_ID args = some (rq1, r) ∧
      ∀ i b, r.scheduled_thread_list_member = some i → rq1.get? i = some b →
        is_cbs_soft b = true →
        (1 ≤ b.cbs.remaining_budget → r.allocated_time ≤ b.cbs.remaining_budget) ∧
        ((∀ t ∈ args.run_queue, 1 ≤ t.cbs.budget ∧ 1 ≤ t.remaining_time) →
          1 ≤ b.cbs.remaining_budget ∧ r.allocated_time ≤ b.cbs.remaining_budget) := by
  obtain ⟨rq1, r, hres, hcase⟩ := schedule_edf_cbs_cases head_thrd_ID args hper
  refine ⟨rq1, r, hres, ?_⟩
  intro i b hi hb hsoft
  have hle : 1 ≤ b.cbs.remaining_budget → r.allocated_time ≤ b.cbs.remaining_budget := by
    intro hrb
    rcases hcase with ⟨i1, m, hm, hhard, hrq, hr⟩ | ⟨_, res, hsel, hr⟩
    · subst hrq hr
      simp only [Option.some.injEq] at hi
      subst hi
      rw [hm.1] at hb
      simp only [Option.some.injEq] at hb
      rw [hb, hsoft] at hhard
      exact absurd hhard (by simp)
    · rcases hr with ⟨_, rfl⟩ | ⟨i1, b1, hresb, rfl⟩
      · simp [edf_idle] at hi
      · simp only [Option.some.injEq] at hi
        subst hi
        obtain ⟨_, hscan, _, _, _⟩ := edf_select_spec _ _ _ _ _ hsel
        rw [hresb] at hscan
        obtain ⟨hget, hthr, _⟩ := edf_scan_spec rq1 i1 b1 hscan
        rw [hb] at hget
        simp only [Option.some.injEq] at hget
        subst hget
        exact edf_alloc_le_budget head_thrd_ID args rq1 b hsoft hrb
  refine ⟨hle, ?_⟩
  intro hpre
  have hinv := edf_final_budget head_thrd_ID args hper hpre rq1 r hres b (List.get?_mem hb)
  have hthr : b.cbs.is_throttled = 0 := by
    rcases hcase with ⟨i1, m, hm, hhard, hrq, hr⟩ | ⟨_, res, hsel, hr⟩
    · subst hrq hr
      simp only [Option.some.injEq] at hi
      subst hi
      rw [hm.1] at hb
      simp only [Option.some.injEq] at hb
      rw [hb, hsoft] at hhard
      exact absurd hhard (by simp)
    · rcases hr with ⟨_, rfl⟩ | ⟨i1, b1, hresb, rfl⟩
      · simp [edf_idle] at hi
      · simp only [Option.some.injEq] at hi
        subst hi
        obtain ⟨_, hscan, _, _, _⟩ := edf_select_spec _ _ _ _ _ hsel
        rw [hresb] at hscan
        obtain ⟨hget, hthr, _⟩ := edf_scan_spec rq1 i1 b1 hscan
        rw [hb] at hget
        simp only [Option.some.injEq] at hget
        subst hget
        exact hthr
  have hrb : 1 ≤ b.cbs.remaining_budget := by
    rcases hinv.2 with h | h
    · exact absurd hthr h
    · exact h
  exact ⟨hrb, hle hrb⟩

/-- C20 at time 7 with two soft threads of budget 4: the thread named has
remaining budget 2 and gets 2 units, although it has 3 units of work left. -/
theorem edf_budget_isolation_witness :
    (∀ t ∈ ex_edf_throttle_args.run_queue, is_int t.period) ∧
    (∀ t ∈ ex_edf_throttle_args.run_queue, 1 ≤ t.cbs.budget ∧ 1 ≤ t.remaining_time) ∧
    schedule_edf_cbs 0 ex_edf_throttle_args =
      some ([ex_thread 1 6 10 10 4 0 0 1, ex_thread 2 3 20 20 4 2 0 0],
        { scheduled_thread_list_member := some 1, allocated_time := 2 }) ∧
    ∃ rq1 r, schedule_edf_cbs 0 ex_edf_throttle_args = some (rq1, r) ∧
      ∀ i b, r.scheduled_thread_list_member = some i → rq1.get? i = some b →
        is_cbs_soft b = true →
        (1 ≤ b.cbs.remaining_budget → r.allocated_time ≤ b.cbs.remaining_budget) ∧
        ((∀ t ∈ ex_edf_throttle_args.run_queue, 1 ≤ t.cbs.budget ∧ 1 ≤ t.remaining_time) →
          1 ≤ b.cbs.remaining_budget ∧ r.allocated_time ≤ b.cbs.remaining_budget) :=
  ⟨by decide, by decide, by decide,
    edf_budget_isolation 0 ex_edf_throttle_args (by decide)⟩

/-! ## Release preemption of `schedule_edf_cbs` -/

/-- The first component of the EDF release-queue pass is the release time the
release-queue pass of the other policies finds. -/
theorem edf_release_loop_fst (ct : Int) (rel : List release_queue_entry) (nr nrd : Int) :
    (edf_release_loop ct rel nr nrd).1 = next_release_loop ct rel nr := by
  induction rel generalizing nr nrd with
  | nil => rfl
  | cons a rest ih =>
    simp only [edf_release_loop, next_release_loop]
    split_ifs <;> exact ih _ _

/-- When the EDF release-queue pass ends with the release time it started with,
the deadline it ends with is not above the one it started with. -/
theorem edf_release_loop_snd_le (ct : Int) (rel : List release_queue_entry) (nr nrd : Int)
    (h : (edf_release_loop ct rel nr nrd).1 = nr) :
    (edf_release_loop ct rel nr nrd).2 ≤ nrd := by
  induction rel generalizing nrd with
  | nil => simp [edf_release_loop]
  | cons a rest ih =>
    simp only [edf_release_loop] at h ⊢
    split_ifs at h ⊢ with h1 h2 h3
    · rw [edf_release_loop_fst] at h
      have := (next_release_loop_spec ct rest a.release_time).1
      omega
    · exact le_trans (ih _ h) (le_of_lt h3)
    · exact ih _ h
    · exact ih _ h

/-- The deadline the EDF release-queue pass ends with is not above the absolute
deadline of any entry released after `current_time` at the release time the
pass ends with. -/
theorem edf_release_loop_snd (ct : Int) (rel : List release_queue_entry) (nr nrd : Int)
    (e : release_queue_entry) (he : e ∈ rel) (hct : ct < e.release_time)
    (hle : e.release_time ≤ nr)
    (hfin : (edf_release_loop ct rel nr nrd).1 = e.release_time) :
    (edf_release_loop ct rel nr nrd).2 ≤ wrap_int (e.release_time + e.thrd.deadline) := by
  induction rel generalizing nr nrd with
  | nil => simp at he
  | cons a rest ih =>
    rcases List.mem_cons.mp he with rfl | he
    · simp only [edf_release_loop] at hfin ⊢
      split_ifs at hfin ⊢ with h1 h2 h3
      · exact edf_release_loop_snd_le ct rest _ _ hfin
      · exact edf_release_loop_snd_le ct rest _ _ (hfin.trans h2)
      · exact le_trans (edf_release_loop_snd_le ct rest _ _ (hfin.trans h2)) (not_lt.mp h3)
      · exfalso
        exact h2 (le_antisymm hle (not_lt.mp (fun hlt => h1 ⟨hct, hlt⟩)))
    · simp only [edf_release_loop] at hfin ⊢
      split_ifs at hfin ⊢ with h1 h2 h3
      · refine ih _ _ he ?_ hfin
        rw [edf_release_loop_fst] at hfin
        have := (next_release_loop_spec ct rest a.release_time).1
        omega
      · exact ih _ _ he hle hfin
      · exact ih _ _ he hle hfin
      · exact ih _ _ he hle hfin

/-- When the earliest release after `current_time` lies below `INT_MAX` and an
entry released then has an absolute deadline before the deadline of the
selected thread, the allocation of `schedule_edf_cbs` ends at that release. -/
theorem edf_alloc_le_release (head_thrd_ID : Int) (args : threads_sched_args)
    (rq : List thread) (b : thread) (e : release_queue_entry)
    (he : e ∈ args.release_queue)
    (hnext : is_next_release args.release_queue args.current_time e.release_time)
    (hmax : e.release_time < INT_MAX)
    (hgap : is_int (e.release_time - args.current_time))
    (hdl : is_int (e.release_time + e.thrd.deadline))
    (hurgent : e.release_time + e.thrd.deadline < b.current_deadline) :
    edf_alloc head_thrd_ID args rq b ≤ e.release_time - args.current_time := by
  have hfst : (edf_release_loop args.current_time args.release_queue INT_MAX INT_MAX).1 =
      e.release_time := by
    rw [edf_release_loop_fst]
    exact next_release_loop_eq _ _ _ hnext hmax
  have hsnd := edf_release_loop_snd args.current_time args.release_queue INT_MAX INT_MAX e he
    hnext.2.1 (le_of_lt hmax) hfst
  rw [wrap_int_of_is_int _ hdl] at hsnd
  have hct := hnext.2.1
  have key : ∀ x y : Int, x ≤ e.release_time - args.current_time →
      (if (if y ≠ INT_MAX then MIN x (wrap_int (y - args.current_time)) else x) ≤ 0 then 1
        else (if y ≠ INT_MAX then MIN x (wrap_int (y - args.current_time)) else x)) ≤
        e.release_time - args.current_time := by
    intro x y hx
    have h1 : (if y ≠ INT_MAX then MIN x (wrap_int (y - args.current_time)) else x) ≤ x := by
      split_ifs
      · exact MIN_le_left _ _
      · exact le_refl _
    split_ifs <;> omega
  have hlt := lt_of_le_of_lt hsnd hurgent
  have hc : e.release_time ≠ INT_MAX ∧ e.release_time > args.current_time :=
    ⟨ne_of_lt hmax, hct⟩
  unfold edf_alloc
  simp only [hfst, hc, hlt, and_self, if_true]
  apply key
  rw [wrap_int_of_is_int _ hgap, if_pos ⟨ne_of_lt hmax, trivial⟩]
  exact MIN_le_right _ _

/-- C21, where the code differs from the claim: at time 10 the thread named
has deadline 50 and 30 units of work; the release at 15 has absolute deadline
17, which is earlier, but the earliest release (at 12) has absolute deadline
112, so `schedule_edf_cbs` caps nothing: the 30 units allocated end at 40,
after the release at 15.  With the urgent release the earliest one
(`ex_edf_urgent_release_args`) the same thread gets the 5 units up to it, and
`schedule_dm` on the first input stops at the next release, after 2 units. -/
theorem edf_release_preemption_misses_later_release :
    schedule_edf_cbs 0 ex_edf_release_args =
      some ([ex_thread 1 30 100 50 4 4 1 0],
        { scheduled_thread_list_member := some 0, allocated_time := 30 }) ∧
    ¬ (∀ rq1 r, schedule_edf_cbs 0 ex_edf_release_args = some (rq1, r) →
        ∀ i b e, r.scheduled_thread_list_member = some i → rq1.get? i = some b →
          e ∈ ex_edf_release_args.release_queue →
          ex_edf_release_args.current_time < e.release_time →
          e.release_time + e.thrd.deadline < b.current_deadline →
          ex_edf_release_args.current_time + r.allocated_time ≤ e.release_time) ∧
    schedule_edf_cbs 0 ex_edf_urgent_release_args =
      some ([ex_thread 1 30 100 50 4 4 1 0],
        { scheduled_thread_list_member := some 0, allocated_time := 5 }) ∧
    schedule_dm ex_edf_release_args =
      { scheduled_thread_list_member := some 0, allocated_time := 2 } := by
  have hrun : schedule_edf_cbs 0 ex_edf_release_args =
      some ([ex_thread 1 30 100 50 4 4 1 0],
        { scheduled_thread_list_member := some 0, allocated_time := 30 }) := by decide
  refine ⟨hrun, ?_, by decide, by decide⟩
  intro h
  have := h _ _ hrun 0 (ex_thread 1 30 100 50 4 4 1 0)
    { thrd := ex_thread 3 1 2 0 4 4 1 0, release_time := 15 } rfl rfl (by decide) (by decide)
    (by decide)
  revert this
  decide

/-- The cap of lines 414-425 at the earliest release: `schedule_edf_cbs`
returns (periods are `int`), and for every decision that names a thread `b`
and every release-queue entry `e` whose release time is the earliest release
time after `current_time`, lies below
`INT_MAX`, and whose absolute deadline `e.release_time + e.thrd.deadline` is
strictly earlier than `b.current_deadline` (neither that sum nor
`e.release_time - current_time` overflows):
`current_time + allocated_time <= e.release_time`. -/
theorem edf_release_preemption (head_thrd_ID : Int) (args : threads_sched_args)
    (hper : ∀ t ∈ args.run_queue, is_int t.period) :
    ∃ rq1 r, schedule_edf_cbs head_thrd_ID args = some (rq1, r) ∧
      ∀ i b e, r.scheduled_thread_list_member = some i → rq1.get? i = some b →
        e ∈ args.release_queue →
        is_next_release args.release_queue args.current_time e.release_time →
        e.release_time < INT_MAX →
        is_int (e.release_time - args.current_time) →
        is_int (e.release_time + e.thrd.deadline) →
        e.release_time + e.thrd.deadline < b.current_deadline →
        args.current_time + r.allocated_time ≤ e.release_time := by
  obtain ⟨rq1, r, hres, hcase⟩ := schedule_edf_cbs_cases head_thrd_ID args hper
  refine ⟨rq1, r, hres, ?_⟩
  intro i b e hi hb he hnext hmax hgap hdl hurgent
  have hct := hnext.2.1
  rcases hcase with ⟨i1, m, hm, hhard, hrq, hr⟩ | ⟨_, res, hsel, hr⟩
  · subst hr
    simp only
    omega
  · rcases hr with ⟨_, rfl⟩ | ⟨i1, b1, hresb, rfl⟩
    · simp [edf_idle] at hi
    · simp only [Option.some.injEq] at hi
      subst hi
      obtain ⟨_, hscan, _, _, _⟩ := edf_select_spec _ _ _ _ _ hsel
      rw [hresb] at hscan
      obtain ⟨hget, _, _⟩ := edf_scan_spec rq1 i1 b1 hscan
      rw [hb] at hget
      simp only [Option.some.injEq] at hget
      subst hget
      have := edf_alloc_le_release head_thrd_ID args rq1 b e he hnext hmax hgap hdl hurgent
      simp only
      omega

/-- The cap at the earliest release, at time 10 with releases at 15 (absolute
deadline 17) and 20: the thread named has deadline 50 and 30 units of work,
and gets the 5 units up to the release at 15. -/
theorem edf_release_preemption_witness :
    (∀ t ∈ ex_edf_urgent_release_args.run_queue, is_int t.period) ∧
    schedule_edf_cbs 0 ex_edf_urgent_release_args =
      some ([ex_thread 1 30 100 50 4 4 1 0],
        { scheduled_thread_list_member := some 0, allocated_time := 5 }) ∧
    is_next_release ex_edf_urgent_release_args.release_queue 10 15 ∧
    ∃ rq1 r, schedule_edf_cbs 0 ex_edf_urgent_release_args = some (rq1, r) ∧
      ∀ i b e, r.scheduled_thread_list_member = some i → rq1.get? i = some b →
        e ∈ ex_edf_urgent_release_args.release_queue →
        is_next_release ex_edf_urgent_release_args.release_queue
          ex_edf_urgent_release_args.current_time e.release_time →
        e.release_time < INT_MAX →
        is_int (e.release_time - ex_edf_urgent_release_args.current_time) →
        is_int (e.release_time + e.thrd.deadline) →
        e.release_time + e.thrd.deadline < b.current_deadline →
        ex_edf_urgent_release_args.current_time + r.allocated_time ≤ e.release_time :=
  ⟨by decide, by decide, by decide,
    edf_release_preemption 0 ex_edf_urgent_release_args (by decide)⟩

/-! ## The four policies without budgets leave the threads alone -/

/-- The first pass of `schedule_priority_rr` reads no `cbs` field. -/
theorem min_prio_loop_rel (l1 l2 : List thread) (hl : List.Forall₂ same_but_cbs l1 l2)
    (m : Int) : min_prio_loop l1 m = min_prio_loop l2 m := by
  induction hl generalizing m with
  | nil => rfl
  | @cons x y r1 r2 hxy _ ih =>
    simp only [min_prio_loop, hxy.2.2.2.2.1]
    split_ifs <;> exact ih _

/-- The second pass of `schedule_priority_rr` reads no `cbs` field. -/
theorem grp_size_loop_rel (mp : Int) (l1 l2 : List thread)
    (hl : List.Forall₂ same_but_cbs l1 l2) (g : Int) :
    grp_size_loop mp l1 g = grp_size_loop mp l2 g := by
  induction hl generalizing g with
  | nil => rfl
  | @cons x y r1 r2 hxy _ ih =>
    simp only [grp_size_loop, hxy.2.2.2.2.1]
    split_ifs <;> exact ih _

/-- The third pass of `schedule_priority_rr` reads no `cbs` field. -/
theorem priority_rr_pick_rel (mp g q : Int) (l1 l2 : List thread)
    (hl : List.Forall₂ same_but_cbs l1 l2) (k : Nat) :
    priority_rr_pick mp g q l1 k = priority_rr_pick mp g q l2 k := by
  induction hl generalizing k with
  | nil => rfl
  | @cons x y r1 r2 hxy _ ih =>
    simp only [priority_rr_pick, hxy.2.2.2.2.1, hxy.2.1]
    split_ifs <;> first | rfl | exact ih _

/-- The decision of `schedule_default` does not depend on `cbs` fields. -/
theorem schedule_default_rel (args1 args2 : threads_sched_args)
    (h : args_same_but_cbs args1 args2) : schedule_default args1 = schedule_default args2 := by
  obtain ⟨_, _, _, hrq⟩ := h
  simp only [schedule_default]
  rcases scan_best_rel (fun _ => true) (fun th b => decide (th.ID < b.ID)) same_but_cbs
      (fun _ _ _ => rfl) (fun a b a1 b1 h1 h2 => by simp only [h1.1, h2.1])
      args1.run_queue args2.run_queue hrq 0 none none (Or.inl ⟨rfl, rfl⟩) with
    ⟨h1, h2⟩ | ⟨j, a, b, h1, h2, hab⟩
  · rw [h1, h2]
  · rw [h1, h2]
    simp only [hab.2.1]

/-- The decision of `schedule_hrrn` does not depend on `cbs` fields. -/
theorem schedule_hrrn_rel (args1 args2 : threads_sched_args)
    (h : args_same_but_cbs args1 args2) : schedule_hrrn args1 = schedule_hrrn args2 := by
  obtain ⟨hct, _, hrel, hrq⟩ := h
  have hl1 := hrrn_loop_best args1.current_time args1.run_queue 0 ⟨none, 0, 1⟩ (by simp)
  have hl2 := hrrn_loop_best args2.current_time args2.run_queue 0 ⟨none, 0, 1⟩ (by simp)
  rw [← hct] at hl2
  simp only at hl1 hl2
  simp only [schedule_hrrn, ← hct, ← hrel, hl1, hl2]
  rcases scan_best_rel (fun _ => true) (hrrn_better args1.current_time) same_but_cbs
      (fun _ _ _ => rfl)
      (fun a b a1 b1 h1 h2 => by
        simp only [hrrn_better, hrrn_num, hrrn_den, hrrn_wait, h1.1, h2.1, h1.2.2.1,
          h2.2.2.1, h1.2.2.2.1, h2.2.2.2.1])
      args1.run_queue args2.run_queue hrq 0 none none (Or.inl ⟨rfl, rfl⟩) with
    ⟨h1, h2⟩ | ⟨j, a, b, h1, h2, hab⟩
  · rw [h1, h2]
  · rw [h1, h2]
    simp only [hab.2.1]

/-- The decision of `schedule_priority_rr` does not depend on `cbs` fields. -/
theorem schedule_priority_rr_rel (args1 args2 : threads_sched_args)
    (h : args_same_but_cbs args1 args2) :
    schedule_priority_rr args1 = schedule_priority_rr args2 := by
  obtain ⟨_, hq, _, hrq⟩ := h
  simp only [schedule_priority_rr, hq]
  rw [min_prio_loop_rel _ _ hrq, grp_size_loop_rel _ _ _ hrq, priority_rr_pick_rel _ _ _ _ _ hrq]

/-- The decision of `schedule_dm` does not depend on `cbs` fields. -/
theorem schedule_dm_rel (args1 args2 : threads_sched_args)
    (h : args_same_but_cbs args1 args2) : schedule_dm args1 = schedule_dm args2 := by
  obtain ⟨hct, _, hrel, hrq⟩ := h
  have hemp : ∀ l1 l2 : List thread, List.Forall₂ same_but_cbs l1 l2 →
      l1.isEmpty = l2.isEmpty := by
    intro l1 l2 hl
    cases hl <;> rfl
  have hemp := hemp _ _ hrq
  simp only [schedule_dm, __check_deadline_miss, ← hct, ← hrel, hemp]
  rcases scan_best_rel (fun th => decide (th.current_deadline ≤ args1.current_time))
      (fun th b => decide (th.ID < b.ID)) same_but_cbs
      (fun a b h1 => by simp only [h1.2.2.2.2.2.2.2])
      (fun a b a1 b1 h1 h2 => by simp only [h1.1, h2.1])
      args1.run_queue args2.run_queue hrq 0 none none (Or.inl ⟨rfl, rfl⟩) with
    ⟨h1, h2⟩ | ⟨j, a, b, h1, h2, hab⟩
  · rw [h1, h2]
    simp only
    rcases scan_best_rel (fun _ => true) (fun th b => decide (__dm_thread_cmp th b < 0))
        same_but_cbs (fun _ _ _ => rfl)
        (fun a b a1 b1 h1 h2 => by
          simp only [__dm_thread_cmp, h1.1, h2.1, h1.2.2.2.2.2.1, h2.2.2.2.2.2.1])
        args1.run_queue args2.run_queue hrq 0 none none (Or.inl ⟨rfl, rfl⟩) with
      ⟨h3, h4⟩ | ⟨j, a, b, h3, h4, hab⟩
    · rw [h3, h4]
    · rw [h3, h4]
      simp only [dm_allocated, hab.2.1, hab.2.2.2.2.2.2.2]
  · rw [h1, h2]

/-- C22: a call of `schedule_default`, `schedule_hrrn`, `schedule_priority_rr`
or `schedule_dm` leaves the run queue it is given (same threads with the same
fields, in the same order), and for two argument records that differ only in
`cbs` fields of run-queue threads each of the four returns the same decision
(same list member, same allocated time). -/
theorem policies_without_store_pure (args1 args2 : threads_sched_args)
    (h : args_same_but_cbs args1 args2) :
    ((call_without_store schedule_default args1).1 = args1.run_queue ∧
      (call_without_store schedule_hrrn args1).1 = args1.run_queue ∧
      (call_without_store schedule_priority_rr args1).1 = args1.run_queue ∧
      (call_without_store schedule_dm args1).1 = args1.run_queue) ∧
    (call_without_store schedule_default args1).2 =
      (call_without_store schedule_default args2).2 ∧
    (call_without_store schedule_hrrn args1).2 = (call_without_store schedule_hrrn args2).2 ∧
    (call_without_store schedule_priority_rr args1).2 =
      (call_without_store schedule_priority_rr args2).2 ∧
    (call_without_store schedule_dm args1).2 = (call_without_store schedule_dm args2).2 :=
  ⟨⟨rfl, rfl, rfl, rfl⟩, schedule_default_rel args1 args2 h, schedule_hrrn_rel args1 args2 h,
    schedule_priority_rr_rel args1 args2 h, schedule_dm_rel args1 args2 h⟩

/-- C22 at the three threads of `ex_dm_args` against the same threads with
other budgets, one of them throttled: `schedule_dm` names position 2 for 3
units in both. -/
theorem policies_without_store_pure_witness :
    args_same_but_cbs ex_dm_args ex_dm_cbs_args ∧
    ex_dm_args.run_queue ≠ ex_dm_cbs_args.run_queue ∧
    schedule_dm ex_dm_cbs_args = { scheduled_thread_list_member := some 2, allocated_time := 3 } ∧
    ((call_without_store schedule_default ex_dm_args).1 = ex_dm_args.run_queue ∧
      (call_without_store schedule_hrrn ex_dm_args).1 = ex_dm_args.run_queue ∧
      (call_without_store schedule_priority_rr ex_dm_args).1 = ex_dm_args.run_queue ∧
      (call_without_store schedule_dm ex_dm_args).1 = ex_dm_args.run_queue) ∧
    (call_without_store schedule_default ex_dm_args).2 =
      (call_without_store schedule_default ex_dm_cbs_args).2 ∧
    (call_without_store schedule_hrrn ex_dm_args).2 =
      (call_without_store schedule_hrrn ex_dm_cbs_args).2 ∧
    (call_without_store schedule_priority_rr ex_dm_args).2 =
      (call_without_store schedule_priority_rr ex_dm_cbs_args).2 ∧
    (call_without_store schedule_dm ex_dm_args).2 =
      (call_without_store schedule_dm ex_dm_cbs_args).2 :=
  have hrel : args_same_but_cbs ex_dm_args ex_dm_cbs_args :=
    ⟨rfl, rfl, rfl, List.Forall₂.cons (by decide) (List.Forall₂.cons (by decide)
      (List.Forall₂.cons (by decide) List.Forall₂.nil))⟩
  ⟨hrel, by decide, by decide, policies_without_store_pure ex_dm_args ex_dm_cbs_args hrel⟩

/-! ## schedule_edf_cbs: the postponement test and the end of the loop -/

/-- C35: in a pass of the selection loop whose candidate is `b` (the
non-throttled thread with the earliest deadline, smallest ID among equal
deadlines), `b` is postponed and the loop restarts if `b` is soft,
`b.current_deadline > current_time` and
`b.remaining_budget * b.period > b.budget * (b.current_deadline - current_time)`
(exact integers); otherwise the loop ends with `b` and the queue as it is, so a
hard thread and a soft thread with `current_deadline <= current_time` are not
postponed.  The subtraction `b.current_deadline - current_time` is taken not
to overflow. -/
theorem edf_postponement_condition (ct : Int) (fuel : Nat) (rq : List thread) (i : Nat)
    (b : thread) (hscan : edf_scan rq = some (i, b))
    (hdist : is_int (b.current_deadline - ct)) :
    (rq.get? i = some b ∧ b.cbs.is_throttled = 0 ∧
      ∀ u ∈ rq, u.cbs.is_throttled = 0 →
        b.current_deadline < u.current_deadline ∨
        (b.current_deadline = u.current_deadline ∧ b.ID ≤ u.ID)) ∧
    ((is_cbs_soft b = true ∧ b.current_deadline > ct ∧
        b.cbs.remaining_budget * b.period > b.cbs.budget * (b.current_deadline - ct)) →
      edf_select ct (fuel + 1) rq = edf_select ct fuel (rq.set i (edf_postpone ct b))) ∧
    (¬ (is_cbs_soft b = true ∧ b.current_deadline > ct ∧
        b.cbs.remaining_budget * b.period > b.cbs.budget * (b.current_deadline - ct)) →
      edf_select ct (fuel + 1) rq = some (rq, some (i, b))) := by
  have hw := wrap_int_of_is_int _ hdist
  have hiff : edf_postponable ct b ↔
      (is_cbs_soft b = true ∧ b.current_deadline > ct ∧
        b.cbs.remaining_budget * b.period > b.cbs.budget * (b.current_deadline - ct)) := by
    simp only [edf_postponable, hw]
    constructor
    · rintro ⟨h1, h2, h3⟩
      exact ⟨h1, by omega, h3⟩
    · rintro ⟨h1, h2, h3⟩
      exact ⟨h1, by omega, h3⟩
  refine ⟨edf_scan_spec rq i b hscan, ?_, ?_⟩
  · intro hc
    rw [edf_select_succ, hscan]
    simp only [if_pos (hiff.mpr hc)]
  · intro hc
    rw [edf_select_succ, hscan]
    simp only [if_neg (fun h => hc (hiff.mp h))]

/-- C35 at a soft thread with budget 4, remaining budget 4, period 10 and
deadline 12 at time 10: 4 * 10 > 4 * 2, the thread is postponed; postponed to
deadline 20, 4 * 10 > 4 * 10 fails and the loop ends with it. -/
theorem edf_postponement_condition_witness :
    edf_scan ex_edf_postpone_args.run_queue = some (0, ex_thread 1 6 10 12 4 4 0 0) ∧
    is_int ((ex_thread 1 6 10 12 4 4 0 0).current_deadline - 10) ∧
    edf_select 10 2 ex_edf_postpone_args.run_queue =
      some ([ex_thread 1 6 10 20 4 4 0 0], some (0, ex_thread 1 6 10 20 4 4 0 0)) ∧
    ((is_cbs_soft (ex_thread 1 6 10 12 4 4 0 0) = true ∧
        (ex_thread 1 6 10 12 4 4 0 0).current_deadline > 10 ∧
        (ex_thread 1 6 10 12 4 4 0 0).cbs.remaining_budget * (ex_thread 1 6 10 12 4 4 0 0).period >
          (ex_thread 1 6 10 12 4 4 0 0).cbs.budget *
            ((ex_thread 1 6 10 12 4 4 0 0).current_deadline - 10)) →
      edf_select 10 (1 + 1) ex_edf_postpone_args.run_queue =
        edf_select 10 1 (ex_edf_postpone_args.run_queue.set 0
          (edf_postpone 10 (ex_thread 1 6 10 12 4 4 0 0)))) :=
  ⟨by decide, by decide, by decide,
    (edf_postponement_condition 10 1 ex_edf_postpone_args.run_queue 0
      (ex_thread 1 6 10 12 4 4 0 0) (by decide) (by decide)).2.1⟩

/-- The positions recorded are those of `edf_select`: one pass of the
recording loop. -/
theorem edf_postponed_positions_succ (ct : Int) (fuel : Nat) (rq : List thread) :
    edf_postponed_positions ct (fuel + 1) rq =
      match edf_scan rq with
      | none => []
      | some (i, best) =>
        if edf_postponable ct best then
          i :: edf_postponed_positions ct fuel (rq.set i (edf_postpone ct best))
        else [] := by
  simp only [edf_postponed_positions, edf_scan]
  cases scan_best (fun th => th.cbs.is_throttled == 0)
      (fun th b => decide (__edf_thread_cmp th b < 0)) rq 0 none with
  | none => rfl
  | some ib =>
    obtain ⟨i, best⟩ := ib
    simp only [edf_postponable]
    by_cases h1 : is_cbs_soft best = true
    · by_cases h2 : wrap_int (best.current_deadline - ct) > 0
      · by_cases h3 : best.cbs.remaining_budget * best.period >
            best.cbs.budget * wrap_int (best.current_deadline - ct)
        · simp [h1, h2, h3]
        · simp [h1, h2, h3]
      · simp [h1, h2]
    · simp [h1]

/-- A run of the selection loop that ends with some fuel ends the same way with
more. -/
theorem edf_select_fuel_mono (ct : Int) (fuel : Nat) (rq : List thread)
    (x : List thread × Option (Nat × thread)) (h : edf_select ct fuel rq = some x) :
    edf_select ct (fuel + 1) rq = some x ∧
    edf_postponed_positions ct (fuel + 1) rq = edf_postponed_positions ct fuel rq ∧
    (edf_postponed_positions ct fuel rq).length < fuel := by
  induction fuel generalizing rq with
  | zero => simp [edf_select] at h
  | succ n ih =>
    rw [edf_select_succ] at h ⊢
    rw [edf_postponed_positions_succ ct (n + 1), edf_postponed_positions_succ ct n]
    cases hs : edf_scan rq with
    | none => simp [hs] at h ⊢; exact h
    | some ib =>
      obtain ⟨i, best⟩ := ib
      simp only [hs] at h ⊢
      by_cases hp : edf_postponable ct best
      · simp only [if_pos hp] at h ⊢
        obtain ⟨h1, h2, h3⟩ := ih _ h
        refine ⟨h1, by rw [h2], ?_⟩
        simp only [List.length_cons]
        omega
      · simp only [if_neg hp] at h ⊢
        exact ⟨h, trivial, by simp⟩

/-- A run of the selection loop that ends with some fuel ends the same way with
any larger fuel. -/
theorem edf_select_fuel_le (ct : Int) (fuel fuel1 : Nat) (rq : List thread)
    (x : List thread × Option (Nat × thread)) (h : edf_select ct fuel rq = some x)
    (hle : fuel ≤ fuel1) :
    edf_select ct fuel1 rq = some x ∧
    edf_postponed_positions ct fuel1 rq = edf_postponed_positions ct fuel rq := by
  induction fuel1 with
  | zero =>
    have : fuel = 0 := by omega
    subst this
    exact ⟨h, rfl⟩
  | succ m ih =>
    by_cases hm : fuel ≤ m
    · obtain ⟨h1, h2⟩ := ih hm
      obtain ⟨h3, h4, _⟩ := edf_select_fuel_mono ct m rq x h1
      exact ⟨h3, by rw [h4, h2]⟩
    · have : fuel = m + 1 := by omega
      subst this
      exact ⟨h, rfl⟩

/-- Every position the loop postpones from a queue holds, in that queue, a
thread that passes the postponement test; so no position is postponed
twice. -/
theorem edf_postponed_positions_spec (ct : Int) (fuel : Nat) (rq : List thread)
    (hper : ∀ t ∈ rq, is_int t.period) :
    (∀ k ∈ edf_postponed_positions ct fuel rq,
      ∃ t, rq.get? k = some t ∧ edf_postponable ct t) ∧
    (edf_postponed_positions ct fuel rq).Nodup := by
  induction fuel generalizing rq with
  | zero => simp [edf_postponed_positions]
  | succ n ih =>
    rw [edf_postponed_positions_succ]
    cases hs : edf_scan rq with
    | none => simp
    | some ib =>
      obtain ⟨i, best⟩ := ib
      simp only
      by_cases hp : edf_postponable ct best
      · simp only [if_pos hp]
        obtain ⟨hget, _, _⟩ := edf_scan_spec rq i best hs
        have hbest : best ∈ rq := List.get?_mem hget
        have hfresh : ¬ edf_postponable ct (edf_postpone ct best) :=
          not_postponable_fresh ct _ rfl rfl (hper best hbest)
        have hper1 : ∀ t ∈ rq.set i (edf_postpone ct best), is_int t.period := by
          intro t ht
          rcases List.mem_or_eq_of_mem_set ht with ht | rfl
          · exact hper t ht
          · exact hper best hbest
        obtain ⟨ih1, ih2⟩ := ih (rq.set i (edf_postpone ct best)) hper1
        have hilt : i < rq.length := by
          rw [List.get?_eq_getElem?] at hget
          exact (List.getElem?_eq_some_iff.mp hget).1
        have hrest : ∀ k ∈ edf_postponed_positions ct n (rq.set i (edf_postpone ct best)),
            k ≠ i ∧ ∃ t, rq.get? k = some t ∧ edf_postponable ct t := by
          intro k hk
          obtain ⟨t, ht, htp⟩ := ih1 k hk
          by_cases hki : k = i
          · subst hki
            rw [List.get?_eq_getElem?, List.getElem?_set_self hilt] at ht
            simp only [Option.some.injEq] at ht
            rw [← ht] at htp
            exact absurd htp hfresh
          · refine ⟨hki, t, ?_, htp⟩
            rw [List.get?_eq_getElem?, List.getElem?_set_ne (Ne.symm hki),
              ← List.get?_eq_getElem?] at ht
            exact ht
        refine ⟨?_, ?_⟩
        · intro k hk
          rcases List.mem_cons.mp hk with rfl | hk
          · exact ⟨best, hget, hp⟩
          · exact (hrest k hk).2
        · rw [List.nodup_cons]
          exact ⟨fun hi => (hrest i hi).1 rfl, ih2⟩
      · simp [if_neg hp]

/-- C36: `schedule_edf_cbs` returns on every input (periods are `int`).  On a
run queue of `n` threads the selection loop ends within `n + 1` passes, and
ends the same way with any larger number of passes allowed; it postpones no
position of the queue twice, so it makes at most `n` postponements; and a
postponed thread has `remaining_budget = budget` and
`current_deadline = current_time + period`, for which the postponement test
fails whatever the signs of `period` and `budget`. -/
theorem edf_selection_loop_terminates (head_thrd_ID : Int) (args : threads_sched_args)
    (hper : ∀ t ∈ args.run_queue, is_int t.period) :
    (∃ rq1 r, schedule_edf_cbs head_thrd_ID args = some (rq1, r)) ∧
    (∀ rq : List thread, (∀ t ∈ rq, is_int t.period) →
      ∃ x, edf_select args.current_time (rq.length + 1) rq = some x ∧
        (∀ fuel, rq.length + 1 ≤ fuel →
          edf_select args.current_time fuel rq = some x ∧
          edf_postponed_positions args.current_time fuel rq =
            edf_postponed_positions args.current_time (rq.length + 1) rq) ∧
        (edf_postponed_positions args.current_time (rq.length + 1) rq).Nodup ∧
        (edf_postponed_positions args.current_time (rq.length + 1) rq).length + 1 ≤
          rq.length + 1) ∧
    ∀ t : thread, is_int t.period →
      (edf_postpone args.current_time t).cbs.remaining_budget =
        (edf_postpone args.current_time t).cbs.budget ∧
      (edf_postpone args.current_time t).current_deadline =
        wrap_int (args.current_time + t.period) ∧
      ¬ edf_postponable args.current_time (edf_postpone args.current_time t) := by
  refine ⟨?_, ?_, ?_⟩
  · obtain ⟨rq1, r, h, _⟩ := schedule_edf_cbs_cases head_thrd_ID args hper
    exact ⟨rq1, r, h⟩
  · intro rq hrq
    have hcount := List.countP_le_length
      (fun t => decide (edf_postponable args.current_time t)) (l := rq)
    obtain ⟨x, hx⟩ := edf_select_some args.current_time (rq.length + 1) rq hrq (by omega)
    refine ⟨x, hx, ?_, (edf_postponed_positions_spec _ _ rq hrq).2, ?_⟩
    · intro fuel hfuel
      exact edf_select_fuel_le _ _ fuel rq x hx hfuel
    · have := (edf_select_fuel_mono _ _ rq x hx).2.2
      omega
  · intro t ht
    exact ⟨rfl, rfl, not_postponable_fresh _ _ rfl rfl ht⟩

/-- C36 at one soft thread that is postponed once: the call returns, the loop
ends in two passes and postpones position 0 once. -/
theorem edf_selection_loop_terminates_witness :
    (∀ t ∈ ex_edf_postpone_args.run_queue, is_int t.period) ∧
    edf_postponed_positions 10 2 ex_edf_postpone_args.run_queue = [0] ∧
    schedule_edf_cbs 0 ex_edf_postpone_args =
      some ([ex_thread 1 6 10 20 4 4 0 0],
        { scheduled_thread_list_member := some 0, allocated_time := 4 }) ∧
    (∃ rq1 r, schedule_edf_cbs 0 ex_edf_postpone_args = some (rq1, r)) :=
  ⟨by decide, by decide, by decide,
    (edf_selection_loop_terminates 0 ex_edf_postpone_args (by decide)).1⟩

/-! ## schedule_edf_cbs: what the call leaves alone -/

theorem edf_unchanged_refl (t : thread) : edf_unchanged t t :=
  ⟨rfl, rfl, rfl, rfl, rfl, rfl, rfl, rfl, rfl⟩

theorem edf_unchanged_trans (a b c : thread) (h1 : edf_unchanged a b)
    (h2 : edf_unchanged b c) : edf_unchanged a c := by
  obtain ⟨a1, a2, a3, a4, a5, a6, a7, a8, a9⟩ := h1
  obtain ⟨b1, b2, b3, b4, b5, b6, b7, b8, b9⟩ := h2
  exact ⟨b1.trans a1, b2.trans a2, b3.trans a3, b4.trans a4, b5.trans a5, b6.trans a6,
    b7.trans a7, b8.trans a8, b9.trans a9⟩

/-- Each of the four stores of `schedule_edf_cbs` to a thread writes only
`cbs.is_throttled`, `cbs.remaining_budget` and `current_deadline`. -/
theorem edf_steps_unchanged (ct : Int) (t : thread) :
    edf_unchanged t (edf_throttle_step t) ∧ edf_unchanged t (edf_replenish_step ct t) ∧
    edf_unchanged t (edf_soft_reset ct t) ∧ edf_unchanged t (edf_postpone ct t) := by
  refine ⟨?_, ?_, edf_unchanged_refl _, edf_unchanged_refl _⟩
  · unfold edf_throttle_step
    split_ifs
    · exact ⟨rfl, rfl, rfl, rfl, rfl, rfl, rfl, rfl, rfl⟩
    · exact edf_unchanged_refl t
  · unfold edf_replenish_step
    split_ifs
    · exact ⟨rfl, rfl, rfl, rfl, rfl, rfl, rfl, rfl, rfl⟩
    · exact edf_unchanged_refl t

/-- A thread of the queue after the deadline-miss step is the thread the two
passes left at its position, or its reset form. -/
theorem edf_post_miss_get_inv (args : threads_sched_args) (j : Nat) (x : thread)
    (h : (edf_post_miss args).get? j = some x) :
    ∃ y, (edf_prepared args).get? j = some y ∧
      (x = y ∨ x = edf_soft_reset args.current_time y) := by
  have hj : j < args.run_queue.length := by
    rw [← edf_post_miss_length]
    rw [List.get?_eq_getElem?] at h
    exact (List.getElem?_eq_some_iff.mp h).1
  have hprep : ∃ y, (edf_prepared args).get? j = some y := by
    rw [edf_prepared_get, List.get?_eq_getElem?, List.getElem?_eq_getElem hj]
    exact ⟨_, rfl⟩
  obtain ⟨y, hy⟩ := hprep
  refine ⟨y, hy, ?_⟩
  rcases edf_post_miss_get args j y hy with h1 | ⟨_, _, h1⟩
  · rw [h1] at h
    exact Or.inl (Option.some.inj h).symm
  · rw [h1] at h
    exact Or.inr (Option.some.inj h).symm

/-- The queue `schedule_edf_cbs` leaves has, position by position, the threads
of the queue it was given with at most `cbs.is_throttled`,
`cbs.remaining_budget` and `current_deadline` changed. -/
theorem edf_final_unchanged (head_thrd_ID : Int) (args : threads_sched_args)
    (hper : ∀ t ∈ args.run_queue, is_int t.period)
    (rq1 : List thread) (r : threads_sched_result)
    (h : schedule_edf_cbs head_thrd_ID args = some (rq1, r)) :
    rq1.length = args.run_queue.length ∧
    ∀ j t1, rq1.get? j = some t1 →
      ∃ t, args.run_queue.get? j = some t ∧ edf_unchanged t t1 := by
  have hprep : ∀ j y, (edf_prepared args).get? j = some y →
      ∃ t, args.run_queue.get? j = some t ∧ edf_unchanged t y := by
    intro j y hy
    rw [edf_prepared_get] at hy
    cases ht : args.run_queue.get? j with
    | none =>
      rw [ht] at hy
      simp at hy
    | some t =>
      rw [ht] at hy
      simp only [Option.map_some', Option.some.injEq] at hy
      refine ⟨t, rfl, ?_⟩
      rw [← hy]
      exact edf_unchanged_trans _ _ _ (edf_steps_unchanged args.current_time t).1
        (edf_steps_unchanged args.current_time _).2.1
  have hpost : ∀ j x, (edf_post_miss args).get? j = some x →
      ∃ t, args.run_queue.get? j = some t ∧ edf_unchanged t x := by
    intro j x hx
    obtain ⟨y, hy, hxy⟩ := edf_post_miss_get_inv args j x hx
    obtain ⟨t, ht, hty⟩ := hprep j y hy
    refine ⟨t, ht, ?_⟩
    rcases hxy with rfl | rfl
    · exact hty
    · exact edf_unchanged_trans _ _ _ hty (edf_steps_unchanged args.current_time _).2.2.1
  rcases schedule_edf_cbs_result head_thrd_ID args hper rq1 r h with
    ⟨i, m, _, _, hrq, _⟩ | ⟨_, res, hsel, _⟩
  · subst hrq
    refine ⟨by simp [edf_prepared], hprep⟩
  · obtain ⟨hlen, _, _, _, hprov⟩ := edf_select_spec _ _ _ _ _ hsel
    refine ⟨by rw [hlen, edf_post_miss_length], ?_⟩
    intro j t1 ht1
    obtain ⟨x, hx, hcase⟩ := hprov j t1 ht1
    obtain ⟨t, ht, htx⟩ := hpost j x hx
    refine ⟨t, ht, ?_⟩
    rcases hcase with rfl | ⟨rfl, _, _⟩
    · exact htx
    · exact edf_unchanged_trans _ _ _ htx (edf_steps_unchanged args.current_time _).2.2.2

/-- C39: `schedule_edf_cbs` returns (periods are `int`), and the run queue it
leaves has the threads of the run queue it was given, in the same number and
order, each with its `ID`, `remaining_time`, `processing_time`,
`arrival_time`, `priority`, `period`, `deadline`, `cbs.budget` and
`cbs.is_hard_rt` as before: at most `cbs.is_throttled`, `cbs.remaining_budget`
and `current_deadline` are changed.  The release queue is read only. -/
theorem edf_frame (head_thrd_ID : Int) (args : threads_sched_args)
    (hper : ∀ t ∈ args.run_queue, is_int t.period) :
    ∃ rq1 r, schedule_edf_cbs head_thrd_ID args = some (rq1, r) ∧
      rq1.length = args.run_queue.length ∧
      List.Forall₂ edf_unchanged args.run_queue rq1 ∧
      (∀ j t1, rq1.get? j = some t1 →
        ∃ t, args.run_queue.get? j = some t ∧ edf_unchanged t t1) ∧
      edf_release_queue_after args = args.release_queue := by
  obtain ⟨rq1, r, h, _⟩ := schedule_edf_cbs_cases head_thrd_ID args hper
  obtain ⟨hlen, hget⟩ := edf_final_unchanged head_thrd_ID args hper rq1 r h
  refine ⟨rq1, r, h, hlen, ?_, hget, rfl⟩
  apply List.forall₂_of_length_eq_of_get hlen.symm
  intro j h1 h2
  have h3 : rq1.get? j = some (rq1.get ⟨j, h2⟩) := List.get?_eq_get h2
  obtain ⟨t, ht, hun⟩ := hget j _ h3
  have h4 : args.run_queue.get? j = some (args.run_queue.get ⟨j, h1⟩) := List.get?_eq_get h1
  rw [h4] at ht
  rw [Option.some.inj ht]
  exact hun

/-- C39 at two soft threads of which the first is throttled by the call: the
queue left differs from the queue given in `cbs.is_throttled` of the first
thread only. -/
theorem edf_frame_witness :
    (∀ t ∈ ex_edf_throttle_args.run_queue, is_int t.period) ∧
    schedule_edf_cbs 0 ex_edf_throttle_args =
      some ([ex_thread 1 6 10 10 4 0 0 1, ex_thread 2 3 20 20 4 2 0 0],
        { scheduled_thread_list_member := some 1, allocated_time := 2 }) ∧
    ex_edf_throttle_args.run_queue ≠ [ex_thread 1 6 10 10 4 0 0 1, ex_thread 2 3 20 20 4 2 0 0] ∧
    ∃ rq1 r, schedule_edf_cbs 0 ex_edf_throttle_args = some (rq1, r) ∧
      rq1.length = ex_edf_throttle_args.run_queue.length ∧
      List.Forall₂ edf_unchanged ex_edf_throttle_args.run_queue rq1 ∧
      (∀ j t1, rq1.get? j = some t1 →
        ∃ t, ex_edf_throttle_args.run_queue.get? j = some t ∧ edf_unchanged t t1) ∧
      edf_release_queue_after ex_edf_throttle_args = ex_edf_throttle_args.release_queue :=
  ⟨by decide, by decide, by decide, edf_frame 0 ex_edf_throttle_args (by decide)⟩

/-! ## No policy allocates more than the work left -/

/-- The third pass of `schedule_priority_rr` names a position from its
counter on, and allocates no more than the remaining time of the thread
there. -/
theorem priority_rr_pick_le (mp g q : Int) (l : List thread) (k i : Nat)
    (h : (priority_rr_pick mp g q l k).scheduled_thread_list_member = some i) :
    k ≤ i ∧ ∀ b, l.get? (i - k) = some b →
      (priority_rr_pick mp g q l k).allocated_time ≤ b.remaining_time := by
  induction l generalizing k with
  | nil => simp [priority_rr_pick] at h
  | cons th rest ih =>
    simp only [priority_rr_pick] at h ⊢
    by_cases hp : th.priority = mp
    · simp only [if_pos hp, Option.some.injEq] at h ⊢
      subst h
      refine ⟨le_refl _, ?_⟩
      intro b hb
      simp only [Nat.sub_self, List.get?_cons_zero, Option.some.injEq] at hb
      subst hb
      split_ifs <;> omega
    · simp only [if_neg hp] at h ⊢
      obtain ⟨h1, h2⟩ := ih (k + 1) h
      refine ⟨by omega, ?_⟩
      intro b hb
      apply h2 b
      have : i - k = (i - (k + 1)) + 1 := by omega
      rw [this, List.get?_cons_succ] at hb
      exact hb

/-- The allocation of `schedule_edf_cbs` for a selected thread with work left
is not above its remaining time. -/
theorem edf_alloc_le_remaining (head_thrd_ID : Int) (args : threads_sched_args)
    (rq : List thread) (b : thread) (hrem : 1 ≤ b.remaining_time) :
    edf_alloc head_thrd_ID args rq b ≤ b.remaining_time := by
  have floor : ∀ x : Int, x ≤ b.remaining_time →
      (if x ≤ 0 then 1 else x) ≤ b.remaining_time := by
    intro x hx
    split_ifs <;> omega
  have cap : ∀ (c : Prop) [Decidable c] (x y : Int), x ≤ b.remaining_time →
      (if c then MIN x y else x) ≤ b.remaining_time := by
    intro c _ x y hx
    split_ifs
    · exact le_trans (MIN_le_left x y) hx
    · exact hx
  unfold edf_alloc
  apply floor
  apply cap
  split_ifs <;>
    first
    | exact MIN_le_left _ _
    | exact le_trans (MIN_le_left _ _) (MIN_le_left _ _)
    | exact le_trans (MIN_le_left _ _) (le_trans (MIN_le_left _ _) (MIN_le_left _ _))

/-- C38: when every run-queue thread has `remaining_time >= 1`, a decision of
`schedule_default`, `schedule_hrrn`, `schedule_priority_rr` or `schedule_dm`
that names a thread `b` has `allocated_time <= b.remaining_time`;
`schedule_edf_cbs` returns (periods are `int`) and a decision of it that names
a thread `b` of the queue it leaves has `allocated_time <= b.remaining_time`.
The fault decisions (0), the 1-unit slice of `schedule_dm` and the floor at 1
of `schedule_edf_cbs` are covered. -/
theorem allocated_within_remaining_time (head_thrd_ID : Int) (args : threads_sched_args)
    (hrem : ∀ t ∈ args.run_queue, 1 ≤ t.remaining_time)
    (hper : ∀ t ∈ args.run_queue, is_int t.period) :
    (∀ i b, (schedule_default args).scheduled_thread_list_member = some i →
      args.run_queue.get? i = some b →
      (schedule_default args).allocated_time ≤ b.remaining_time) ∧
    (∀ i b, (schedule_hrrn args).scheduled_thread_list_member = some i →
      args.run_queue.get? i = some b →
      (schedule_hrrn args).allocated_time ≤ b.remaining_time) ∧
    (∀ i b, (schedule_priority_rr args).scheduled_thread_list_member = some i →
      args.run_queue.get? i = some b →
      (schedule_priority_rr args).allocated_time ≤ b.remaining_time) ∧
    (∀ i b, (schedule_dm args).scheduled_thread_list_member = some i →
      args.run_queue.get? i = some b →
      (schedule_dm args).allocated_time ≤ b.remaining_time) ∧
    ∃ rq1 r, schedule_edf_cbs head_thrd_ID args = some (rq1, r) ∧
      ∀ i b, r.scheduled_thread_list_member = some i → rq1.get? i = some b →
        r.allocated_time ≤ b.remaining_time := by
  refine ⟨?_, ?_, ?_, ?_, ?_⟩
  · intro i b hi hb
    simp only [schedule_default] at hi ⊢
    cases h : scan_best (fun _ => true) (fun th b => decide (th.ID < b.ID))
        args.run_queue 0 none with
    | none => simp [h] at hi
    | some ib =>
      obtain ⟨i1, b1⟩ := ib
      simp only [h, Option.some.injEq] at hi ⊢
      subst hi
      rw [(scan_best_start args.run_queue i1 b1 h).1] at hb
      rw [← Option.some.inj hb]
  · intro i b hi hb
    have hloop := hrrn_loop_best args.current_time args.run_queue 0 ⟨none, 0, 1⟩ (by simp)
    simp only at hloop
    simp only [schedule_hrrn, hloop] at hi ⊢
    cases h : scan_best (fun _ => true) (hrrn_better args.current_time)
        args.run_queue 0 none with
    | none => simp [h] at hi
    | some ib =>
      obtain ⟨i1, b1⟩ := ib
      simp only [h, Option.some.injEq] at hi ⊢
      subst hi
      rw [(scan_best_start args.run_queue i1 b1 h).1] at hb
      rw [← Option.some.inj hb]
  · intro i b hi hb
    simp only [schedule_priority_rr] at hi ⊢
    exact (priority_rr_pick_le _ _ _ _ 0 i hi).2 b hb
  · intro i b hi hb
    have hb1 := hrem b (List.get?_mem hb)
    simp only [schedule_dm] at hi ⊢
    cases hc : __check_deadline_miss args.run_queue args.current_time with
    | some im =>
      simp only [hc]
      omega
    | none =>
      simp only [hc] at hi ⊢
      by_cases hemp : args.run_queue.isEmpty = true
      · simp [hemp] at hi
      · have hemp1 : args.run_queue.isEmpty = false := by simpa using hemp
        simp only [hemp1, Bool.false_eq_true, if_false] at hi ⊢
        cases h : scan_best (fun _ => true) (fun th b => decide (__dm_thread_cmp th b < 0))
            args.run_queue 0 none with
        | none => simp [h] at hi
        | some ib =>
          obtain ⟨i1, b1⟩ := ib
          simp only [h] at hi ⊢
          have hi1 : i1 = i := by
            split_ifs at hi <;> simpa using hi
          subst hi1
          rw [(scan_best_start args.run_queue i1 b1 h).1] at hb
          have hbb := Option.some.inj hb
          subst hbb
          have hdm : dm_allocated
              (next_release_loop args.current_time args.release_queue INT_MAX)
              args.current_time b1 ≤ b1.remaining_time := by
            simp only [dm_allocated]
            split_ifs <;> omega
          split_ifs
          · exact hb1
          · exact hdm
  · obtain ⟨rq1, r, hres, hcase⟩ := schedule_edf_cbs_cases head_thrd_ID args hper
    refine ⟨rq1, r, hres, ?_⟩
    intro i b hi hb
    obtain ⟨_, hun⟩ := edf_final_unchanged head_thrd_ID args hper rq1 r hres
    obtain ⟨t, ht, htb⟩ := hun i b hb
    have hb1 : 1 ≤ b.remaining_time := by
      rw [htb.2.1]
      exact hrem t (List.get?_mem ht)
    rcases hcase with ⟨i1, m, _, _, _, hr⟩ | ⟨_, res, hsel, hr⟩
    · subst hr
      simp only
      omega
    · rcases hr with ⟨_, rfl⟩ | ⟨i1, b1, hresb, rfl⟩
      · simp [edf_idle] at hi
      · simp only [Option.some.injEq] at hi
        subst hi
        obtain ⟨_, hscan, _, _, _⟩ := edf_select_spec _ _ _ _ _ hsel
        rw [hresb] at hscan
        obtain ⟨hget, _, _⟩ := edf_scan_spec rq1 i1 b1 hscan
        rw [hb] at hget
        simp only [Option.some.injEq] at hget
        subst hget
        exact edf_alloc_le_remaining head_thrd_ID args rq1 b hb1

/-- C38 at two soft threads: `schedule_edf_cbs` names the thread with 3 units
of work for 2 units; `schedule_default` names the thread with 6 units of work
for 6 units. -/
theorem allocated_within_remaining_time_witness :
    (∀ t ∈ ex_edf_throttle_args.run_queue, 1 ≤ t.remaining_time) ∧
    (∀ t ∈ ex_edf_throttle_args.run_queue, is_int t.period) ∧
    schedule_default ex_edf_throttle_args =
      { scheduled_thread_list_member := some 0, allocated_time := 6 } ∧
    schedule_edf_cbs 0 ex_edf_throttle_args =
      some ([ex_thread 1 6 10 10 4 0 0 1, ex_thread 2 3 20 20 4 2 0 0],
        { scheduled_thread_list_member := some 1, allocated_time := 2 }) ∧
    ∃ rq1 r, schedule_edf_cbs 0 ex_edf_throttle_args = some (rq1, r) ∧
      ∀ i b, r.scheduled_thread_list_member = some i → rq1.get? i = some b →
        r.allocated_time ≤ b.remaining_time :=
  ⟨by decide, by decide, by decide, by decide,
    (allocated_within_remaining_time 0 ex_edf_throttle_args (by decide) (by decide)).2.2.2.2⟩

/-! ## schedule_dm stays within the deadline of the thread it names -/

/-- C40: when the deadline check of `schedule_dm` finds no thread (no fault
decision) and the decision names a thread `b`,
`current_time + allocated_time <= b.current_deadline`; in particular when the
allocation is degraded to 1, since then `b.current_deadline > current_time`.
The two `int` operations of lines 216 and 221 are taken not to overflow. -/
theorem schedule_dm_within_deadline (args : threads_sched_args) (i : Nat) (b : thread)
    (hnf : __check_deadline_miss args.run_queue args.current_time = none)
    (hsel : (schedule_dm args).scheduled_thread_list_member = some i)
    (hb : args.run_queue.get? i = some b)
    (hov : dm_no_overflow args b) :
    args.current_time + (schedule_dm args).allocated_time ≤ b.current_deadline ∧
    args.current_time + 1 ≤ b.current_deadline := by
  have hno := (check_deadline_miss_none args.run_queue args.current_time).mp hnf
  have hcd := hno b (List.get?_mem hb)
  rw [schedule_dm_named args i b hno hsel hb, wrap_int_of_is_int _ hov.2]
  refine ⟨?_, by omega⟩
  split_ifs with h
  · omega
  · omega

/-- C40 at a thread with 12 units of work and deadline 10 at time 0: the
allocation is degraded to 1 and ends at 1. -/
theorem schedule_dm_within_deadline_witness :
    __check_deadline_miss ex_dm_degraded_args.run_queue ex_dm_degraded_args.current_time = none ∧
    (schedule_dm ex_dm_degraded_args).scheduled_thread_list_member = some 0 ∧
    ex_dm_degraded_args.run_queue.get? 0 = some ex_dm_thread ∧
    dm_no_overflow ex_dm_degraded_args ex_dm_thread ∧
    (schedule_dm ex_dm_degraded_args).allocated_time = 1 ∧
    ex_dm_degraded_args.current_time + (schedule_dm ex_dm_degraded_args).allocated_time ≤
      ex_dm_thread.current_deadline ∧
    ex_dm_degraded_args.current_time + 1 ≤ ex_dm_thread.current_deadline :=
  ⟨by decide, by decide, by decide, by decide, by decide,
    schedule_dm_within_deadline ex_dm_degraded_args 0 ex_dm_thread (by decide) (by decide)
      (by decide) (by decide)⟩

/-! ## schedule_edf_cbs: idle while every thread is throttled -/

/-- The run-queue pass of the idle decision ends with a value not above its
start value, that is the start value or the deadline after `current_time` of a
throttled thread, and not above any such deadline. -/
theorem edf_next_event_loop_spec (ct : Int) (rq : List thread) (m : Int) :
    edf_next_event_loop ct rq m ≤ m ∧
    (edf_next_event_loop ct rq m = m ∨
      ∃ t ∈ rq, t.cbs.is_throttled ≠ 0 ∧ t.current_deadline = edf_next_event_loop ct rq m ∧
        ct < t.current_deadline) ∧
    ∀ t ∈ rq, t.cbs.is_throttled ≠ 0 → ct < t.current_deadline →
      edf_next_event_loop ct rq m ≤ t.current_deadline := by
  induction rq generalizing m with
  | nil => simp [edf_next_event_loop]
  | cons a rest ih =>
    simp only [edf_next_event_loop]
    split_ifs with h
    · obtain ⟨h1, h2, h3⟩ := ih a.current_deadline
      refine ⟨by omega, ?_, ?_⟩
      · right
        rcases h2 with h2 | ⟨t, ht, h4, h5, h6⟩
        · exact ⟨a, List.mem_cons_self _ _, h.1, h2.symm, h.2.1⟩
        · exact ⟨t, List.mem_cons_of_mem _ ht, h4, h5, h6⟩
      · intro t ht hthr hlt
        rcases List.mem_cons.mp ht with rfl | ht
        · exact h1
        · exact h3 t ht hthr hlt
    · obtain ⟨h1, h2, h3⟩ := ih m
      refine ⟨h1, ?_, ?_⟩
      · rcases h2 with h2 | ⟨t, ht, h4, h5, h6⟩
        · exact Or.inl h2
        · exact Or.inr ⟨t, List.mem_cons_of_mem _ ht, h4, h5, h6⟩
      · intro t ht hthr hlt
        rcases List.mem_cons.mp ht with rfl | ht
        · have : ¬ (t.current_deadline < m) := fun hlt1 => h ⟨hthr, hlt, hlt1⟩
          omega
        · exact h3 t ht hthr hlt

/-- The length of the idle decision of `schedule_edf_cbs`: the time until the
earliest event when that event lies below `INT_MAX`, 1 when no event lies
strictly between `current_time` and `INT_MAX`, and in no case more than the
time until the deadline of a throttled thread. -/
theorem edf_idle_spec (args : threads_sched_args) (rq : List thread) :
    (edf_idle args rq).scheduled_thread_list_member = none ∧
    (∀ E, is_next_event args.release_queue rq args.current_time E → E < INT_MAX →
      is_int (E - args.current_time) →
      (edf_idle args rq).allocated_time = E - args.current_time) ∧
    ((∀ e ∈ args.release_queue,
        ¬ (args.current_time < e.release_time ∧ e.release_time < INT_MAX)) →
      (∀ t ∈ rq, t.cbs.is_throttled ≠ 0 →
        ¬ (args.current_time < t.current_deadline ∧ t.current_deadline < INT_MAX)) →
      (edf_idle args rq).allocated_time = 1) ∧
    ∀ t ∈ rq, t.cbs.is_throttled ≠ 0 → args.current_time < t.current_deadline →
      is_int (t.current_deadline - args.current_time) →
      (edf_idle args rq).allocated_time ≤ t.current_deadline - args.current_time := by
  obtain ⟨r1, r2, r3⟩ := next_release_loop_spec args.current_time args.release_queue INT_MAX
  obtain ⟨q1, q2, q3⟩ := edf_next_event_loop_spec args.current_time rq
    (next_release_loop args.current_time args.release_queue INT_MAX)
  have hattained : edf_next_event_loop args.current_time rq
      (next_release_loop args.current_time args.release_queue INT_MAX) ≠ INT_MAX →
      args.current_time < edf_next_event_loop args.current_time rq
        (next_release_loop args.current_time args.release_queue INT_MAX) ∧
      ((∃ e ∈ args.release_queue, e.release_time = edf_next_event_loop args.current_time rq
        (next_release_loop args.current_time args.release_queue INT_MAX)) ∨
      ∃ t ∈ rq, t.cbs.is_throttled ≠ 0 ∧ t.current_deadline =
        edf_next_event_loop args.current_time rq
          (next_release_loop args.current_time args.release_queue INT_MAX)) := by
    intro hne
    rcases q2 with q2 | ⟨t, ht, h4, h5, h6⟩
    · rcases r2 with r2 | ⟨e, he, h7, h8⟩
      · exact absurd (q2.trans r2) hne
      · exact ⟨by omega, Or.inl ⟨e, he, by omega⟩⟩
    · exact ⟨by omega, Or.inr ⟨t, ht, h4, h5⟩⟩
  refine ⟨rfl, ?_, ?_, ?_⟩
  · intro E hE hlt hint
    obtain ⟨hatt, hct, hrel, hthr⟩ := hE
    have hle : edf_next_event_loop args.current_time rq
        (next_release_loop args.current_time args.release_queue INT_MAX) ≤ E := by
      rcases hatt with ⟨e, he, heE⟩ | ⟨t, ht, hthr1, htE⟩
      · have := r3 e he (by omega)
        omega
      · have := q3 t ht hthr1 (by omega)
        omega
    have hne : edf_next_event_loop args.current_time rq
        (next_release_loop args.current_time args.release_queue INT_MAX) ≠ INT_MAX := by
      omega
    have heq : edf_next_event_loop args.current_time rq
        (next_release_loop args.current_time args.release_queue INT_MAX) = E := by
      obtain ⟨h1, h2⟩ := hattained hne
      rcases h2 with ⟨e, he, h3⟩ | ⟨t, ht, h3, h4⟩
      · have := hrel e he (by omega)
        omega
      · have := hthr t ht h3 (by omega)
        omega
    have hE1 : ¬ E = INT_MAX := by omega
    have hE2 : ¬ E - args.current_time ≤ 0 := by omega
    simp only [edf_idle, heq, if_neg hE1, wrap_int_of_is_int _ hint, if_neg hE2]
  · intro hnorel hnothr
    have heq : edf_next_event_loop args.current_time rq
        (next_release_loop args.current_time args.release_queue INT_MAX) = INT_MAX := by
      by_contra hne
      obtain ⟨h1, h2⟩ := hattained hne
      rcases h2 with ⟨e, he, h3⟩ | ⟨t, ht, h3, h4⟩
      · have := hnorel e he
        omega
      · have := hnothr t ht h3
        omega
    simp only [edf_idle, heq, if_true]
    rfl
  · intro t ht hthr hlt hint
    have hle := q3 t ht hthr hlt
    simp only [edf_idle]
    by_cases hne : edf_next_event_loop args.current_time rq
        (next_release_loop args.current_time args.release_queue INT_MAX) = INT_MAX
    · simp only [hne, if_true]
      split_ifs <;> omega
    · obtain ⟨h1, _⟩ := hattained hne
      have hint1 : is_int (edf_next_event_loop args.current_time rq
          (next_release_loop args.current_time args.release_queue INT_MAX) -
          args.current_time) := by
        have hmin : INT_MIN ≤ 0 := by decide
        obtain ⟨_, hi2⟩ := hint
        exact ⟨by omega, by omega⟩
      rw [if_neg hne, wrap_int_of_is_int _ hint1]
      split_ifs <;> omega

/-- C37 fails when the earliest event is at `INT_MAX`: at time 2147483640 the
only thread is throttled, with deadline 2147483647, which is the earliest
event; the idle decision lasts 1, not 2147483647 - 2147483640 = 7. -/
theorem edf_idle_event_at_int_max_counterexample :
    ex_edf_idle_int_max_args.run_queue ≠ [] ∧
    edf_post_miss ex_edf_idle_int_max_args = ex_edf_idle_int_max_args.run_queue ∧
    (∀ t ∈ edf_post_miss ex_edf_idle_int_max_args, t.cbs.is_throttled ≠ 0) ∧
    is_next_event ex_edf_idle_int_max_args.release_queue
      (edf_post_miss ex_edf_idle_int_max_args) ex_edf_idle_int_max_args.current_time
      2147483647 ∧
    schedule_edf_cbs 0 ex_edf_idle_int_max_args =
      some ([ex_thread 1 3 10 2147483647 4 0 0 1],
        { scheduled_thread_list_member := none, allocated_time := 1 }) ∧
    (1 : Int) ≠ 2147483647 - ex_edf_idle_int_max_args.current_time := by
  refine ⟨by decide, by decide, by decide, by decide, by decide, by decide⟩

/-- C37 (amended): when the run queue is not empty, no hard fault is returned
and every thread is throttled after the throttle, replenish and miss steps,
`schedule_edf_cbs` returns the idle decision (the run-queue head) and leaves
the queue those steps left; `allocated_time = E - current_time`, where `E` is
the smallest value above `current_time` among the release times and the
deadlines of the throttled threads, provided `E < INT_MAX` and
`E - current_time` fits an `int`; `allocated_time = 1` when no release time
and no such deadline lies strictly between `current_time` and `INT_MAX`; and
`allocated_time <= d - current_time` for every deadline `d > current_time` of
a thread of the queue (`d - current_time` fits an `int`). -/
theorem edf_all_throttled_idle (head_thrd_ID : Int) (args : threads_sched_args)
    (hne : args.run_queue ≠ [])
    (hnofault : ∀ i m, is_first_missed (edf_prepared args) args.current_time i m →
      is_cbs_soft m = true)
    (hall : ∀ t ∈ edf_post_miss args, t.cbs.is_throttled ≠ 0) :
    ∃ r, schedule_edf_cbs head_thrd_ID args = some (edf_post_miss args, r) ∧
      r.scheduled_thread_list_member = none ∧
      (∀ E, is_next_event args.release_queue (edf_post_miss args) args.current_time E →
        E < INT_MAX → is_int (E - args.current_time) →
        r.allocated_time = E - args.current_time) ∧
      ((∀ e ∈ args.release_queue,
          ¬ (args.current_time < e.release_time ∧ e.release_time < INT_MAX)) →
        (∀ t ∈ edf_post_miss args,
          ¬ (args.current_time < t.current_deadline ∧ t.current_deadline < INT_MAX)) →
        r.allocated_time = 1) ∧
      ∀ t ∈ edf_post_miss args, args.current_time < t.current_deadline →
        is_int (t.current_deadline - args.current_time) →
        r.allocated_time ≤ t.current_deadline - args.current_time := by
  have hscan : edf_scan (edf_post_miss args) = none := by
    simp only [edf_scan]
    rw [scan_best_eq_none_iff]
    refine ⟨rfl, ?_⟩
    intro u hu
    simpa using hall u hu
  have hemp : (edf_post_miss args).isEmpty = false := by
    cases hp : edf_post_miss args with
    | nil =>
      have := edf_post_miss_length args
      rw [hp] at this
      exact absurd (List.length_eq_zero.mp this.symm) hne
    | cons a l => rfl
  have hrest : edf_schedule_rest (args.run_queue.length + 1) head_thrd_ID args
      (edf_post_miss args) = some (edf_post_miss args, edf_idle args (edf_post_miss args)) := by
    simp only [edf_schedule_rest, hemp, Bool.false_eq_true, if_false]
    rw [edf_select_succ, hscan]
  have hret : schedule_edf_cbs head_thrd_ID args =
      some (edf_post_miss args, edf_idle args (edf_post_miss args)) := by
    rw [schedule_edf_cbs_unfold]
    cases hc : __check_deadline_miss (edf_prepared args) args.current_time with
    | none => exact hrest
    | some im =>
      obtain ⟨i, miss⟩ := im
      have hs := hnofault i miss ((check_deadline_miss_iff _ _ _ _).mp hc)
      simp only [hs, if_true]
      exact hrest
  obtain ⟨h1, h2, h3, h4⟩ := edf_idle_spec args (edf_post_miss args)
  refine ⟨_, hret, h1, h2, ?_, ?_⟩
  · intro hnorel hnothr
    exact h3 hnorel (fun t ht _ => hnothr t ht)
  · intro t ht hlt hint
    exact h4 t ht (hall t ht) hlt hint

/-- C37 (amended) at two throttled threads with deadlines 30 and 18 and a
release at 25, at time 10: the earliest event is 18 and the idle decision
lasts 8. -/
theorem edf_all_throttled_idle_witness :
    ex_edf_all_throttled_args.run_queue ≠ [] ∧
    (∀ i m, is_first_missed (edf_prepared ex_edf_all_throttled_args)
      ex_edf_all_throttled_args.current_time i m → is_cbs_soft m = true) ∧
    (∀ t ∈ edf_post_miss ex_edf_all_throttled_args, t.cbs.is_throttled ≠ 0) ∧
    is_next_event ex_edf_all_throttled_args.release_queue
      (edf_post_miss ex_edf_all_throttled_args) 10 18 ∧
    schedule_edf_cbs 0 ex_edf_all_throttled_args =
      some ([ex_thread 1 3 40 30 4 0 0 1, ex_thread 2 3 40 18 4 0 0 1],
        { scheduled_thread_list_member := none, allocated_time := 8 }) ∧
    ∃ r, schedule_edf_cbs 0 ex_edf_all_throttled_args =
        some (edf_post_miss ex_edf_all_throttled_args, r) ∧
      r.scheduled_thread_list_member = none ∧
      (∀ E, is_next_event ex_edf_all_throttled_args.release_queue
          (edf_post_miss ex_edf_all_throttled_args)
          ex_edf_all_throttled_args.current_time E →
        E < INT_MAX → is_int (E - ex_edf_all_throttled_args.current_time) →
        r.allocated_time = E - ex_edf_all_throttled_args.current_time) ∧
      ((∀ e ∈ ex_edf_all_throttled_args.release_queue,
          ¬ (ex_edf_all_throttled_args.current_time < e.release_time ∧
            e.release_time < INT_MAX)) →
        (∀ t ∈ edf_post_miss ex_edf_all_throttled_args,
          ¬ (ex_edf_all_throttled_args.current_time < t.current_deadline ∧
            t.current_deadline < INT_MAX)) →
        r.allocated_time = 1) ∧
      ∀ t ∈ edf_post_miss ex_edf_all_throttled_args,
        ex_edf_all_throttled_args.current_time < t.current_deadline →
        is_int (t.current_deadline - ex_edf_all_throttled_args.current_time) →
        r.allocated_time ≤ t.current_deadline - ex_edf_all_throttled_args.current_time :=
  ⟨by decide, fun i m hm => by
      have h := (check_deadline_miss_iff _ _ _ _).mpr hm
      rw [show __check_deadline_miss (edf_prepared ex_edf_all_throttled_args)
        ex_edf_all_throttled_args.current_time = none from by decide] at h
      simp at h,
    by decide, by decide, by decide,
    edf_all_throttled_idle 0 ex_edf_all_throttled_args (by decide)
      (fun i m hm => by
        have h := (check_deadline_miss_iff _ _ _ _).mpr hm
        rw [show __check_deadline_miss (edf_prepared ex_edf_all_throttled_args)
          ex_edf_all_throttled_args.current_time = none from by decide] at h
        simp at h)
      (by decide)⟩

end ThreadsSched

namespace Threads

/-! ## Stores, the allocator and `id` -/

@[simp]
theorem store_mem (s : state) (p : Nat) (f : thread → thread) (a : Nat) :
    (store s p f).mem a = if a = p then f (s.mem a) else s.mem a := rfl

@[simp]
theorem store_current_thread (s : state) (p : Nat) (f : thread → thread) :
    (store s p f).current_thread = s.current_thread := rfl

@[simp]
theorem store_id (s : state) (p : Nat) (f : thread → thread) :
    (store s p f).id = s.id := rfl

@[simp]
theorem store_live (s : state) (p : Nat) (f : thread → thread) :
    (store s p f).live = s.live := rfl

@[simp]
theorem malloc_mem (s : state) (p : Nat) : (malloc s p).mem = s.mem := rfl

@[simp]
theorem malloc_current_thread (s : state) (p : Nat) :
    (malloc s p).current_thread = s.current_thread := rfl

@[simp]
theorem malloc_id (s : state) (p : Nat) : (malloc s p).id = s.id := rfl

@[simp]
theorem malloc_live (s : state) (p : Nat) : (malloc s p).live = p :: s.live := rfl

@[simp]
theorem free_mem (s : state) (p : Nat) : (free s p).mem = s.mem := rfl

@[simp]
theorem free_current_thread (s : state) (p : Nat) :
    (free s p).current_thread = s.current_thread := rfl

@[simp]
theorem free_id (s : state) (p : Nat) : (free s p).id = s.id := rfl

@[simp]
theorem free_live (s : state) (p : Nat) : (free s p).live = s.live.erase p := rfl

/-- A property kept by each step of the loop of `schedule` holds when
`schedule` returns. -/
theorem schedule_inv (P : state → Prop)
    (hstep : ∀ s, P s → P { s with current_thread := (s.mem s.current_thread).next })
    (fuel : Nat) (s s1 : state) (h : schedule fuel s = some s1) (hP : P s) : P s1 := by
  induction fuel generalizing s with
  | zero => simp [schedule] at h
  | succ n ih =>
    simp only [schedule] at h
    by_cases hsus : (s.mem (s.mem s.current_thread).next).suspended = SUSPENDED
    · rw [if_pos hsus] at h
      exact ih _ h (hstep s hP)
    · rw [if_neg hsus] at h
      simp only [Option.some.injEq] at h
      rw [← h]
      exact hstep s hP

/-- A property kept by each step of the `while` loop of `dispatch` holds when
the loop ends. -/
theorem dispatch_skip_inv (P : state → Prop)
    (hstep : ∀ s, P s → P { s with current_thread := (s.mem s.current_thread).next })
    (fuel : Nat) (s s1 : state) (h : dispatch_skip fuel s = some s1) (hP : P s) : P s1 := by
  induction fuel generalizing s with
  | zero =>
    unfold dispatch_skip at h
    by_cases hsus : (s.mem s.current_thread).suspended = SUSPENDED
    · rw [if_pos hsus] at h
      simp at h
    · rw [if_neg hsus] at h
      simp only [Option.some.injEq] at h
      rw [← h]
      exact hP
  | succ n ih =>
    unfold dispatch_skip at h
    by_cases hsus : (s.mem s.current_thread).suspended = SUSPENDED
    · rw [if_pos hsus] at h
      exact ih _ h (hstep s hP)
    · rw [if_neg hsus] at h
      simp only [Option.some.injEq] at h
      rw [← h]
      exact hP

/-- A property `P` that holds when `dispatch` is called holds in the state
`dispatch` leaves, when a property `Q` follows from `P` in a state with a
current thread, is kept by a step of the loop, and gives `P` at the end of the
loop, after the store to `buf_set`, and after the two paths of `thread_exit`. -/
theorem dispatch_inv (P Q : state → Prop)
    (hentry : ∀ s, P s → s.current_thread ≠ NULL → Q s)
    (hstep : ∀ s, Q s → Q { s with current_thread := (s.mem s.current_thread).next })
    (hexit : ∀ s, Q s → P s)
    (hbuf : ∀ s, Q s → P (store s s.current_thread (fun x => { x with buf_set := 1 })))
    (hunlink : ∀ s, Q s →
      (s.mem s.current_thread).next ≠ s.current_thread → P (thread_exit_unlink s))
    (hlast : ∀ s, Q s →
      (s.mem s.current_thread).next = s.current_thread → P (thread_exit_last s))
    (fuel : Nat) (s s1 : state) (j : jump) (h : dispatch fuel s = some (s1, j)) (hP : P s) :
    P s1 := by
  induction fuel generalizing s with
  | zero => simp [dispatch] at h
  | succ n ih =>
    simp only [dispatch] at h
    by_cases h0 : s.current_thread = NULL
    · rw [if_pos h0] at h
      simp only [Option.some.injEq, Prod.mk.injEq] at h
      rw [← h.1]
      exact hP
    · rw [if_neg h0] at h
      cases hs : dispatch_skip (n + 1) s with
      | none => simp [hs] at h
      | some s2 =>
        have hQ : Q s2 := dispatch_skip_inv Q hstep _ _ _ hs (hentry s hP h0)
        rw [hs] at h
        simp only at h
        by_cases h1 : (s2.mem s2.current_thread).pending_signal ≠ NO_SIGNAL
        · rw [if_pos h1] at h
          cases hg : sig_handler_get (s2.mem s2.current_thread)
              (s2.mem s2.current_thread).pending_signal with
          | none => simp [hg] at h
          | some handler =>
            rw [hg] at h
            simp only at h
            by_cases h2 : handler = NULL_FUNC
            · rw [if_pos h2] at h
              by_cases h3 : (s2.mem s2.current_thread).next ≠ s2.current_thread
              · rw [if_pos h3] at h
                exact ih _ h (hunlink s2 hQ h3)
              · rw [if_neg h3] at h
                simp only [Option.some.injEq, Prod.mk.injEq] at h
                rw [← h.1]
                exact hlast s2 hQ (not_not.mp h3)
            · rw [if_neg h2] at h
              by_cases h4 : (s2.mem s2.current_thread).handler_buf_set = 0
              · rw [if_pos h4] at h
                simp only [Option.some.injEq, Prod.mk.injEq] at h
                rw [← h.1]
                exact hexit s2 hQ
              · rw [if_neg h4] at h
                simp only [Option.some.injEq, Prod.mk.injEq] at h
                rw [← h.1]
                exact hexit s2 hQ
        · rw [if_neg h1] at h
          by_cases h5 : (s2.mem s2.current_thread).buf_set = 0
          · rw [if_pos h5] at h
            simp only [Option.some.injEq, Prod.mk.injEq] at h
            rw [← h.1]
            exact hbuf s2 hQ
          · rw [if_neg h5] at h
            simp only [Option.some.injEq, Prod.mk.injEq] at h
            rw [← h.1]
            exact hexit s2 hQ

/-- A property kept as in `dispatch_inv` holds in the state `thread_exit`
leaves when it is called with a current thread. -/
theorem thread_exit_inv (P Q : state → Prop)
    (hentry : ∀ s, P s → s.current_thread ≠ NULL → Q s)
    (hstep : ∀ s, Q s → Q { s with current_thread := (s.mem s.current_thread).next })
    (hexit : ∀ s, Q s → P s)
    (hbuf : ∀ s, Q s → P (store s s.current_thread (fun x => { x with buf_set := 1 })))
    (hunlink : ∀ s, Q s →
      (s.mem s.current_thread).next ≠ s.current_thread → P (thread_exit_unlink s))
    (hlast : ∀ s, Q s →
      (s.mem s.current_thread).next = s.current_thread → P (thread_exit_last s))
    (fuel : Nat) (s s1 : state) (j : jump) (h : thread_exit fuel s = some (s1, j)) (hP : P s)
    (h0 : s.current_thread ≠ NULL) : P s1 := by
  simp only [thread_exit] at h
  by_cases h3 : (s.mem s.current_thread).next ≠ s.current_thread
  · rw [if_pos h3] at h
    exact dispatch_inv P Q hentry hstep hexit hbuf hunlink hlast fuel _ _ j h
      (hunlink s (hentry s hP h0) h3)
  · rw [if_neg h3] at h
    simp only [Option.some.injEq, Prod.mk.injEq] at h
    rw [← h.1]
    exact hlast s (hentry s hP h0) (not_not.mp h3)

/-! ## Identity of created threads -/

/-- The thread `thread_create` returns has the value of `id` as its `ID`, and
`id` is incremented. -/
theorem thread_create_id (f arg t stack handler_new_stack : Nat) (s : state) :
    (thread_create f arg t stack handler_new_stack s).1 = t ∧
    ((thread_create f arg t stack handler_new_stack s).2.mem t).ID = s.id ∧
    (thread_create f arg t stack handler_new_stack s).2.id =
      ThreadsSched.wrap_int (s.id + 1) := by
  refine ⟨rfl, ?_, ?_⟩
  · simp only [thread_create]
    split_ifs <;> simp
  · simp only [thread_create]
    split_ifs <;> simp

/-- The state `dispatch` leaves has the `id` it was called with. -/
theorem dispatch_id (fuel : Nat) (s s1 : state) (j : jump)
    (h : dispatch fuel s = some (s1, j)) : s1.id = s.id :=
  dispatch_inv (fun y => y.id = s.id) (fun y => y.id = s.id) (fun _ hy _ => hy)
    (fun _ hy => hy) (fun _ hy => hy) (fun _ hy => hy) (fun _ hy _ => hy) (fun _ hy _ => hy)
    fuel s s1 j h rfl

/-- The state `schedule` leaves has the `id` it was called with. -/
theorem schedule_id (fuel : Nat) (s s1 : state) (h : schedule fuel s = some s1) :
    s1.id = s.id :=
  schedule_inv (fun y => y.id = s.id) (fun _ hy => hy) fuel s s1 h rfl

/-- The state `thread_yield` leaves has the `id` it was called with. -/
theorem thread_yield_id (fuel : Nat) (s s1 : state) (j : jump)
    (h : thread_yield fuel s = some (s1, j)) : s1.id = s.id := by
  simp only [thread_yield] at h
  split at h
  · simp at h
  · rename_i s2 hs
    rw [dispatch_id _ _ _ _ h, schedule_id _ _ _ hs]
    split_ifs <;> rfl

/-- Every call but `thread_create` leaves `id` as it is. -/
theorem exec_call_id (fuel : Nat) (c : call) (s s1 : state)
    (h : exec_call fuel c s = some s1) :
    s1.id = if is_create c then ThreadsSched.wrap_int (s.id + 1) else s.id := by
  cases c with
  | thread_create f arg t stack handler_new_stack =>
    simp only [exec_call, Option.some.injEq] at h
    simp only [is_create, if_true, ← h]
    exact (thread_create_id f arg t stack handler_new_stack s).2.2
  | thread_add_runqueue t =>
    simp only [exec_call, Option.some.injEq] at h
    simp only [is_create, Bool.false_eq_true, if_false, ← h, thread_add_runqueue]
    split_ifs <;> rfl
  | thread_yield =>
    simp only [exec_call, Option.map_eq_some', Prod.exists, exists_and_right,
      exists_eq_right] at h
    obtain ⟨j, h⟩ := h
    simpa [is_create] using thread_yield_id _ _ _ _ h
  | thread_yield_resumed j =>
    simp only [exec_call, Option.some.injEq] at h
    simp only [is_create, Bool.false_eq_true, if_false, ← h]
    cases j <;> rfl
  | schedule =>
    simp only [exec_call] at h
    simpa [is_create] using schedule_id _ _ _ h
  | dispatch =>
    simp only [exec_call, Option.map_eq_some', Prod.exists, exists_and_right,
      exists_eq_right] at h
    obtain ⟨j, h⟩ := h
    simpa [is_create] using dispatch_id _ _ _ _ h
  | thread_exit =>
    simp only [exec_call, Option.map_eq_some', Prod.exists, exists_and_right,
      exists_eq_right] at h
    obtain ⟨j, h⟩ := h
    simp only [thread_exit] at h
    simp only [is_create, Bool.false_eq_true, if_false]
    split_ifs at h
    · exact (dispatch_id _ _ _ _ h).trans rfl
    · simp only [Option.some.injEq, Prod.mk.injEq] at h
      rw [← h.1]
      rfl
  | thread_start_threading =>
    simp only [exec_call, Option.map_eq_some', Prod.exists, exists_and_right,
      exists_eq_right] at h
    obtain ⟨j, h⟩ := h
    simp only [thread_start_threading] at h
    simp only [is_create, Bool.false_eq_true, if_false]
    split_ifs at h
    · simp only [Option.some.injEq, Prod.mk.injEq] at h
      rw [← h.1]
    · split at h
      · simp at h
      · rename_i s2 j2 hd
        simp only [Option.some.injEq, Prod.mk.injEq] at h
        rw [← h.1]
        exact dispatch_id _ _ _ _ hd
  | signal_trampoline =>
    simp only [exec_call, Option.map_eq_some', Prod.exists, exists_and_right,
      exists_eq_right] at h
    obtain ⟨j, h⟩ := h
    simp only [signal_trampoline] at h
    simp only [is_create, Bool.false_eq_true, if_false]
    split at h
    · simp at h
    · split_ifs at h <;>
      · simp only [Option.some.injEq, Prod.mk.injEq] at h
        rw [← h.1]
        rfl
  | thread_register_handler signo handler =>
    simp only [exec_call, thread_register_handler] at h
    simp only [is_create, Bool.false_eq_true, if_false]
    split at h
    · simp at h
    · simp only [Option.some.injEq] at h
      rw [← h]
      rfl
  | thread_kill t signo =>
    simp only [exec_call, Option.some.injEq] at h
    simp only [is_create, Bool.false_eq_true, if_false, ← h, thread_kill]
    split_ifs <;> rfl
  | thread_suspend t =>
    simp only [exec_call, Option.map_eq_some', Prod.exists, exists_and_right,
      exists_eq_right] at h
    obtain ⟨j, h⟩ := h
    simp only [thread_suspend] at h
    simp only [is_create, Bool.false_eq_true, if_false]
    split_ifs at h
    · split at h
      · simp at h
      · rename_i s2 j2 hy
        simp only [Option.some.injEq, Prod.mk.injEq] at h
        rw [← h.1]
        exact (thread_yield_id _ _ _ _ hy).trans rfl
    · simp only [Option.some.injEq, Prod.mk.injEq] at h
      rw [← h.1]
      rfl
  | thread_resume t =>
    simp only [exec_call, Option.some.injEq] at h
    simp only [is_create, Bool.false_eq_true, if_false, ← h]
    rfl

/-- A call other than `thread_create` returns no new thread. -/
theorem created_id_none (c : call) (s : state) (h : is_create c = false) :
    created_id c s = none := by
  cases c <;> first | rfl | simp [is_create] at h

/-- A call of `thread_create` returns a thread whose `ID` is the value of
`id`. -/
theorem created_id_some (c : call) (s : state) (h : is_create c = true) :
    created_id c s = some s.id := by
  cases c with
  | thread_create f arg t stack handler_new_stack =>
    simp only [created_id, Option.some.injEq]
    exact (thread_create_id f arg t stack handler_new_stack s).2.1
  | _ => simp [is_create] at h

/-- The calls of `thread_create` in a sequence of calls return the values
`id`, `id + 1`, .. in this order, when `id` does not overflow. -/
theorem created_ids_from (fuel : Nat) (calls : List call) (s : state)
    (hrun : (exec fuel calls s).isSome = true)
    (hint : ThreadsSched.is_int s.id)
    (hov : s.id + (calls.countP is_create : Nat) ≤ ThreadsSched.INT_MAX) :
    created_ids fuel calls s =
      (List.range (calls.countP is_create)).map (fun k : Nat => s.id + (k : Int)) ∧
    ∀ s1, exec fuel calls s = some s1 → s1.id = s.id + (calls.countP is_create : Nat) := by
  induction calls generalizing s with
  | nil =>
    refine ⟨by simp [created_ids], ?_⟩
    intro s1 h1
    simp only [exec, Option.some.injEq] at h1
    simp [← h1]
  | cons c rest ih =>
    cases hc : exec_call fuel c s with
    | none => simp [exec, hc] at hrun
    | some s2 =>
      simp only [exec, hc] at hrun
      have hid := exec_call_id fuel c s s2 hc
      by_cases hcr : is_create c = true
      · rw [if_pos hcr] at hid
        have hcount : (c :: rest).countP is_create = rest.countP is_create + 1 :=
          List.countP_cons_of_pos _ _ hcr
        rw [hcount] at hov ⊢
        have hs2 : s2.id = s.id + 1 := by
          rw [hid]
          apply ThreadsSched.wrap_int_of_is_int
          simp only [ThreadsSched.is_int, ThreadsSched.INT_MIN, ThreadsSched.INT_MAX] at hint hov ⊢
          push_cast at hov
          omega
        have hint2 : ThreadsSched.is_int s2.id := by
          rw [hs2]
          simp only [ThreadsSched.is_int, ThreadsSched.INT_MIN, ThreadsSched.INT_MAX] at hint hov ⊢
          push_cast at hov
          omega
        obtain ⟨ih1, ih2⟩ := ih s2 hrun hint2 (by rw [hs2]; push_cast at hov; omega)
        refine ⟨?_, ?_⟩
        · simp only [created_ids, hc, created_id_some c s hcr, ih1, hs2]
          rw [List.range_succ_eq_map]
          simp only [List.map_cons, List.map_map, Nat.cast_zero, add_zero, List.cons.injEq,
            true_and]
          apply List.map_congr_left
          intro k _
          simp only [Function.comp, Nat.cast_succ]
          ring
        · intro s1 h1
          simp only [exec, hc] at h1
          rw [ih2 s1 h1, hs2]
          push_cast
          ring
      · simp only [Bool.not_eq_true] at hcr
        rw [if_neg (by simp [hcr])] at hid
        have hcount : (c :: rest).countP is_create = rest.countP is_create :=
          List.countP_cons_of_neg _ _ (by simp [hcr])
        rw [hcount] at hov ⊢
        obtain ⟨ih1, ih2⟩ := ih s2 hrun (by rw [hid]; exact hint) (by rw [hid]; exact hov)
        refine ⟨?_, ?_⟩
        · simp only [created_ids, hc, created_id_none c s hcr, ih1, hid]
        · intro s1 h1
          simp only [exec, hc] at h1
          rw [ih2 s1 h1, hid]

/-- C23: in every sequence of calls of the runtime that starts with `id = 1`
and runs to its end, with fewer than `INT_MAX` calls of `thread_create` (no
`int` overflow), the `k`-th call of `thread_create` returns a thread with
`ID = k`, whatever other calls (`thread_exit` among them) stand between; so
the `ID`s returned are strictly increasing in creation order and pairwise
distinct, and `id` ends one above the number of threads created. -/
theorem thread_create_identity (fuel : Nat) (calls : List call) (s : state)
    (h0 : s.id = 1)
    (hrun : (exec fuel calls s).isSome = true)
    (hov : ((calls.countP is_create : Nat) : Int) < ThreadsSched.INT_MAX) :
    (∀ k : Nat, 1 ≤ k → k ≤ calls.countP is_create →
      (created_ids fuel calls s).get? (k - 1) = some (k : Int)) ∧
    (created_ids fuel calls s).length = calls.countP is_create ∧
    (created_ids fuel calls s).Pairwise (fun a b => a < b) ∧
    (created_ids fuel calls s).Nodup ∧
    ∀ s1, exec fuel calls s = some s1 → s1.id = (calls.countP is_create : Nat) + 1 := by
  obtain ⟨h1, h2⟩ := created_ids_from fuel calls s hrun
    (by rw [h0]; decide)
    (by rw [h0]; simp only [ThreadsSched.INT_MAX] at hov ⊢; omega)
  have hpw : (created_ids fuel calls s).Pairwise (fun a b => a < b) := by
    rw [h1, List.pairwise_map]
    refine (List.pairwise_lt_range _).imp ?_
    intro a b hab
    omega
  refine ⟨?_, ?_, hpw, ?_, ?_⟩
  · intro k hk1 hk2
    rw [h1, List.get?_eq_getElem?, List.getElem?_map, List.getElem?_range (by omega)]
    simp only [Option.map_some', Option.some.injEq, h0]
    omega
  · rw [h1, List.length_map, List.length_range]
  · exact hpw.imp (fun h => ne_of_lt h)
  · intro s1 hs1
    rw [h2 s1 hs1, h0]
    ring

/-- C23 at a sequence of calls that creates three threads, queues the first,
lets it exit, and creates a fourth thread in the freed memory: the `ID`s
returned are 1, 2, 3, 4. -/
theorem thread_create_identity_witness :
    initial_state.id = 1 ∧
    (exec 3 ex_calls initial_state).isSome = true ∧
    ((ex_calls.countP is_create : Nat) : Int) < ThreadsSched.INT_MAX ∧
    created_ids 3 ex_calls initial_state = [1, 2, 3, 4] ∧
    (∀ k : Nat, 1 ≤ k → k ≤ ex_calls.countP is_create →
      (created_ids 3 ex_calls initial_state).get? (k - 1) = some (k : Int)) ∧
    (created_ids 3 ex_calls initial_state).length = ex_calls.countP is_create ∧
    (created_ids 3 ex_calls initial_state).Pairwise (fun a b => a < b) ∧
    (created_ids 3 ex_calls initial_state).Nodup ∧
    ∀ s1, exec 3 ex_calls initial_state = some s1 →
      s1.id = (ex_calls.countP is_create : Nat) + 1 :=
  ⟨rfl, by decide, by decide, by decide,
    thread_create_identity 3 ex_calls initial_state rfl (by decide) (by decide)⟩

/-! ## Release of the regions of a thread -/

/-- C28 evaluated on the code: `thread_exit` frees the region of `stack` and
the control block and nothing else, on both of its paths; for a thread
created with stack 100 and handler stack 200 at address 10 the handler stack
200 stays allocated, when the thread is alone in the queue and when it is
not. -/
theorem thread_exit_keeps_handler_stack :
    (∀ s : state, (thread_exit_unlink s).live =
      (s.live.erase (s.mem s.current_thread).stack).erase s.current_thread) ∧
    (∀ s : state, (thread_exit_last s).live =
      (s.live.erase (s.mem s.current_thread).stack).erase s.current_thread) ∧
    ex_one_thread.live = [200, 100, 10] ∧
    (thread_exit 1 ex_one_thread).map (fun r => (r.1.live, r.2)) =
      some ([200], jump.env_st) ∧
    ex_two_threads.live = [400, 300, 20, 200, 100, 10] ∧
    ex_two_threads.current_thread = 10 ∧
    (thread_exit 1 ex_two_threads).map (fun r => (r.1.live, r.2)) =
      some ([400, 300, 20, 200], jump.env_tmp) := by
  refine ⟨?_, ?_, by decide, by decide, by decide, by decide, by decide⟩
  · intro s
    simp only [thread_exit_unlink, free_live, free_mem, store_mem]
    split_ifs <;> rfl
  · intro s
    rfl

/-! ## Notifications -/

/-- C30 fails after a delivery: the thread of `ex_one_thread` registers a
handler for tag 0 and is sent tag 0; `dispatch` jumps to `signal_trampoline`,
the handler returns and `pending_signal` is `NO_SIGNAL` again, but `sent` is
still 1, and `thread_kill` with tag 1 leaves `pending_signal = NO_SIGNAL`. -/
theorem thread_kill_after_delivery_counterexample :
    (ex_signalled.bind (dispatch 2)).map Prod.snd = some jump.handler_env_tmp ∧
    (ex_signalled.bind (signal_trampoline (fun _ _ x => some x))).isSome = true ∧
    (ex_delivered.mem 10).pending_signal = NO_SIGNAL ∧
    (ex_delivered.mem 10).sent = 1 ∧
    ((thread_kill 10 1 ex_delivered).mem 10).pending_signal = NO_SIGNAL ∧
    ¬ (∀ (s : state) (t : Nat) (signo : Int), (s.mem t).pending_signal = NO_SIGNAL →
        ((thread_kill t signo s).mem t).pending_signal = signo) := by
  refine ⟨by decide, by decide, by decide, by decide, by decide, ?_⟩
  intro h
  have := h ex_delivered 10 1 (by decide)
  revert this
  decide

/-! ## The ring of the ready queue -/

/-- The links of a path depend on `next` of its threads but the last one and
on `previous` of its threads but the first one. -/
theorem ring_path_frame (s s1 : state) (a : Nat) (l : List Nat) (z : Nat)
    (hn : ∀ x ∈ a :: l, (s1.mem x).next = (s.mem x).next)
    (hp : ∀ x ∈ l ++ [z], (s1.mem x).previous = (s.mem x).previous)
    (h : ring_path s a l z) : ring_path s1 a l z := by
  induction l generalizing a with
  | nil =>
    simp only [ring_path] at h ⊢
    rw [hn a (by simp), hp z (by simp)]
    exact h
  | cons b l ih =>
    simp only [ring_path] at h ⊢
    refine ⟨?_, ?_, ih b ?_ ?_ h.2.2⟩
    · rw [hn a (by simp)]
      exact h.1
    · rw [hp b (by simp)]
      exact h.2.1
    · intro x hx
      exact hn x (List.mem_cons_of_mem _ hx)
    · intro x hx
      exact hp x (List.mem_cons_of_mem _ hx)

/-- A path through `l1`, `b`, `l2` is a path to `b` followed by a path from
`b`. -/
theorem ring_path_append (s : state) (a : Nat) (l1 : List Nat) (b : Nat) (l2 : List Nat)
    (z : Nat) :
    ring_path s a (l1 ++ b :: l2) z ↔ ring_path s a l1 b ∧ ring_path s b l2 z := by
  induction l1 generalizing a with
  | nil => simp only [List.nil_append, ring_path, and_assoc]
  | cons x l1 ih =>
    rw [List.cons_append]
    simp only [ring_path]
    rw [ih x]
    simp only [and_assoc]

/-- The end of a path has the last thread of the path as `previous`. -/
theorem ring_path_previous (s : state) (a : Nat) (l : List Nat) (z : Nat)
    (h : ring_path s a l z) :
    (s.mem z).previous = (a :: l).getLast (List.cons_ne_nil _ _) := by
  induction l generalizing a with
  | nil => exact h.2
  | cons b l ih =>
    rw [List.getLast_cons_cons]
    exact ih b h.2.2

/-- Following `next` from the start of a path meets the threads of the path in
order, then its end. -/
theorem follow_next_path (s : state) (a : Nat) (l : List Nat) (z : Nat)
    (h : ring_path s a l z) : follow_next s (l.length + 2) a = a :: l ++ [z] := by
  induction l generalizing a with
  | nil =>
    simp only [follow_next, List.length_nil, h.1]
    rfl
  | cons b l ih =>
    have := ih b h.2.2
    simp only [List.length_cons, follow_next, List.cons_append, List.cons.injEq, true_and,
      h.1] at this ⊢
    exact this

/-- Following `next` for fewer steps gives the first threads met. -/
theorem follow_next_take (s : state) (n k : Nat) (p : Nat) (h : k ≤ n) :
    follow_next s k p = (follow_next s n p).take k := by
  induction k generalizing n p with
  | zero => simp [follow_next]
  | succ k ih =>
    cases n with
    | zero => omega
    | succ n =>
      simp only [follow_next, List.take_succ_cons, List.cons.injEq, true_and]
      exact ih n _ (by omega)

/-- Along a path every thread but the last has its successor as `next`, and is
the `previous` of its successor; `next` leads from the path into the path or
to its end, `previous` from the path or its end into the path. -/
theorem ring_path_links (s : state) (a : Nat) (l : List Nat) (z : Nat)
    (h : ring_path s a l z) :
    (∀ m ∈ a :: l, (s.mem m).next ∈ l ++ [z] ∧ (s.mem (s.mem m).next).previous = m) ∧
    (∀ m ∈ l ++ [z], (s.mem m).previous ∈ a :: l ∧ (s.mem (s.mem m).previous).next = m) := by
  induction l generalizing a with
  | nil =>
    simp only [ring_path] at h
    refine ⟨?_, ?_⟩
    · intro m hm
      simp only [List.mem_singleton] at hm
      subst hm
      simp [h.1, h.2]
    · intro m hm
      simp only [List.nil_append, List.mem_singleton] at hm
      subst hm
      simp [h.1, h.2]
  | cons b l ih =>
    simp only [ring_path] at h
    obtain ⟨ih1, ih2⟩ := ih b h.2.2
    refine ⟨?_, ?_⟩
    · intro m hm
      rcases List.mem_cons.mp hm with rfl | hm
      · simp [h.1, h.2.1]
      · obtain ⟨h3, h4⟩ := ih1 m hm
        exact ⟨List.mem_cons_of_mem _ h3, h4⟩
    · intro m hm
      rcases List.mem_cons.mp hm with rfl | hm
      · simp [h.1, h.2.1]
      · obtain ⟨h3, h4⟩ := ih2 m hm
        exact ⟨List.mem_cons_of_mem _ h3, h4⟩

/-- The ring depends on `current_thread` and on the links only. -/
theorem is_ring_congr (s s1 : state) (l : List Nat)
    (hc : s1.current_thread = s.current_thread)
    (hn : ∀ x, (s1.mem x).next = (s.mem x).next)
    (hp : ∀ x, (s1.mem x).previous = (s.mem x).previous)
    (h : is_ring s l) : is_ring s1 l := by
  cases l with
  | nil =>
    simp only [is_ring] at h ⊢
    rw [hc, h]
  | cons c l =>
    simp only [is_ring] at h ⊢
    exact ⟨hc.trans h.1, h.2.1, h.2.2.1,
      ring_path_frame s s1 c l c (fun x _ => hn x) (fun x _ => hp x) h.2.2.2⟩

/-- A ring is empty exactly when there is no current thread. -/
theorem is_ring_nil_iff (s : state) (l : List Nat) (h : is_ring s l) :
    l = [] ↔ s.current_thread = NULL := by
  cases l with
  | nil => simpa [is_ring] using h
  | cons c l =>
    simp only [is_ring] at h
    simp only [reduceCtorEq, false_iff]
    intro h0
    apply h.2.2.1
    rw [← h0, h.1]
    exact List.mem_cons_self _ _

/-- The ring of a state is determined by the state. -/
theorem ring_path_unique (s : state) (a : Nat) (l1 l2 : List Nat) (z : Nat)
    (h1 : ring_path s a l1 z) (h2 : ring_path s a l2 z) (hz1 : z ∉ l1) (hz2 : z ∉ l2) :
    l1 = l2 := by
  induction l1 generalizing a l2 with
  | nil =>
    cases l2 with
    | nil => rfl
    | cons b l2 =>
      exfalso
      apply hz2
      rw [← h1.1, h2.1]
      exact List.mem_cons_self _ _
  | cons b l1 ih =>
    cases l2 with
    | nil =>
      exfalso
      apply hz1
      rw [← h2.1, h1.1]
      exact List.mem_cons_self _ _
    | cons b2 l2 =>
      have hb : b = b2 := by rw [← h1.1, h2.1]
      subst hb
      rw [ih b l2 h1.2.2 h2.2.2 (fun h => hz1 (List.mem_cons_of_mem _ h))
        (fun h => hz2 (List.mem_cons_of_mem _ h))]

/-- The ring of a state is determined by the state. -/
theorem is_ring_unique (s : state) (l1 l2 : List Nat) (h1 : is_ring s l1)
    (h2 : is_ring s l2) : l1 = l2 := by
  cases l1 with
  | nil =>
    exact ((is_ring_nil_iff s l2 h2).mpr ((is_ring_nil_iff s [] h1).mp rfl)).symm
  | cons c1 l1 =>
    cases l2 with
    | nil =>
      exact (is_ring_nil_iff s _ h1).mpr ((is_ring_nil_iff s [] h2).mp rfl)
    | cons c2 l2 =>
      simp only [is_ring] at h1 h2
      have hc : c1 = c2 := by rw [← h1.1, h2.1]
      subst hc
      rw [ring_path_unique s c1 l1 l2 c1 h1.2.2.2 h2.2.2.2
        (List.nodup_cons.mp h1.2.1).1 (List.nodup_cons.mp h2.2.1).1]

/-! ## `thread_add_runqueue` on the ring -/

/-- The `next` field after a store. -/
theorem store_next (s : state) (p : Nat) (f : thread → thread) (a : Nat) :
    ((store s p f).mem a).next = if a = p then (f (s.mem a)).next else (s.mem a).next := by
  simp only [store_mem]
  split_ifs <;> rfl

/-- The `previous` field after a store. -/
theorem store_previous (s : state) (p : Nat) (f : thread → thread) (a : Nat) :
    ((store s p f).mem a).previous =
      if a = p then (f (s.mem a)).previous else (s.mem a).previous := by
  simp only [store_mem]
  split_ifs <;> rfl

/-- The links `thread_add_runqueue` leaves when there is a current thread. -/
theorem thread_add_runqueue_links (t : Nat) (s : state) (h0 : s.current_thread ≠ NULL) :
    (thread_add_runqueue t s).current_thread = s.current_thread ∧
    (∀ x, ((thread_add_runqueue t s).mem x).next =
      if x = t then s.current_thread
      else if x = (s.mem s.current_thread).previous then t else (s.mem x).next) ∧
    ∀ x, ((thread_add_runqueue t s).mem x).previous =
      if x = s.current_thread then t
      else if x = t then (s.mem s.current_thread).previous else (s.mem x).previous := by
  simp only [thread_add_runqueue, if_neg h0]
  refine ⟨rfl, ?_, ?_⟩
  · intro x
    simp only [store_next, store_current_thread]
    split_ifs <;> rfl
  · intro x
    simp only [store_previous, store_current_thread]
    split_ifs <;> rfl

/-- The state `thread_add_runqueue` leaves when there is no current thread. -/
theorem thread_add_runqueue_first (t : Nat) (s : state) (h0 : s.current_thread = NULL) :
    (thread_add_runqueue t s).current_thread = t ∧
    ((thread_add_runqueue t s).mem t).next = t ∧
    ((thread_add_runqueue t s).mem t).previous = t := by
  simp only [thread_add_runqueue, if_pos h0]
  refine ⟨rfl, ?_, ?_⟩
  · simp only [store_next, store_current_thread, if_true]
  · simp only [store_previous, store_current_thread, if_true]

/-- The path to the current thread `c`, with the links `thread_add_runqueue`
leaves, leads to the new thread `t`. -/
theorem ring_path_add (s s1 : state) (c t tail : Nat) (a : Nat) (r : List Nat)
    (hn : ∀ x, (s1.mem x).next = if x = t then c else if x = tail then t else (s.mem x).next)
    (hp : ∀ x, (s1.mem x).previous =
      if x = c then t else if x = t then tail else (s.mem x).previous)
    (htc : t ≠ c)
    (h : ring_path s a r c)
    (htail : (a :: r).getLast (List.cons_ne_nil _ _) = tail)
    (ht : t ∉ a :: r) (hc : c ∉ r) (hnd : (a :: r).Nodup) : ring_path s1 a r t := by
  induction r generalizing a with
  | nil =>
    simp only [List.getLast_singleton] at htail
    subst htail
    have hat : a ≠ t := fun e => ht (by simp [e])
    simp only [ring_path, hn, hp, if_neg hat, if_neg htc, if_true]
    exact ⟨trivial, trivial⟩
  | cons b r ih =>
    rw [List.getLast_cons_cons] at htail
    simp only [ring_path] at h ⊢
    have hat : a ≠ t := fun e => ht (by simp [e])
    have hbt : b ≠ t := fun e => ht (by simp [e])
    have hbc : b ≠ c := fun e => hc (by simp [e])
    have hatail : a ≠ tail := by
      intro e
      have hmem : tail ∈ b :: r := by
        rw [← htail]
        exact List.getLast_mem _
      rw [← e] at hmem
      exact (List.nodup_cons.mp hnd).1 hmem
    refine ⟨?_, ?_, ih b h.2.2 htail ?_ ?_ (List.nodup_cons.mp hnd).2⟩
    · rw [hn, if_neg hat, if_neg hatail]
      exact h.1
    · rw [hp, if_neg hbc, if_neg hbt]
      exact h.2.1
    · intro hm
      exact ht (List.mem_cons_of_mem _ hm)
    · intro hm
      exact hc (List.mem_cons_of_mem _ hm)

/-- The ring after `thread_add_runqueue` of a thread that is not in it is the
ring before it followed by the thread. -/
theorem is_ring_add (s : state) (l : List Nat) (t : Nat) (h : is_ring s l)
    (ht0 : t ≠ NULL) (ht : t ∉ l) : is_ring (thread_add_runqueue t s) (l ++ [t]) := by
  cases l with
  | nil =>
    simp only [is_ring] at h
    obtain ⟨h1, h2, h3⟩ := thread_add_runqueue_first t s h
    simp only [List.nil_append, is_ring, ring_path]
    exact ⟨h1, List.nodup_singleton t, fun e => ht0 (List.mem_singleton.mp e).symm, h2, h3⟩
  | cons c r =>
    simp only [is_ring] at h
    obtain ⟨hcur, hnd, hnull, hpath⟩ := h
    have hc0 : s.current_thread ≠ NULL := by
      rw [hcur]
      intro e
      exact hnull (by simp [e])
    obtain ⟨h1, h2, h3⟩ := thread_add_runqueue_links t s hc0
    have htc : t ≠ c := fun e => ht (by simp [e])
    have hprev := ring_path_previous s c r c hpath
    rw [hcur] at h1 h2 h3
    have hnew := ring_path_add s (thread_add_runqueue t s) c t (s.mem c).previous c r h2 h3 htc
      hpath hprev.symm ht (List.nodup_cons.mp hnd).1 hnd
    simp only [List.cons_append, is_ring]
    refine ⟨h1, ?_, ?_, ?_⟩
    · have : (c :: r ++ [t]).Nodup := by
        rw [List.nodup_append]
        refine ⟨hnd, List.nodup_singleton t, ?_⟩
        intro x hx hx1
        simp only [List.mem_singleton] at hx1
        subst hx1
        exact ht hx
      simpa using this
    · intro hm
      rcases List.mem_cons.mp hm with e | hm
      · exact hnull (by simp [e])
      · rcases List.mem_append.mp hm with hm | hm
        · exact hnull (List.mem_cons_of_mem _ hm)
        · simp only [List.mem_singleton] at hm
          exact ht0 hm.symm
    · rw [ring_path_append]
      refine ⟨hnew, ?_⟩
      simp only [ring_path, h2, h3, if_true]
      exact ⟨trivial, trivial⟩

/-! ## One step along the ring -/

/-- The links along a path are read from the memory only. -/
theorem ring_path_mem (s s1 : state) (a : Nat) (l : List Nat) (z : Nat)
    (hm : s1.mem = s.mem) (h : ring_path s a l z) : ring_path s1 a l z :=
  ring_path_frame s s1 a l z (fun x _ => by rw [hm]) (fun x _ => by rw [hm]) h

/-- After a step of `current_thread` to its `next` the ring starts one thread
later. -/
theorem is_ring_step (s : state) (c : Nat) (l : List Nat) (h : is_ring s (c :: l)) :
    is_ring { s with current_thread := (s.mem s.current_thread).next } (l ++ [c]) := by
  simp only [is_ring] at h
  obtain ⟨hcur, hnd, hnull, hpath⟩ := h
  cases l with
  | nil =>
    simp only [ring_path] at hpath
    simp only [List.nil_append, is_ring, ring_path, hcur]
    exact ⟨hpath.1, hnd, hnull, hpath.1, hpath.2⟩
  | cons b r =>
    simp only [ring_path] at hpath
    have hperm : (b :: r ++ [c]).Perm (c :: b :: r) := List.perm_append_singleton c (b :: r)
    simp only [List.cons_append, is_ring, hcur, hpath.1, true_and]
    refine ⟨?_, ?_, ?_⟩
    · exact (List.Perm.nodup_iff hperm).mpr hnd
    · intro hm
      exact hnull ((List.Perm.mem_iff hperm).mp hm)
    · rw [ring_path_append]
      exact ⟨ring_path_mem s _ b r c rfl hpath.2.2, hpath.1, hpath.2.1⟩

/-- A step along a ring with a current thread leads to a thread. -/
theorem is_ring_step_some (s : state) (h : ∃ l, is_ring s l) (h0 : s.current_thread ≠ NULL) :
    (∃ l, is_ring { s with current_thread := (s.mem s.current_thread).next } l) ∧
    (s.mem s.current_thread).next ≠ NULL := by
  obtain ⟨l, hl⟩ := h
  cases l with
  | nil => exact absurd ((is_ring_nil_iff s [] hl).mp rfl) h0
  | cons c l =>
    have hstep := is_ring_step s c l hl
    refine ⟨⟨_, hstep⟩, ?_⟩
    intro e
    have := (is_ring_nil_iff _ _ hstep).mpr e
    simp at this

/-! ## `thread_exit` on the ring -/

/-- The links `thread_exit` leaves on its first path when the current thread
is neither its own `previous` nor its own `next`. -/
theorem thread_exit_unlink_links (s : state)
    (hp : (s.mem s.current_thread).previous ≠ s.current_thread)
    (hn : (s.mem s.current_thread).next ≠ s.current_thread) :
    (thread_exit_unlink s).current_thread = (s.mem s.current_thread).next ∧
    (∀ x, ((thread_exit_unlink s).mem x).next =
      if x = (s.mem s.current_thread).previous then (s.mem s.current_thread).next
      else (s.mem x).next) ∧
    ∀ x, ((thread_exit_unlink s).mem x).previous =
      if x = (s.mem s.current_thread).next then (s.mem s.current_thread).previous
      else (s.mem x).previous := by
  have h1 : (store s (s.mem s.current_thread).previous
      (fun x => { x with next := (s.mem s.current_thread).next })).mem s.current_thread =
      s.mem s.current_thread := by
    simp only [store_mem, if_neg hp.symm]
  refine ⟨?_, ?_, ?_⟩
  · simp only [thread_exit_unlink, free_current_thread, h1, store_mem, if_neg hn.symm]
  · intro x
    simp only [thread_exit_unlink, free_mem, h1, store_next]
    split_ifs <;> rfl
  · intro x
    simp only [thread_exit_unlink, free_mem, h1, store_previous]
    split_ifs <;> rfl

/-- The path from the successor of the exiting thread `c` back to `c`, with
the links `thread_exit` leaves, leads back to the successor `n`. -/
theorem ring_path_unlink (s s1 : state) (c p n : Nat) (a : Nat) (r : List Nat)
    (hn : ∀ x, (s1.mem x).next = if x = p then n else (s.mem x).next)
    (hp : ∀ x, (s1.mem x).previous = if x = n then p else (s.mem x).previous)
    (h : ring_path s a r c)
    (hlast : (a :: r).getLast (List.cons_ne_nil _ _) = p)
    (hnr : n ∉ r) (hnd : (a :: r).Nodup) : ring_path s1 a r n := by
  induction r generalizing a with
  | nil =>
    simp only [List.getLast_singleton] at hlast
    subst hlast
    simp only [ring_path, hn, hp, if_true]
    exact ⟨trivial, trivial⟩
  | cons b r ih =>
    rw [List.getLast_cons_cons] at hlast
    simp only [ring_path] at h ⊢
    have hbn : b ≠ n := fun e => hnr (by simp [e])
    have hap : a ≠ p := by
      intro e
      have hmem : p ∈ b :: r := by
        rw [← hlast]
        exact List.getLast_mem _
      rw [← e] at hmem
      exact (List.nodup_cons.mp hnd).1 hmem
    refine ⟨?_, ?_, ih b h.2.2 hlast ?_ (List.nodup_cons.mp hnd).2⟩
    · rw [hn, if_neg hap]
      exact h.1
    · rw [hp, if_neg hbn]
      exact h.2.1
    · intro hm
      exact hnr (List.mem_cons_of_mem _ hm)

/-- In a ring of more than one thread the current thread is not its own
`next`; in a ring of one thread it is. -/
theorem is_ring_next (s : state) (c : Nat) (l : List Nat) (h : is_ring s (c :: l)) :
    (s.mem s.current_thread).next = s.current_thread ↔ l = [] := by
  simp only [is_ring] at h
  obtain ⟨hcur, hnd, _, hpath⟩ := h
  rw [hcur]
  cases l with
  | nil => simpa using hpath.1
  | cons b r =>
    simp only [reduceCtorEq, iff_false]
    intro e
    rw [hpath.1] at e
    exact (List.nodup_cons.mp hnd).1 (by simp [e])

/-- The ring after the first path of `thread_exit` is the ring before it
without its first thread. -/
theorem is_ring_unlink (s : state) (c x : Nat) (r : List Nat)
    (h : is_ring s (c :: x :: r)) :
    is_ring (thread_exit_unlink s) (x :: r) ∧
    (thread_exit_unlink s).current_thread = (s.mem c).next := by
  have hnext := is_ring_next s c (x :: r) h
  simp only [is_ring] at h
  obtain ⟨hcur, hnd, hnull, hpath⟩ := h
  have hprev := ring_path_previous s c (x :: r) c hpath
  rw [List.getLast_cons_cons] at hprev
  simp only [ring_path] at hpath
  have hn : (s.mem s.current_thread).next ≠ s.current_thread := by
    intro e
    simpa using hnext.mp e
  have hp : (s.mem s.current_thread).previous ≠ s.current_thread := by
    rw [hcur, hprev]
    intro e
    have hmem : c ∈ x :: r := by
      rw [← e]
      exact List.getLast_mem _
    exact (List.nodup_cons.mp hnd).1 hmem
  obtain ⟨h1, h2, h3⟩ := thread_exit_unlink_links s hp hn
  rw [hcur] at h1 h2 h3
  rw [hpath.1] at h1 h2 h3
  have hnd2 := (List.nodup_cons.mp hnd).2
  refine ⟨?_, by rw [h1, hpath.1]⟩
  simp only [is_ring]
  refine ⟨h1, hnd2, fun hm => hnull (List.mem_cons_of_mem _ hm), ?_⟩
  exact ring_path_unlink s (thread_exit_unlink s) c (s.mem c).previous x x r h2 h3 hpath.2.2
    hprev.symm (List.nodup_cons.mp hnd2).1 hnd2

/-- After the second path of `thread_exit` there is no current thread. -/
theorem is_ring_last (s : state) : is_ring (thread_exit_last s) [] := rfl

/-- The ring is kept, up to the thread it starts with and up to threads that
leave it, by `schedule`. -/
theorem schedule_ring (fuel : Nat) (s s1 : state) (h : schedule fuel s = some s1)
    (hr : ∃ l, is_ring s l) (h0 : s.current_thread ≠ NULL) :
    (∃ l, is_ring s1 l) ∧ s1.current_thread ≠ NULL :=
  schedule_inv (fun x => (∃ l, is_ring x l) ∧ x.current_thread ≠ NULL)
    (fun x hx => is_ring_step_some x hx.1 hx.2) fuel s s1 h ⟨hr, h0⟩

/-- A property of the ring that is kept when the ring starts one thread later
and when its first thread leaves holds for the ring `dispatch` leaves. -/
theorem dispatch_ring (R : List Nat → Prop)
    (hrot : ∀ c l, R (c :: l) → R (l ++ [c]))
    (htail : ∀ c l, R (c :: l) → R l)
    (fuel : Nat) (s s1 : state) (j : jump) (h : dispatch fuel s = some (s1, j))
    (hr : ∃ l, is_ring s l ∧ R l) : ∃ l, is_ring s1 l ∧ R l := by
  refine dispatch_inv (fun x => ∃ l, is_ring x l ∧ R l)
    (fun x => (∃ l, is_ring x l ∧ R l) ∧ x.current_thread ≠ NULL)
    (fun x hx h0 => ⟨hx, h0⟩) ?_ (fun x hx => hx.1) ?_ ?_ ?_ fuel s s1 j h hr
  · rintro x ⟨⟨l, hl, hR⟩, h0⟩
    cases l with
    | nil => exact absurd ((is_ring_nil_iff x [] hl).mp rfl) h0
    | cons c l =>
      have hstep := is_ring_step x c l hl
      refine ⟨⟨_, hstep, hrot c l hR⟩, ?_⟩
      intro e
      have := (is_ring_nil_iff _ _ hstep).mpr e
      simp at this
  · rintro x ⟨⟨l, hl, hR⟩, _⟩
    exact ⟨l, is_ring_congr x _ l rfl
      (fun a => by simp only [store_next]; split_ifs <;> rfl)
      (fun a => by simp only [store_previous]; split_ifs <;> rfl) hl, hR⟩
  · rintro x ⟨⟨l, hl, hR⟩, h0⟩ hne
    cases l with
    | nil => exact absurd ((is_ring_nil_iff x [] hl).mp rfl) h0
    | cons c l =>
      cases l with
      | nil => exact absurd ((is_ring_next x c [] hl).mpr rfl) hne
      | cons b r => exact ⟨b :: r, (is_ring_unlink x c b r hl).1, htail c _ hR⟩
  · rintro x ⟨⟨l, hl, hR⟩, h0⟩ he
    cases l with
    | nil => exact absurd ((is_ring_nil_iff x [] hl).mp rfl) h0
    | cons c l =>
      have hl0 := (is_ring_next x c l hl).mp he
      subst hl0
      exact ⟨[], is_ring_last x, htail c [] hR⟩

/-- The ring `thread_exit` leaves, as in `dispatch_ring`, for a property that
holds of the ring without its first thread. -/
theorem thread_exit_ring (R : List Nat → Prop)
    (hrot : ∀ c l, R (c :: l) → R (l ++ [c]))
    (htail : ∀ c l, R (c :: l) → R l)
    (fuel : Nat) (s s1 : state) (j : jump) (h : thread_exit fuel s = some (s1, j))
    (c : Nat) (l : List Nat) (hr : is_ring s (c :: l)) (hR : R l) :
    ∃ l1, is_ring s1 l1 ∧ R l1 := by
  simp only [thread_exit] at h
  by_cases hne : (s.mem s.current_thread).next ≠ s.current_thread
  · rw [if_pos hne] at h
    cases l with
    | nil => exact absurd ((is_ring_next s c [] hr).mpr rfl) hne
    | cons b r =>
      exact dispatch_ring R hrot htail fuel _ s1 j h ⟨b :: r, (is_ring_unlink s c b r hr).1, hR⟩
  · rw [if_neg hne] at h
    simp only [Option.some.injEq, Prod.mk.injEq] at h
    rw [← h.1]
    have hl0 := (is_ring_next s c l hr).mp (not_not.mp hne)
    subst hl0
    exact ⟨[], is_ring_last s, hR⟩

/-! ## The ring invariant -/

/-- A store that keeps the links keeps the ring. -/
theorem is_ring_store (s : state) (p : Nat) (f : thread → thread) (l : List Nat)
    (hf : ∀ x, (f x).next = x.next ∧ (f x).previous = x.previous)
    (h : is_ring s l) : is_ring (store s p f) l :=
  is_ring_congr s _ l rfl
    (fun a => by rw [store_next]; split_ifs <;> simp [(hf _).1])
    (fun a => by rw [store_previous]; split_ifs <;> simp [(hf _).2]) h

/-- Following `next` from the current thread once around the ring meets the
threads of the ring in order and ends at the current thread. -/
theorem follow_next_ring (s : state) (l : List Nat) (h : is_ring s l) :
    follow_next s (l.length + 1) s.current_thread = l ++ [s.current_thread] ∧
    follow_next s l.length s.current_thread = l := by
  cases l with
  | nil => exact ⟨rfl, rfl⟩
  | cons c r =>
    simp only [is_ring] at h
    have h1 := follow_next_path s c r c h.2.2.2
    rw [h.1]
    refine ⟨h1, ?_⟩
    rw [follow_next_take s (r.length + 2) (c :: r).length c (by simp), h1]
    simp

/-- In a ring every thread is the `next` of its `previous` and the `previous`
of its `next`, and both are in the ring. -/
theorem is_ring_links (s : state) (l : List Nat) (h : is_ring s l) :
    ∀ m ∈ l, (s.mem (s.mem m).previous).next = m ∧ (s.mem (s.mem m).next).previous = m ∧
      (s.mem m).previous ∈ l ∧ (s.mem m).next ∈ l := by
  cases l with
  | nil => simp
  | cons c r =>
    simp only [is_ring] at h
    obtain ⟨h1, h2⟩ := ring_path_links s c r c h.2.2.2
    have hsub : ∀ x, x ∈ r ++ [c] ↔ x ∈ c :: r := by
      intro x
      simp only [List.mem_append, List.mem_singleton, List.mem_cons]
      tauto
    intro m hm
    obtain ⟨h3, h4⟩ := h1 m hm
    obtain ⟨h5, h6⟩ := h2 m ((hsub m).mpr hm)
    exact ⟨h6, h4, h5, (hsub _).mp h3⟩

/-- The state `thread_create` leaves has the `current_thread` and the links
it was called with. -/
theorem thread_create_links (f arg t stack handler_new_stack : Nat) (s : state) :
    (thread_create f arg t stack handler_new_stack s).2.current_thread = s.current_thread ∧
    (∀ x, ((thread_create f arg t stack handler_new_stack s).2.mem x).next = (s.mem x).next) ∧
    ∀ x, ((thread_create f arg t stack handler_new_stack s).2.mem x).previous =
      (s.mem x).previous := by
  simp only [thread_create]
  refine ⟨?_, ?_, ?_⟩
  · split_ifs <;> simp only [store_current_thread, malloc_current_thread]
  · intro x
    split_ifs <;> simp only [store_next, malloc_mem, ite_self]
  · intro x
    split_ifs <;> simp only [store_previous, malloc_mem, ite_self]

/-- The ring `thread_yield` leaves when it is called with a current thread. -/
theorem thread_yield_ring (fuel : Nat) (s s1 : state) (j : jump)
    (h : thread_yield fuel s = some (s1, j)) (hr : ∃ l, is_ring s l)
    (h0 : s.current_thread ≠ NULL) : ∃ l, is_ring s1 l := by
  obtain ⟨l, hl⟩ := hr
  simp only [thread_yield] at h
  split at h
  · simp at h
  · rename_i s2 hs
    have hflag : ∃ l, is_ring
        (if (s.mem s.current_thread).pending_signal ≠ NO_SIGNAL then
          store s s.current_thread (fun x => { x with handler_buf_set := 1 })
        else store s s.current_thread (fun x => { x with buf_set := 1 })) l := by
      split_ifs
      · exact ⟨l, is_ring_store s _ _ l (fun _ => ⟨rfl, rfl⟩) hl⟩
      · exact ⟨l, is_ring_store s _ _ l (fun _ => ⟨rfl, rfl⟩) hl⟩
    have hsched := schedule_ring fuel _ s2 hs hflag (by split_ifs <;> exact h0)
    obtain ⟨l2, hl2⟩ := hsched.1
    obtain ⟨l1, hl1, _⟩ := dispatch_ring (fun _ => True) (fun _ _ _ => trivial)
      (fun _ _ _ => trivial) fuel s2 s1 j h ⟨l2, hl2, trivial⟩
    exact ⟨l1, hl1⟩

/-- Every reachable state has a ring. -/
theorem reachable_ring (s : state) (h : reachable s) : ∃ l, is_ring s l := by
  induction h with
  | empty s h0 => exact ⟨[], h0⟩
  | thread_add_runqueue s t _ ht0 ht ih =>
    obtain ⟨l, hl⟩ := ih
    exact ⟨l ++ [t], is_ring_add s l t hl ht0 (ht l hl)⟩
  | schedule s s1 fuel _ h0 hs ih => exact (schedule_ring fuel s s1 hs ih h0).1
  | thread_exit s s1 fuel j _ h0 hs ih =>
    obtain ⟨l, hl⟩ := ih
    cases l with
    | nil => exact absurd ((is_ring_nil_iff s [] hl).mp rfl) h0
    | cons c l =>
      obtain ⟨l1, hl1, _⟩ := thread_exit_ring (fun _ => True) (fun _ _ _ => trivial)
        (fun _ _ _ => trivial) fuel s s1 j hs c l hl trivial
      exact ⟨l1, hl1⟩
  | thread_exit_unlink s _ h0 hne ih =>
    obtain ⟨l, hl⟩ := ih
    cases l with
    | nil => exact absurd ((is_ring_nil_iff s [] hl).mp rfl) h0
    | cons c l =>
      cases l with
      | nil => exact absurd ((is_ring_next s c [] hl).mpr rfl) hne
      | cons b r => exact ⟨b :: r, (is_ring_unlink s c b r hl).1⟩
  | dispatch s s1 fuel j _ hs ih =>
    obtain ⟨l, hl⟩ := ih
    obtain ⟨l1, hl1, _⟩ := dispatch_ring (fun _ => True) (fun _ _ _ => trivial)
      (fun _ _ _ => trivial) fuel s s1 j hs ⟨l, hl, trivial⟩
    exact ⟨l1, hl1⟩
  | thread_yield s s1 fuel j _ h0 hs ih => exact thread_yield_ring fuel s s1 j hs ih h0
  | thread_create s f arg t stack handler_new_stack _ ih =>
    obtain ⟨l, hl⟩ := ih
    obtain ⟨h1, h2, h3⟩ := thread_create_links f arg t stack handler_new_stack s
    exact ⟨l, is_ring_congr s _ l h1 h2 h3 hl⟩
  | thread_register_handler s s1 signo handler _ hs ih =>
    obtain ⟨l, hl⟩ := ih
    simp only [thread_register_handler] at hs
    split at hs
    · simp at hs
    · rename_i x hx
      simp only [Option.some.injEq] at hs
      rw [← hs]
      refine ⟨l, is_ring_congr s _ l rfl ?_ ?_ hl⟩
      · intro a
        rw [store_next]
        split_ifs with ha
        · simp only [sig_handler_set] at hx
          split_ifs at hx <;>
          · simp only [Option.some.injEq] at hx
            rw [← hx, ha]
        · rfl
      · intro a
        rw [store_previous]
        split_ifs with ha
        · simp only [sig_handler_set] at hx
          split_ifs at hx <;>
          · simp only [Option.some.injEq] at hx
            rw [← hx, ha]
        · rfl
  | thread_kill s t signo _ ih =>
    obtain ⟨l, hl⟩ := ih
    simp only [thread_kill]
    split_ifs
    · exact ⟨l, is_ring_store _ _ _ l (fun _ => ⟨rfl, rfl⟩)
        (is_ring_store s _ _ l (fun _ => ⟨rfl, rfl⟩) hl)⟩
    · exact ⟨l, hl⟩
  | thread_suspend s s1 fuel t j _ h0 hs ih =>
    obtain ⟨l, hl⟩ := ih
    simp only [thread_suspend] at hs
    have hst := is_ring_store s t (fun x => { x with suspended := SUSPENDED }) l
      (fun _ => ⟨rfl, rfl⟩) hl
    split_ifs at hs
    · split at hs
      · simp at hs
      · rename_i s2 j2 hy
        simp only [Option.some.injEq, Prod.mk.injEq] at hs
        rw [← hs.1]
        exact thread_yield_ring fuel _ s2 j2 hy ⟨l, hst⟩ h0
    · simp only [Option.some.injEq, Prod.mk.injEq] at hs
      rw [← hs.1]
      exact ⟨l, hst⟩
  | thread_resume s t _ ih =>
    obtain ⟨l, hl⟩ := ih
    exact ⟨l, is_ring_store s t _ l (fun _ => ⟨rfl, rfl⟩) hl⟩

/-- C24: in every state the runtime reaches from the empty queue (by
`thread_add_runqueue` of a thread that is not null and not in the queue, by
`schedule` and `thread_exit` called with a current thread, and by the other
functions of the runtime), either `current_thread` is `NULL`, or the threads
met by following `next` from `current_thread` are the threads of a list `l`
without repetition, after which `next` leads back to `current_thread`, and
every thread `m` of `l` satisfies `m.previous.next = m` and
`m.next.previous = m`. -/
theorem ready_queue_ring_invariant (s : state) (h : reachable s) :
    s.current_thread = NULL ∨
    ∃ l, l ≠ [] ∧ is_ring s l ∧ l.Nodup ∧
      follow_next s (l.length + 1) s.current_thread = l ++ [s.current_thread] ∧
      ∀ m ∈ l, (s.mem (s.mem m).previous).next = m ∧ (s.mem (s.mem m).next).previous = m := by
  obtain ⟨l, hl⟩ := reachable_ring s h
  cases l with
  | nil => exact Or.inl hl
  | cons c r =>
    refine Or.inr ⟨c :: r, List.cons_ne_nil _ _, hl, hl.2.1, (follow_next_ring s _ hl).1, ?_⟩
    intro m hm
    obtain ⟨h1, h2, _⟩ := is_ring_links s _ hl m hm
    exact ⟨h1, h2⟩

/-- C24 at three threads created and queued at 10, 20, 30 after the first of
them has exited: the ring is 20, 30. -/
theorem ready_queue_ring_invariant_witness :
    reachable (thread_exit_unlink ex_three) ∧
    is_ring (thread_exit_unlink ex_three) [20, 30] ∧
    ((thread_exit_unlink ex_three).current_thread = NULL ∨
    ∃ l, l ≠ [] ∧ is_ring (thread_exit_unlink ex_three) l ∧ l.Nodup ∧
      follow_next (thread_exit_unlink ex_three) (l.length + 1)
        (thread_exit_unlink ex_three).current_thread =
        l ++ [(thread_exit_unlink ex_three).current_thread] ∧
      ∀ m ∈ l, ((thread_exit_unlink ex_three).mem
          ((thread_exit_unlink ex_three).mem m).previous).next = m ∧
        ((thread_exit_unlink ex_three).mem
          ((thread_exit_unlink ex_three).mem m).next).previous = m) :=
  have r0 : reachable (thread_create 1 0 10 100 200 initial_state).2 :=
    reachable.thread_create _ 1 0 10 100 200 (reachable.empty _ rfl)
  have r1 : reachable ex_one_thread :=
    reachable.thread_add_runqueue _ 10 r0 (by decide)
      (fun l hl => by
        rw [is_ring_unique _ l [] hl (by decide)]
        decide)
  have r2 : reachable ex_two_threads :=
    reachable.thread_add_runqueue _ 20 (reachable.thread_create _ 1 0 20 300 400 r1)
      (by decide)
      (fun l hl => by
        rw [is_ring_unique _ l [10] hl (by decide)]
        decide)
  have r3 : reachable ex_three :=
    reachable.thread_add_runqueue _ 30 (reachable.thread_create _ 1 0 30 500 600 r2)
      (by decide)
      (fun l hl => by
        rw [is_ring_unique _ l [10, 20] hl (by decide)]
        decide)
  have r4 : reachable (thread_exit_unlink ex_three) :=
    reachable.thread_exit_unlink _ r3 (by decide) (by decide)
  ⟨r4, by decide, ready_queue_ring_invariant _ r4⟩

/-- C25: for a ring `l` and a thread `t` that is not null and not in it,
`thread_add_runqueue(t)` leaves the ring `l` followed by `t`, so following
`next` from `current_thread` meets the old sequence, then `t`.  On the empty
queue `t` becomes `current_thread` with `next = previous = t`; on a non-empty
queue `current_thread` is unchanged and `t` stands between the old tail
(`current_thread.previous`, the last thread of `l`) and `current_thread`. -/
theorem thread_add_runqueue_appends (s : state) (l : List Nat) (t : Nat)
    (h : is_ring s l) (ht0 : t ≠ NULL) (ht : t ∉ l) :
    is_ring (thread_add_runqueue t s) (l ++ [t]) ∧
    follow_next s l.length s.current_thread = l ∧
    follow_next (thread_add_runqueue t s) (l.length + 1)
      (thread_add_runqueue t s).current_thread = l ++ [t] ∧
    (l = [] →
      (thread_add_runqueue t s).current_thread = t ∧
      ((thread_add_runqueue t s).mem t).next = t ∧
      ((thread_add_runqueue t s).mem t).previous = t) ∧
    ∀ hl : l ≠ [],
      (thread_add_runqueue t s).current_thread = s.current_thread ∧
      (s.mem s.current_thread).previous = l.getLast hl ∧
      ((thread_add_runqueue t s).mem (l.getLast hl)).next = t ∧
      ((thread_add_runqueue t s).mem t).previous = l.getLast hl ∧
      ((thread_add_runqueue t s).mem t).next = s.current_thread ∧
      ((thread_add_runqueue t s).mem s.current_thread).previous = t := by
  have hnew := is_ring_add s l t h ht0 ht
  refine ⟨hnew, (follow_next_ring s l h).2, ?_, ?_, ?_⟩
  · have := (follow_next_ring _ _ hnew).2
    simpa using this
  · intro hl
    exact thread_add_runqueue_first t s ((is_ring_nil_iff s l h).mp hl)
  · intro hl
    have h0 : s.current_thread ≠ NULL := fun e => hl ((is_ring_nil_iff s l h).mpr e)
    obtain ⟨h1, h2, h3⟩ := thread_add_runqueue_links t s h0
    cases l with
    | nil => exact absurd rfl hl
    | cons c r =>
      simp only [is_ring] at h
      have hprev := ring_path_previous s c r c h.2.2.2
      have htc : t ≠ c := fun e => ht (by simp [e])
      have hlast : (c :: r).getLast hl ≠ t := by
        intro e
        exact ht (e ▸ List.getLast_mem _)
      rw [h.1] at h1 h2 h3 ⊢
      refine ⟨h1, hprev, ?_, ?_, ?_, ?_⟩
      · rw [h2, if_neg hlast, if_pos hprev.symm]
      · rw [h3, if_neg htc, if_pos rfl, hprev]
      · rw [h2, if_pos rfl]
      · rw [h3, if_pos rfl]

/-- C25 at the queue of the threads 10, 20 and the new thread 30. -/
theorem thread_add_runqueue_appends_witness :
    is_ring ex_third_created [10, 20] ∧
    (30 : Nat) ≠ NULL ∧ (30 : Nat) ∉ [10, 20] ∧
    is_ring ex_three ([10, 20] ++ [30]) ∧
    follow_next ex_three 3 ex_three.current_thread = [10, 20, 30] ∧
    ex_three.current_thread = ex_third_created.current_thread ∧
    (ex_third_created.mem ex_third_created.current_thread).previous = 20 ∧
    ((ex_three.mem 30).previous, (ex_three.mem 30).next) = (20, 10) :=
  have h := thread_add_runqueue_appends ex_third_created [10, 20] 30
    (by decide) (by decide) (by decide)
  ⟨by decide, by decide, by decide, h.1, h.2.2.1, (h.2.2.2.2 (by decide)).1, by decide,
    by decide⟩

/-! ## `schedule` advances to the next thread that is not suspended -/

/-- Along a path from `a`, `schedule` called with current thread `a` stops at
the first thread after `a` that is not suspended, and changes nothing but
`current_thread`. -/
theorem schedule_path (s : state) (a : Nat) (l : List Nat) (z x : Nat) (fuel : Nat)
    (h : ring_path s a l z)
    (hf : (l ++ [z]).find? (not_suspended s) = some x)
    (hfuel : l.length + 1 ≤ fuel) :
    schedule fuel { s with current_thread := a } = some { s with current_thread := x } := by
  induction l generalizing a fuel with
  | nil =>
    cases fuel with
    | zero => simp at hfuel
    | succ n =>
      simp only [ring_path] at h
      simp only [List.nil_append, List.find?_cons, List.find?_nil] at hf
      simp only [schedule, h.1]
      cases hz : not_suspended s z with
      | false => simp [hz] at hf
      | true =>
        simp only [hz, Option.some.injEq] at hf
        simp only [not_suspended, decide_eq_true_eq] at hz
        rw [if_neg hz, hf]
  | cons b l ih =>
    cases fuel with
    | zero => simp at hfuel
    | succ n =>
      simp only [ring_path] at h
      simp only [List.cons_append, List.find?_cons] at hf
      simp only [schedule, h.1]
      cases hb : not_suspended s b with
      | false =>
        simp only [hb] at hf
        simp only [not_suspended, decide_eq_false_iff_not, not_not] at hb
        rw [if_pos hb]
        exact ih b n h.2.2 hf (by simpa using hfuel)
      | true =>
        simp only [hb, Option.some.injEq] at hf
        simp only [not_suspended, decide_eq_true_eq] at hb
        rw [if_neg hb, hf]

/-- C26: in a ring `c :: l` (current thread `c`) with a thread that is not
suspended, `schedule` returns (with fuel for one turn around the ring), and
the state it leaves is the state before with `current_thread` set to the first
thread that is not suspended among `l` followed by `c`, that is, in the order
of `next` after `c`, `c` itself last; no link and no flag is changed, and the
new current thread is not suspended. -/
theorem schedule_advances (s : state) (c : Nat) (l : List Nat) (fuel : Nat)
    (h : is_ring s (c :: l))
    (hns : ∃ m ∈ c :: l, (s.mem m).suspended ≠ SUSPENDED)
    (hfuel : (c :: l).length ≤ fuel) :
    ∃ x, (l ++ [c]).find? (not_suspended s) = some x ∧
      schedule fuel s = some { s with current_thread := x } ∧
      (s.mem x).suspended ≠ SUSPENDED ∧ x ∈ c :: l := by
  have hsome : ((l ++ [c]).find? (not_suspended s)).isSome = true := by
    rw [List.find?_isSome]
    obtain ⟨m, hm, hsus⟩ := hns
    refine ⟨m, ?_, by simpa [not_suspended] using hsus⟩
    simp only [List.mem_append, List.mem_singleton, List.mem_cons] at hm ⊢
    tauto
  obtain ⟨x, hx⟩ := Option.isSome_iff_exists.mp hsome
  have hcur : s.current_thread = c := h.1
  have hrun := schedule_path s c l c x fuel h.2.2.2 hx (by simpa using hfuel)
  have hs : ({ s with current_thread := c } : state) = s := by
    rw [← hcur]
  rw [hs] at hrun
  refine ⟨x, hx, hrun, ?_, ?_⟩
  · have := List.find?_some hx
    simpa [not_suspended] using this
  · have := List.mem_of_find?_eq_some hx
    simp only [List.mem_append, List.mem_singleton, List.mem_cons] at this ⊢
    tauto

/-- C26 at the ring 10, 20, 30 with 20 suspended: `schedule` moves from 10
past 20 to 30. -/
theorem schedule_advances_witness :
    is_ring ex_ring (10 :: [20, 30]) ∧
    (∃ m ∈ 10 :: [20, 30], (ex_ring.mem m).suspended ≠ SUSPENDED) ∧
    (ex_ring.mem 20).suspended = SUSPENDED ∧
    (schedule 3 ex_ring).map (fun x => x.current_thread) = some 30 ∧
    ∃ x, ([20, 30] ++ [10]).find? (not_suspended ex_ring) = some x ∧
      schedule 3 ex_ring = some { ex_ring with current_thread := x } ∧
      (ex_ring.mem x).suspended ≠ SUSPENDED ∧ x ∈ 10 :: [20, 30] :=
  ⟨by decide, by decide, by decide, by decide,
    schedule_advances ex_ring 10 [20, 30] 3 (by decide) (by decide) (by decide)⟩

/-! ## `thread_exit` takes the current thread out of the ring -/

/-- Following `next` or `previous` from a thread of a ring stays in the
ring. -/
theorem follow_in_ring (s : state) (l : List Nat) (h : is_ring s l) (n : Nat) (p : Nat)
    (hp : p ∈ l) :
    (∀ x ∈ follow_next s n p, x ∈ l) ∧ ∀ x ∈ follow_previous s n p, x ∈ l := by
  induction n generalizing p with
  | zero => simp [follow_next, follow_previous]
  | succ n ih =>
    obtain ⟨_, _, h3, h4⟩ := is_ring_links s l h p hp
    refine ⟨?_, ?_⟩
    · intro x hx
      simp only [follow_next, List.mem_cons] at hx
      rcases hx with rfl | hx
      · exact hp
      · exact (ih _ h4).1 x hx
    · intro x hx
      simp only [follow_previous, List.mem_cons] at hx
      rcases hx with rfl | hx
      · exact hp
      · exact (ih _ h3).2 x hx

/-- The first path of `thread_exit` stores to links only. -/
theorem thread_exit_unlink_flags (s : state) (x : Nat) :
    ((thread_exit_unlink s).mem x).suspended = (s.mem x).suspended ∧
    ((thread_exit_unlink s).mem x).pending_signal = (s.mem x).pending_signal := by
  simp only [thread_exit_unlink, free_mem, store_mem]
  refine ⟨?_, ?_⟩ <;> split_ifs <;> rfl

/-! ## A notification without a handler ends the thread -/

/-- The value of a store at the address stored to. -/
theorem store_mem_self (s : state) (p : Nat) (f : thread → thread) :
    (store s p f).mem p = f (s.mem p) := by
  simp only [store_mem, if_true]

/-- The `sig_handler` field after a store. -/
theorem store_sig_handler (s : state) (p : Nat) (f : thread → thread) (a : Nat) :
    ((store s p f).mem a).sig_handler =
      if a = p then (f (s.mem a)).sig_handler else (s.mem a).sig_handler := by
  simp only [store_mem]
  split_ifs <;> rfl

/-- The handler slots `thread_create` gives the thread it returns. -/
theorem thread_create_sig_handler (f arg t stack handler_new_stack : Nat) (s : state) :
    ((thread_create f arg t stack handler_new_stack s).2.mem t).sig_handler =
      if s.current_thread ≠ NULL then (s.mem s.current_thread).sig_handler
      else (NULL_FUNC, NULL_FUNC) := by
  unfold thread_create
  lift_lets
  intro s1 s2 s3 s4 s5 s6 s7 s8 s9 s10 s11 s12 s13 s14 p s15 s16 s17 s18 s19 s20
  have hpre : ∀ x, (s17.mem x).sig_handler = (s.mem x).sig_handler := by
    intro x
    simp only [s17, s16, s15, s14, s13, s12, s11, s10, s9, s8, s7, s6, s5, s4, s3, s2, s1,
      store_sig_handler, malloc_mem, ite_self]
  have hcur : s17.current_thread = s.current_thread := by
    simp only [s17, s16, s15, s14, s13, s12, s11, s10, s9, s8, s7, s6, s5, s4, s3, s2, s1,
      store_current_thread, malloc_current_thread]
  show (s20.mem t).sig_handler = _
  by_cases h0 : s.current_thread ≠ NULL
  · have h20 : s20 = store s18 t (fun x =>
        { x with sig_handler := (x.sig_handler.1,
            (s18.mem s18.current_thread).sig_handler.2) }) :=
      if_pos (hcur.symm ▸ h0)
    have h18 : ∀ x, (s18.mem x).sig_handler =
        if x = t then ((s.mem s.current_thread).sig_handler.1, (s.mem x).sig_handler.2)
        else (s.mem x).sig_handler := by
      intro x
      simp only [s18, store_sig_handler, hpre, hcur]
    have h18c : s18.current_thread = s.current_thread := by
      simp only [s18, store_current_thread, hcur]
    rw [if_pos h0, h20, store_mem_self]
    simp only [h18, h18c, if_true]
    by_cases hc : s.current_thread = t
    · simp only [hc, if_true]
    · simp only [if_neg hc]
  · have h20 : s20 = store s19 t (fun x =>
        { x with sig_handler := (x.sig_handler.1, NULL_FUNC) }) :=
      if_neg (hcur.symm ▸ h0)
    rw [if_neg h0, h20, store_mem_self]
    simp only [s19, store_mem_self]

/-- C32: the thread `thread_create` returns is not suspended
(`suspended = NOT_SUSPENDED`), has `pending_signal = NO_SIGNAL`, `sent = 0`,
`buf_set = 0` and `handler_buf_set = 0`; its two handler slots are those the
current thread has at the call when there is a current thread, and both
`NULL_FUNC` when there is none. -/
theorem thread_create_initial_state (f arg t stack handler_new_stack : Nat) (s : state) :
    (thread_create f arg t stack handler_new_stack s).1 = t ∧
    ((thread_create f arg t stack handler_new_stack s).2.mem t).suspended = NOT_SUSPENDED ∧
    ((thread_create f arg t stack handler_new_stack s).2.mem t).pending_signal = NO_SIGNAL ∧
    ((thread_create f arg t stack handler_new_stack s).2.mem t).sent = 0 ∧
    ((thread_create f arg t stack handler_new_stack s).2.mem t).buf_set = 0 ∧
    ((thread_create f arg t stack handler_new_stack s).2.mem t).handler_buf_set = 0 ∧
    (s.current_thread ≠ NULL →
      ((thread_create f arg t stack handler_new_stack s).2.mem t).sig_handler =
        (s.mem s.current_thread).sig_handler) ∧
    (s.current_thread = NULL →
      ((thread_create f arg t stack handler_new_stack s).2.mem t).sig_handler =
        (NULL_FUNC, NULL_FUNC)) := by
  refine ⟨rfl, ?_, ?_, ?_, ?_, ?_, ?_, ?_⟩
  · simp only [thread_create]
    split_ifs <;> simp
  · simp only [thread_create]
    split_ifs <;> simp
  · simp only [thread_create]
    split_ifs <;> simp
  · simp only [thread_create]
    split_ifs <;> simp
  · simp only [thread_create]
    split_ifs <;> simp
  · intro h0
    rw [thread_create_sig_handler, if_pos h0]
  · intro h0
    rw [thread_create_sig_handler, if_neg (by rw [h0]; exact fun h => h rfl)]

/-- C32 at a thread created while thread 10, which has registered the handler
777 for tag 0, is current, and at a thread created with no current thread. -/
theorem thread_create_initial_state_witness :
    ex_registered.current_thread ≠ NULL ∧
    (ex_registered.mem ex_registered.current_thread).sig_handler = (777, NULL_FUNC) ∧
    ((thread_create 1 0 20 300 400 ex_registered).2.mem 20).sig_handler =
      (ex_registered.mem ex_registered.current_thread).sig_handler ∧
    initial_state.current_thread = NULL ∧
    ((thread_create 1 0 10 100 200 initial_state).2.mem 10).sig_handler =
      (NULL_FUNC, NULL_FUNC) ∧
    ((thread_create 1 0 10 100 200 initial_state).2.mem 10).suspended = NOT_SUSPENDED :=
  ⟨by decide, by decide,
    (thread_create_initial_state 1 0 20 300 400 ex_registered).2.2.2.2.2.2.1 (by decide),
    rfl,
    (thread_create_initial_state 1 0 10 100 200 initial_state).2.2.2.2.2.2.2 rfl,
    (thread_create_initial_state 1 0 10 100 200 initial_state).2.1⟩

/-! ## Handler slots: `thread_register_handler` and `thread_add_runqueue` -/

/-- The handler slots `thread_add_runqueue` gives the thread it queues. -/
theorem thread_add_runqueue_sig_handler (t : Nat) (s : state) :
    ((thread_add_runqueue t s).mem t).sig_handler =
      if s.current_thread = NULL then (NULL_FUNC, NULL_FUNC)
      else (s.mem s.current_thread).sig_handler := by
  by_cases h0 : s.current_thread = NULL
  · simp only [thread_add_runqueue, if_pos h0, store_mem_self]
  · simp only [thread_add_runqueue, if_neg h0, store_mem_self, store_current_thread,
      store_sig_handler]
    by_cases hc : s.current_thread = t
    · simp only [hc, if_true, ite_self]
    · simp only [if_neg hc, ite_self]

/-- C33 fails at the admission of the created thread: thread 20 is created
while thread 10 is current and inherits the slots `(NULL_FUNC, NULL_FUNC)`;
thread 10 then registers the handler 777 for tag 0, which leaves the slots of
thread 20 as they were; the later `thread_add_runqueue(20)` sets them to
`(777, NULL_FUNC)`. -/
theorem handler_override_at_admission_counterexample :
    ex_one_thread.current_thread = 10 ∧
    (ex_second_created.mem 20).sig_handler = (NULL_FUNC, NULL_FUNC) ∧
    (thread_register_handler 0 777 ex_second_created).map
      (fun s => (s.mem 20).sig_handler) = some (NULL_FUNC, NULL_FUNC) ∧
    (thread_register_handler 0 777 ex_second_created).map
      (fun s => ((thread_add_runqueue 20 s).mem 20).sig_handler) = some (777, NULL_FUNC) ∧
    ¬ (∀ (f arg t stack handler_new_stack : Nat) (s s1 : state) (signo : Int) (h : Nat),
        s.current_thread ≠ NULL →
        thread_register_handler signo h
          (thread_create f arg t stack handler_new_stack s).2 = some s1 →
        ((thread_add_runqueue t s1).mem t).sig_handler =
          ((thread_create f arg t stack handler_new_stack s).2.mem t).sig_handler) := by
  refine ⟨by decide, by decide, by decide, by decide, ?_⟩
  intro h
  have := h 1 0 20 300 400 ex_one_thread ex_overridden 0 777 (by decide) rfl
  revert this
  decide

/-- C33 (amended): for a tag `signo` of 0 or 1, `thread_register_handler(signo,
h)` returns and changes only slot `signo` of the current thread: every other
thread, so also a thread the current thread created before, keeps all its
fields, and the current thread keeps its other slot and its other fields.
A later `thread_add_runqueue(t)` sets both slots of `t` to the slots the
current thread has at that call, the registered handler among them, and to
`NULL_FUNC` when there is no current thread. -/
theorem thread_register_handler_frame (signo : Int) (h t : Nat) (s : state)
    (hsig : signo = 0 ∨ signo = 1) :
    ∃ s1, thread_register_handler signo h s = some s1 ∧
      s1.current_thread = s.current_thread ∧ s1.id = s.id ∧ s1.live = s.live ∧
      (∀ u, u ≠ s.current_thread → s1.mem u = s.mem u) ∧
      sig_handler_get (s1.mem s.current_thread) signo = some h ∧
      (∀ k, k ≠ signo → sig_handler_get (s1.mem s.current_thread) k =
        sig_handler_get (s.mem s.current_thread) k) ∧
      s1.mem s.current_thread =
        { s.mem s.current_thread with
          sig_handler := (s1.mem s.current_thread).sig_handler } ∧
      (s.current_thread ≠ NULL →
        ((thread_add_runqueue t s1).mem t).sig_handler =
          (s1.mem s.current_thread).sig_handler) ∧
      (s.current_thread = NULL →
        ((thread_add_runqueue t s1).mem t).sig_handler = (NULL_FUNC, NULL_FUNC)) := by
  rcases hsig with hs | hs
  · subst hs
    refine ⟨store s s.current_thread (fun _ =>
      { s.mem s.current_thread with
        sig_handler := (h, (s.mem s.current_thread).sig_handler.2) }), rfl, rfl, rfl, rfl,
      ?_, ?_, ?_, ?_, ?_, ?_⟩
    · intro u hu
      simp only [store_mem, if_neg hu]
    · simp only [store_mem_self, sig_handler_get, if_true]
    · intro k hk
      simp only [store_mem_self, sig_handler_get, if_neg hk]
    · simp only [store_mem_self]
    · intro h0
      rw [thread_add_runqueue_sig_handler, store_current_thread, if_neg h0]
    · intro h0
      rw [thread_add_runqueue_sig_handler, store_current_thread, if_pos h0]
  · subst hs
    refine ⟨store s s.current_thread (fun _ =>
      { s.mem s.current_thread with
        sig_handler := ((s.mem s.current_thread).sig_handler.1, h) }), rfl, rfl, rfl, rfl,
      ?_, ?_, ?_, ?_, ?_, ?_⟩
    · intro u hu
      simp only [store_mem, if_neg hu]
    · simp only [store_mem_self, sig_handler_get]
      rfl
    · intro k hk
      simp only [store_mem_self, sig_handler_get, if_neg hk]
    · simp only [store_mem_self]
    · intro h0
      rw [thread_add_runqueue_sig_handler, store_current_thread, if_neg h0]
    · intro h0
      rw [thread_add_runqueue_sig_handler, store_current_thread, if_pos h0]

/-- C33 (amended) at the thread of `ex_one_thread`, which has created thread
20 and registers the handler 777 for tag 0: thread 20 keeps its slots at the
registration and has the slots `(777, NULL_FUNC)` of thread 10 after its
admission. -/
theorem thread_register_handler_frame_witness :
    ((0 : Int) = 0 ∨ (0 : Int) = 1) ∧
    ex_second_created.current_thread = 10 ∧
    ∃ s1, thread_register_handler 0 777 ex_second_created = some s1 ∧
      s1.mem 20 = ex_second_created.mem 20 ∧
      (s1.mem 10).sig_handler = (777, NULL_FUNC) ∧
      ((thread_add_runqueue 20 s1).mem 20).sig_handler = (777, NULL_FUNC) := by
  obtain ⟨s1, h1, _, _, _, h5, _, _, _, h9, _⟩ :=
    thread_register_handler_frame 0 777 20 ex_second_created (Or.inl rfl)
  have hs : s1 = ex_overridden := by
    have h2 : thread_register_handler 0 777 ex_second_created = some ex_overridden := rfl
    rw [h2] at h1
    exact (Option.some.inj h1).symm
  subst hs
  exact ⟨Or.inl rfl, by decide, ex_overridden, h1, h5 20 (by decide), by decide,
    (h9 (by decide)).trans (by decide)⟩

/-! ## `thread_resume` -/

/-- C34 fails: the thread of `ex_one_thread` is not suspended, and
`thread_resume` called on it returns, with the thread not suspended and the
current thread as before; no state makes `thread_resume` end without a
result. -/
theorem thread_resume_not_suspended_counterexample :
    (ex_one_thread.mem 10).suspended = NOT_SUSPENDED ∧
    (exec_call 0 (call.thread_resume 10) ex_one_thread).isSome = true ∧
    (exec_call 0 (call.thread_resume 10) ex_one_thread).map
      (fun s => (s.mem 10).suspended) = some NOT_SUSPENDED ∧
    (exec_call 0 (call.thread_resume 10) ex_one_thread).map
      (fun s => s.current_thread) = some 10 ∧
    ex_one_thread.current_thread = 10 ∧
    ¬ (∀ (fuel : Nat) (s : state) (t : Nat), (s.mem t).suspended = NOT_SUSPENDED →
        exec_call fuel (call.thread_resume t) s = none) := by
  refine ⟨by decide, by decide, by decide, by decide, by decide, ?_⟩
  intro h
  have := h 0 ex_one_thread 10 (by decide)
  simp only [exec_call] at this
  exact Option.noConfusion this

/-- C34 (amended): `thread_resume(t)` returns for every thread `t`, suspended
or not: it leaves `t` with `suspended = NOT_SUSPENDED` and changes neither
`current_thread`, nor another field of `t`, nor another thread; called on a
thread that is not suspended it leaves the state as it was. -/
theorem thread_resume_returns (fuel : Nat) (t : Nat) (s : state) :
    exec_call fuel (call.thread_resume t) s = some (thread_resume t s) ∧
    (thread_resume t s).current_thread = s.current_thread ∧
    (thread_resume t s).id = s.id ∧
    (thread_resume t s).live = s.live ∧
    (thread_resume t s).mem t = { s.mem t with suspended := NOT_SUSPENDED } ∧
    (∀ u, u ≠ t → (thread_resume t s).mem u = s.mem u) ∧
    ((s.mem t).suspended = SUSPENDED →
      ((thread_resume t s).mem t).suspended = NOT_SUSPENDED) ∧
    ((s.mem t).suspended = NOT_SUSPENDED → thread_resume t s = s) := by
  refine ⟨rfl, rfl, rfl, rfl, ?_, ?_, ?_, ?_⟩
  · simp only [thread_resume, store_mem_self]
  · intro u hu
    simp only [thread_resume, store_mem, if_neg hu]
  · intro _
    simp only [thread_resume, store_mem_self]
  · intro h
    have hm : (thread_resume t s).mem = s.mem := by
      funext a
      simp only [thread_resume, store_mem]
      by_cases ha : a = t
      · subst ha
        rw [if_pos rfl]
        cases hx : s.mem a
        rw [hx] at h
        simp only at h
        simp only [h]
      · rw [if_neg ha]
    cases s
    simp only [thread_resume, store] at hm ⊢
    simp only [hm]

/-- C34 (amended) at the suspended thread 20 of `ex_ring` and at its current
thread 10, which is not suspended. -/
theorem thread_resume_returns_witness :
    (ex_ring.mem 20).suspended = SUSPENDED ∧
    ((thread_resume 20 ex_ring).mem 20).suspended = NOT_SUSPENDED ∧
    (thread_resume 20 ex_ring).current_thread = 10 ∧
    (ex_ring.mem 10).suspended = NOT_SUSPENDED ∧
    thread_resume 10 ex_ring = ex_ring :=
  ⟨by decide,
    (thread_resume_returns 0 20 ex_ring).2.2.2.2.2.2.1 (by decide),
    (thread_resume_returns 0 20 ex_ring).2.1.trans (by decide),
    by decide,
    (thread_resume_returns 0 10 ex_ring).2.2.2.2.2.2.2 (by decide)⟩

/-! ## The `sent` flag is set once -/

/-- The `sent` field after a store. -/
theorem store_sent (s : state) (p : Nat) (f : thread → thread) (a : Nat) :
    ((store s p f).mem a).sent =
      if a = p then (f (s.mem a)).sent else (s.mem a).sent := by
  simp only [store_mem]
  split_ifs <;> rfl

/-- The first path of `thread_exit` stores to links only: `sent` and the
handler slots are kept. -/
theorem thread_exit_unlink_sent (s : state) (x : Nat) :
    ((thread_exit_unlink s).mem x).sent = (s.mem x).sent ∧
    ((thread_exit_unlink s).mem x).sig_handler = (s.mem x).sig_handler := by
  simp only [thread_exit_unlink, free_mem, store_mem]
  refine ⟨?_, ?_⟩ <;> split_ifs <;> rfl

/-- The state `dispatch` leaves has the `sent` flags it was called with. -/
theorem dispatch_sent (fuel : Nat) (s s1 : state) (j : jump)
    (h : dispatch fuel s = some (s1, j)) (u : Nat) : (s1.mem u).sent = (s.mem u).sent :=
  dispatch_inv (fun y => (y.mem u).sent = (s.mem u).sent)
    (fun y => (y.mem u).sent = (s.mem u).sent) (fun _ hy _ => hy)
    (fun _ hy => hy) (fun _ hy => hy)
    (fun y hy => by simp only [store_sent, ite_self]; exact hy)
    (fun y hy _ => (thread_exit_unlink_sent y u).1.trans hy) (fun _ hy _ => hy)
    fuel s s1 j h rfl

/-- The state `schedule` leaves has the `sent` flags it was called with. -/
theorem schedule_sent (fuel : Nat) (s s1 : state) (h : schedule fuel s = some s1) (u : Nat) :
    (s1.mem u).sent = (s.mem u).sent :=
  schedule_inv (fun y => (y.mem u).sent = (s.mem u).sent) (fun _ hy => hy) fuel s s1 h rfl

/-- The state `thread_yield` leaves has the `sent` flags it was called
with. -/
theorem thread_yield_sent (fuel : Nat) (s s1 : state) (j : jump)
    (h : thread_yield fuel s = some (s1, j)) (u : Nat) :
    (s1.mem u).sent = (s.mem u).sent := by
  simp only [thread_yield] at h
  split at h
  · simp at h
  · rename_i s2 hs
    rw [dispatch_sent _ _ _ _ h, schedule_sent _ _ _ hs]
    split_ifs <;> simp only [store_sent, ite_self]

/-- A call of `thread_create` stores to the block it allocates only. -/
theorem thread_create_other (f arg t stack handler_new_stack : Nat) (s : state) (u : Nat)
    (hu : u ≠ t) : (thread_create f arg t stack handler_new_stack s).2.mem u = s.mem u := by
  simp only [thread_create]
  split_ifs <;> simp only [store_mem, malloc_mem, if_neg hu]

/-- A `sent` flag that is not 0 stays so over every call of the interface but
a `thread_create` that allocates the block of the thread anew. -/
theorem exec_call_sent (fuel : Nat) (c : call) (s s1 : state) (t : Nat)
    (h : exec_call fuel c s = some s1) (hc : creates_at t c = false)
    (hs : (s.mem t).sent ≠ 0) : (s1.mem t).sent ≠ 0 := by
  cases c with
  | thread_create f arg t1 stack handler_new_stack =>
    simp only [exec_call, Option.some.injEq] at h
    simp only [creates_at, decide_eq_false_iff_not] at hc
    rw [← h, thread_create_other _ _ _ _ _ _ _ (fun e => hc e.symm)]
    exact hs
  | thread_add_runqueue t1 =>
    simp only [exec_call, Option.some.injEq] at h
    rw [← h]
    simp only [thread_add_runqueue]
    split_ifs <;> simp only [store_sent, ite_self] <;> exact hs
  | thread_yield =>
    simp only [exec_call, Option.map_eq_some', Prod.exists, exists_and_right,
      exists_eq_right] at h
    obtain ⟨j, h⟩ := h
    rw [thread_yield_sent _ _ _ _ h]
    exact hs
  | thread_yield_resumed j =>
    simp only [exec_call, Option.some.injEq] at h
    rw [← h]
    cases j <;> simp only [thread_yield_resumed, store_sent, ite_self] <;> exact hs
  | schedule =>
    simp only [exec_call] at h
    rw [schedule_sent _ _ _ h]
    exact hs
  | dispatch =>
    simp only [exec_call, Option.map_eq_some', Prod.exists, exists_and_right,
      exists_eq_right] at h
    obtain ⟨j, h⟩ := h
    rw [dispatch_sent _ _ _ _ h]
    exact hs
  | thread_exit =>
    simp only [exec_call, Option.map_eq_some', Prod.exists, exists_and_right,
      exists_eq_right] at h
    obtain ⟨j, h⟩ := h
    simp only [thread_exit] at h
    split_ifs at h
    · rw [dispatch_sent _ _ _ _ h, (thread_exit_unlink_sent s t).1]
      exact hs
    · simp only [Option.some.injEq, Prod.mk.injEq] at h
      rw [← h.1]
      exact hs
  | thread_start_threading =>
    simp only [exec_call, Option.map_eq_some', Prod.exists, exists_and_right,
      exists_eq_right] at h
    obtain ⟨j, h⟩ := h
    simp only [thread_start_threading] at h
    split_ifs at h
    · simp only [Option.some.injEq, Prod.mk.injEq] at h
      rw [← h.1]
      exact hs
    · split at h
      · simp at h
      · rename_i s2 j2 hd
        simp only [Option.some.injEq, Prod.mk.injEq] at h
        rw [← h.1, dispatch_sent _ _ _ _ hd]
        exact hs
  | signal_trampoline =>
    simp only [exec_call, Option.map_eq_some', Prod.exists, exists_and_right,
      exists_eq_right] at h
    obtain ⟨j, h⟩ := h
    simp only [signal_trampoline] at h
    split at h
    · simp at h
    · split_ifs at h <;>
      · simp only [Option.some.injEq, Prod.mk.injEq] at h
        rw [← h.1]
        simp only [store_sent, ite_self]
        exact hs
  | thread_register_handler signo handler =>
    simp only [exec_call, thread_register_handler] at h
    split at h
    · simp at h
    · rename_i x hx
      simp only [Option.some.injEq] at h
      have hx1 : x.sent = (s.mem s.current_thread).sent := by
        simp only [sig_handler_set] at hx
        split_ifs at hx <;>
        · simp only [Option.some.injEq] at hx
          rw [← hx]
      rw [← h, store_sent]
      split_ifs with e
      · show x.sent ≠ 0
        rw [hx1, ← e]
        exact hs
      · exact hs
  | thread_kill t1 signo =>
    simp only [exec_call, Option.some.injEq] at h
    rw [← h]
    simp only [thread_kill]
    split_ifs with e
    · simp only [store_sent]
      split_ifs
      · exact one_ne_zero
      · exact hs
    · exact hs
  | thread_suspend t1 =>
    simp only [exec_call, Option.map_eq_some', Prod.exists, exists_and_right,
      exists_eq_right] at h
    obtain ⟨j, h⟩ := h
    simp only [thread_suspend] at h
    split_ifs at h
    · split at h
      · simp at h
      · rename_i s2 j2 hy
        simp only [Option.some.injEq, Prod.mk.injEq] at h
        rw [← h.1, thread_yield_sent _ _ _ _ hy]
        simp only [store_sent, ite_self]
        exact hs
    · simp only [Option.some.injEq, Prod.mk.injEq] at h
      rw [← h.1]
      simp only [store_sent, ite_self]
      exact hs
  | thread_resume t1 =>
    simp only [exec_call, Option.some.injEq] at h
    rw [← h]
    simp only [thread_resume, store_sent, ite_self]
    exact hs

/-- A `sent` flag that is not 0 stays so over every sequence of calls without a
`thread_create` that allocates the block of the thread anew. -/
theorem exec_sent (fuel : Nat) (calls : List call) (s s1 : state) (t : Nat)
    (h : exec fuel calls s = some s1) (hc : ∀ c ∈ calls, creates_at t c = false)
    (hs : (s.mem t).sent ≠ 0) : (s1.mem t).sent ≠ 0 := by
  induction calls generalizing s with
  | nil =>
    simp only [exec, Option.some.injEq] at h
    rw [← h]
    exact hs
  | cons c rest ih =>
    simp only [exec] at h
    split at h
    · simp at h
    · rename_i s2 hc2
      exact ih s2 h (fun c1 hc1 => hc c1 (List.mem_cons_of_mem _ hc1))
        (exec_call_sent fuel c s s2 t hc2 (hc c (List.mem_cons_self _ _)) hs)
/-- The state after an accepted send. -/
theorem thread_kill_accepted (s : state) (t : Nat) (a : Int) (h0 : (s.mem t).sent = 0) :
    (thread_kill t a s).mem t = { s.mem t with pending_signal := a, sent := 1 } ∧
    (∀ u, u ≠ t → (thread_kill t a s).mem u = s.mem u) ∧
    (thread_kill t a s).current_thread = s.current_thread ∧
    (thread_kill t a s).id = s.id ∧
    (thread_kill t a s).live = s.live := by
  simp only [thread_kill, if_pos h0]
  refine ⟨?_, ?_, rfl, rfl, rfl⟩
  · simp only [store_mem_self]
  · intro u hu
    simp only [store_mem, if_neg hu]

/-- A send to a thread whose `sent` flag is not 0 changes nothing, and after
a send the flag is not 0. -/
theorem thread_kill_dropped (s : state) (t : Nat) (a : Int) :
    ((s.mem t).sent ≠ 0 → thread_kill t a s = s) ∧
    ((thread_kill t a s).mem t).sent ≠ 0 := by
  refine ⟨?_, ?_⟩
  · intro h
    simp only [thread_kill, if_neg h]
  · by_cases h : (s.mem t).sent = 0
    · rw [(thread_kill_accepted s t a h).1]
      exact one_ne_zero
    · simp only [thread_kill, if_neg h]
      exact h

/-- C30 (amended): `thread_kill(t, signo)` records the send exactly when the
`sent` flag of `t` is 0, the value `thread_create` gives it: then it leaves
`pending_signal = signo` and `sent = 1`; with `sent` not 0 it changes nothing.
When `signal_trampoline` ends, the handler has returned and the current thread
has `pending_signal = NO_SIGNAL`, and every thread has the `sent` flag the
handler left.  After `thread_kill(t, signo)` and any sequence of calls of the
interface (`dispatch` and `signal_trampoline` among them) without a
`thread_create` that allocates the block of `t` anew, the `sent` flag of `t`
is not 0 and every further `thread_kill(t, signo1)` changes nothing. -/
theorem thread_kill_accepts_when_not_sent (s : state) (t : Nat) (signo : Int) :
    ((s.mem t).sent = 0 →
      ((thread_kill t signo s).mem t).pending_signal = signo ∧
      ((thread_kill t signo s).mem t).sent = 1) ∧
    ((s.mem t).sent ≠ 0 → thread_kill t signo s = s) ∧
    (∀ f arg stack handler_new_stack,
      ((thread_create f arg t stack handler_new_stack s).2.mem t).sent = 0) ∧
    (∀ (run_handler : Nat → Int → state → Option state) (s1 : state) (j : jump),
      signal_trampoline run_handler s = some (s1, j) →
      ∃ handler s0,
        sig_handler_get (s.mem s.current_thread) (s.mem s.current_thread).pending_signal =
          some handler ∧
        run_handler handler (s.mem s.current_thread).pending_signal s = some s0 ∧
        (s1.mem s1.current_thread).pending_signal = NO_SIGNAL ∧
        ∀ u, (s1.mem u).sent = (s0.mem u).sent) ∧
    ∀ (fuel : Nat) (calls : List call) (s1 : state),
      (∀ c ∈ calls, creates_at t c = false) →
      exec fuel calls (thread_kill t signo s) = some s1 →
      (s1.mem t).sent ≠ 0 ∧ ∀ signo1, thread_kill t signo1 s1 = s1 := by
  refine ⟨?_, ?_, ?_, ?_, ?_⟩
  · intro h
    simp [thread_kill, h]
  · intro h
    simp [thread_kill, h]
  · intro f arg stack handler_new_stack
    simp only [thread_create]
    split_ifs <;> simp
  · intro run_handler s1 j h
    simp only [signal_trampoline] at h
    cases hg : sig_handler_get (s.mem s.current_thread)
        (s.mem s.current_thread).pending_signal with
    | none => simp [hg] at h
    | some handler =>
      rw [hg] at h
      simp only at h
      cases hr : run_handler handler (s.mem s.current_thread).pending_signal s with
      | none => simp [hr] at h
      | some s0 =>
        rw [hr] at h
        simp only at h
        refine ⟨handler, s0, rfl, hr, ?_⟩
        split_ifs at h <;>
        · simp only [Option.some.injEq, Prod.mk.injEq] at h
          rw [← h.1]
          refine ⟨by simp, ?_⟩
          intro u
          simp only [store_mem]
          split_ifs <;> rfl
  · intro fuel calls s1 hc hrun
    have hs1 := exec_sent fuel calls _ s1 t hrun hc (thread_kill_dropped s t signo).2
    exact ⟨hs1, fun signo1 => (thread_kill_dropped s1 t signo1).1 hs1⟩

/-- C30 (amended) at the thread of `ex_registered` (handler 777 for tag 0), to
which nothing was sent: tag 0 is recorded; `signal_trampoline` runs the
handler and clears `pending_signal`; after `dispatch` and `signal_trampoline`
the flag `sent` is 1, `pending_signal` is `NO_SIGNAL`, and a send of tag 1 is
dropped. -/
theorem thread_kill_accepts_when_not_sent_witness :
    (ex_registered.mem 10).sent = 0 ∧
    ((thread_kill 10 0 ex_registered).mem 10).pending_signal = 0 ∧
    ((thread_kill 10 0 ex_registered).mem 10).sent = 1 ∧
    (∃ s1 j handler s0, signal_trampoline (fun _ _ x => some x) ex_sent = some (s1, j) ∧
      sig_handler_get (ex_sent.mem ex_sent.current_thread)
        (ex_sent.mem ex_sent.current_thread).pending_signal = some handler ∧
      handler = 777 ∧ s0 = ex_sent ∧
      (s1.mem s1.current_thread).pending_signal = NO_SIGNAL ∧
      ∀ u, (s1.mem u).sent = (s0.mem u).sent) ∧
    (∀ c ∈ [call.dispatch, call.signal_trampoline], creates_at 10 c = false) ∧
    exec 2 [call.dispatch, call.signal_trampoline] (thread_kill 10 0 ex_registered) =
      some ex_sent_delivered ∧
    (ex_sent_delivered.mem 10).pending_signal = NO_SIGNAL ∧
    (ex_sent_delivered.mem 10).sent ≠ 0 ∧
    (∀ signo1, thread_kill 10 signo1 ex_sent_delivered = ex_sent_delivered) ∧
    ((thread_kill 10 1 ex_sent_delivered).mem 10).pending_signal = NO_SIGNAL := by
  have hrun : exec 2 [call.dispatch, call.signal_trampoline]
      (thread_kill 10 0 ex_registered) = some ex_sent_delivered := rfl
  have hc : ∀ c ∈ [call.dispatch, call.signal_trampoline], creates_at 10 c = false := by
    decide
  have htr : signal_trampoline (fun _ _ x => some x) ex_sent =
      some (store ex_sent ex_sent.current_thread
        (fun x => { x with pending_signal := NO_SIGNAL }), jump.env_tmp) := rfl
  obtain ⟨handler, s0, hg, hr, hp, hsent⟩ :=
    (thread_kill_accepts_when_not_sent ex_sent 10 1).2.2.2.1 (fun _ _ x => some x) _ _ htr
  have hlast := (thread_kill_accepts_when_not_sent ex_registered 10 0).2.2.2.2 2
    [call.dispatch, call.signal_trampoline] ex_sent_delivered hc hrun
  refine ⟨by decide,
    ((thread_kill_accepts_when_not_sent ex_registered 10 0).1 (by decide)).1,
    ((thread_kill_accepts_when_not_sent ex_registered 10 0).1 (by decide)).2,
    ⟨_, _, handler, s0, htr, hg, ?_, ?_, hp, hsent⟩, hc, hrun, by decide, hlast.1, hlast.2,
    ?_⟩
  · have hg1 : sig_handler_get (ex_sent.mem ex_sent.current_thread)
        (ex_sent.mem ex_sent.current_thread).pending_signal = some 777 := by decide
    rw [hg1] at hg
    exact (Option.some.inj hg).symm
  · simp only [Option.some.injEq] at hr
    exact hr.symm
  · rw [hlast.2 1]
    decide
/-! ## The state `thread_exit` ends in -/

/-- A list that is part, in order, of a ring read from some thread on stays so
when its first thread moves to its end. -/
theorem rotated_sublist_step (l : List Nat) (a : Nat) (l1 : List Nat)
    (h : ∃ r : List Nat, r.IsRotated l ∧ (a :: l1).Sublist r) :
    ∃ r : List Nat, r.IsRotated l ∧ (l1 ++ [a]).Sublist r := by
  obtain ⟨r, hr, hs⟩ := h
  obtain ⟨r1, r2, hr12, ha, hl1⟩ := List.cons_sublist_iff.mp hs
  obtain ⟨p, q, hpq⟩ := List.append_of_mem ha
  subst hpq
  subst hr12
  refine ⟨(q ++ r2) ++ (p ++ [a]), ?_, ?_⟩
  · refine List.IsRotated.trans ?_ hr
    have : (p ++ a :: q) ++ r2 = (p ++ [a]) ++ (q ++ r2) := by simp
    rw [this]
    exact List.isRotated_append
  · exact List.Sublist.append (hl1.trans (List.sublist_append_right q r2))
      (List.sublist_append_right p [a])

/-- The `while` loop of `dispatch` on a ring that starts with suspended
threads `l0` followed by a thread `x` that is not suspended: it ends with `x`
as the current thread and stores nothing. -/
theorem dispatch_skip_ring (l0 : List Nat) (s : state) (x : Nat) (l2 : List Nat) (fuel : Nat)
    (h : is_ring s (l0 ++ x :: l2))
    (hsus : ∀ y ∈ l0, (s.mem y).suspended = SUSPENDED)
    (hx : (s.mem x).suspended ≠ SUSPENDED)
    (hfuel : l0.length ≤ fuel) :
    dispatch_skip fuel s = some { s with current_thread := x } ∧
    is_ring { s with current_thread := x } (x :: l2 ++ l0) := by
  induction l0 generalizing s l2 fuel with
  | nil =>
    have hcur : s.current_thread = x := by
      simp only [List.nil_append, is_ring] at h
      exact h.1
    have hs : ({ s with current_thread := x } : state) = s := by
      cases s
      simp only at hcur
      simp only [hcur]
    rw [hs]
    refine ⟨?_, ?_⟩
    · unfold dispatch_skip
      rw [if_neg (by rw [hcur]; exact hx)]
    · simpa using h
  | cons a l0 ih =>
    have hcur : s.current_thread = a := by
      simp only [List.cons_append, is_ring] at h
      exact h.1
    cases fuel with
    | zero => simp at hfuel
    | succ f =>
      have hstep := is_ring_step s a (l0 ++ x :: l2) h
      have hre : (l0 ++ x :: l2) ++ [a] = l0 ++ x :: (l2 ++ [a]) := by simp
      rw [hre] at hstep
      obtain ⟨h1, h2⟩ := ih { s with current_thread := (s.mem s.current_thread).next }
        (l2 ++ [a]) f hstep (fun y hy => hsus y (List.mem_cons_of_mem _ hy)) hx
        (by simpa using hfuel)
      refine ⟨?_, ?_⟩
      · unfold dispatch_skip
        rw [if_pos (by rw [hcur]; exact hsus a (List.mem_cons_self _ _))]
        exact h1
      · have hre2 : x :: (l2 ++ [a]) ++ l0 = x :: l2 ++ a :: l0 := by simp
        rw [hre2] at h2
        exact h2

/-- The state `dispatch` ends in on a ring that starts with suspended threads
`l0` followed by a thread `x` that is not suspended and has no pending tag
without a handler: `x` is the current thread and the ring is the ring before,
read from `x` on. -/
theorem dispatch_first_runnable (s : state) (l0 : List Nat) (x : Nat) (l2 : List Nat)
    (fuel : Nat) (h : is_ring s (l0 ++ x :: l2))
    (hsus : ∀ y ∈ l0, (s.mem y).suspended = SUSPENDED)
    (hx : (s.mem x).suspended ≠ SUSPENDED)
    (hnot : (s.mem x).pending_signal = NO_SIGNAL ∨
      ∃ hd, sig_handler_get (s.mem x) (s.mem x).pending_signal = some hd ∧ hd ≠ NULL_FUNC)
    (hfuel : l0.length ≤ fuel) :
    ∃ s1 j, dispatch (fuel + 1) s = some (s1, j) ∧ s1.current_thread = x ∧
      is_ring s1 (x :: l2 ++ l0) := by
  have hc0 : s.current_thread ≠ NULL := by
    intro e
    have := (is_ring_nil_iff s _ h).mpr e
    simp at this
  obtain ⟨hskip, hring⟩ := dispatch_skip_ring l0 s x l2 (fuel + 1) h hsus hx (by omega)
  simp only [dispatch, if_neg hc0, hskip]
  by_cases hp : (s.mem x).pending_signal = NO_SIGNAL
  · rw [if_neg (not_not.mpr hp)]
    split_ifs
    · exact ⟨_, _, rfl, rfl, is_ring_store _ _ _ _ (fun _ => ⟨rfl, rfl⟩) hring⟩
    · exact ⟨_, _, rfl, rfl, hring⟩
  · rcases hnot with hn | ⟨hd, hget, hne⟩
    · exact absurd hn hp
    · rw [if_pos hp]
      simp only [hget, if_neg hne]
      split_ifs
      · exact ⟨_, _, rfl, rfl, hring⟩
      · exact ⟨_, _, rfl, rfl, hring⟩
/-- C27 fails when the successor is suspended: in the ring 10, 20, 30 with 20
suspended, `thread_exit` called by 10 ends with `current_thread` 30, and the
old successor of 10 is 20. -/
theorem thread_exit_suspended_successor_counterexample :
    is_ring ex_ring (10 :: [20, 30]) ∧
    (ex_ring.mem 10).next = 20 ∧
    (ex_ring.mem 20).suspended = SUSPENDED ∧
    (thread_exit 2 ex_ring).map (fun r => r.1.current_thread) = some 30 ∧
    ¬ (∀ (s : state) (c : Nat) (l : List Nat) (fuel : Nat) (s1 : state) (j : jump),
        is_ring s (c :: l) → l ≠ [] → thread_exit fuel s = some (s1, j) →
        s1.current_thread = (s.mem c).next) := by
  refine ⟨by decide, by decide, by decide, by decide, ?_⟩
  intro h
  have hrun : thread_exit 2 ex_ring =
      some (store { thread_exit_unlink ex_ring with current_thread := 30 } 30
        (fun x => { x with buf_set := 1 }), jump.env_tmp) := rfl
  have := h ex_ring 10 [20, 30] 2 _ _ (by decide) (by decide) hrun
  revert this
  decide

/-- C27 (amended): for a ring `c :: l` with current thread `c`.  When `l` is
not empty, `thread_exit` unlinks `c` and calls `dispatch` in a state whose
ring is `l` and whose `current_thread` is the old `c.next`.  Whenever
`thread_exit` ends, the ring it leaves does not hold `c`, holds threads of `l`
in their cyclic order (it is part of `l` read from some thread on), and
neither `next` nor `previous` links lead from the current thread to `c`.
When `l` starts with suspended threads `l0` followed by a thread `x` that is
not suspended and has no pending tag without a handler, `thread_exit` ends
with `x` as `current_thread` and with the ring `l` read from `x` on; so it ends
with the old `c.next` as `current_thread`, and the ring `l`, when that thread
is not suspended and has no pending tag without a handler.  When `l` is
empty, `thread_exit` ends with `current_thread = NULL` and jumps to the
driver. -/
theorem thread_exit_queue_effect (s : state) (c : Nat) (l : List Nat)
    (h : is_ring s (c :: l)) :
    (l ≠ [] →
      is_ring (thread_exit_unlink s) l ∧
      (thread_exit_unlink s).current_thread = (s.mem c).next ∧
      c ∉ l ∧
      (∀ fuel, thread_exit fuel s = dispatch fuel (thread_exit_unlink s)) ∧
      (∀ fuel s1 j, thread_exit fuel s = some (s1, j) →
        ∃ l1, is_ring s1 l1 ∧ c ∉ l1 ∧
          (∃ r : List Nat, r.IsRotated l ∧ l1.Sublist r) ∧
          (s1.current_thread ≠ NULL → ∀ n,
            c ∉ follow_next s1 n s1.current_thread ∧
            c ∉ follow_previous s1 n s1.current_thread)) ∧
      (∀ l0 x l2, l = l0 ++ x :: l2 →
        (∀ y ∈ l0, (s.mem y).suspended = SUSPENDED) →
        (s.mem x).suspended ≠ SUSPENDED →
        ((s.mem x).pending_signal = NO_SIGNAL ∨
          ∃ hd, sig_handler_get (s.mem x) (s.mem x).pending_signal = some hd ∧
            hd ≠ NULL_FUNC) →
        ∀ fuel, l0.length + 1 ≤ fuel →
          ∃ s1 j, thread_exit fuel s = some (s1, j) ∧ s1.current_thread = x ∧
            is_ring s1 (x :: l2 ++ l0)) ∧
      ((s.mem (s.mem c).next).suspended ≠ SUSPENDED →
        ((s.mem (s.mem c).next).pending_signal = NO_SIGNAL ∨
          ∃ hd, sig_handler_get (s.mem (s.mem c).next)
              (s.mem (s.mem c).next).pending_signal = some hd ∧ hd ≠ NULL_FUNC) →
        ∀ fuel, ∃ s1 j, thread_exit (fuel + 1) s = some (s1, j) ∧
          s1.current_thread = (s.mem c).next ∧ is_ring s1 l)) ∧
    (l = [] →
      (thread_exit_last s).current_thread = NULL ∧
      ∀ fuel, thread_exit fuel s = some (thread_exit_last s, jump.env_st)) := by
  have hcur : s.current_thread = c := by
    simp only [is_ring] at h
    exact h.1
  have hcl : c ∉ l := by
    simp only [is_ring] at h
    exact (List.nodup_cons.mp h.2.1).1
  refine ⟨?_, ?_⟩
  · intro hl
    have hne : (s.mem s.current_thread).next ≠ s.current_thread :=
      fun e => hl ((is_ring_next s c l h).mp e)
    cases l with
    | nil => exact absurd rfl hl
    | cons b r =>
      obtain ⟨hring, hcur1⟩ := is_ring_unlink s c b r h
      have hexit : ∀ fuel, thread_exit fuel s = dispatch fuel (thread_exit_unlink s) := by
        intro fuel
        simp only [thread_exit, if_pos hne]
      have hgen : ∀ l0 x l2, b :: r = l0 ++ x :: l2 →
          (∀ y ∈ l0, (s.mem y).suspended = SUSPENDED) →
          (s.mem x).suspended ≠ SUSPENDED →
          ((s.mem x).pending_signal = NO_SIGNAL ∨
            ∃ hd, sig_handler_get (s.mem x) (s.mem x).pending_signal = some hd ∧
              hd ≠ NULL_FUNC) →
          ∀ fuel, l0.length + 1 ≤ fuel →
            ∃ s1 j, thread_exit fuel s = some (s1, j) ∧ s1.current_thread = x ∧
              is_ring s1 (x :: l2 ++ l0) := by
        intro l0 x l2 hl0 hsus hx hnot fuel hfuel
        rw [hl0] at hring
        cases fuel with
        | zero => simp at hfuel
        | succ f =>
          rw [hexit]
          refine dispatch_first_runnable (thread_exit_unlink s) l0 x l2 f hring ?_ ?_ ?_
            (by omega)
          · intro y hy
            rw [(thread_exit_unlink_flags s y).1]
            exact hsus y hy
          · rw [(thread_exit_unlink_flags s x).1]
            exact hx
          · rw [(thread_exit_unlink_flags s x).2]
            simp only [sig_handler_get, (thread_exit_unlink_sent s x).2]
            simpa only [sig_handler_get] using hnot
      refine ⟨hring, hcur1, hcl, hexit, ?_, hgen, ?_⟩
      · intro fuel s1 j hs
        obtain ⟨l1, hl1, r1, hrot, hsub⟩ := thread_exit_ring
          (fun l1 => ∃ r1 : List Nat, r1.IsRotated (b :: r) ∧ l1.Sublist r1)
          (fun a l1 hR => rotated_sublist_step (b :: r) a l1 hR)
          (fun a l1 hR => by
            obtain ⟨r1, hr1, hs1⟩ := hR
            exact ⟨r1, hr1, (List.sublist_cons_self a l1).trans hs1⟩)
          fuel s s1 j hs c (b :: r) h ⟨b :: r, List.IsRotated.refl _, List.Sublist.refl _⟩
        have hcl1 : c ∉ l1 := fun hc => hcl (hrot.mem_iff.mp (hsub.subset hc))
        refine ⟨l1, hl1, hcl1, ⟨r1, hrot, hsub⟩, ?_⟩
        intro h0 n
        have hmem : s1.current_thread ∈ l1 := by
          cases l1 with
          | nil => exact absurd hl1 h0
          | cons a r2 =>
            simp only [is_ring] at hl1
            rw [hl1.1]
            exact List.mem_cons_self _ _
        obtain ⟨h1, h2⟩ := follow_in_ring _ _ hl1 n _ hmem
        exact ⟨fun hc => hcl1 (h1 c hc), fun hc => hcl1 (h2 c hc)⟩
      · intro hsus hnot fuel
        have hnext : (s.mem c).next = b := by
          simp only [is_ring, ring_path] at h
          exact h.2.2.2.1
        rw [hnext] at hsus hnot ⊢
        obtain ⟨s1, j, h1, h2, h3⟩ := hgen [] b r rfl (fun y hy => by simp at hy) hsus hnot
          (fuel + 1) (by simp)
        exact ⟨s1, j, h1, h2, by simpa using h3⟩
  · intro hl
    refine ⟨rfl, ?_⟩
    intro fuel
    simp only [thread_exit, if_neg (not_not.mpr ((is_ring_next s c l h).mpr hl))]

/-- C27 (amended) at the ring 10, 20, 30 with 20 suspended: after the exit of
10 the current thread is 30 and the ring is 30, 20; at the ring 10, 20, 30 with
no thread suspended: the current thread is 20 and the ring 20, 30; and at the
ring of the single thread 10. -/
theorem thread_exit_queue_effect_witness :
    is_ring ex_ring (10 :: [20, 30]) ∧
    (ex_ring.mem 20).suspended = SUSPENDED ∧
    (ex_ring.mem 30).suspended ≠ SUSPENDED ∧
    (ex_ring.mem 30).pending_signal = NO_SIGNAL ∧
    (∃ s1 j, thread_exit 2 ex_ring = some (s1, j) ∧ s1.current_thread = 30 ∧
      is_ring s1 (30 :: [] ++ [20])) ∧
    is_ring ex_three (10 :: [20, 30]) ∧
    is_ring (thread_exit_unlink ex_three) [20, 30] ∧
    (∃ s1 j, thread_exit 1 ex_three = some (s1, j) ∧
      s1.current_thread = (ex_three.mem 10).next ∧ is_ring s1 [20, 30]) ∧
    (thread_exit 1 ex_three).map (fun r => (r.1.current_thread, r.2)) =
      some (20, jump.env_tmp) ∧
    is_ring ex_one_thread (10 :: []) ∧
    (thread_exit_last (ex_one_thread)).current_thread = NULL ∧
    (∀ fuel, thread_exit fuel (ex_one_thread) =
      some (thread_exit_last (ex_one_thread), jump.env_st)) :=
  ⟨by decide, by decide, by decide, by decide,
    ((thread_exit_queue_effect ex_ring 10 [20, 30] (by decide)).1 (by decide)).2.2.2.2.2.1
      [20] 30 [] rfl (by decide) (by decide) (Or.inl (by decide)) 2 (by decide),
    by decide,
    ((thread_exit_queue_effect ex_three 10 [20, 30] (by decide)).1 (by decide)).1,
    ((thread_exit_queue_effect ex_three 10 [20, 30] (by decide)).1 (by decide)).2.2.2.2.2.2
      (by decide) (Or.inl (by decide)) 0,
    by decide, by decide,
    ((thread_exit_queue_effect (ex_one_thread) 10 [] (by decide)).2 rfl).1,
    ((thread_exit_queue_effect (ex_one_thread) 10 [] (by decide)).2 rfl).2⟩

end Threads
